import Mathlib

/-!
plyflatten: rasterisation of point clouds into column tiles.

Shallow embedding of `src/c/plyflatten.c`, in two levels.

* The first definitions take `float` and `double` values as exact rationals (`ℚ`) and `int`
  values as integers (`Int`); a `uint64_t` index is reduced modulo `2 ^ 64`; a float division
  whose divisor is zero and an array access outside its allocation make the enclosing function
  return `none`; the not-a-number written by the finalisation loop is `none` in the written
  raster. They carry the properties stated in exact arithmetic: the running mean, the window
  test, the finalisation, the zone code, the record loop and the field reads.
* The definitions of `namespace machine` take the same functions as the program runs them on
  x86-64: IEEE 754 binary32 and binary64 arithmetic rounded operation by operation, the
  conversions to `int` of the machine, 32-bit `int` products, and buffers of their declared
  capacity. They carry the properties that depend on rounding, on overflow or on a buffer.
-/

/-- Conversion of a floating value to `int`: truncation toward zero. -/
def c_trunc (q : ℚ) : Int := if 0 ≤ q then ⌊q⌋ else ⌈q⌉

/-- Floating division; `none` when the divisor is zero (the C result is infinite or not a
number, and has no value in `ℚ`). -/
def fdiv (a b : ℚ) : Option ℚ := if b = 0 then none else some (a / b)

/-- Body of the loop of `subdiv`: `res[i] = (int) (i*coef*e+s+0.5)`. -/
def subdiv_at (s e : Int) (coef : ℚ) (i : Nat) : Int :=
  c_trunc ((i : ℚ) * coef * (e : ℚ) + (s : ℚ) + 1 / 2)

/-- Function `subdiv(s, e, n)`: `coef = 1/(float)(n-1)`, then `n` boundary positions
`res[i] = (int)(i*coef*e + s + 0.5)`. With `n = 1` the coefficient is infinite and the single
position is the conversion of a not-a-number: undefined. -/
def subdiv (s e n : Int) : Option (List Int) := do
  let coef ← fdiv 1 ((n - 1 : Int) : ℚ)
  pure ((List.range n.toNat).map (subdiv_at s e coef))

/-- The C `range` struct: an inclusive column interval. -/
structure range where
  inf : Int
  sup : Int
deriving DecidableEq, Repr

/-- Second loop of `computeRanges`, from index `i` for `k` more ranges; `prev_sup` is
`res[i-1].sup`. Reading `subdiv[i+1]` outside the array is undefined. -/
def computeRanges_loop (subdiv : List Int) : Nat → Nat → Int → Option (List range)
  | 0, _, _ => some []
  | k + 1, i, prev_sup => do
    let s ← subdiv[i + 1]?
    let rest ← computeRanges_loop subdiv k (i + 1) s
    pure ({ inf := prev_sup + 1, sup := s } :: rest)

/-- Function `computeRanges(subdiv, n)`: range 0 is `[subdiv[0], subdiv[1]]`, range `i ≥ 1` is
`[res[i-1].sup + 1, subdiv[i+1]]`. With `n < 1` the write to `res[0]` is out of bounds. -/
def computeRanges (subdiv : List Int) (n : Int) : Option (List range) :=
  if n < 1 then none
  else do
    let s0 ← subdiv[0]?
    let s1 ← subdiv[1]?
    let rest ← computeRanges_loop subdiv (n.toNat - 1) 1 s1
    pure ({ inf := s0, sup := s1 } :: rest)

/-- Size `sup - inf + 1` of a range, as used for `x.w` in `main`. -/
def range.size (r : range) : Int := r.sup - r.inf + 1

/-- Coordinate-to-cell mapping `rescale_float_to_int(x, min, max, w)`:
`int r = w * (x - min)/(max - min)` truncates; then `r < 0` gives 0 and `r >= w` gives `w-1`. -/
def rescale_float_to_int (x min max : ℚ) (w : Int) : Option Int := do
  let q ← fdiv ((w : ℚ) * (x - min)) (max - min)
  let r := c_trunc q
  let r := if r < 0 then 0 else r
  let r := if r ≥ w then w - 1 else r
  pure r

/-- The C `struct images`: per-cell counts and running means, and the grid dimensions. -/
structure images where
  cnt : List ℚ
  avg : List ℚ
  w : Int
  h : Int
deriving DecidableEq, Repr

/-- Index computed by `add_height_to_images`: `(uint64_t) x->w * j + i`. -/
def cell_index (x : images) (i j : Int) : Nat := ((x.w * j + i) % 2 ^ 64).toNat

/-- Function `add_height_to_images(x, i, j, v)`: with `k = (uint64_t) x->w * j + i`,
`avg[k] = (v + cnt[k] * avg[k]) / (1 + cnt[k])`, then `cnt[k] += 1`. -/
def add_height_to_images (x : images) (i j : Int) (v : ℚ) : Option images := do
  let k := cell_index x i j
  let c ← x.cnt[k]?
  let a ← x.avg[k]?
  let a' ← fdiv (v + c * a) (1 + c)
  pure { x with avg := x.avg.set k a', cnt := x.cnt.set k (c + 1) }

/-- Zero-initialised grid of `main`: `x.w * x.h` cells with `cnt = avg = 0`. -/
def zero_images (w h : Int) : images :=
  { cnt := List.replicate (w * h).toNat 0, avg := List.replicate (w * h).toNat 0, w := w, h := h }

/-- Finalisation loop of `main`: `if (!x.cnt[i]) x.avg[i] = NAN` for every cell; the result is
the array handed to the raster writer, with `none` for NaN. -/
def set_unknown_to_nan (x : images) : List (Option ℚ) :=
  List.zipWith (fun c a => if c = 0 then none else some a) x.cnt x.avg

/-- Update of the tile-local minimum: `if (data[0] < *newxmin) *newxmin = data[0]`;
`none` is the initial `INFINITY`. -/
def update_newxmin (newxmin : Option ℚ) (d0 : ℚ) : Option ℚ :=
  match newxmin with
  | none => some d0
  | some m => if d0 < m then some d0 else some m

/-- Conversion `unsigned int rgb = data[col_idx]`: truncation; undefined when the truncated
value is not representable in 32 bits. -/
def to_unsigned (d : ℚ) : Option ℚ :=
  if 0 ≤ c_trunc d ∧ c_trunc d < 2 ^ 32 then some ((c_trunc d : Int) : ℚ) else none

/-- Value accumulated for a record: `data[2]` when `col_idx == 2`, else `data[col_idx]`
converted to `unsigned int`. -/
def selected_value (col_idx : Int) (data : List ℚ) : Option ℚ :=
  if col_idx = 2 then data[2]?
  else do
    let d ← data[col_idx.toNat]?
    to_unsigned d

/-- Body of the record loop of `add_ply_points_to_images` for one decoded record `data`. -/
def add_ply_point (x : images) (xmin xmax ymin ymax : ℚ) (inf sup : Int)
    (newxmin : Option ℚ) (w h : Int) (col_idx : Int) (data : List ℚ) :
    Option (images × Option ℚ) := do
  let d0 ← data[0]?
  let d1 ← data[1]?
  let i ← rescale_float_to_int d0 xmin xmax w
  let j ← rescale_float_to_int (-d1) (-ymax) (-ymin) h
  if inf ≤ i ∧ i ≤ sup then
    let v ← selected_value col_idx data
    let x' ← add_height_to_images x (i - inf) j v
    pure (x', update_newxmin newxmin d0)
  else
    pure (x, newxmin)

/-- Record loop of `add_ply_points_to_images` over the decoded records of one file. -/
def add_ply_records (xmin xmax ymin ymax : ℚ) (inf sup : Int) (w h : Int) (col_idx : Int) :
    images → Option ℚ → List (List ℚ) → Option (images × Option ℚ)
  | x, newxmin, [] => some (x, newxmin)
  | x, newxmin, data :: rest =>
    match add_ply_point x xmin xmax ymin ymax inf sup newxmin w h col_idx data with
    | none => none
    | some (x', newxmin') => add_ply_records xmin xmax ymin ymax inf sup w h col_idx x' newxmin' rest

/-- A ply file as seen by the accumulation: the zone tag of its header and the records for
which `n == get_record(...)` held, in stream order. -/
structure ply_file where
  utm : String
  records : List (List ℚ)

/-- Ways a run stops without completing: `exit(...)`, or undefined behaviour. -/
inductive fault where
  | exit
  | undefined
deriving DecidableEq, Repr

instance {ε α : Type} [DecidableEq ε] [DecidableEq α] : DecidableEq (Except ε α)
  | .ok a, .ok b =>
    if h : a = b then isTrue (by rw [h]) else isFalse (fun e => h (by cases e; rfl))
  | .error a, .error b =>
    if h : a = b then isTrue (by rw [h]) else isFalse (fun e => h (by cases e; rfl))
  | .ok _, .error _ => isFalse (fun e => by cases e)
  | .error _, .ok _ => isFalse (fun e => by cases e)

/-- Function `add_ply_points_to_images` over the decoded records of a file: `f = none` is a file
that cannot be opened (warning, return); the zone comparison only prints a diagnostic; a
`col_idx` outside `2..5` exits. -/
def add_ply_points_to_images (x : images) (xmin xmax ymin ymax : ℚ) (inf sup : Int)
    (newxmin : Option ℚ) (w h : Int) (utm_zone : String) (f : Option ply_file) (col_idx : Int) :
    Except fault (images × Option ℚ) :=
  match f with
  | none => .ok (x, newxmin)
  | some file =>
    let _mismatch := decide (utm_zone ≠ file.utm)
    if col_idx < 2 ∨ col_idx > 5 then .error .exit
    else
      match add_ply_records xmin xmax ymin ymax inf sup w h col_idx x newxmin file.records with
      | none => .error .undefined
      | some r => .ok r

/-- Loop of `main` over the file list for one tile. -/
def add_files (xmin xmax ymin ymax : ℚ) (inf sup : Int) (w h : Int) (utm_zone : String)
    (col_idx : Int) : images → Option ℚ → List (Option ply_file) →
    Except fault (images × Option ℚ)
  | x, newxmin, [] => .ok (x, newxmin)
  | x, newxmin, f :: rest =>
    match add_ply_points_to_images x xmin xmax ymin ymax inf sup newxmin w h utm_zone f col_idx with
    | .error e => .error e
    | .ok (x', newxmin') => add_files xmin xmax ymin ymax inf sup w h utm_zone col_idx x' newxmin' rest

/-- What `main` writes for one tile: the raster (row-major, `none` for NaN), its dimensions,
and the origin `(newxmin, ymax)` given to `set_geotif_header`. -/
structure tile_output where
  raster : List (Option ℚ)
  w : Int
  h : Int
  xoff : Option ℚ
  yoff : ℚ
deriving DecidableEq, Repr

/-- Body of the tile loop of `main` for the range `r`. -/
def main_tile (xmin xmax ymin ymax : ℚ) (w h : Int) (utm : String)
    (files : List (Option ply_file)) (col_idx : Int) (r : range) : Except fault tile_output :=
  match add_files xmin xmax ymin ymax r.inf r.sup w h utm col_idx
      (zero_images r.size h) none files with
  | .error e => .error e
  | .ok (x, newxmin) =>
    .ok { raster := set_unknown_to_nan x, w := x.w, h := x.h, xoff := newxmin, yoff := ymax }

/-- Tile loop of `main`: the rasters written so far, and the fault that stopped the run. -/
def main_tiles (xmin xmax ymin ymax : ℚ) (w h : Int) (utm : String)
    (files : List (Option ply_file)) (col_idx : Int) : List range → List tile_output × Option fault
  | [] => ([], none)
  | r :: rs =>
    match main_tile xmin xmax ymin ymax w h utm files col_idx r with
    | .error e => ([], some e)
    | .ok t =>
      let rest := main_tiles xmin xmax ymin ymax w h utm files col_idx rs
      (t :: rest.1, rest.2)

/-- Raster dimension of `main`: `int w = 1 + (xmax - xmin) / resolution`. -/
def main_dimension (lo hi resolution : ℚ) : Option Int := do
  let q ← fdiv (hi - lo) resolution
  pure (c_trunc (1 + q))

/-- The part of `main` after the bounding box is known (extent scan or `-bb` override). -/
def main_from_bbox (col_idx : Int) (xmin xmax ymin ymax resolution : ℚ) (n : Int)
    (utm : String) (files : List (Option ply_file)) : List tile_output × Option fault :=
  match main_dimension xmin xmax resolution, main_dimension ymin ymax resolution with
  | some w, some h =>
    match subdiv 0 (w - 1) (n + 1) with
    | none => ([], some .undefined)
    | some res_subdiv =>
      match computeRanges res_subdiv n with
      | none => ([], some .undefined)
      | some res_ranges => main_tiles xmin xmax ymin ymax w h utm files col_idx res_ranges
  | _, _ => ([], some .undefined)

/-- Grid invariant of `main`: dimensions are non-negative C `int`s, both arrays hold `w * h`
cells, and counts are non-negative. -/
def wf_images (x : images) : Prop :=
  0 ≤ x.w ∧ x.w < 2 ^ 31 ∧ 0 ≤ x.h ∧ x.h < 2 ^ 31 ∧
    x.cnt.length = (x.w * x.h).toNat ∧ x.avg.length = (x.w * x.h).toNat ∧
    ∀ c ∈ x.cnt, 0 ≤ c

instance (x : images) : Decidable (wf_images x) := by
  unfold wf_images; infer_instance

/-- Successive calls `add_height_to_images(x, i, j, v)` for the values of a list, in order. -/
def add_heights (x : images) (i j : Int) : List ℚ → Option images
  | [] => some x
  | v :: vs =>
    match add_height_to_images x i j v with
    | none => none
    | some x' => add_heights x' i j vs

/-- The mapping as the specification words it:
`clamp(floor(width * (x - xmin) / (xmax - xmin)), 0, width-1)`. -/
def spec_rescale (x xmin xmax : ℚ) (width : Int) : Int :=
  min (max ⌊(width : ℚ) * (x - xmin) / (xmax - xmin)⌋ 0) (width - 1)

/-- The dimension as the specification words it: `1 + ceil((xmax-xmin)/resolution)`. -/
def spec_dimension (lo hi resolution : ℚ) : Int := 1 + ⌈(hi - lo) / resolution⌉

/-- Cell index a record is accumulated into for the tile `[inf, sup]` of a grid of width `tw`;
`none` when the record is outside the window (or its mapping is undefined). -/
def target_cell (xmin xmax ymin ymax : ℚ) (inf sup : Int) (w h tw : Int) (data : List ℚ) :
    Option Nat := do
  let d0 ← data[0]?
  let d1 ← data[1]?
  let i ← rescale_float_to_int d0 xmin xmax w
  let j ← rescale_float_to_int (-d1) (-ymax) (-ymin) h
  if inf ≤ i ∧ i ≤ sup then some (((tw * j + (i - inf)) % 2 ^ 64).toNat) else none

/-- Input files of the end-to-end scenario: one file with the three points. -/
def scenario_files : List (Option ply_file) :=
  [some { utm := "31N", records := [[10, 10, 100], [10, 10, 200], [20, 20, 50]] }]

/-- The C library `isspace` in the C locale: space, `\t`, `\n`, `\v`, `\f`, `\r`. -/
def c_isspace (c : Char) : Bool :=
  c = ' ' || c = '\t' || c = '\n' || c = Char.ofNat 11 || c = Char.ofNat 12 || c = '\r'

/-- Digits loop of the C library `atoi`: accumulates decimal digits and stops at the first other
character. -/
def atoi_digits : List Char → Int → Int
  | [], acc => acc
  | c :: rest, acc =>
    if c.isDigit then atoi_digits rest (10 * acc + ((c.toNat : Int) - 48)) else acc

/-- The C library `atoi`: skips leading white space, reads an optional sign, then decimal digits
(no overflow is modelled). -/
def atoi (s : List Char) : Int :=
  match s.dropWhile c_isspace with
  | '-' :: rest => - atoi_digits rest 0
  | '+' :: rest => atoi_digits rest 0
  | rest => atoi_digits rest 0

/-- Function `get_utm_zone_index_for_geotiff(utm_zone)` on the characters of the C string:
`out = 32000`, plus 600 when `utm_zone[2] == 'N'`, plus 700 when it is `'S'` (an error message
otherwise); then `utm_zone[2] = 0` cuts the string after two characters and `atoi` is added. -/
def get_utm_zone_index_for_geotiff (utm_zone : List Char) : Int :=
  let out : Int := 32000
  let out := if utm_zone[2]? = some 'N' then out + 600
    else if utm_zone[2]? = some 'S' then out + 700
    else out
  out + atoi (utm_zone.take 2)

/-- Raw X of a record whose global column `rescale(data[0])` lies in the window `[inf, sup]`;
`none` for a record outside the window. -/
def window_x (xmin xmax : ℚ) (inf sup : Int) (w : Int) (data : List ℚ) : Option ℚ := do
  let d0 ← data[0]?
  let i ← rescale_float_to_int d0 xmin xmax w
  if inf ≤ i ∧ i ≤ sup then some d0 else none

/-- Status given to `exit` on a bad attribute index: the value of
`fprintf(stderr, "error: bad col_idx %d\n", col_idx)`, the number of characters printed
(19 for the text before the number, the sign and the decimal digits, and the newline). -/
def bad_col_idx_status (col_idx : Int) : Nat :=
  19 + (if col_idx < 0 then 1 else 0) + (Nat.log 10 col_idx.natAbs + 1) + 1

/-- Kinds of a header property: the enum of the C `struct ply_property`. -/
inductive ply_type where
  | UCHAR
  | FLOAT
  | DOUBLE
  | UNKNOWN
deriving DecidableEq, Repr

/-- The C `struct ply_property`: kind, name and byte length of one declared field. The length
is left unset by the code for an unknown kind (and is never read); it is 0 here. -/
structure ply_property where
  type : ply_type
  name : List Char
  len : Nat
deriving DecidableEq, Repr

/-- State of a C stream open for reading: the unread bytes and the end-of-file indicator. -/
structure c_stream where
  data : List Char
  eof : Bool
deriving DecidableEq, Repr

/-- The C library call `fread(&X, size, 1, f)`: the number of items read (1 or 0), the bytes
obtained, and the stream afterwards. A short read consumes what is left and sets the end-of-file
indicator. -/
def fread_one (size : Nat) (f : c_stream) : Int × List Char × c_stream :=
  if size ≤ f.data.length then (1, f.data.take size, { f with data := f.data.drop size })
  else (0, f.data, { data := [], eof := true })

/-- Value of a run of decimal digits. -/
def digits_value (ds : List Char) : Nat :=
  ds.foldl (fun acc c => 10 * acc + (c.toNat - 48)) 0

/-- Optional sign at the head of a number: whether it is `-`, and the rest. -/
def strip_sign (s : List Char) : Bool × List Char :=
  match s with
  | '-' :: r => (true, r)
  | '+' :: r => (false, r)
  | r => (false, r)

/-- Optional fraction after the integer digits: the fraction digits and the rest. -/
def parse_fraction (s : List Char) : List Char × List Char :=
  match s with
  | '.' :: r => (r.takeWhile Char.isDigit, r.dropWhile Char.isDigit)
  | r => ([], r)

/-- Longest decimal number at the head of the input, as `%lf` accepts it in its plain form: an
optional sign, one or more digits, an optional fraction. Returns the value and the rest. -/
def parse_decimal (s : List Char) : Option (ℚ × List Char) :=
  let signed := strip_sign s
  let ip := signed.2.takeWhile Char.isDigit
  if ip = [] then none
  else
    let frac := parse_fraction (signed.2.dropWhile Char.isDigit)
    let v : ℚ := (digits_value ip : ℚ) + (digits_value frac.1 : ℚ) / 10 ^ frac.1.length
    some (if signed.1 then -v else v, frac.2)

/-- Result of one `fscanf(f, "%lf", &data[i])`: the returned count (1, 0 on a matching failure,
-1 for `EOF`), the converted value if any, and the stream afterwards. -/
structure scan_result where
  ret : Int
  value : Option ℚ
  stream : c_stream
deriving DecidableEq, Repr

/-- The C library call `fscanf(f, "%lf", &x)`: white space is skipped; at the end of the input
the call returns `EOF` and the end-of-file indicator is set; a token that is not a number is a
matching failure and stays in the stream; a number is converted and consumed (the indicator is
set when the number runs up to the end of the input). -/
def fscanf_lf (f : c_stream) : scan_result :=
  let s := f.data.dropWhile c_isspace
  match parse_decimal s with
  | some (v, rest) =>
    { ret := 1, value := some v, stream := { data := rest, eof := f.eof || rest.isEmpty } }
  | none =>
    if s.isEmpty then { ret := -1, value := none, stream := { data := [], eof := true } }
    else { ret := 0, value := none, stream := { f with data := s } }

/-- Decoding of the bytes of a binary `float` and `double` field: the machine's formats, taken as
a parameter. -/
structure float_codec where
  f32 : List Char → ℚ
  f64 : List Char → ℚ

/-- Binary branch of `get_record` over the properties still to read: each known kind adds the
result of its `fread` to `rec` and stores a value; the `switch` has no case for an unknown kind,
which reads nothing. A slot is `none` when it holds no decoded value. -/
def get_record_bin (dec : float_codec) :
    List ply_property → c_stream → Int → List (Option ℚ) → Int × List (Option ℚ) × c_stream
  | [], f, rec, data => (rec, data, f)
  | p :: ps, f, rec, data =>
    match p.type with
    | .UCHAR =>
      let r := fread_one 1 f
      get_record_bin dec ps r.2.2 (rec + r.1)
        (data ++ [if r.1 = 1 then some ((r.2.1.headD (Char.ofNat 0)).toNat : ℚ) else none])
    | .FLOAT =>
      let r := fread_one 4 f
      get_record_bin dec ps r.2.2 (rec + r.1)
        (data ++ [if r.1 = 1 then some (dec.f32 r.2.1) else none])
    | .DOUBLE =>
      let r := fread_one 8 f
      get_record_bin dec ps r.2.2 (rec + r.1)
        (data ++ [if r.1 = 1 then some (dec.f64 r.2.1) else none])
    | .UNKNOWN => get_record_bin dec ps f rec (data ++ [none])

/-- Ascii branch of `get_record` with `k = n - i` fields still to read:
`while (i < n && !feof(f_in)) { rec += fscanf(f_in,"%lf", &data[i]);  i++; }`. -/
def get_record_ascii : Nat → c_stream → Int → List (Option ℚ) → Int × List (Option ℚ) × c_stream
  | 0, f, rec, data => (rec, data, f)
  | k + 1, f, rec, data =>
    if f.eof then (rec, data ++ List.replicate (k + 1) none, f)
    else
      let r := fscanf_lf f
      get_record_ascii k r.stream (rec + r.ret) (data ++ [r.value])

/-- Function `get_record(f_in, isbin, t, n, data)`: the returned `rec`, the `n` slots of `data`
and the stream afterwards. The table `t` holds the `n` parsed properties. -/
def get_record (dec : float_codec) (f_in : c_stream) (isbin : Bool) (t : List ply_property)
    (n : Int) : Int × List (Option ℚ) × c_stream :=
  if isbin then get_record_bin dec (t.take n.toNat) f_in 0 []
  else get_record_ascii n.toNat f_in 0 []

/-- The loop `while (n == get_record(f, isbin, t, n, data)) { ... }` of the extent scan and of
the accumulation, with a bound on the number of `get_record` calls: the records handed to the
loop body and the stream at the exit, or `none` when the bound is reached before the loop
exits. -/
def read_records (dec : float_codec) (isbin : Bool) (t : List ply_property) (n : Int) :
    Nat → c_stream → Option (List (List ℚ) × c_stream)
  | 0, _ => none
  | fuel + 1, f =>
    let r := get_record dec f isbin t n
    if n = r.1 then
      match read_records dec isbin t n fuel r.2.2 with
      | none => none
      | some (records, f') => some (r.2.1.filterMap id :: records, f')
    else some ([], r.2.2)

/-- Number of bytes of a binary field of the given kind, if the kind is known. -/
def field_size : ply_type → Option Nat
  | .UCHAR => some 1
  | .FLOAT => some 4
  | .DOUBLE => some 8
  | .UNKNOWN => none

/-- All fields of the next binary record are decoded: every property has a known kind and the
stream holds all the bytes of its field. -/
def bin_fields_decoded : List ply_property → c_stream → Bool
  | [], _ => true
  | p :: ps, f =>
    match field_size p.type with
    | none => false
    | some size =>
      decide (size ≤ f.data.length) && bin_fields_decoded ps { f with data := f.data.drop size }

/-- All of the next `k` ascii fields are decoded: before each one the end-of-file indicator is
clear and the conversion succeeds. -/
def ascii_fields_decoded : Nat → c_stream → Bool
  | 0, _ => true
  | k + 1, f =>
    !f.eof && decide ((fscanf_lf f).ret = 1) && ascii_fields_decoded k (fscanf_lf f).stream

/-- All `n` fields of the next record are successfully decoded, in the given mode. -/
def fields_decoded (f : c_stream) (isbin : Bool) (t : List ply_property) (n : Int) : Bool :=
  if isbin then
    decide (((t.take n.toNat).length : Int) = n) && bin_fields_decoded (t.take n.toNat) f
  else ascii_fields_decoded n.toNat f

/-- A codec used in examples: both formats decode to the value of the first byte. -/
def example_codec : float_codec :=
  { f32 := fun bs => ((bs.headD (Char.ofNat 0)).toNat : ℚ),
    f64 := fun bs => ((bs.headD (Char.ofNat 0)).toNat : ℚ) }

/-- Relation between the result `r` of reading `k` fields and the state `(f, rec, data)` before:
at most `k` is added to `rec`, every unit added consumes input, all `k` are added exactly when
all fields are decoded, and `k` slots are appended, all filled in that case. -/
def record_inv (r : Int × List (Option ℚ) × c_stream) (k : Nat) (f : c_stream) (rec : Int)
    (data : List (Option ℚ)) (decoded : Bool) : Prop :=
  r.1 - rec ≤ k ∧ (r.2.2.data.length : Int) + (r.1 - rec) ≤ f.data.length ∧
    (r.1 - rec = k ↔ decoded = true) ∧
    ∃ slots, r.2.1 = data ++ slots ∧ slots.length = k ∧
      (r.1 - rec = k → ∀ s ∈ slots, s ≠ none)

/-- A `%s` conversion of `sscanf`: white space is skipped, then the longest run of characters
that are not white space is read; the conversion fails when that run is empty. Returns the word
and the rest of the input. -/
def scan_word (s : List Char) : Option (List Char × List Char) :=
  let s1 := s.dropWhile c_isspace
  let word := s1.takeWhile (fun c => !c_isspace c)
  if word = [] then none else some (word, s1.dropWhile (fun c => !c_isspace c))

/-- Ordinary characters of a `sscanf` format: they must match the input exactly. -/
def scan_literal (lit s : List Char) : Option (List Char) :=
  if lit.isPrefixOf s then some (s.drop lit.length) else none

/-- Kind and byte length selected by the three `strcmp` tests of `parse_property_line`. -/
def property_kind (typename : List Char) : ply_type × Nat :=
  let k : ply_type × Nat := (.UNKNOWN, 0)
  let k := if typename = "uchar".toList then (.UCHAR, 1) else k
  let k := if typename = "float".toList then (.FLOAT, 4) else k
  let k := if typename = "double".toList then (.DOUBLE, 8) else k
  k

/-- Function `parse_property_line(t, buf)`: `r = 2 == sscanf(buf, "property %s %s\n", typename,
t->name)` and the entry written to `*t`. When no type word is read the C code compares an
unset buffer; the entry is then never kept, and is of unknown kind here. -/
def parse_property_line (buf : List Char) : Bool × ply_property :=
  match scan_literal "property".toList buf with
  | none => (false, { type := .UNKNOWN, name := [], len := 0 })
  | some s1 =>
    match scan_word s1 with
    | none => (false, { type := .UNKNOWN, name := [], len := 0 })
    | some (typename, s2) =>
      match scan_word s2 with
      | none =>
        (false,
          { type := (property_kind typename).1, name := [], len := (property_kind typename).2 })
      | some (name, _) =>
        (true,
          { type := (property_kind typename).1, name := name, len := (property_kind typename).2 })

/-- Zone tag read by `sscanf(buf, "comment projection: UTM %s", utm)`, if the line matches. -/
def scan_utm (buf : List Char) : Option (List Char) := do
  let s1 ← scan_literal "comment".toList buf
  let s2 ← scan_literal "projection:".toList (s1.dropWhile c_isspace)
  let s3 ← scan_literal "UTM".toList (s2.dropWhile c_isspace)
  let w ← scan_word s3
  pure w.1

/-- What `header_get_record_length_and_utm_zone` produces: the returned count `n`, `*isbin`, the
zone tag written to `utm` (`none` when it is not written), the `n` entries of the table `t`, and
the lines left unread in the stream. -/
structure ply_header where
  n : Nat
  isbin : Bool
  utm : Option (List Char)
  t : List ply_property
  rest : List (List Char)
deriving DecidableEq, Repr

/-- Loop of `header_get_record_length_and_utm_zone` over the lines that `fgets` yields (each
with its newline), from the state `(n, isbin, utm, t)`. -/
def header_loop : List (List Char) → Nat → Bool → Option (List Char) → List ply_property →
    ply_header
  | [], n, isbin, utm, t => { n := n, isbin := isbin, utm := utm, t := t, rest := [] }
  | buf :: rest, n, isbin, utm, t =>
    let st : Nat × Bool × Option (List Char) × List ply_property :=
      if buf = "format binary_little_endian 1.0\n".toList then (n, true, utm, t)
      else if buf = "format ascii 1.0\n".toList then (n, false, utm, t)
      else if (parse_property_line buf).1 then
        (n + 1, isbin, utm, t ++ [(parse_property_line buf).2])
      else if buf.take 19 = "comment projection:".toList then
        (n, isbin, (scan_utm buf).orElse (fun _ => utm), t)
      else (n, isbin, utm, t)
    if buf = "end_header\n".toList then
      { n := st.1, isbin := st.2.1, utm := st.2.2.1, t := st.2.2.2, rest := rest }
    else header_loop rest st.1 st.2.1 st.2.2.1 st.2.2.2

/-- Lines of a stream up to and including the first terminator line `end_header`. -/
def header_lines : List (List Char) → List (List Char)
  | [] => []
  | buf :: rest => if buf = "end_header\n".toList then [buf] else buf :: header_lines rest

/-- Lines of a stream after the first terminator line `end_header`. -/
def body_lines : List (List Char) → List (List Char)
  | [] => []
  | buf :: rest => if buf = "end_header\n".toList then rest else body_lines rest

/-- A line of the form `property <type> <name>` as the format `"property %s %s\n"` accepts it:
the word `property`, optional white space, a type word, white space, a name word, and then
nothing or anything that starts with white space. -/
def property_line_form (buf : List Char) : Prop :=
  ∃ sp1 ty sp2 nm tail : List Char,
    buf = "property".toList ++ sp1 ++ ty ++ sp2 ++ nm ++ tail ∧
    (∀ c ∈ sp1, c_isspace c = true) ∧
    ty ≠ [] ∧ (∀ c ∈ ty, c_isspace c = false) ∧
    sp2 ≠ [] ∧ (∀ c ∈ sp2, c_isspace c = true) ∧
    nm ≠ [] ∧ (∀ c ∈ nm, c_isspace c = false) ∧
    (∀ c ∈ tail.head?, c_isspace c = true)

/-- The boundary position as the specification words it:
`floor(i/(tileCount-1) * (width-1) + 0.5)`. -/
def spec_boundary (width tileCount : Int) (i : Nat) : Int :=
  ⌊(i : ℚ) / ((tileCount : ℚ) - 1) * ((width : ℚ) - 1) + 1 / 2⌋

/-! ## Machine level

The definitions of `namespace machine` follow the program as it runs on x86-64: `float` and
`double` arithmetic is IEEE 754 binary32 and binary64 with round-to-nearest-even, evaluated
operation by operation in the type of the C expression; a conversion to `int` outside the range
of `int` gives `INT_MIN` (the result of `cvttsd2si`; the conversion is undefined in ISO C);
fixed-size buffers have their declared capacity, and writing past one is undefined. The signs of
zeros are not distinguished. The definitions above this section take the same functions in exact
arithmetic, for the properties stated in exact arithmetic.
-/

namespace machine

/-- Value of a C `float` or `double`: not-a-number, an infinity, or a finite number. -/
inductive fp where
  | nan
  | ninf
  | pinf
  | fin (q : ℚ)
deriving DecidableEq, Repr

/-- A binary floating-point format: precision in bits and exponent range. -/
structure format where
  prec : Nat
  emin : Int
  emax : Int

/-- The C `float` of the program: IEEE 754 binary32. -/
def binary32 : format := { prec := 24, emin := -126, emax := 127 }

/-- The C `double` of the program: IEEE 754 binary64. -/
def binary64 : format := { prec := 53, emin := -1022, emax := 1023 }

/-- Power of two with an integer exponent. -/
def pow2 (e : Int) : ℚ :=
  if 0 ≤ e then ((2 ^ e.toNat : Nat) : ℚ) else 1 / ((2 ^ (-e).toNat : Nat) : ℚ)

/-- Binary logarithm of a natural number, rounded down, by repeated halving. -/
def log2_fuel : Nat → Nat → Nat
  | 0, _ => 0
  | fuel + 1, n => if n < 2 then 0 else log2_fuel fuel (n / 2) + 1

/-- Binary logarithm of a positive natural number, rounded down. -/
def nlog2 (n : Nat) : Nat := log2_fuel n n

/-- Binary exponent of a non-zero rational `q`: the `e` with `2^e ≤ |q| < 2^(e+1)`. -/
def ilog2 (q : ℚ) : Int :=
  let k : Int := (nlog2 q.num.natAbs : Int) - (nlog2 q.den : Int)
  if |q| < pow2 k then k - 1 else k

/-- Nearest integer, ties to the even one. -/
def round_even (m : ℚ) : Int :=
  if m - ⌊m⌋ < 1 / 2 then ⌊m⌋
  else if 1 / 2 < m - ⌊m⌋ then ⌊m⌋ + 1
  else if ⌊m⌋ % 2 = 0 then ⌊m⌋ else ⌊m⌋ + 1

/-- Spacing of the numbers of the format around `q` (subnormal spacing below the normal
range). -/
def ulp (F : format) (q : ℚ) : ℚ := pow2 (max (ilog2 q) F.emin - ((F.prec : Int) - 1))

/-- Nearest number of the format with an unbounded exponent, ties to even. -/
def round_value (F : format) (q : ℚ) : ℚ := (round_even (q / ulp F q) : ℚ) * ulp F q

/-- Rounding of an exact result to the format: an infinity on overflow. -/
def round (F : format) (q : ℚ) : fp :=
  if pow2 (F.emax + 1) ≤ |round_value F q| then (if 0 < q then .pinf else .ninf)
  else .fin (round_value F q)

/-- Unary minus. -/
def fp.neg : fp → fp
  | .nan => .nan
  | .ninf => .pinf
  | .pinf => .ninf
  | .fin q => .fin (-q)

/-- Addition in the format `F`. -/
def fp.add (F : format) : fp → fp → fp
  | .fin a, .fin b => round F (a + b)
  | .nan, _ => .nan
  | _, .nan => .nan
  | .pinf, .ninf => .nan
  | .ninf, .pinf => .nan
  | .pinf, _ => .pinf
  | _, .pinf => .pinf
  | .ninf, _ => .ninf
  | _, .ninf => .ninf

/-- Subtraction in the format `F`. -/
def fp.sub (F : format) (a b : fp) : fp := fp.add F a (fp.neg b)

/-- The infinity of the given sign. -/
def fp.sign_inf (positive : Bool) : fp := if positive then .pinf else .ninf

/-- Multiplication in the format `F`. -/
def fp.mul (F : format) : fp → fp → fp
  | .fin a, .fin b => round F (a * b)
  | .nan, _ => .nan
  | _, .nan => .nan
  | .fin a, .pinf => if a = 0 then .nan else fp.sign_inf (decide (0 < a))
  | .fin a, .ninf => if a = 0 then .nan else fp.sign_inf (decide (a < 0))
  | .pinf, .fin b => if b = 0 then .nan else fp.sign_inf (decide (0 < b))
  | .ninf, .fin b => if b = 0 then .nan else fp.sign_inf (decide (b < 0))
  | .pinf, .pinf => .pinf
  | .ninf, .ninf => .pinf
  | .pinf, .ninf => .ninf
  | .ninf, .pinf => .ninf

/-- Division in the format `F`. A finite non-zero number divided by zero is an infinity and
`0/0` is not-a-number; no trap is raised. -/
def fp.div (F : format) : fp → fp → fp
  | .fin a, .fin b =>
    if b = 0 then (if a = 0 then .nan else fp.sign_inf (decide (0 < a))) else round F (a / b)
  | .nan, _ => .nan
  | _, .nan => .nan
  | .fin _, .pinf => .fin 0
  | .fin _, .ninf => .fin 0
  | .pinf, .fin b => fp.sign_inf (decide (0 ≤ b))
  | .ninf, .fin b => fp.sign_inf (decide (b < 0))
  | .pinf, .pinf => .nan
  | .pinf, .ninf => .nan
  | .ninf, .pinf => .nan
  | .ninf, .ninf => .nan

/-- The C comparison `a < b`: false when an operand is not-a-number. -/
def fp.lt : fp → fp → Bool
  | .fin a, .fin b => decide (a < b)
  | .ninf, .fin _ => true
  | .ninf, .pinf => true
  | .fin _, .pinf => true
  | _, _ => false

/-- The C library `isfinite`. -/
def fp.finite : fp → Bool
  | .fin _ => true
  | _ => false

/-- Conversion of an integer to the format `F`. -/
def of_int (F : format) (n : Int) : fp := round F (n : ℚ)

/-- Conversion of a `double` to `float`. -/
def to_float : fp → fp
  | .fin q => round binary32 q
  | x => x

/-- Conversion of a `float` or `double` to `int`: truncation toward zero, and `INT_MIN` when
the truncated value is not an `int` or the operand is not finite. -/
def cvt_int : fp → Int
  | .fin q => if -2 ^ 31 ≤ c_trunc q ∧ c_trunc q < 2 ^ 31 then c_trunc q else -2 ^ 31
  | _ => -2 ^ 31

/-- Conversion of a `double` to `unsigned int`: the 64-bit truncation reduced modulo `2^32`
(what compilers emit on x86-64); the conversion is undefined in ISO C outside `[0, 2^32)`. -/
def cvt_uint : fp → Int
  | .fin q => if -2 ^ 63 ≤ c_trunc q ∧ c_trunc q < 2 ^ 63 then c_trunc q % 2 ^ 32 else 0
  | _ => 0

/-- Value of an `int` expression whose exact value is `z`: reduction to 32 bits, two's
complement. -/
def wrap_int (z : Int) : Int := (z + 2 ^ 31) % 2 ^ 32 - 2 ^ 31

/-- Body of the loop of `subdiv`: `res[i] = (int) (i*coef*e+s+0.5)`, the products and the
first sum in `float`, the sum with the `double` constant `0.5` in `double`. -/
def subdiv_at (s e : Int) (coef : fp) (i : Nat) : Int :=
  cvt_int (fp.add binary64
    (fp.add binary32
      (fp.mul binary32 (fp.mul binary32 (of_int binary32 i) coef) (of_int binary32 e))
      (of_int binary32 s))
    (.fin (1 / 2)))

/-- Function `subdiv(s, e, n)`: `float coef = 1/((float)(n-1))`, then the `n` boundary
positions. -/
def subdiv (s e n : Int) : List Int :=
  (List.range n.toNat).map
    (subdiv_at s e (fp.div binary32 (.fin 1) (of_int binary32 (n - 1))))

/-- The quotient `w * (x - min)/(max - min)` of `rescale_float_to_int`, in `double`. -/
def rescale_quotient (x min max : fp) (w : Int) : fp :=
  fp.div binary64 (fp.mul binary64 (of_int binary64 w) (fp.sub binary64 x min))
    (fp.sub binary64 max min)

/-- Function `rescale_float_to_int(x, min, max, w)`: `int r = w * (x - min)/(max - min)`, then
`r < 0` gives 0 and `r >= w` gives `w-1`. -/
def rescale_float_to_int (x min max : fp) (w : Int) : Int :=
  let r := cvt_int (rescale_quotient x min max w)
  let r := if r < 0 then 0 else r
  if r ≥ w then w - 1 else r

/-- Raster dimension of `main`: `int w = 1 + (xmax - xmin) / resolution`, in `float`. -/
def main_dimension (lo hi resolution : fp) : Int :=
  cvt_int (fp.add binary32 (.fin 1) (fp.div binary32 (fp.sub binary32 hi lo) resolution))

/-- The C `struct images`: the arrays of `float` counts and means, and the dimensions. -/
structure images where
  cnt : List fp
  avg : List fp
  w : Int
  h : Int
deriving DecidableEq, Repr

/-- Index computed by `add_height_to_images`: `(uint64_t) x->w * j + i`. -/
def cell_index (x : images) (i j : Int) : Nat := ((x.w * j + i) % 2 ^ 64).toNat

/-- Function `add_height_to_images(x, i, j, v)` with `float v`: with
`k = (uint64_t) x->w * j + i`, `avg[k] = (v + cnt[k] * avg[k]) / (1 + cnt[k])` and
`cnt[k] += 1`, every operation in `float`. An index outside the arrays is undefined. -/
def add_height_to_images (x : images) (i j : Int) (v : fp) : Option images := do
  let k := cell_index x i j
  let c ← x.cnt[k]?
  let a ← x.avg[k]?
  pure { x with
    avg := x.avg.set k
      (fp.div binary32 (fp.add binary32 v (fp.mul binary32 c a)) (fp.add binary32 (.fin 1) c)),
    cnt := x.cnt.set k (fp.add binary32 c (.fin 1)) }

/-- Grid invariant established by `main` for a tile that fits its allocation: the dimensions
are non-negative C `int`s and both arrays hold `w * h` cells. -/
def wf_images (x : images) : Prop :=
  0 ≤ x.w ∧ x.w < 2 ^ 31 ∧ 0 ≤ x.h ∧ x.h < 2 ^ 31 ∧
    x.cnt.length = (x.w * x.h).toNat ∧ x.avg.length = (x.w * x.h).toNat

/-- Argument of `malloc(x.w*x.h*sizeof(float))`: the product `x.w*x.h` is an `int` (reduced
to 32 bits), then converted to `size_t` and multiplied by 4. -/
def malloc_arg (w h : Int) : Nat := (wrap_int (w * h) % 2 ^ 64 * 4 % 2 ^ 64).toNat

/-- Number of cells of an array obtained from `malloc(x.w*x.h*sizeof(float))`: the request
is taken to succeed up to `PTRDIFF_MAX` bytes and to return `NULL` (no cell) beyond. -/
def malloc_cells (w h : Int) : Nat :=
  if malloc_arg w h < 2 ^ 63 then malloc_arg w h / 4 else 0

/-- Allocation and zero-initialisation of a tile grid in `main`: the loop writes the cells
`0 .. (uint64_t) x.w*x.h - 1` of both arrays; undefined when it runs past the allocation. -/
def zero_images (w h : Int) : Option images :=
  if (w * h % 2 ^ 64).toNat ≤ malloc_cells w h then
    some { cnt := List.replicate (w * h % 2 ^ 64).toNat (.fin 0),
           avg := List.replicate (w * h % 2 ^ 64).toNat (.fin 0), w := w, h := h }
  else none

/-- Finalisation loop of `main`: `if (!x.cnt[i]) x.avg[i] = NAN` for every cell. -/
def set_unknown_to_nan (x : images) : List fp :=
  List.zipWith (fun c a => if c = .fin 0 then .nan else a) x.cnt x.avg

/-- Update of the tile-local minimum, a `float`: `if (data[0] < *newxmin) *newxmin = data[0]`;
the comparison is in `double`, the store converts to `float`. -/
def update_newxmin (newxmin d0 : fp) : fp := if fp.lt d0 newxmin then to_float d0 else newxmin

/-- Ways a run stops without returning from `main`: `exit(status)`, a failed `assert`, undefined
behaviour (an access outside an object), or a loop that never ends. -/
inductive fault where
  | exit (status : Nat)
  | abort
  | undefined
  | hang
deriving DecidableEq, Repr

/-- Value handed to `add_height_to_images` for a record, converted to its `float` parameter:
`data[2]` when `col_idx == 2`, else `unsigned int rgb = data[col_idx]`. A field outside the
record is undefined. -/
def selected_value (col_idx : Int) (data : List fp) : Option fp :=
  if col_idx = 2 then (data[2]?).map to_float
  else (data[col_idx.toNat]?).map (fun d => of_int binary32 (cvt_uint d))

/-- Whether `assert(isfinite(data[2]))`, made after the update when `col_idx == 2`, holds. -/
def assert_finite (col_idx : Int) (data : List fp) : Bool :=
  if col_idx = 2 then
    match data[2]? with
    | some d2 => d2.finite
    | none => true
  else true

/-- Body of the record loop of `add_ply_points_to_images` for one decoded record `data`
(an array of `double`). -/
def add_ply_point (x : images) (xmin xmax ymin ymax : fp) (inf sup : Int)
    (newxmin : fp) (w h : Int) (col_idx : Int) (data : List fp) :
    Except fault (images × fp) :=
  match data[0]?, data[1]? with
  | some d0, some d1 =>
    if inf ≤ rescale_float_to_int d0 xmin xmax w ∧ rescale_float_to_int d0 xmin xmax w ≤ sup then
      match selected_value col_idx data with
      | none => .error .undefined
      | some v =>
        match add_height_to_images x (rescale_float_to_int d0 xmin xmax w - inf)
            (rescale_float_to_int (fp.neg d1) (fp.neg ymax) (fp.neg ymin) h) v with
        | none => .error .undefined
        | some x' =>
          if assert_finite col_idx data then .ok (x', update_newxmin newxmin d0)
          else .error .abort
    else .ok (x, newxmin)
  | _, _ => .error .undefined

/-- Record loop of `add_ply_points_to_images` over the decoded records of one file. -/
def add_ply_records (xmin xmax ymin ymax : fp) (inf sup : Int) (w h : Int) (col_idx : Int) :
    images → fp → List (List fp) → Except fault (images × fp)
  | x, newxmin, [] => .ok (x, newxmin)
  | x, newxmin, data :: rest =>
    match add_ply_point x xmin xmax ymin ymax inf sup newxmin w h col_idx data with
    | .error e => .error e
    | .ok (x', newxmin') =>
      add_ply_records xmin xmax ymin ymax inf sup w h col_idx x' newxmin' rest

/-- A C string held in a buffer: the characters before the first NUL. -/
def c_string (buf : List Char) : List Char := buf.takeWhile (fun c => c ≠ Char.ofNat 0)

/-- Function `parse_property_line(t, buf)` on the C string `buf`, with the capacity of its
buffers: `typename` and `t->name` hold `0x100` bytes, so a word of 256 characters or more
overflows (`none`). -/
def parse_property_line (buf : List Char) : Option (Bool × ply_property) :=
  match scan_literal "property".toList buf with
  | none => some (false, { type := .UNKNOWN, name := [], len := 0 })
  | some s1 =>
    match scan_word s1 with
    | none => some (false, { type := .UNKNOWN, name := [], len := 0 })
    | some (typename, s2) =>
      if 256 ≤ typename.length then none
      else
        match scan_word s2 with
        | none =>
          some (false,
            { type := (property_kind typename).1, name := [],
              len := (property_kind typename).2 })
        | some (name, _) =>
          if 256 ≤ name.length then none
          else
            some (true,
              { type := (property_kind typename).1, name := name,
                len := (property_kind typename).2 })

/-- Loop of `header_get_record_length_and_utm_zone` over the lines that `fgets` yields, from
the state `(n, isbin, utm, t)`, with the capacity of the buffers: the table `t` of both callers
has 100 entries and `parse_property_line(t+n, buf)` writes entry `n` for every line that is not
a format line; `utm` has 3 bytes, so a zone word of 3 characters or more overflows. `none` is
undefined behaviour. -/
def header_loop : List (List Char) → Nat → Bool → Option (List Char) → List ply_property →
    Option ply_header
  | [], n, isbin, utm, t => some { n := n, isbin := isbin, utm := utm, t := t, rest := [] }
  | buf :: rest, n, isbin, utm, t =>
    let s := c_string buf
    let st : Option (Nat × Bool × Option (List Char) × List ply_property) :=
      if s = "format binary_little_endian 1.0\n".toList then some (n, true, utm, t)
      else if s = "format ascii 1.0\n".toList then some (n, false, utm, t)
      else if 100 ≤ n then none
      else
        match parse_property_line s with
        | none => none
        | some (true, p) => some (n + 1, isbin, utm, t ++ [p])
        | some (false, _) =>
          if s.take 19 = "comment projection:".toList then
            match scan_utm s with
            | none => some (n, isbin, utm, t)
            | some tag => if 3 ≤ tag.length then none else some (n, isbin, some tag, t)
          else some (n, isbin, utm, t)
    match st with
    | none => none
    | some st =>
      if s = "end_header\n".toList then
        some { n := st.1, isbin := st.2.1, utm := st.2.2.1, t := st.2.2.2, rest := rest }
      else header_loop rest st.1 st.2.1 st.2.2.1 st.2.2.2

/-- Function `header_get_record_length_and_utm_zone(f_in, utm, isbin, t)` on the lines of the
stream: `n = 0`, `*isbin = 0`, then the loop; `utm` is `none` when the call does not write
it. -/
def header_get_record_length_and_utm_zone (lines : List (List Char)) : Option ply_header :=
  header_loop lines 0 false none []

/-- An input file as the two passes see it: what the header parser returns on it (`none` when
it overflows a buffer) and the records for which `n == get_record(...)` held, in stream
order. -/
structure ply_file where
  header : Option ply_header
  records : List (List fp)

/-- Function `add_ply_points_to_images` over the decoded records of a file: `f = none` is a
file that cannot be opened; the zone comparison only prints a diagnostic; a `col_idx` outside
`2..5` exits with the value of `fprintf`; with `n = 0` the loop `while (n == get_record())`
never ends. -/
def add_ply_points_to_images (x : images) (xmin xmax ymin ymax : fp) (inf sup : Int)
    (newxmin : fp) (w h : Int) (f : Option ply_file) (col_idx : Int) :
    Except fault (images × fp) :=
  match f with
  | none => .ok (x, newxmin)
  | some file =>
    match file.header with
    | none => .error .undefined
    | some hd =>
      if col_idx < 2 ∨ col_idx > 5 then .error (.exit (bad_col_idx_status col_idx))
      else if hd.n = 0 then .error .hang
      else add_ply_records xmin xmax ymin ymax inf sup w h col_idx x newxmin file.records

/-- Loop of `main` over the file list for one tile. -/
def add_files (xmin xmax ymin ymax : fp) (inf sup : Int) (w h : Int) (col_idx : Int) :
    images → fp → List (Option ply_file) → Except fault (images × fp)
  | x, newxmin, [] => .ok (x, newxmin)
  | x, newxmin, f :: rest =>
    match add_ply_points_to_images x xmin xmax ymin ymax inf sup newxmin w h f col_idx with
    | .error e => .error e
    | .ok (x', newxmin') => add_files xmin xmax ymin ymax inf sup w h col_idx x' newxmin' rest

/-- Function `update_min_max(min, max, x)` with `float x`: the new `*min` and `*max`. -/
def update_min_max (min max x : fp) : fp × fp :=
  (if fp.lt x min then x else min, if fp.lt max x then x else max)

/-- The four `float` extrema of `main`. -/
structure extrema where
  xmin : fp
  xmax : fp
  ymin : fp
  ymax : fp
deriving DecidableEq, Repr

/-- Initial extrema of `main`: `INFINITY` for the minima, `-INFINITY` for the maxima. -/
def extrema.init : extrema := { xmin := .pinf, xmax := .ninf, ymin := .pinf, ymax := .ninf }

/-- Record loop of `parse_ply_points_for_extrema`: `update_min_max(xmin, xmax, data[0])` and
`update_min_max(ymin, ymax, data[1])`, the `double` fields converted to `float` by the call. -/
def parse_ply_records_for_extrema : extrema → List (List fp) → Option extrema
  | e, [] => some e
  | e, data :: rest =>
    match data[0]?, data[1]? with
    | some d0, some d1 =>
      parse_ply_records_for_extrema
        { xmin := (update_min_max e.xmin e.xmax (to_float d0)).1,
          xmax := (update_min_max e.xmin e.xmax (to_float d0)).2,
          ymin := (update_min_max e.ymin e.ymax (to_float d1)).1,
          ymax := (update_min_max e.ymin e.ymax (to_float d1)).2 } rest
    | _, _ => none

/-- Function `parse_ply_points_for_extrema` on one listed file. -/
def parse_ply_points_for_extrema (e : extrema) (f : Option ply_file) : Except fault extrema :=
  match f with
  | none => .ok e
  | some file =>
    match file.header with
    | none => .error .undefined
    | some hd =>
      if hd.n = 0 then .error .hang
      else
        match parse_ply_records_for_extrema e file.records with
        | none => .error .undefined
        | some e' => .ok e'

/-- First loop of `main`: the extent scan of every listed file, in order. -/
def scan_files : extrema → List (Option ply_file) → Except fault extrema
  | e, [] => .ok e
  | e, f :: rest =>
    match parse_ply_points_for_extrema e f with
    | .error err => .error err
    | .ok e' => scan_files e' rest

/-- What `main` writes for one tile: the raster (row-major), its dimensions, and the origin
`(newxmin, ymax)` given to `set_geotif_header`. -/
structure tile_output where
  raster : List fp
  w : Int
  h : Int
  xoff : fp
  yoff : fp
deriving DecidableEq, Repr

/-- Whether `sprintf(out, "%s/dsm_%d.tif", out_dir, k)` fits `char out[100]`. -/
def out_path_fits (out_dir : List Char) (k : Nat) : Bool :=
  decide (out_dir.length + 5 + (Nat.toDigits 10 k).length + 4 < 100)

/-- Body of the tile loop of `main` for tile `k` with the range `r`. -/
def main_tile (xmin xmax ymin ymax : fp) (w h : Int) (files : List (Option ply_file))
    (col_idx : Int) (out_dir : List Char) (k : Nat) (r : range) : Except fault tile_output :=
  match zero_images (r.sup - r.inf + 1) h with
  | none => .error .undefined
  | some x0 =>
    match add_files xmin xmax ymin ymax r.inf r.sup w h col_idx x0 .pinf files with
    | .error e => .error e
    | .ok (x, newxmin) =>
      if out_path_fits out_dir k then
        .ok { raster := set_unknown_to_nan x, w := x.w, h := x.h, xoff := newxmin, yoff := ymax }
      else .error .undefined

/-- Tile loop of `main` from tile `k`: the rasters written, and the fault that stopped the
run if any. -/
def main_tiles (xmin xmax ymin ymax : fp) (w h : Int) (files : List (Option ply_file))
    (col_idx : Int) (out_dir : List Char) : Nat → List range → List tile_output × Option fault
  | _, [] => ([], none)
  | k, r :: rs =>
    match main_tile xmin xmax ymin ymax w h files col_idx out_dir k r with
    | .error e => ([], some e)
    | .ok t =>
      ((t :: (main_tiles xmin xmax ymin ymax w h files col_idx out_dir (k + 1) rs).1),
        (main_tiles xmin xmax ymin ymax w h files col_idx out_dir (k + 1) rs).2)

/-- The extrema `main` goes on with: the four numbers of the option `-bb` when it is given,
which overwrite the scanned ones, else the scanned extrema. -/
def main_extrema (bb : Option (fp × fp × fp × fp)) (scanned : extrema) : extrema :=
  match bb with
  | some b => { xmin := b.1, xmax := b.2.1, ymin := b.2.2.1, ymax := b.2.2.2 }
  | none => scanned

/-- Function `main` after the command line is read: attribute index `col_idx`, the four numbers
of the option `-bb` if given, `resolution`, tile count `n`, output directory and the listed
files. The extent scan runs over every listed file before the option `-bb` is looked at. -/
def main (col_idx : Int) (bb : Option (fp × fp × fp × fp)) (resolution : fp) (n : Int)
    (out_dir : List Char) (files : List (Option ply_file)) : List tile_output × Option fault :=
  match scan_files extrema.init files with
  | .error e => ([], some e)
  | .ok scanned =>
    let e := main_extrema bb scanned
    let w := main_dimension e.xmin e.xmax resolution
    let h := main_dimension e.ymin e.ymax resolution
    match computeRanges (subdiv 0 (wrap_int (w - 1)) (wrap_int (n + 1))) n with
    | none => ([], some .undefined)
    | some res_ranges =>
      main_tiles e.xmin e.xmax e.ymin e.ymax w h files col_idx out_dir 0 res_ranges

/-- Result of one `fscanf(f, "%lf", &data[i])`: the returned count (1, 0 on a matching
failure, -1 for `EOF`), the converted `double` if any, and the stream afterwards. -/
structure scan_result where
  ret : Int
  value : Option fp
  stream : c_stream

/-- Decoding of the bytes of a binary `float` and `double` field: the machine's formats, taken
as a parameter. -/
structure float_codec where
  f32 : List Char → fp
  f64 : List Char → fp

/-- What the C standard guarantees of the library call `fscanf(f, "%lf", &x)`, whatever token
syntax the library accepts: it returns 1, 0 or `EOF`; when it returns 1 a value is stored; on
an exhausted input it does not return 1. -/
def fscanf_contract (scan : c_stream → scan_result) : Prop :=
  ∀ f, (scan f).ret ≤ 1 ∧ ((scan f).ret = 1 → (scan f).value ≠ none) ∧
    (f.data = [] → (scan f).ret ≠ 1)

/-- Binary branch of `get_record` over the properties still to read: each known kind adds the
result of its `fread` to `rec` and stores a value; the `switch` has no case for an unknown kind,
which reads nothing. A slot is `none` when it holds no decoded value. -/
def get_record_bin (dec : float_codec) :
    List ply_property → c_stream → Int → List (Option fp) → Int × List (Option fp) × c_stream
  | [], f, rec, data => (rec, data, f)
  | p :: ps, f, rec, data =>
    match p.type with
    | .UCHAR =>
      get_record_bin dec ps (fread_one 1 f).2.2 (rec + (fread_one 1 f).1)
        (data ++ [if (fread_one 1 f).1 = 1
          then some (.fin (((fread_one 1 f).2.1.headD (Char.ofNat 0)).toNat : ℚ)) else none])
    | .FLOAT =>
      get_record_bin dec ps (fread_one 4 f).2.2 (rec + (fread_one 4 f).1)
        (data ++ [if (fread_one 4 f).1 = 1 then some (dec.f32 (fread_one 4 f).2.1) else none])
    | .DOUBLE =>
      get_record_bin dec ps (fread_one 8 f).2.2 (rec + (fread_one 8 f).1)
        (data ++ [if (fread_one 8 f).1 = 1 then some (dec.f64 (fread_one 8 f).2.1) else none])
    | .UNKNOWN => get_record_bin dec ps f rec (data ++ [none])

/-- Ascii branch of `get_record` with `k = n - i` fields still to read:
`while (i < n && !feof(f_in)) { rec += fscanf(f_in,"%lf", &data[i]);  i++; }`, the library
call being the parameter `scan`. -/
def get_record_ascii (scan : c_stream → scan_result) :
    Nat → c_stream → Int → List (Option fp) → Int × List (Option fp) × c_stream
  | 0, f, rec, data => (rec, data, f)
  | k + 1, f, rec, data =>
    if f.eof then (rec, data ++ List.replicate (k + 1) none, f)
    else get_record_ascii scan k (scan f).stream (rec + (scan f).ret) (data ++ [(scan f).value])

/-- Function `get_record(f_in, isbin, t, n, data)`: the returned `rec`, the `n` slots of `data`
and the stream afterwards. The table `t` holds the `n` parsed properties. -/
def get_record (dec : float_codec) (scan : c_stream → scan_result) (f_in : c_stream)
    (isbin : Bool) (t : List ply_property) (n : Int) : Int × List (Option fp) × c_stream :=
  if isbin then get_record_bin dec (t.take n.toNat) f_in 0 []
  else get_record_ascii scan n.toNat f_in 0 []

/-- All of the next `k` ascii fields are decoded: before each one the end-of-file indicator is
clear and the library call returns 1. -/
def ascii_fields_decoded (scan : c_stream → scan_result) : Nat → c_stream → Bool
  | 0, _ => true
  | k + 1, f => !f.eof && decide ((scan f).ret = 1) && ascii_fields_decoded scan k (scan f).stream

/-- All `n` fields of the next record are successfully decoded, in the given mode. -/
def fields_decoded (scan : c_stream → scan_result) (f : c_stream) (isbin : Bool)
    (t : List ply_property) (n : Int) : Bool :=
  if isbin then
    decide (((t.take n.toNat).length : Int) = n) && bin_fields_decoded (t.take n.toNat) f
  else ascii_fields_decoded scan n.toNat f

/-- Relation between the result `r` of reading `k` fields and the state `(rec, data)` before:
at most `k` is added to `rec`, all `k` are added exactly when all fields are decoded, and `k`
slots are appended, all filled in that case. -/
def record_inv (r : Int × List (Option fp) × c_stream) (k : Nat) (rec : Int)
    (data : List (Option fp)) (decoded : Bool) : Prop :=
  r.1 - rec ≤ k ∧ (r.1 - rec = k ↔ decoded = true) ∧
    ∃ slots, r.2.1 = data ++ slots ∧ slots.length = k ∧
      (r.1 - rec = k → ∀ s ∈ slots, s ≠ none)

/-- A library scanner used in examples: plain decimal tokens, converted to `double`. -/
def decimal_scanner (f : c_stream) : scan_result :=
  { ret := (fscanf_lf f).ret, value := (fscanf_lf f).value.map (round binary64),
    stream := (fscanf_lf f).stream }

/-- A codec used in examples: both formats decode to the value of the first byte. -/
def example_codec : float_codec :=
  { f32 := fun bs => .fin ((bs.headD (Char.ofNat 0)).toNat : ℚ),
    f64 := fun bs => .fin ((bs.headD (Char.ofNat 0)).toNat : ℚ) }

/-- Header of an example file whose zone word fits the 3-byte buffer, followed by two lines of
the body. -/
def example_header : List (List Char) :=
  ["ply\n".toList, "format ascii 1.0\n".toList, "comment projection: UTM 31\n".toList,
    "element vertex 3\n".toList, "property float x\n".toList, "property float y\n".toList,
    "property float z\n".toList, "end_header\n".toList, "property uchar red\n".toList,
    "1 2 3\n".toList]

/-- Two input files carry the same records: both cannot be opened, or both have a header
that is parsed within the buffers, with the same number of fields, and the same decoded records
(their zone words may differ). -/
def same_records (f g : Option ply_file) : Prop :=
  match f, g with
  | none, none => True
  | some a, some b =>
    (∃ ha hb, a.header = some ha ∧ b.header = some hb ∧ ha.n = hb.n) ∧ a.records = b.records
  | _, _ => False

/-- Header of a file with the zone word `28N` of the source comment. -/
def header_28N : List (List Char) :=
  ["ply\n".toList, "format ascii 1.0\n".toList, "comment projection: UTM 28N\n".toList,
    "property float x\n".toList, "property float y\n".toList, "property float z\n".toList,
    "end_header\n".toList]

/-- The three points of the end-to-end scenario as records of `double`. -/
def scenario_records : List (List fp) :=
  [[.fin 10, .fin 10, .fin 100], [.fin 10, .fin 10, .fin 200], [.fin 20, .fin 20, .fin 50]]

/-- A parsed header with three fields and the given zone word. -/
def header_of_zone (tag : List Char) : ply_header :=
  { n := 3, isbin := false, utm := some tag, t := [], rest := [] }

/-- Field 0 of a record whose column falls in the tile window `[inf, sup]`, the condition
under which `add_ply_points_to_images` accumulates it; `none` for the other records. -/
def window_x (xmin xmax : fp) (inf sup : Int) (w : Int) (data : List fp) : Option fp :=
  match data[0]? with
  | some d0 =>
    if inf ≤ rescale_float_to_int d0 xmin xmax w ∧ rescale_float_to_int d0 xmin xmax w ≤ sup
    then some d0 else none
  | none => none

/-- The decoded records of the files that can be opened, in the order `main` streams them. -/
def file_records : List (Option ply_file) → List (List fp)
  | [] => []
  | none :: rest => file_records rest
  | some file :: rest => file.records ++ file_records rest

/-- Cell index a record is accumulated into for the tile `[inf, sup]` of a grid of width `tw`;
`none` when the record is outside the window or lacks field 0 or 1. -/
def target_cell (xmin xmax ymin ymax : fp) (inf sup : Int) (w h tw : Int) (data : List fp) :
    Option Nat :=
  match data[0]?, data[1]? with
  | some d0, some d1 =>
    if inf ≤ rescale_float_to_int d0 xmin xmax w ∧ rescale_float_to_int d0 xmin xmax w ≤ sup
    then
      some (((tw * rescale_float_to_int (fp.neg d1) (fp.neg ymax) (fp.neg ymin) h
        + (rescale_float_to_int d0 xmin xmax w - inf)) % 2 ^ 64).toNat)
    else none
  | _, _ => none

/-- Relation between the grid `t` of the tile whose window starts at column `inf` and the grid
`x` accumulated with the single range `[0, w-1]`: the cell of `t` at row `r`, local column `c`
holds the count and the mean of the cell of `x` at row `r`, column `inf + c`. -/
def tile_agrees (x t : images) (inf : Int) : Prop :=
  ∀ r c : Int, 0 ≤ r ∧ r < t.h → 0 ≤ c ∧ c < t.w →
    ∃ cv av, t.cnt[cell_index t c r]? = some cv ∧ x.cnt[cell_index x (inf + c) r]? = some cv ∧
      t.avg[cell_index t c r]? = some av ∧ x.avg[cell_index x (inf + c) r]? = some av

/-- A record the record loop consumes without an out-of-bounds read and without a failed
assertion: fields 0 and 1 exist, the selected field exists, and `data[2]` is finite when it is
the selected one. -/
def record_ok (col_idx : Int) (data : List fp) : Bool :=
  (data[0]?).isSome && (data[1]?).isSome && (selected_value col_idx data).isSome &&
    assert_finite col_idx data

/-- A listed file on which the record loop ends: it cannot be opened, or its header is parsed
within the buffers and declares at least one property. -/
def file_ok (f : Option ply_file) : Prop :=
  match f with
  | none => True
  | some file => ∃ hd, file.header = some hd ∧ hd.n ≠ 0

/-- An example file with the single record `(16777217, 10, 100)`: its X is the `double`
`2^24 + 1`, which is not a `float`. -/
def big_x_file : ply_file :=
  { header := some (header_of_zone "31".toList),
    records := [[.fin 16777217, .fin 10, .fin 100]] }

/-- The file list of the end-to-end scenario: one file with the three points. -/
def scenario_files : List (Option ply_file) :=
  [some { header := some (header_of_zone "31".toList), records := scenario_records }]

end machine

/-! ## Tile partitioner -/

theorem c_trunc_of_nonneg {q : ℚ} (h : 0 ≤ q) : c_trunc q = ⌊q⌋ := by
  simp [c_trunc, h]

theorem computeRanges_loop_spec (sd : List Int) :
    ∀ (k i : Nat) (p : Int), i + k < sd.length →
      ∃ rs, computeRanges_loop sd k i p = some rs ∧ rs.length = k ∧
        ∀ j, j < k → rs[j]? = some
          { inf := (if j = 0 then p else sd.getD (i + j) 0) + 1, sup := sd.getD (i + j + 1) 0 } := by
  intro k
  induction k with
  | zero => intro i p _; exact ⟨[], rfl, rfl, by intro j hj; omega⟩
  | succ k ih =>
    intro i p h
    have h1 : i + 1 < sd.length := by omega
    obtain ⟨rs, hrs, hlen, hget⟩ := ih (i + 1) (sd.getD (i + 1) 0) (by omega)
    refine ⟨{ inf := p + 1, sup := sd.getD (i + 1) 0 } :: rs, ?_, by simp [hlen], ?_⟩
    · rw [List.getD_eq_getElem _ _ h1] at hrs
      simp [computeRanges_loop, List.getElem?_eq_getElem h1, hrs, List.getD_eq_getElem _ _ h1]
    · intro j hj
      cases j with
      | zero => simp
      | succ j =>
        have := hget j (by omega)
        have e1 : i + 1 + j = i + (j + 1) := by omega
        simp only [List.getElem?_cons_succ, this, e1]
        by_cases hj0 : j = 0
        · subst hj0; simp
        · simp [hj0]

/-! ## Grid accumulator -/

theorem cell_index_of_in_range (x : images) (i j : Int) (hw : x.w < 2 ^ 31) (hh : x.h < 2 ^ 31)
    (hi : 0 ≤ i ∧ i < x.w) (hj : 0 ≤ j ∧ j < x.h) :
    cell_index x i j = (x.w * j + i).toNat ∧ x.w * j + i < x.w * x.h ∧ 0 ≤ x.w * j + i := by
  have h0 : 0 ≤ x.w * j := mul_nonneg (by omega) hj.1
  have h1 : x.w * j + x.w ≤ x.w * x.h := by nlinarith
  have h2 : x.w * x.h < 2 ^ 31 * 2 ^ 31 := by nlinarith
  have h3 : x.w * j + i < 2 ^ 64 := by
    have : (2 : Int) ^ 31 * 2 ^ 31 ≤ 2 ^ 64 := by norm_num
    omega
  refine ⟨?_, by omega, by omega⟩
  unfold cell_index
  rw [Int.emod_eq_of_lt (by omega) h3]

theorem add_height_to_images_eq (x : images) (i j : Int) (v c a : ℚ)
    (hc : x.cnt[cell_index x i j]? = some c) (ha : x.avg[cell_index x i j]? = some a)
    (h1 : 1 + c ≠ 0) :
    add_height_to_images x i j v =
      some { x with avg := x.avg.set (cell_index x i j) ((v + c * a) / (1 + c)),
                    cnt := x.cnt.set (cell_index x i j) (c + 1) } := by
  simp [add_height_to_images, hc, ha, fdiv, h1]

theorem add_height_to_images_inv (x x' : images) (i j : Int) (v : ℚ)
    (h : add_height_to_images x i j v = some x') :
    ∃ c a, x.cnt[cell_index x i j]? = some c ∧ x.avg[cell_index x i j]? = some a ∧ 1 + c ≠ 0 ∧
      x' = { x with avg := x.avg.set (cell_index x i j) ((v + c * a) / (1 + c)),
                    cnt := x.cnt.set (cell_index x i j) (c + 1) } := by
  unfold add_height_to_images at h
  cases hc : x.cnt[cell_index x i j]? with
  | none => simp [hc] at h
  | some c =>
    cases ha : x.avg[cell_index x i j]? with
    | none => simp [hc, ha] at h
    | some a =>
      by_cases h1 : 1 + c = 0
      · simp [hc, ha, fdiv, h1] at h
      · refine ⟨c, a, rfl, rfl, h1, ?_⟩
        simp [hc, ha, fdiv, h1] at h
        exact h.symm

theorem add_height_to_images_frame (x x' : images) (i j : Int) (v : ℚ)
    (h : add_height_to_images x i j v = some x') :
    x'.w = x.w ∧ x'.h = x.h ∧ x'.cnt.length = x.cnt.length ∧ x'.avg.length = x.avg.length ∧
      ∀ m, m ≠ cell_index x i j → x'.cnt[m]? = x.cnt[m]? ∧ x'.avg[m]? = x.avg[m]? := by
  obtain ⟨c, a, _, _, _, rfl⟩ := add_height_to_images_inv x x' i j v h
  refine ⟨rfl, rfl, by simp, by simp, ?_⟩
  intro m hm
  simp [List.getElem?_set_ne (Ne.symm hm)]

theorem wf_images_cell (x : images) (i j : Int) (hx : wf_images x)
    (hi : 0 ≤ i ∧ i < x.w) (hj : 0 ≤ j ∧ j < x.h) :
    cell_index x i j = (x.w * j + i).toNat ∧
      ∃ c a, x.cnt[cell_index x i j]? = some c ∧ x.avg[cell_index x i j]? = some a ∧ 0 ≤ c := by
  obtain ⟨hw0, hw, hh0, hh, hlc, hla, hpos⟩ := hx
  obtain ⟨hk, hlt, h0⟩ := cell_index_of_in_range x i j hw hh hi hj
  have hkc : cell_index x i j < x.cnt.length := by rw [hk, hlc]; omega
  have hka : cell_index x i j < x.avg.length := by rw [hk, hla]; omega
  refine ⟨hk, x.cnt[cell_index x i j], x.avg[cell_index x i j],
    List.getElem?_eq_getElem hkc, List.getElem?_eq_getElem hka, ?_⟩
  exact hpos _ (List.getElem_mem _)

theorem add_heights_spec (i j : Int) (vs : List ℚ) :
    ∀ (x : images) (c a : ℚ), x.cnt[cell_index x i j]? = some c →
      x.avg[cell_index x i j]? = some a → 0 ≤ c →
      ∃ x', add_heights x i j vs = some x' ∧ x'.w = x.w ∧ x'.h = x.h ∧
        x'.cnt[cell_index x i j]? = some (c + (vs.length : ℚ)) ∧
        x'.avg[cell_index x i j]? =
          some (if vs = [] then a else (c * a + vs.sum) / (c + (vs.length : ℚ))) := by
  induction vs with
  | nil =>
    intro x c a hc ha _
    exact ⟨x, rfl, rfl, rfl, by simpa using hc, by simpa using ha⟩
  | cons v vs ih =>
    intro x c a hc ha hc0
    have h1 : 1 + c ≠ 0 := by linarith
    have hstep := add_height_to_images_eq x i j v c a hc ha h1
    have hkc : cell_index x i j < x.cnt.length := by
      by_contra hge
      rw [List.getElem?_eq_none (by omega)] at hc
      cases hc
    have hka : cell_index x i j < x.avg.length := by
      by_contra hge
      rw [List.getElem?_eq_none (by omega)] at ha
      cases ha
    set x1 : images := { x with avg := x.avg.set (cell_index x i j) ((v + c * a) / (1 + c)),
                                cnt := x.cnt.set (cell_index x i j) (c + 1) } with hx1
    have hidx : cell_index x1 i j = cell_index x i j := rfl
    obtain ⟨x', hx', hw', hh', hc', ha'⟩ := ih x1 (c + 1) ((v + c * a) / (1 + c))
      (by rw [hidx]; simp [hx1, hkc]) (by rw [hidx]; simp [hx1, hka]) (by linarith)
    rw [hidx] at hc' ha'
    refine ⟨x', ?_, hw', hh', ?_, ?_⟩
    · simp [add_heights, hstep, hx']
    · rw [hc']; congr 1; simp only [List.length_cons]; push_cast; ring
    · rw [ha']
      congr 1
      have hlen : (0 : ℚ) ≤ (vs.length : ℚ) := by positivity
      have h2 : c + 1 + (vs.length : ℚ) ≠ 0 := by linarith
      by_cases hvs : vs = []
      · subst hvs
        simp
        field_simp
        ring
      · simp only [hvs, if_false, List.cons_ne_nil, List.sum_cons, List.length_cons]
        push_cast
        have h3 : c + ((vs.length : ℚ) + 1) ≠ 0 := by linarith
        field_simp
        ring

/-- C2: feeding a non-empty sequence v1..vk by k successive add_height_to_images calls into the
same in-range cell (i, j) of a zero-initialised grid leaves that cell with count = k and
mean = (v1 + ... + vk) / k, in exact arithmetic. -/
theorem C2_running_mean_is_average (w h i j : Int) (vs : List ℚ) (hw : w < 2 ^ 31)
    (hh : h < 2 ^ 31) (hi : 0 ≤ i ∧ i < w) (hj : 0 ≤ j ∧ j < h) (hvs : vs ≠ []) :
    ∃ x', add_heights (zero_images w h) i j vs = some x' ∧
      x'.cnt[(w * j + i).toNat]? = some (vs.length : ℚ) ∧
      x'.avg[(w * j + i).toNat]? = some (vs.sum / (vs.length : ℚ)) := by
  have hwf : wf_images (zero_images w h) := by
    refine ⟨by show 0 ≤ w; omega, hw, by show 0 ≤ h; omega, hh, by simp [zero_images],
      by simp [zero_images], ?_⟩
    intro c hc
    simp [zero_images] at hc
    rw [hc.2]
  obtain ⟨hk, c, a, hc, ha, _⟩ := wf_images_cell (zero_images w h) i j hwf hi hj
  have hc0 : c = 0 := by
    have hm := List.getElem?_mem hc
    simp [zero_images] at hm
    exact hm.2
  have ha0 : a = 0 := by
    have hm := List.getElem?_mem ha
    simp [zero_images] at hm
    exact hm.2
  subst hc0 ha0
  obtain ⟨x', hx', _, _, hc', ha'⟩ :=
    add_heights_spec i j vs (zero_images w h) 0 0 hc ha (le_refl 0)
  have hk' : cell_index (zero_images w h) i j = (w * j + i).toNat := hk
  rw [hk'] at hc' ha'
  refine ⟨x', hx', by simpa using hc', ?_⟩
  rw [ha']
  simp [hvs]

theorem C2_running_mean_is_average_witness :
    ∃ x', add_heights (zero_images 4 4) 1 2 [100, 200] = some x' ∧
      x'.cnt[((4 : Int) * 2 + 1).toNat]? = some (([100, 200] : List ℚ).length : ℚ) ∧
      x'.avg[((4 : Int) * 2 + 1).toNat]? =
        some (([100, 200] : List ℚ).sum / (([100, 200] : List ℚ).length : ℚ)) :=
  C2_running_mean_is_average 4 4 1 2 [100, 200] (by decide) (by decide) (by decide) (by decide)
    (by decide)

/-! ## Coordinate mapping and raster dimensions -/

theorem rescale_float_to_int_eq (x lo hi : ℚ) (w : Int) (h : hi - lo ≠ 0) :
    rescale_float_to_int x lo hi w =
      some (if (if c_trunc ((w : ℚ) * (x - lo) / (hi - lo)) < 0 then 0
                else c_trunc ((w : ℚ) * (x - lo) / (hi - lo))) ≥ w then w - 1
            else (if c_trunc ((w : ℚ) * (x - lo) / (hi - lo)) < 0 then 0
                  else c_trunc ((w : ℚ) * (x - lo) / (hi - lo)))) := by
  simp [rescale_float_to_int, fdiv, h]

/-! ## Accumulation of records into a tile -/

theorem add_ply_point_inv (x x' : images) (xmin xmax ymin ymax : ℚ) (inf sup : Int)
    (newxmin newxmin' : Option ℚ) (w h col_idx : Int) (data : List ℚ)
    (hstep : add_ply_point x xmin xmax ymin ymax inf sup newxmin w h col_idx data
      = some (x', newxmin')) :
    ∃ d0 d1 i j, data[0]? = some d0 ∧ data[1]? = some d1 ∧
      rescale_float_to_int d0 xmin xmax w = some i ∧
      rescale_float_to_int (-d1) (-ymax) (-ymin) h = some j ∧
      (((inf ≤ i ∧ i ≤ sup) ∧
          target_cell xmin xmax ymin ymax inf sup w h x.w data
            = some (cell_index x (i - inf) j) ∧
          newxmin' = update_newxmin newxmin d0 ∧
          ∃ v, selected_value col_idx data = some v ∧
            add_height_to_images x (i - inf) j v = some x')
        ∨ ¬ (inf ≤ i ∧ i ≤ sup) ∧
          target_cell xmin xmax ymin ymax inf sup w h x.w data = none ∧
          x' = x ∧ newxmin' = newxmin) := by
  unfold add_ply_point at hstep
  cases h0 : data[0]? with
  | none => simp [h0] at hstep
  | some d0 =>
    cases h1 : data[1]? with
    | none => simp [h0, h1] at hstep
    | some d1 =>
      cases hi : rescale_float_to_int d0 xmin xmax w with
      | none => simp [h0, h1, hi] at hstep
      | some i =>
        cases hj : rescale_float_to_int (-d1) (-ymax) (-ymin) h with
        | none => simp [h0, h1, hi, hj] at hstep
        | some j =>
          refine ⟨d0, d1, i, j, rfl, rfl, hi, hj, ?_⟩
          by_cases hwin : inf ≤ i ∧ i ≤ sup
          · left
            refine ⟨hwin, by simp [target_cell, h0, h1, hi, hj, hwin, cell_index], ?_⟩
            cases hv : selected_value col_idx data with
            | none => simp [h0, h1, hi, hj, hwin, hv] at hstep
            | some v =>
              cases ha : add_height_to_images x (i - inf) j v with
              | none => simp [h0, h1, hi, hj, hwin, hv, ha] at hstep
              | some x1 =>
                simp [h0, h1, hi, hj, hwin, hv, ha] at hstep
                exact ⟨hstep.2.symm, v, rfl, by rw [ha, hstep.1]⟩
          · right
            refine ⟨hwin, by simp [target_cell, h0, h1, hi, hj, hwin], ?_⟩
            simp [h0, h1, hi, hj, hwin] at hstep
            exact ⟨hstep.1.symm, hstep.2.symm⟩

theorem add_ply_point_frame (x x' : images) (xmin xmax ymin ymax : ℚ) (inf sup : Int)
    (newxmin newxmin' : Option ℚ) (w h col_idx : Int) (data : List ℚ)
    (hstep : add_ply_point x xmin xmax ymin ymax inf sup newxmin w h col_idx data
      = some (x', newxmin')) :
    x'.w = x.w ∧ x'.h = x.h ∧ x'.cnt.length = x.cnt.length ∧ x'.avg.length = x.avg.length ∧
      ∀ m, target_cell xmin xmax ymin ymax inf sup w h x.w data ≠ some m →
        x'.cnt[m]? = x.cnt[m]? ∧ x'.avg[m]? = x.avg[m]? := by
  obtain ⟨d0, d1, i, j, _, _, _, _, hcase⟩ :=
    add_ply_point_inv x x' xmin xmax ymin ymax inf sup newxmin newxmin' w h col_idx data hstep
  rcases hcase with ⟨_, htc, _, v, _, hadd⟩ | ⟨_, _, hx, _⟩
  · obtain ⟨hw', hh', hlc, hla, hfr⟩ := add_height_to_images_frame x x' (i - inf) j v hadd
    refine ⟨hw', hh', hlc, hla, ?_⟩
    intro m hm
    rw [htc] at hm
    exact hfr m (fun e => hm (by rw [e]))
  · subst hx
    exact ⟨rfl, rfl, rfl, rfl, fun _ _ => ⟨rfl, rfl⟩⟩

theorem add_ply_records_frame (xmin xmax ymin ymax : ℚ) (inf sup : Int) (w h col_idx : Int)
    (records : List (List ℚ)) :
    ∀ (x x' : images) (newxmin newxmin' : Option ℚ),
      add_ply_records xmin xmax ymin ymax inf sup w h col_idx x newxmin records
        = some (x', newxmin') →
      x'.w = x.w ∧ x'.h = x.h ∧ x'.cnt.length = x.cnt.length ∧ x'.avg.length = x.avg.length ∧
      ∀ m, (∀ data ∈ records,
          target_cell xmin xmax ymin ymax inf sup w h x.w data ≠ some m) →
        x'.cnt[m]? = x.cnt[m]? ∧ x'.avg[m]? = x.avg[m]? := by
  induction records with
  | nil =>
    intro x x' nx nx' hrun
    simp [add_ply_records] at hrun
    rw [← hrun.1]
    exact ⟨rfl, rfl, rfl, rfl, fun _ _ => ⟨rfl, rfl⟩⟩
  | cons data rest ih =>
    intro x x' nx nx' hrun
    unfold add_ply_records at hrun
    cases hstep : add_ply_point x xmin xmax ymin ymax inf sup nx w h col_idx data with
    | none => simp [hstep] at hrun
    | some p =>
      obtain ⟨x1, nx1⟩ := p
      simp only [hstep] at hrun
      obtain ⟨hw1, hh1, hlc1, hla1, hfr1⟩ :=
        add_ply_point_frame x x1 xmin xmax ymin ymax inf sup nx nx1 w h col_idx data hstep
      obtain ⟨hw2, hh2, hlc2, hla2, hfr2⟩ := ih x1 x' nx1 nx' hrun
      refine ⟨hw2.trans hw1, hh2.trans hh1, hlc2.trans hlc1, hla2.trans hla1, ?_⟩
      intro m hm
      have h1 := hfr1 m (hm data (List.mem_cons_self _ _))
      have h2 := hfr2 m (fun d hd => by
        rw [hw1]; exact hm d (List.mem_cons_of_mem _ hd))
      exact ⟨h2.1.trans h1.1, h2.2.trans h1.2⟩

theorem add_files_frame (xmin xmax ymin ymax : ℚ) (inf sup : Int) (w h : Int)
    (utm_zone : String) (col_idx : Int) (files : List (Option ply_file)) :
    ∀ (x x' : images) (newxmin newxmin' : Option ℚ),
      add_files xmin xmax ymin ymax inf sup w h utm_zone col_idx x newxmin files
        = .ok (x', newxmin') →
      x'.w = x.w ∧ x'.h = x.h ∧ x'.cnt.length = x.cnt.length ∧ x'.avg.length = x.avg.length ∧
      ∀ m, (∀ file, some file ∈ files → ∀ data ∈ file.records,
          target_cell xmin xmax ymin ymax inf sup w h x.w data ≠ some m) →
        x'.cnt[m]? = x.cnt[m]? ∧ x'.avg[m]? = x.avg[m]? := by
  induction files with
  | nil =>
    intro x x' nx nx' hrun
    simp only [add_files, Except.ok.injEq, Prod.mk.injEq] at hrun
    rw [← hrun.1]
    exact ⟨rfl, rfl, rfl, rfl, fun _ _ => ⟨rfl, rfl⟩⟩
  | cons f rest ih =>
    intro x x' nx nx' hrun
    unfold add_files at hrun
    cases hf : add_ply_points_to_images x xmin xmax ymin ymax inf sup nx w h utm_zone f col_idx with
    | error e => simp [hf] at hrun
    | ok p =>
      obtain ⟨x1, nx1⟩ := p
      simp only [hf] at hrun
      have hone : x1.w = x.w ∧ x1.h = x.h ∧ x1.cnt.length = x.cnt.length ∧
          x1.avg.length = x.avg.length ∧
          ∀ m, (∀ file, some file = f → ∀ data ∈ file.records,
              target_cell xmin xmax ymin ymax inf sup w h x.w data ≠ some m) →
            x1.cnt[m]? = x.cnt[m]? ∧ x1.avg[m]? = x.avg[m]? := by
        unfold add_ply_points_to_images at hf
        cases f with
        | none =>
          simp only [Except.ok.injEq, Prod.mk.injEq] at hf
          rw [← hf.1]
          exact ⟨rfl, rfl, rfl, rfl, fun _ _ => ⟨rfl, rfl⟩⟩
        | some file =>
          simp only at hf
          by_cases hcol : col_idx < 2 ∨ col_idx > 5
          · simp [hcol] at hf
          · simp only [hcol, if_false] at hf
            cases hrec : add_ply_records xmin xmax ymin ymax inf sup w h col_idx x nx
                file.records with
            | none => simp [hrec] at hf
            | some q =>
              simp only [hrec, Except.ok.injEq] at hf
              subst hf
              obtain ⟨a, b, c, d, e⟩ :=
                add_ply_records_frame xmin xmax ymin ymax inf sup w h col_idx file.records
                  x x1 nx nx1 hrec
              exact ⟨a, b, c, d, fun m hm => e m (hm file rfl)⟩
      obtain ⟨hw1, hh1, hlc1, hla1, hfr1⟩ := hone
      obtain ⟨hw2, hh2, hlc2, hla2, hfr2⟩ := ih x1 x' nx1 nx' hrun
      refine ⟨hw2.trans hw1, hh2.trans hh1, hlc2.trans hlc1, hla2.trans hla1, ?_⟩
      intro m hm
      have h1 := hfr1 m (fun file hfile => hm file (by rw [hfile]; exact List.mem_cons_self _ _))
      have h2 := hfr2 m (fun file hfile d hd => by
        rw [hw1]; exact hm file (List.mem_cons_of_mem _ hfile) d hd)
      exact ⟨h2.1.trans h1.1, h2.2.trans h1.2⟩

/-- C7: for a decoded point (d0, d1, ...) and a non-degenerate bounding box, the point-processing
step updates the grid if and only if the global column i = rescale(d0) lies in [inf, sup]; inside
the window it is exactly add_height_to_images at (local column i - inf, row j), changing only
that cell; outside the window the grid and the tile-local minimum X are returned unchanged. -/
theorem C7_window_test (x : images) (xmin xmax ymin ymax : ℚ) (inf sup : Int)
    (newxmin : Option ℚ) (w h col_idx : Int) (d0 d1 : ℚ) (rest : List ℚ)
    (hx : xmin ≠ xmax) (hy : ymin ≠ ymax) :
    ∃ i j, rescale_float_to_int d0 xmin xmax w = some i ∧
      rescale_float_to_int (-d1) (-ymax) (-ymin) h = some j ∧
      (¬ (inf ≤ i ∧ i ≤ sup) →
        add_ply_point x xmin xmax ymin ymax inf sup newxmin w h col_idx (d0 :: d1 :: rest)
          = some (x, newxmin)) ∧
      ((inf ≤ i ∧ i ≤ sup) →
        add_ply_point x xmin xmax ymin ymax inf sup newxmin w h col_idx (d0 :: d1 :: rest)
          = (selected_value col_idx (d0 :: d1 :: rest)).bind fun v =>
              (add_height_to_images x (i - inf) j v).map fun x' =>
                (x', update_newxmin newxmin d0)) ∧
      (∀ x' newxmin',
        add_ply_point x xmin xmax ymin ymax inf sup newxmin w h col_idx (d0 :: d1 :: rest)
          = some (x', newxmin') →
        (x' ≠ x ↔ (inf ≤ i ∧ i ≤ sup)) ∧
        ((inf ≤ i ∧ i ≤ sup) →
          (∃ c, x.cnt[cell_index x (i - inf) j]? = some c ∧
            x'.cnt[cell_index x (i - inf) j]? = some (c + 1)) ∧
          ∀ m, m ≠ cell_index x (i - inf) j →
            x'.cnt[m]? = x.cnt[m]? ∧ x'.avg[m]? = x.avg[m]?)) := by
  have hdx : xmax - xmin ≠ 0 := sub_ne_zero.mpr (Ne.symm hx)
  have hdy : -ymin - -ymax ≠ 0 := by
    intro h0
    apply hy
    linarith
  obtain ⟨i, hi⟩ : ∃ i, rescale_float_to_int d0 xmin xmax w = some i :=
    ⟨_, rescale_float_to_int_eq d0 xmin xmax w hdx⟩
  obtain ⟨j, hj⟩ : ∃ j, rescale_float_to_int (-d1) (-ymax) (-ymin) h = some j :=
    ⟨_, rescale_float_to_int_eq (-d1) (-ymax) (-ymin) h hdy⟩
  refine ⟨i, j, hi, hj, ?_, ?_, ?_⟩
  · intro hwin
    simp [add_ply_point, hi, hj, hwin]
  · intro hwin
    simp only [add_ply_point, hi, hj, hwin, List.getElem?_cons_zero, List.getElem?_cons_succ,
      Option.bind_eq_bind, Option.some_bind, and_self, if_true, Option.pure_def]
    cases selected_value col_idx (d0 :: d1 :: rest) with
    | none => rfl
    | some v =>
      simp only [Option.some_bind]
      cases add_height_to_images x (i - inf) j v <;> rfl
  · intro x' nx' hstep
    obtain ⟨e0, e1, i', j', h0, h1, hi', hj', hcase⟩ :=
      add_ply_point_inv x x' xmin xmax ymin ymax inf sup newxmin nx' w h col_idx _ hstep
    simp only [List.getElem?_cons_zero, List.getElem?_cons_succ, Option.some.injEq] at h0 h1
    subst h0 h1
    rw [hi] at hi'
    rw [hj] at hj'
    cases hi'
    cases hj'
    rcases hcase with ⟨hwin, _, _, v, _, hadd⟩ | ⟨hwin, _, hxx, _⟩
    · obtain ⟨c, a, hc, ha, h1c, hx'⟩ := add_height_to_images_inv x x' _ _ v hadd
      have hkc : cell_index x (i - inf) j < x.cnt.length := by
        by_contra hge
        rw [List.getElem?_eq_none (by omega)] at hc
        cases hc
      have hcnt' : x'.cnt[cell_index x (i - inf) j]? = some (c + 1) := by
        rw [hx']
        simp [hkc]
      refine ⟨⟨fun _ => hwin, fun _ hxx => ?_⟩, fun _ => ⟨⟨c, hc, hcnt'⟩, ?_⟩⟩
      · rw [hxx, hc] at hcnt'
        have := Option.some.inj hcnt'
        linarith
      · exact (add_height_to_images_frame x x' _ _ v hadd).2.2.2.2
    · exact ⟨⟨fun hne => absurd hxx hne, fun hw' => absurd hw' hwin⟩, fun hw' => absurd hw' hwin⟩

theorem C7_window_test_witness :
    ∃ i j, rescale_float_to_int 10 0 30 4 = some i ∧
      rescale_float_to_int (-10) (-30) (-0) 4 = some j ∧
      (¬ (2 ≤ i ∧ i ≤ 3) →
        add_ply_point (zero_images 2 4) 0 30 0 30 2 3 none 4 4 2 (10 :: 10 :: [100])
          = some (zero_images 2 4, none)) ∧
      ((2 ≤ i ∧ i ≤ 3) →
        add_ply_point (zero_images 2 4) 0 30 0 30 2 3 none 4 4 2 (10 :: 10 :: [100])
          = (selected_value 2 (10 :: 10 :: [100])).bind fun v =>
              (add_height_to_images (zero_images 2 4) (i - 2) j v).map fun x' =>
                (x', update_newxmin none 10)) ∧
      (∀ x' newxmin',
        add_ply_point (zero_images 2 4) 0 30 0 30 2 3 none 4 4 2 (10 :: 10 :: [100])
          = some (x', newxmin') →
        (x' ≠ zero_images 2 4 ↔ (2 ≤ i ∧ i ≤ 3)) ∧
        ((2 ≤ i ∧ i ≤ 3) →
          (∃ c, (zero_images 2 4).cnt[cell_index (zero_images 2 4) (i - 2) j]? = some c ∧
            x'.cnt[cell_index (zero_images 2 4) (i - 2) j]? = some (c + 1)) ∧
          ∀ m, m ≠ cell_index (zero_images 2 4) (i - 2) j →
            x'.cnt[m]? = (zero_images 2 4).cnt[m]? ∧ x'.avg[m]? = (zero_images 2 4).avg[m]?)) :=
  C7_window_test (zero_images 2 4) 0 30 0 30 2 3 none 4 4 2 10 10 [100]
    (by norm_num) (by norm_num)

/-! ## Finalisation and the end-to-end run -/

theorem set_unknown_to_nan_getElem? (x : images) (m : Nat) (c a : ℚ)
    (hc : x.cnt[m]? = some c) (ha : x.avg[m]? = some a) :
    (set_unknown_to_nan x)[m]? = some (if c = 0 then none else some a) := by
  unfold set_unknown_to_nan
  rw [List.getElem?_zipWith, hc, ha]

/-- C5: after the finalisation loop every cell whose count is 0 holds NaN and every cell whose
count is non-zero keeps its accumulated mean; and in the raster written for a tile, every cell
that no record of any file is mapped to is NaN. -/
theorem C5_unknown_cells_are_nan (x : images) (hlen : x.avg.length = x.cnt.length)
    (xmin xmax ymin ymax : ℚ) (w h : Int) (utm : String) (files : List (Option ply_file))
    (col_idx : Int) (r : range) (t : tile_output)
    (hrun : main_tile xmin xmax ymin ymax w h utm files col_idx r = .ok t) :
    (set_unknown_to_nan x).length = x.cnt.length ∧
    (∀ m, m < x.cnt.length →
      ∃ c a, x.cnt[m]? = some c ∧ x.avg[m]? = some a ∧
        (c = 0 → (set_unknown_to_nan x)[m]? = some none) ∧
        (c ≠ 0 → (set_unknown_to_nan x)[m]? = some (some a))) ∧
    t.raster.length = (r.size * h).toNat ∧
    (∀ m, m < (r.size * h).toNat →
      (∀ file, some file ∈ files → ∀ data ∈ file.records,
        target_cell xmin xmax ymin ymax r.inf r.sup w h r.size data ≠ some m) →
      t.raster[m]? = some none) := by
  refine ⟨by simp [set_unknown_to_nan, hlen], ?_, ?_⟩
  · intro m hm
    have hma : m < x.avg.length := by omega
    refine ⟨x.cnt[m], x.avg[m], List.getElem?_eq_getElem hm, List.getElem?_eq_getElem hma, ?_, ?_⟩
    · intro h0
      rw [set_unknown_to_nan_getElem? x m _ _ (List.getElem?_eq_getElem hm)
        (List.getElem?_eq_getElem hma)]
      simp [h0]
    · intro h0
      rw [set_unknown_to_nan_getElem? x m _ _ (List.getElem?_eq_getElem hm)
        (List.getElem?_eq_getElem hma)]
      simp [h0]
  · unfold main_tile at hrun
    cases hacc : add_files xmin xmax ymin ymax r.inf r.sup w h utm col_idx
        (zero_images r.size h) none files with
    | error e => simp [hacc] at hrun
    | ok p =>
      obtain ⟨x', nx'⟩ := p
      simp only [hacc, Except.ok.injEq] at hrun
      subst hrun
      obtain ⟨_, _, hlc, hla, hfr⟩ :=
        add_files_frame xmin xmax ymin ymax r.inf r.sup w h utm col_idx files
          (zero_images r.size h) x' none nx' hacc
      have hzc : (zero_images r.size h).cnt.length = (r.size * h).toNat := by simp [zero_images]
      have hza : (zero_images r.size h).avg.length = (r.size * h).toNat := by simp [zero_images]
      refine ⟨by simp [set_unknown_to_nan, hlc, hla, hzc, hza], ?_⟩
      intro m hm hno
      obtain ⟨hc, ha⟩ := hfr m hno
      have hc0 : x'.cnt[m]? = some 0 := by
        rw [hc]; simp [zero_images, hm]
      have ha0 : x'.avg[m]? = some 0 := by
        rw [ha]; simp [zero_images, hm]
      show (set_unknown_to_nan x')[m]? = some none
      rw [set_unknown_to_nan_getElem? x' m 0 0 hc0 ha0]
      simp

theorem C5_unknown_cells_are_nan_witness :
    (set_unknown_to_nan { cnt := [0, 2], avg := [0, 150], w := 2, h := 1 }).length
      = ([0, 2] : List ℚ).length ∧
    (∀ m, m < ([0, 2] : List ℚ).length →
      ∃ c a, ([0, 2] : List ℚ)[m]? = some c ∧ ([0, 150] : List ℚ)[m]? = some a ∧
        (c = 0 → (set_unknown_to_nan { cnt := [0, 2], avg := [0, 150], w := 2, h := 1 })[m]?
          = some none) ∧
        (c ≠ 0 → (set_unknown_to_nan { cnt := [0, 2], avg := [0, 150], w := 2, h := 1 })[m]?
          = some (some a))) ∧
    (tile_output.mk
      [none, none, none, none, none, none, some 50, none, none, some 150, none, none, none, none,
        none, none] 4 4 (some 10) 30).raster.length
      = (range.size { inf := 0, sup := 3 } * 4).toNat ∧
    (∀ m, m < (range.size { inf := 0, sup := 3 } * 4).toNat →
      (∀ file, some file ∈ scenario_files → ∀ data ∈ file.records,
        target_cell 0 30 0 30 0 3 4 4 (range.size { inf := 0, sup := 3 }) data ≠ some m) →
      (tile_output.mk
        [none, none, none, none, none, none, some 50, none, none, some 150, none, none, none,
          none, none, none] 4 4 (some 10) 30).raster[m]? = some none) :=
  C5_unknown_cells_are_nan { cnt := [0, 2], avg := [0, 150], w := 2, h := 1 } (by decide)
    0 30 0 30 4 4 "31N" scenario_files 2 { inf := 0, sup := 3 } _ (by decide!)

/-- C6: end-to-end scenario. Bounding box 0..30 x 0..30 and resolution 10 give width = height = 4;
one tile [0, 3]; attribute index 2; the points (10,10,100), (10,10,200), (20,20,50). Point (10,10)
maps to column 1, row 2 (cell 9), which ends with count 2 and mean 150; point (20,20) maps to
column 2, row 1 (cell 6), which ends with count 1 and mean 50; the other 14 cells of the written
raster are NaN. -/
theorem C6_end_to_end_scenario :
    main_dimension 0 30 10 = some 4 ∧
    subdiv 0 (4 - 1) (1 + 1) = some [0, 3] ∧
    computeRanges [0, 3] 1 = some [{ inf := 0, sup := 3 }] ∧
    rescale_float_to_int 10 0 30 4 = some 1 ∧ rescale_float_to_int (-10) (-30) (-0) 4 = some 2 ∧
    rescale_float_to_int 20 0 30 4 = some 2 ∧ rescale_float_to_int (-20) (-30) (-0) 4 = some 1 ∧
    cell_index (zero_images 4 4) (1 - 0) 2 = 9 ∧ cell_index (zero_images 4 4) (2 - 0) 1 = 6 ∧
    add_files 0 30 0 30 0 3 4 4 "31N" 2 (zero_images 4 4) none scenario_files =
      .ok (images.mk [0, 0, 0, 0, 0, 0, 1, 0, 0, 2, 0, 0, 0, 0, 0, 0]
        [0, 0, 0, 0, 0, 0, 50, 0, 0, 150, 0, 0, 0, 0, 0, 0] 4 4, some 10) ∧
    main_from_bbox 2 0 30 0 30 10 1 "31N" scenario_files =
      ([tile_output.mk [none, none, none, none, none, none, some 50, none, none, some 150, none,
                     none, none, none, none, none] 4 4 (some 10) 30], none) := by
  decide!

/-! ## Zone code -/

/-- C11: for every two-digit zone number zz (digits d1 d2) get_utm_zone_index_for_geotiff applied
to the string "zzN" returns 32600 + zz and applied to "zzS" returns 32700 + zz. -/
theorem C11_zone_code (d1 d2 : Nat) (h1 : d1 < 10) (h2 : d2 < 10) :
    get_utm_zone_index_for_geotiff [Nat.digitChar d1, Nat.digitChar d2, 'N']
      = 32000 + 600 + (10 * (d1 : Int) + (d2 : Int)) ∧
    get_utm_zone_index_for_geotiff [Nat.digitChar d1, Nat.digitChar d2, 'S']
      = 32000 + 700 + (10 * (d1 : Int) + (d2 : Int)) := by
  interval_cases d1 <;> interval_cases d2 <;> decide

theorem C11_zone_code_witness :
    get_utm_zone_index_for_geotiff ['2', '8', 'N']
      = 32000 + 600 + (10 * ((2 : Nat) : Int) + ((8 : Nat) : Int)) ∧
    get_utm_zone_index_for_geotiff ['2', '8', 'S']
      = 32000 + 700 + (10 * ((2 : Nat) : Int) + ((8 : Nat) : Int)) :=
  C11_zone_code 2 8 (by decide) (by decide)

/-! ## Order independence of the running mean -/

theorem add_heights_frame (i j : Int) (vs : List ℚ) :
    ∀ (x x' : images), add_heights x i j vs = some x' →
      x'.w = x.w ∧ x'.h = x.h ∧ x'.cnt.length = x.cnt.length ∧ x'.avg.length = x.avg.length ∧
      ∀ m, m ≠ cell_index x i j → x'.cnt[m]? = x.cnt[m]? ∧ x'.avg[m]? = x.avg[m]? := by
  induction vs with
  | nil =>
    intro x x' h
    simp only [add_heights, Option.some.injEq] at h
    subst h
    exact ⟨rfl, rfl, rfl, rfl, fun _ _ => ⟨rfl, rfl⟩⟩
  | cons v vs ih =>
    intro x x' h
    unfold add_heights at h
    cases h1 : add_height_to_images x i j v with
    | none => simp [h1] at h
    | some x1 =>
      simp only [h1] at h
      obtain ⟨hw1, hh1, hlc1, hla1, hfr1⟩ := add_height_to_images_frame x x1 i j v h1
      obtain ⟨hw2, hh2, hlc2, hla2, hfr2⟩ := ih x1 x' h
      have hidx : cell_index x1 i j = cell_index x i j := by
        unfold cell_index; rw [hw1]
      refine ⟨hw2.trans hw1, hh2.trans hh1, hlc2.trans hlc1, hla2.trans hla1, ?_⟩
      intro m hm
      have a := hfr1 m hm
      have b := hfr2 m (by rw [hidx]; exact hm)
      exact ⟨b.1.trans a.1, b.2.trans a.2⟩

theorem wf_zero_images (w h : Int) (hw0 : 0 ≤ w) (hw : w < 2 ^ 31) (hh0 : 0 ≤ h)
    (hh : h < 2 ^ 31) : wf_images (zero_images w h) := by
  refine ⟨hw0, hw, hh0, hh, by simp [zero_images], by simp [zero_images], ?_⟩
  intro c hc
  simp [zero_images] at hc
  rw [hc.2]

theorem add_heights_zero_images (w h i j : Int) (vs : List ℚ) (hw : w < 2 ^ 31)
    (hh : h < 2 ^ 31) (hi : 0 ≤ i ∧ i < w) (hj : 0 ≤ j ∧ j < h) :
    ∃ x', add_heights (zero_images w h) i j vs = some x' ∧
      x'.cnt[cell_index (zero_images w h) i j]? = some (vs.length : ℚ) ∧
      x'.avg[cell_index (zero_images w h) i j]? =
        some (if vs = [] then 0 else vs.sum / (vs.length : ℚ)) := by
  have hwf := wf_zero_images w h (by omega) hw (by omega) hh
  obtain ⟨hk, c, a, hc, ha, _⟩ := wf_images_cell (zero_images w h) i j hwf hi hj
  have hc0 : c = 0 := by
    have hm := List.getElem?_mem hc
    simp [zero_images] at hm
    exact hm.2
  have ha0 : a = 0 := by
    have hm := List.getElem?_mem ha
    simp [zero_images] at hm
    exact hm.2
  subst hc0 ha0
  obtain ⟨x', hx', _, _, hc', ha'⟩ :=
    add_heights_spec i j vs (zero_images w h) 0 0 hc ha (le_refl 0)
  refine ⟨x', hx', by simpa using hc', ?_⟩
  rw [ha']
  simp

/-- C16: the running mean is order independent: feeding a sequence of values, or any permutation
of it, into the same in-range cell of a zero-initialised grid by repeated add_height_to_images
calls leaves that cell (and every other cell) with the same count and the same mean. -/
theorem C16_running_mean_order_independent (w h i j : Int) (vs vs' : List ℚ) (hw : w < 2 ^ 31)
    (hh : h < 2 ^ 31) (hi : 0 ≤ i ∧ i < w) (hj : 0 ≤ j ∧ j < h) (hperm : vs.Perm vs') :
    ∃ x1 x2, add_heights (zero_images w h) i j vs = some x1 ∧
      add_heights (zero_images w h) i j vs' = some x2 ∧
      x1.cnt[(w * j + i).toNat]? = x2.cnt[(w * j + i).toNat]? ∧
      x1.avg[(w * j + i).toNat]? = x2.avg[(w * j + i).toNat]? ∧
      ∀ m : Nat, x1.cnt[m]? = x2.cnt[m]? ∧ x1.avg[m]? = x2.avg[m]? := by
  have hwf := wf_zero_images w h (by omega) hw (by omega) hh
  obtain ⟨hk, _⟩ := wf_images_cell (zero_images w h) i j hwf hi hj
  have hk' : cell_index (zero_images w h) i j = (w * j + i).toNat := hk
  obtain ⟨x1, h1, hc1, ha1⟩ := add_heights_zero_images w h i j vs hw hh hi hj
  obtain ⟨x2, h2, hc2, ha2⟩ := add_heights_zero_images w h i j vs' hw hh hi hj
  have hlen : vs.length = vs'.length := hperm.length_eq
  have hsum : vs.sum = vs'.sum := hperm.sum_eq
  have hnil : vs = [] ↔ vs' = [] := by
    rw [← List.length_eq_zero, ← List.length_eq_zero, hlen]
  have hc : x1.cnt[cell_index (zero_images w h) i j]? = x2.cnt[cell_index (zero_images w h) i j]? := by
    rw [hc1, hc2, hlen]
  have ha : x1.avg[cell_index (zero_images w h) i j]? = x2.avg[cell_index (zero_images w h) i j]? := by
    rw [ha1, ha2, hlen, hsum]
    by_cases hv : vs = []
    · simp [hv, hnil.mp hv]
    · have hv' : ¬ vs' = [] := fun e => hv (hnil.mpr e)
      simp [hv, hv']
  refine ⟨x1, x2, h1, h2, by rw [← hk']; exact hc, by rw [← hk']; exact ha, ?_⟩
  intro m
  by_cases hm : m = cell_index (zero_images w h) i j
  · subst hm; exact ⟨hc, ha⟩
  · obtain ⟨_, _, _, _, f1⟩ := add_heights_frame i j vs _ _ h1
    obtain ⟨_, _, _, _, f2⟩ := add_heights_frame i j vs' _ _ h2
    exact ⟨(f1 m hm).1.trans (f2 m hm).1.symm, (f1 m hm).2.trans (f2 m hm).2.symm⟩

theorem C16_running_mean_order_independent_witness :
    ∃ x1 x2, add_heights (zero_images 4 4) 1 2 [100, 200, 50] = some x1 ∧
      add_heights (zero_images 4 4) 1 2 [50, 100, 200] = some x2 ∧
      x1.cnt[((4 : Int) * 2 + 1).toNat]? = x2.cnt[((4 : Int) * 2 + 1).toNat]? ∧
      x1.avg[((4 : Int) * 2 + 1).toNat]? = x2.avg[((4 : Int) * 2 + 1).toNat]? ∧
      ∀ m : Nat, x1.cnt[m]? = x2.cnt[m]? ∧ x1.avg[m]? = x2.avg[m]? :=
  C16_running_mean_order_independent 4 4 1 2 [100, 200, 50] [50, 100, 200] (by decide)
    (by decide) (by decide) (by decide) (by decide)

/-! ## Attribute index check -/

theorem bad_col_idx_status_bounds (col_idx : Int) (hlo : -2 ^ 31 ≤ col_idx)
    (hhi : col_idx < 2 ^ 31) :
    21 ≤ bad_col_idx_status col_idx ∧ bad_col_idx_status col_idx ≤ 31 ∧
      bad_col_idx_status col_idx % 256 ≠ 0 := by
  have hn : col_idx.natAbs < 10 ^ 10 := by
    have : col_idx.natAbs ≤ 2 ^ 31 := by omega
    have h2 : (2 : Nat) ^ 31 < 10 ^ 10 := by norm_num
    omega
  have hlog : Nat.log 10 col_idx.natAbs < 10 := by
    by_cases h0 : col_idx.natAbs = 0
    · rw [h0]; simp
    · exact Nat.log_lt_of_lt_pow h0 hn
  unfold bad_col_idx_status
  split_ifs <;> refine ⟨by omega, by omega, by omega⟩

/-! ## Record decoder -/

theorem length_dropWhile_le' (p : Char → Bool) (s : List Char) :
    (s.dropWhile p).length ≤ s.length :=
  (List.dropWhile_sublist p).length_le

theorem strip_sign_length (s : List Char) : (strip_sign s).2.length ≤ s.length := by
  unfold strip_sign
  split <;> simp

theorem parse_fraction_length (s : List Char) : (parse_fraction s).2.length ≤ s.length := by
  unfold parse_fraction
  split
  · simp only [List.length_cons]
    have := length_dropWhile_le' Char.isDigit ‹List Char›
    omega
  · exact le_rfl

theorem parse_decimal_consumes (s rest : List Char) (v : ℚ)
    (h : parse_decimal s = some (v, rest)) : rest.length < s.length := by
  unfold parse_decimal at h
  simp only at h
  by_cases hip : (strip_sign s).2.takeWhile Char.isDigit = []
  · simp [hip] at h
  simp only [hip, if_false, Option.some.injEq, Prod.mk.injEq] at h
  obtain ⟨_, hrest⟩ := h
  have hs1 := strip_sign_length s
  have hlen : ((strip_sign s).2.takeWhile Char.isDigit).length
      + ((strip_sign s).2.dropWhile Char.isDigit).length = (strip_sign s).2.length := by
    rw [← List.length_append, List.takeWhile_append_dropWhile]
  have hpos : 0 < ((strip_sign s).2.takeWhile Char.isDigit).length := List.length_pos.mpr hip
  have hfrac := parse_fraction_length ((strip_sign s).2.dropWhile Char.isDigit)
  rw [hrest] at hfrac
  omega

theorem fread_one_spec (size : Nat) (f : c_stream) :
    ((fread_one size f).1 = 1 ∧ size ≤ f.data.length ∧
        (fread_one size f).2.2 = { f with data := f.data.drop size }) ∨
      ((fread_one size f).1 = 0 ∧ ¬ size ≤ f.data.length) := by
  unfold fread_one
  by_cases h : size ≤ f.data.length
  · left; simp [h]
  · right; simp [h]

theorem fread_one_length (size : Nat) (f : c_stream) (hsize : 1 ≤ size) :
    ((fread_one size f).2.2.data.length : Int) + (fread_one size f).1 ≤ f.data.length := by
  unfold fread_one
  by_cases h : size ≤ f.data.length
  · simp only [h, if_true, List.length_drop]
    omega
  · simp [h]

theorem fscanf_lf_spec (f : c_stream) :
    (fscanf_lf f).ret ≤ 1 ∧
      ((fscanf_lf f).stream.data.length : Int) + (fscanf_lf f).ret ≤ f.data.length ∧
      ((fscanf_lf f).ret = 1 → (fscanf_lf f).value ≠ none) ∧
      (f.data = [] → (fscanf_lf f).ret ≠ 1) := by
  have hd := length_dropWhile_le' c_isspace f.data
  cases hp : parse_decimal (f.data.dropWhile c_isspace) with
  | some p =>
    obtain ⟨v, rest⟩ := p
    have hc := parse_decimal_consumes _ rest v hp
    simp only [fscanf_lf, hp]
    refine ⟨by simp, by omega, by simp, ?_⟩
    intro he
    rw [he] at hc
    simp at hc
  | none =>
    by_cases he : (f.data.dropWhile c_isspace).isEmpty
    · simp only [fscanf_lf, hp, he, if_true]
      refine ⟨by omega, by simp; omega, by simp, by simp⟩
    · simp only [fscanf_lf, hp, he]
      refine ⟨by simp, by simp only [Bool.false_eq_true, if_false]; omega, by simp, by simp⟩

theorem record_inv_step (r : Int × List (Option ℚ) × c_stream) (k : Nat) (f f1 : c_stream)
    (rec ret : Int) (data : List (Option ℚ)) (slot : Option ℚ) (decoded1 decoded : Bool)
    (hinv : record_inv r k f1 (rec + ret) (data ++ [slot]) decoded1)
    (hret : ret ≤ 1) (hlen : (f1.data.length : Int) + ret ≤ f.data.length)
    (hslot : ret = 1 → slot ≠ none)
    (hdec : decoded = true ↔ ret = 1 ∧ decoded1 = true) :
    record_inv r (k + 1) f rec data decoded := by
  obtain ⟨h1, h2, h3, slots, h4, h5, h6⟩ := hinv
  refine ⟨by push_cast; omega, by omega, ?_, slot :: slots, by rw [h4]; simp, by simp [h5], ?_⟩
  · rw [hdec, ← h3]
    push_cast
    constructor
    · intro h; constructor <;> omega
    · intro h; omega
  · intro hall s hs
    push_cast at hall
    rcases List.mem_cons.mp hs with rfl | hs'
    · exact hslot (by omega)
    · exact h6 (by omega) s hs'

theorem get_record_bin_spec (dec : float_codec) (ps : List ply_property) :
    ∀ (f : c_stream) (rec : Int) (data : List (Option ℚ)),
      record_inv (get_record_bin dec ps f rec data) ps.length f rec data
        (bin_fields_decoded ps f) := by
  induction ps with
  | nil =>
    intro f rec data
    simp [record_inv, get_record_bin, bin_fields_decoded]
  | cons p ps ih =>
    intro f rec data
    have known : ∀ (size : Nat) (val : List Char → ℚ), 1 ≤ size →
        field_size p.type = some size →
        get_record_bin dec (p :: ps) f rec data =
          get_record_bin dec ps (fread_one size f).2.2 (rec + (fread_one size f).1)
            (data ++ [if (fread_one size f).1 = 1 then some (val (fread_one size f).2.1)
              else none]) →
        record_inv (get_record_bin dec (p :: ps) f rec data) (ps.length + 1) f rec data
          (bin_fields_decoded (p :: ps) f) := by
      intro size val hsize hfs heq
      rw [heq]
      have hlen := fread_one_length size f hsize
      refine record_inv_step _ _ f _ rec _ data _ _ _ (ih _ _ _) ?_ hlen ?_ ?_
      · rcases fread_one_spec size f with ⟨hr, _, _⟩ | ⟨hr, _⟩ <;> omega
      · intro h1; simp [h1]
      · simp only [bin_fields_decoded, hfs, Bool.and_eq_true, decide_eq_true_eq]
        rcases fread_one_spec size f with ⟨hr, hle, hst⟩ | ⟨hr, hle⟩
        · rw [hst]; simp [hr, hle]
        · simp [hr, hle]
    cases hty : p.type with
    | UCHAR =>
      exact known 1 (fun bs => ((bs.headD (Char.ofNat 0)).toNat : ℚ)) le_rfl
        (by rw [hty]; rfl) (by simp [get_record_bin, hty])
    | FLOAT =>
      exact known 4 dec.f32 (by omega) (by rw [hty]; rfl) (by simp [get_record_bin, hty])
    | DOUBLE =>
      exact known 8 dec.f64 (by omega) (by rw [hty]; rfl) (by simp [get_record_bin, hty])
    | UNKNOWN =>
      have heq : get_record_bin dec (p :: ps) f rec data
          = get_record_bin dec ps f (rec + 0) (data ++ [none]) := by
        simp [get_record_bin, hty]
      rw [heq]
      refine record_inv_step _ _ f f rec 0 data none _ _ (ih _ _ _) (by omega) (by omega)
        (by intro h; omega) ?_
      simp [bin_fields_decoded, hty, field_size]

theorem get_record_ascii_spec (k : Nat) :
    ∀ (f : c_stream) (rec : Int) (data : List (Option ℚ)),
      record_inv (get_record_ascii k f rec data) k f rec data (ascii_fields_decoded k f) := by
  induction k with
  | zero =>
    intro f rec data
    simp [record_inv, get_record_ascii, ascii_fields_decoded]
  | succ k ih =>
    intro f rec data
    by_cases he : f.eof = true
    · simp only [get_record_ascii, he, if_true, ascii_fields_decoded]
      refine ⟨by push_cast; omega, by simp, ?_, List.replicate (k + 1) none, rfl, by simp, ?_⟩
      · push_cast
        constructor
        · intro h; omega
        · intro h; simp at h
      · intro h
        push_cast at h
        omega
    · have heq : get_record_ascii (k + 1) f rec data
          = get_record_ascii k (fscanf_lf f).stream (rec + (fscanf_lf f).ret)
              (data ++ [(fscanf_lf f).value]) := by
        simp [get_record_ascii, he]
      rw [heq]
      obtain ⟨h1, h2, h3, _⟩ := fscanf_lf_spec f
      refine record_inv_step _ _ f _ rec _ data _ _ _ (ih _ _ _) h1 h2 h3 ?_
      simp [ascii_fields_decoded, he]

theorem get_record_spec (dec : float_codec) (f : c_stream) (isbin : Bool)
    (t : List ply_property) (n : Int) (hn : 0 ≤ n) :
    (get_record dec f isbin t n).1 ≤ n ∧
    ((get_record dec f isbin t n).2.2.data.length : Int) + (get_record dec f isbin t n).1
      ≤ f.data.length ∧
    ((get_record dec f isbin t n).1 = n ↔ fields_decoded f isbin t n = true) ∧
    ((get_record dec f isbin t n).1 = n →
      (get_record dec f isbin t n).2.1.length = n.toNat ∧
      ∀ s ∈ (get_record dec f isbin t n).2.1, s ≠ none) := by
  cases isbin with
  | true =>
    obtain ⟨h1, h2, h3, slots, h4, h5, h6⟩ :=
      get_record_bin_spec dec (t.take n.toNat) f 0 []
    have hlen : ((t.take n.toNat).length : Int) ≤ n := by
      have := List.length_take_le n.toNat t
      omega
    simp only [get_record, if_true, fields_decoded, Bool.and_eq_true, decide_eq_true_eq]
    simp only [sub_zero, List.nil_append] at h1 h2 h3 h4 h6
    refine ⟨by omega, by omega, ?_, ?_⟩
    · constructor
      · intro h
        have hl : ((t.take n.toNat).length : Int) = n := by omega
        exact ⟨hl, h3.mp (by omega)⟩
      · rintro ⟨hl, hd⟩
        have := h3.mpr hd
        omega
    · intro h
      have hl : ((t.take n.toNat).length : Int) = n := by omega
      rw [h4]
      exact ⟨by omega, h6 (by omega)⟩
  | false =>
    obtain ⟨h1, h2, h3, slots, h4, h5, h6⟩ := get_record_ascii_spec n.toNat f 0 []
    have hcast : ((n.toNat : Nat) : Int) = n := Int.toNat_of_nonneg hn
    simp only [get_record, Bool.false_eq_true, if_false, fields_decoded]
    simp only [sub_zero, List.nil_append, hcast] at h1 h2 h3 h4 h6
    refine ⟨h1, by omega, h3, ?_⟩
    intro h
    rw [h4]
    exact ⟨h5, h6 h⟩

theorem get_record_zero (dec : float_codec) (f : c_stream) (isbin : Bool)
    (t : List ply_property) : get_record dec f isbin t 0 = (0, [], f) := by
  cases isbin <;> simp [get_record, get_record_bin, get_record_ascii]

theorem read_records_zero_fields (dec : float_codec) (isbin : Bool) (t : List ply_property) :
    ∀ (fuel : Nat) (f : c_stream), read_records dec isbin t 0 fuel f = none := by
  intro fuel
  induction fuel with
  | zero => intro f; rfl
  | succ fuel ih =>
    intro f
    simp [read_records, get_record_zero, ih]

theorem read_records_terminates (dec : float_codec) (isbin : Bool) (t : List ply_property)
    (n : Int) (hn : 1 ≤ n) :
    ∀ (fuel : Nat) (f : c_stream), f.data.length < fuel →
      ∃ records f', read_records dec isbin t n fuel f = some (records, f') := by
  intro fuel
  induction fuel with
  | zero => intro f h; omega
  | succ fuel ih =>
    intro f h
    obtain ⟨_, h2, _, _⟩ := get_record_spec dec f isbin t n (by omega)
    by_cases hr : n = (get_record dec f isbin t n).1
    · obtain ⟨records, f', hrec⟩ := ih (get_record dec f isbin t n).2.2 (by omega)
      exact ⟨(get_record dec f isbin t n).2.1.filterMap id :: records, f',
        by simp only [read_records, ← hr, if_true, hrec]⟩
    · exact ⟨[], (get_record dec f isbin t n).2.2, by simp only [read_records, hr, if_false]⟩

/-- C13: the loop `while (n == get_record(...))` on a header with n = 0 declared fields never
exits, whatever the stream and the mode (get_record returns 0 without reading); for every
n ≥ 1 it exits after at most one call more than the number of unread bytes. -/
theorem C13_record_loop_exits_iff_fields (dec : float_codec) (isbin : Bool)
    (t : List ply_property) (f : c_stream) :
    (∀ fuel, read_records dec isbin t 0 fuel f = none) ∧
    (∀ n : Int, 1 ≤ n →
      ∃ records f', read_records dec isbin t n (f.data.length + 1) f = some (records, f')) :=
  ⟨fun fuel => read_records_zero_fields dec isbin t fuel f,
    fun n hn => read_records_terminates dec isbin t n hn (f.data.length + 1) f (by omega)⟩

theorem C13_record_loop_exits_iff_fields_witness :
    (∀ fuel, read_records example_codec false [] 0 fuel
      { data := "1 2 3\n".toList, eof := false } = none) ∧
    (∀ n : Int, 1 ≤ n →
      ∃ records f', read_records example_codec false [] n
        ((c_stream.mk "1 2 3\n".toList false).data.length + 1)
        { data := "1 2 3\n".toList, eof := false } = some (records, f')) :=
  C13_record_loop_exits_iff_fields example_codec false []
    { data := "1 2 3\n".toList, eof := false }

/-! ## Header parsing -/

theorem header_loop_spec (lines : List (List Char)) :
    ∀ (n : Nat) (isbin : Bool) (utm : Option (List Char)) (t : List ply_property),
      (header_loop lines n isbin utm t).n
        = n + ((header_lines lines).filter (fun b => (parse_property_line b).1)).length ∧
      (header_loop lines n isbin utm t).t
        = t ++ ((header_lines lines).filter (fun b => (parse_property_line b).1)).map
            (fun b => (parse_property_line b).2) ∧
      (header_loop lines n isbin utm t).rest = body_lines lines := by
  induction lines with
  | nil => intro n isbin utm t; simp [header_loop, header_lines, body_lines]
  | cons buf rest ih =>
    intro n isbin utm t
    have hfb : (parse_property_line "format binary_little_endian 1.0\n".toList).1 = false := by
      decide
    have hfa : (parse_property_line "format ascii 1.0\n".toList).1 = false := by decide
    have heh : (parse_property_line "end_header\n".toList).1 = false := by decide
    by_cases hend : buf = "end_header\n".toList
    · subst hend
      have h1 : ¬ ("end_header\n".toList = "format binary_little_endian 1.0\n".toList) := by
        decide
      have h2 : ¬ ("end_header\n".toList = "format ascii 1.0\n".toList) := by decide
      have h3 : ¬ (("end_header\n".toList).take 19 = "comment projection:".toList) := by decide
      simp only [header_loop, h1, h2, heh, h3, if_false, if_true, header_lines, body_lines,
        List.filter_cons, Bool.false_eq_true, List.filter_nil, List.length_nil, List.map_nil,
        List.append_nil, Nat.add_zero, and_self]
    · by_cases hb : buf = "format binary_little_endian 1.0\n".toList
      · subst hb
        obtain ⟨a, b, c⟩ := ih n true utm t
        simp only [header_loop, hend, if_false, if_true, header_lines, body_lines,
          List.filter_cons, hfb, Bool.false_eq_true]
        exact ⟨a, b, c⟩
      · by_cases ha : buf = "format ascii 1.0\n".toList
        · subst ha
          obtain ⟨a, b, c⟩ := ih n false utm t
          simp only [header_loop, hend, hb, if_false, if_true, header_lines, body_lines,
            List.filter_cons, hfa, Bool.false_eq_true]
          exact ⟨a, b, c⟩
        · by_cases hp : (parse_property_line buf).1 = true
          · obtain ⟨a, b, c⟩ := ih (n + 1) isbin utm (t ++ [(parse_property_line buf).2])
            simp only [header_loop, hend, hb, ha, hp, if_false, if_true, header_lines,
              body_lines, List.filter_cons, List.length_cons, List.map_cons]
            refine ⟨by rw [a]; omega, by rw [b]; simp, c⟩
          · by_cases hc : buf.take 19 = "comment projection:".toList
            · obtain ⟨a, b, c⟩ := ih n isbin ((scan_utm buf).orElse (fun _ => utm)) t
              simp only [header_loop, hend, hb, ha, hp, hc, if_false, if_true, header_lines,
                body_lines, List.filter_cons, Bool.false_eq_true]
              exact ⟨a, b, c⟩
            · obtain ⟨a, b, c⟩ := ih n isbin utm t
              simp only [header_loop, hend, hb, ha, hp, hc, if_false, header_lines,
                body_lines, List.filter_cons, Bool.false_eq_true]
              exact ⟨a, b, c⟩

theorem span_split (p : Char → Bool) (s : List Char) :
    s = s.takeWhile p ++ s.dropWhile p ∧ (∀ c ∈ s.takeWhile p, p c = true) ∧
      (∀ c ∈ (s.dropWhile p).head?, p c = false) := by
  refine ⟨(List.takeWhile_append_dropWhile p s).symm, fun c hc => List.mem_takeWhile_imp hc, ?_⟩
  intro c hc
  have := List.head?_dropWhile_not p s
  rw [Option.mem_def] at hc
  rw [hc] at this
  simpa using this

theorem span_unique (p : Char → Bool) (a b : List Char) (ha : ∀ c ∈ a, p c = true)
    (hb : ∀ c ∈ b.head?, p c = false) :
    (a ++ b).takeWhile p = a ∧ (a ++ b).dropWhile p = b := by
  rw [List.takeWhile_append_of_pos ha, List.dropWhile_append_of_pos ha]
  cases b with
  | nil => simp
  | cons c cs =>
    have hc : p c = false := hb c (by simp)
    simp [hc]

theorem scan_literal_iff (lit s r : List Char) :
    scan_literal lit s = some r ↔ s = lit ++ r := by
  unfold scan_literal
  constructor
  · intro h
    split_ifs at h with hp
    rw [List.isPrefixOf_iff_prefix] at hp
    obtain ⟨t, rfl⟩ := hp
    simp at h
    rw [h]
  · intro h
    subst h
    have : lit.isPrefixOf (lit ++ r) = true := by
      rw [List.isPrefixOf_iff_prefix]; exact List.prefix_append _ _
    simp [this]

theorem scan_word_iff (s w r : List Char) :
    scan_word s = some (w, r) ↔
      ∃ sp, s = sp ++ w ++ r ∧ (∀ c ∈ sp, c_isspace c = true) ∧ w ≠ [] ∧
        (∀ c ∈ w, c_isspace c = false) ∧ (∀ c ∈ r.head?, c_isspace c = true) := by
  unfold scan_word
  constructor
  · intro h
    simp only at h
    split_ifs at h with hw
    simp only [Option.some.injEq, Prod.mk.injEq] at h
    obtain ⟨h1, h2⟩ := h
    obtain ⟨e1, a1, _⟩ := span_split c_isspace s
    obtain ⟨e2, a2, b2⟩ := span_split (fun c => !c_isspace c) (s.dropWhile c_isspace)
    rw [h1, h2] at e2
    refine ⟨s.takeWhile c_isspace, ?_, a1, by rw [← h1]; exact hw, ?_, ?_⟩
    · rw [List.append_assoc, ← e2]; exact e1
    · intro c hc
      rw [← h1] at hc
      simpa using a2 c hc
    · intro c hc
      rw [← h2] at hc
      simpa using b2 c hc
  · rintro ⟨sp, rfl, hsp, hw, hwc, hr⟩
    have hhead : ∀ c ∈ (w ++ r).head?, c_isspace c = false := by
      intro c hc
      cases w with
      | nil => exact absurd rfl hw
      | cons x xs =>
        simp at hc
        rw [← hc]
        exact hwc x (List.mem_cons_self _ _)
    obtain ⟨_, d1⟩ := span_unique c_isspace sp (w ++ r) hsp hhead
    obtain ⟨t2, d2⟩ := span_unique (fun c => !c_isspace c) w r
      (fun c hc => by simp [hwc c hc]) (fun c hc => by simp [hr c hc])
    simp only [List.append_assoc, d1, t2, d2]
    simp [hw]

theorem parse_property_line_iff_form (buf : List Char) :
    (parse_property_line buf).1 = true ↔ property_line_form buf := by
  have hlit : "property".toList = ['p', 'r', 'o', 'p', 'e', 'r', 't', 'y'] := rfl
  constructor
  · intro h
    unfold parse_property_line at h
    rw [hlit] at h
    cases h1 : scan_literal ['p', 'r', 'o', 'p', 'e', 'r', 't', 'y'] buf with
    | none => rw [h1] at h; simp at h
    | some s1 =>
      rw [h1] at h
      cases h2 : scan_word s1 with
      | none => simp only [h2] at h; simp at h
      | some p2 =>
        obtain ⟨ty, s2⟩ := p2
        simp only [h2] at h
        cases h3 : scan_word s2 with
        | none => simp only [h3] at h; simp at h
        | some p3 =>
          obtain ⟨nm, s3⟩ := p3
          rw [scan_literal_iff] at h1
          obtain ⟨sp1, e2, hsp1, hty, htyc, hs2⟩ := (scan_word_iff _ _ _).mp h2
          obtain ⟨sp2, e3, hsp2, hnm, hnmc, hs3⟩ := (scan_word_iff _ _ _).mp h3
          refine ⟨sp1, ty, sp2, nm, s3, ?_, hsp1, hty, htyc, ?_, hsp2, hnm, hnmc, hs3⟩
          · rw [h1, e2, e3, hlit]; simp only [List.append_assoc]
          · intro hsp
            subst hsp
            cases nm with
            | nil => exact hnm rfl
            | cons x xs =>
              have := hs2 x (by rw [e3]; simp)
              rw [hnmc x (List.mem_cons_self _ _)] at this
              cases this
  · rintro ⟨sp1, ty, sp2, nm, tail, rfl, hsp1, hty, htyc, hsp2, hsp2c, hnm, hnmc, htail⟩
    have h1 : scan_literal ['p', 'r', 'o', 'p', 'e', 'r', 't', 'y']
        ("property".toList ++ sp1 ++ ty ++ sp2 ++ nm ++ tail)
        = some (sp1 ++ ty ++ (sp2 ++ nm ++ tail)) := by
      rw [scan_literal_iff, hlit]; simp only [List.append_assoc]
    have h2 : scan_word (sp1 ++ ty ++ (sp2 ++ nm ++ tail)) = some (ty, sp2 ++ nm ++ tail) := by
      rw [scan_word_iff]
      refine ⟨sp1, rfl, hsp1, hty, htyc, ?_⟩
      intro c hc
      cases sp2 with
      | nil => exact absurd rfl hsp2
      | cons x xs =>
        simp at hc
        rw [← hc]
        exact hsp2c x (List.mem_cons_self _ _)
    have h3 : scan_word (sp2 ++ nm ++ tail) = some (nm, tail) := by
      rw [scan_word_iff]
      exact ⟨sp2, rfl, hsp2c, hnm, hnmc, htail⟩
    unfold parse_property_line
    rw [hlit] at h1 ⊢
    rw [h1]
    simp only [h2, h3]

theorem header_lines_append_body_lines (lines : List (List Char)) :
    header_lines lines ++ body_lines lines = lines ∧
      ∀ b ∈ (header_lines lines).dropLast, b ≠ "end_header\n".toList := by
  induction lines with
  | nil => simp [header_lines, body_lines]
  | cons buf rest ih =>
    by_cases hend : buf = "end_header\n".toList
    · simp [header_lines, body_lines, hend]
    · simp only [header_lines, body_lines, hend, if_false, List.cons_append, ih.1, true_and]
      intro b hb
      cases hl : header_lines rest with
      | nil =>
        rw [hl] at hb
        simp at hb
      | cons x xs =>
        rw [hl, List.dropLast_cons₂] at hb
        rcases List.mem_cons.mp hb with rfl | hb'
        · exact hend
        · exact ih.2 b (by rw [hl]; exact hb')

/-! ## Bounds of the grid writes -/

theorem tile_cell_in_bounds (tw h i j : Int) (hi : 0 ≤ i ∧ i < tw) (hj : 0 ≤ j ∧ j < h) :
    0 ≤ tw * j + i ∧ tw * j + i < tw * h := by
  have h0 : 0 ≤ tw * j := mul_nonneg (by omega) hj.1
  have h1 : tw * j + tw ≤ tw * h := by nlinarith
  constructor <;> omega

/-! ## Field reads against the record length -/

theorem read_records_length (dec : float_codec) (isbin : Bool) (t : List ply_property)
    (n : Int) (hn : 0 ≤ n) :
    ∀ (fuel : Nat) (f f' : c_stream) (records : List (List ℚ)),
      read_records dec isbin t n fuel f = some (records, f') →
      ∀ d ∈ records, (d.length : Int) = n := by
  intro fuel
  induction fuel with
  | zero => intro f f' records h; simp [read_records] at h
  | succ fuel ih =>
    intro f f' records h
    simp only [read_records] at h
    by_cases hr : n = (get_record dec f isbin t n).1
    · simp only [← hr, if_true] at h
      cases hrest : read_records dec isbin t n fuel (get_record dec f isbin t n).2.2 with
      | none => simp [hrest] at h
      | some p =>
        obtain ⟨recs, f1⟩ := p
        simp only [hrest, Option.some.injEq, Prod.mk.injEq] at h
        obtain ⟨h1, _⟩ := h
        subst h1
        intro d hd
        rcases List.mem_cons.mp hd with rfl | hd'
        · obtain ⟨_, _, _, h4⟩ := get_record_spec dec f isbin t n hn
          obtain ⟨hlen, hall⟩ := h4 hr.symm
          have hfm : ∀ l : List (Option ℚ), (∀ s ∈ l, s ≠ none) →
              (l.filterMap id).length = l.length := by
            intro l
            induction l with
            | nil => intro _; rfl
            | cons s l ihl =>
              intro hs
              cases s with
              | none => exact absurd rfl (hs none (List.mem_cons_self _ _))
              | some v =>
                simp only [List.filterMap_cons, id, List.length_cons]
                rw [ihl (fun s' hs' => hs s' (List.mem_cons_of_mem _ hs'))]
          rw [hfm _ hall, hlen]
          omega
        · exact ih _ _ _ hrest d hd'
    · simp only [hr, if_false, Option.some.injEq, Prod.mk.injEq] at h
      obtain ⟨h1, _⟩ := h
      subst h1
      intro d hd
      simp at hd

/-- C25 (failing input): a file with n = 3 fields accumulated with attribute index 4 is
indexed past its record: the read of field 4 of the record (10, 10, 100) is out of bounds. -/
theorem C25_short_record_is_read_past_its_end :
    ([10, 10, 100] : List ℚ).length = 3 ∧ selected_value 4 [10, 10, 100] = none ∧
    add_ply_points_to_images (zero_images 4 4) 0 30 0 30 0 3 none 4 4 "31N"
      (some { utm := "31N", records := [[10, 10, 100]] }) 4 = .error .undefined := by
  decide!

/-- C25 (what holds): the accumulation step performs no check of the field count n against the
attribute index c in 2..5. Every decoded record has n values; the reads of fields 0, 1 and c are
all inside the record exactly when n ≥ 2 and n > c; a record with n < 2 is read past its end, and
so is a record with n ≤ c whose point passes the window test (a point outside the window has only
fields 0 and 1 read). -/
theorem C25_field_reads_within_record (x : images) (xmin xmax ymin ymax : ℚ)
    (inf sup w h col_idx : Int) (newxmin : Option ℚ) (data : List ℚ)
    (hcol : 2 ≤ col_idx ∧ col_idx ≤ 5) (hx : xmin ≠ xmax) (hy : ymin ≠ ymax) :
    (∀ (dec : float_codec) (isbin : Bool) (t : List ply_property) (n : Int) (fuel : Nat)
      (f f' : c_stream) (records : List (List ℚ)), 0 ≤ n →
      read_records dec isbin t n fuel f = some (records, f') →
      ∀ d ∈ records, (d.length : Int) = n) ∧
    ((2 ≤ data.length ∧ col_idx < data.length) ↔
      ((data[0]?).isSome ∧ (data[1]?).isSome ∧ (data[col_idx.toNat]?).isSome)) ∧
    (data.length < 2 →
      add_ply_point x xmin xmax ymin ymax inf sup newxmin w h col_idx data = none) ∧
    (2 ≤ data.length → (data.length : Int) ≤ col_idx →
      (window_x xmin xmax inf sup w data).isSome →
      add_ply_point x xmin xmax ymin ymax inf sup newxmin w h col_idx data = none) ∧
    (2 ≤ data.length → window_x xmin xmax inf sup w data = none →
      add_ply_point x xmin xmax ymin ymax inf sup newxmin w h col_idx data
        = some (x, newxmin)) := by
  have hdx : xmax - xmin ≠ 0 := sub_ne_zero.mpr (Ne.symm hx)
  have hdy : -ymin - -ymax ≠ 0 := by
    intro h0
    apply hy
    linarith
  refine ⟨fun dec isbin t n fuel f f' records hn hrun =>
    read_records_length dec isbin t n hn fuel f f' records hrun, ?_, ?_, ?_, ?_⟩
  · constructor
    · rintro ⟨h2, hc⟩
      have hc' : col_idx.toNat < data.length := by omega
      simp [List.getElem?_eq_getElem, h2, hc', show 0 < data.length by omega,
        show 1 < data.length by omega]
    · rintro ⟨_, h1, hc⟩
      rw [Option.isSome_iff_exists] at h1 hc
      obtain ⟨_, h1⟩ := h1
      obtain ⟨_, hc⟩ := hc
      have a1 : 1 < data.length := by
        by_contra hge
        rw [List.getElem?_eq_none (by omega)] at h1
        cases h1
      have ac : col_idx.toNat < data.length := by
        by_contra hge
        rw [List.getElem?_eq_none (by omega)] at hc
        cases hc
      omega
  · intro hlt
    have h1 : data[1]? = none := List.getElem?_eq_none (by omega)
    unfold add_ply_point
    cases data[0]? <;> simp [h1]
  · intro h2 hle hwin
    obtain ⟨d0, h0⟩ : ∃ d0, data[0]? = some d0 :=
      ⟨data[0], List.getElem?_eq_getElem (by omega)⟩
    obtain ⟨d1, h1⟩ : ∃ d1, data[1]? = some d1 :=
      ⟨data[1], List.getElem?_eq_getElem (by omega)⟩
    obtain ⟨i, hi⟩ : ∃ i, rescale_float_to_int d0 xmin xmax w = some i :=
      ⟨_, rescale_float_to_int_eq d0 xmin xmax w hdx⟩
    obtain ⟨j, hj⟩ : ∃ j, rescale_float_to_int (-d1) (-ymax) (-ymin) h = some j :=
      ⟨_, rescale_float_to_int_eq (-d1) (-ymax) (-ymin) h hdy⟩
    have hin : inf ≤ i ∧ i ≤ sup := by
      by_contra hout
      simp [window_x, h0, hi, hout] at hwin
    have hsel : selected_value col_idx data = none := by
      unfold selected_value
      by_cases hc2 : col_idx = 2
      · simp only [hc2, if_true]
        exact List.getElem?_eq_none (by omega)
      · simp only [hc2, if_false]
        have : data[col_idx.toNat]? = none := List.getElem?_eq_none (by omega)
        simp [this]
    simp [add_ply_point, h0, h1, hi, hj, hin, hsel]
  · intro h2 hwin
    obtain ⟨d0, h0⟩ : ∃ d0, data[0]? = some d0 :=
      ⟨data[0], List.getElem?_eq_getElem (by omega)⟩
    obtain ⟨d1, h1⟩ : ∃ d1, data[1]? = some d1 :=
      ⟨data[1], List.getElem?_eq_getElem (by omega)⟩
    obtain ⟨i, hi⟩ : ∃ i, rescale_float_to_int d0 xmin xmax w = some i :=
      ⟨_, rescale_float_to_int_eq d0 xmin xmax w hdx⟩
    obtain ⟨j, hj⟩ : ∃ j, rescale_float_to_int (-d1) (-ymax) (-ymin) h = some j :=
      ⟨_, rescale_float_to_int_eq (-d1) (-ymax) (-ymin) h hdy⟩
    have hout : ¬ (inf ≤ i ∧ i ≤ sup) := by
      intro hin
      simp [window_x, h0, hi, hin] at hwin
    simp [add_ply_point, h0, h1, hi, hj, hout]

theorem C25_field_reads_within_record_witness :
    (∀ (dec : float_codec) (isbin : Bool) (t : List ply_property) (n : Int) (fuel : Nat)
      (f f' : c_stream) (records : List (List ℚ)), 0 ≤ n →
      read_records dec isbin t n fuel f = some (records, f') →
      ∀ d ∈ records, (d.length : Int) = n) ∧
    ((2 ≤ ([10, 10, 100] : List ℚ).length ∧ (4 : Int) < ([10, 10, 100] : List ℚ).length) ↔
      ((([10, 10, 100] : List ℚ)[0]?).isSome ∧ (([10, 10, 100] : List ℚ)[1]?).isSome ∧
        (([10, 10, 100] : List ℚ)[(4 : Int).toNat]?).isSome)) ∧
    (([10, 10, 100] : List ℚ).length < 2 →
      add_ply_point (zero_images 4 4) 0 30 0 30 0 3 none 4 4 4 [10, 10, 100] = none) ∧
    (2 ≤ ([10, 10, 100] : List ℚ).length → (([10, 10, 100] : List ℚ).length : Int) ≤ 4 →
      (window_x 0 30 0 3 4 [10, 10, 100]).isSome →
      add_ply_point (zero_images 4 4) 0 30 0 30 0 3 none 4 4 4 [10, 10, 100] = none) ∧
    (2 ≤ ([10, 10, 100] : List ℚ).length → window_x 0 30 0 3 4 [10, 10, 100] = none →
      add_ply_point (zero_images 4 4) 0 30 0 30 0 3 none 4 4 4 [10, 10, 100]
        = some (zero_images 4 4, none)) :=
  C25_field_reads_within_record (zero_images 4 4) 0 30 0 30 0 3 4 4 4 none [10, 10, 100]
    (by decide) (by norm_num) (by norm_num)

/-! ## Binary floating point -/

theorem pow2_eq (e : Int) : machine.pow2 e = (2 : ℚ) ^ e := by
  unfold machine.pow2
  split
  · rename_i h
    lift e to ℕ using h
    simp
  · rename_i h
    obtain ⟨m, hm⟩ : ∃ m : ℕ, e = -(m : Int) := ⟨(-e).toNat, by omega⟩
    subst hm
    simp

theorem pow2_pos (e : Int) : 0 < machine.pow2 e := by
  rw [pow2_eq]; positivity

theorem pow2_add (a b : Int) : machine.pow2 (a + b) = machine.pow2 a * machine.pow2 b := by
  simp only [pow2_eq]
  exact zpow_add₀ (by norm_num) a b

theorem pow2_le_pow2 {a b : Int} (h : a ≤ b) : machine.pow2 a ≤ machine.pow2 b := by
  simp only [pow2_eq]
  exact zpow_le_zpow_right₀ (by norm_num) h

theorem pow2_lt_pow2 {a b : Int} (h : a < b) : machine.pow2 a < machine.pow2 b := by
  simp only [pow2_eq]
  exact zpow_lt_zpow_right₀ (by norm_num) h

theorem log2_fuel_spec : ∀ (fuel n : Nat), n ≤ fuel → 0 < n →
    2 ^ machine.log2_fuel fuel n ≤ n ∧ n < 2 ^ (machine.log2_fuel fuel n + 1) := by
  intro fuel
  induction fuel with
  | zero => intro n h1 h2; omega
  | succ fuel ih =>
    intro n h1 h2
    unfold machine.log2_fuel
    by_cases h : n < 2
    · simp only [h, if_true]
      have : n = 1 := by omega
      subst this
      simp
    · simp only [h, if_false]
      have hd : n / 2 ≤ fuel := by omega
      have hp : 0 < n / 2 := by omega
      obtain ⟨a, b⟩ := ih (n / 2) hd hp
      constructor
      · rw [pow_succ]; omega
      · rw [pow_succ]; omega

theorem nlog2_spec (n : Nat) (hn : 0 < n) : 2 ^ machine.nlog2 n ≤ n ∧ n < 2 ^ (machine.nlog2 n + 1) :=
  log2_fuel_spec n n le_rfl hn

theorem ilog2_spec (q : ℚ) (hq : q ≠ 0) :
    machine.pow2 (machine.ilog2 q) ≤ |q| ∧ |q| < machine.pow2 (machine.ilog2 q + 1) := by
  have hnum : 0 < q.num.natAbs := Int.natAbs_pos.mpr (Rat.num_ne_zero.mpr hq)
  have hden : 0 < q.den := q.den_pos
  obtain ⟨a1, a2⟩ := nlog2_spec q.num.natAbs hnum
  obtain ⟨b1, b2⟩ := nlog2_spec q.den hden
  have habs : |q| = (q.num.natAbs : ℚ) / (q.den : ℚ) := by
    conv_lhs => rw [← Rat.num_div_den q]
    rw [abs_div, Nat.abs_cast]
    congr 1
    rw [Nat.cast_natAbs, Int.cast_abs]
  have hN1 : ((2 : ℚ) ^ machine.nlog2 q.num.natAbs) ≤ (q.num.natAbs : ℚ) := by exact_mod_cast a1
  have hN2 : (q.num.natAbs : ℚ) < (2 : ℚ) ^ (machine.nlog2 q.num.natAbs + 1) := by exact_mod_cast a2
  have hD1 : ((2 : ℚ) ^ machine.nlog2 q.den) ≤ (q.den : ℚ) := by exact_mod_cast b1
  have hD2 : (q.den : ℚ) < (2 : ℚ) ^ (machine.nlog2 q.den + 1) := by exact_mod_cast b2
  have hDpos : (0 : ℚ) < q.den := by exact_mod_cast hden
  set A := machine.nlog2 q.num.natAbs with hA
  set B := machine.nlog2 q.den with hB
  have hk : ∀ k : Int, machine.pow2 k = (2 : ℚ) ^ k := pow2_eq
  have hlow : machine.pow2 ((A : Int) - B - 1) ≤ |q| := by
    rw [habs, hk, le_div_iff₀ hDpos]
    have : (2 : ℚ) ^ ((A : Int) - B - 1) * 2 ^ (B + 1) = 2 ^ A := by
      rw [← zpow_natCast, ← zpow_natCast, ← zpow_add₀ (by norm_num)]
      congr 1
      push_cast
      ring
    calc (2 : ℚ) ^ ((A : Int) - B - 1) * q.den
        ≤ (2 : ℚ) ^ ((A : Int) - B - 1) * 2 ^ (B + 1) := by
          apply mul_le_mul_of_nonneg_left hD2.le
          positivity
      _ = 2 ^ A := this
      _ ≤ q.num.natAbs := hN1
  have hhigh : |q| < machine.pow2 ((A : Int) - B + 1) := by
    rw [habs, hk, div_lt_iff₀ hDpos]
    have : (2 : ℚ) ^ ((A : Int) - B + 1) * 2 ^ B = 2 ^ (A + 1) := by
      rw [← zpow_natCast, ← zpow_natCast, ← zpow_add₀ (by norm_num)]
      congr 1
      push_cast
      ring
    calc (q.num.natAbs : ℚ) < 2 ^ (A + 1) := hN2
      _ = (2 : ℚ) ^ ((A : Int) - B + 1) * 2 ^ B := this.symm
      _ ≤ (2 : ℚ) ^ ((A : Int) - B + 1) * q.den := by
          apply mul_le_mul_of_nonneg_left hD1
          positivity
  unfold machine.ilog2
  simp only
  split
  · rename_i hlt
    refine ⟨hlow, ?_⟩
    have : (A : Int) - B - 1 + 1 = A - B := by ring
    rw [this]
    exact hlt
  · rename_i hge
    exact ⟨not_lt.mp hge, hhigh⟩

theorem ilog2_le_of_lt {q : ℚ} (hq : q ≠ 0) {k : Int} (h : |q| < machine.pow2 k) : machine.ilog2 q < k := by
  by_contra hge
  have := (ilog2_spec q hq).1
  have h2 : machine.pow2 k ≤ machine.pow2 (machine.ilog2 q) := pow2_le_pow2 (by omega)
  linarith

theorem round_even_cases (m : ℚ) : machine.round_even m = ⌊m⌋ ∨ machine.round_even m = ⌊m⌋ + 1 := by
  unfold machine.round_even
  split
  · exact Or.inl rfl
  · split
    · exact Or.inr rfl
    · split
      · exact Or.inl rfl
      · exact Or.inr rfl

theorem round_even_error (m : ℚ) : |(machine.round_even m : ℚ) - m| ≤ 1 / 2 := by
  have h1 := Int.floor_le m
  have h2 := Int.lt_floor_add_one m
  unfold machine.round_even
  split
  · rename_i h
    rw [abs_le]
    constructor <;> linarith
  · rename_i h
    split
    · rename_i h'
      rw [abs_le]
      push_cast
      constructor <;> linarith
    · rename_i h'
      have he : m - ⌊m⌋ = 1 / 2 := le_antisymm (not_lt.mp h') (not_lt.mp h)
      split
      · rw [abs_le]
        constructor <;> linarith
      · rw [abs_le]
        push_cast
        constructor <;> linarith

theorem round_even_int (z : Int) : machine.round_even (z : ℚ) = z := by
  unfold machine.round_even
  simp

theorem round_even_mono {a b : ℚ} (h : a ≤ b) : machine.round_even a ≤ machine.round_even b := by
  have hf : ⌊a⌋ ≤ ⌊b⌋ := Int.floor_le_floor h
  rcases lt_or_eq_of_le hf with hlt | heq
  · rcases round_even_cases a with ha | ha <;> rcases round_even_cases b with hb | hb <;> omega
  · unfold machine.round_even
    rw [heq]
    have hab : a - ⌊b⌋ ≤ b - ⌊b⌋ := by linarith
    split
    · split
      · exact le_rfl
      · split
        · omega
        · split <;> omega
    · rename_i h1
      split
      · rename_i h2
        have : (1 : ℚ) / 2 < b - ⌊b⌋ := lt_of_lt_of_le h2 hab
        have hnb : ¬ (b - ⌊b⌋ < 1 / 2) := not_lt.mpr this.le
        simp only [hnb, if_false, this, if_true]
        exact le_rfl
      · rename_i h2
        have hea : a - ⌊b⌋ = 1 / 2 := le_antisymm (not_lt.mp h2) (not_lt.mp h1)
        have hnb : ¬ (b - ⌊b⌋ < 1 / 2) := by
          rw [not_lt]; linarith
        simp only [hnb, if_false]
        by_cases hb2 : (1 : ℚ) / 2 < b - ⌊b⌋
        · simp only [hb2, if_true]
          split <;> omega
        · simp only [hb2, if_false]
          exact le_rfl

theorem round_even_le_of_le_int {m : ℚ} {z : Int} (h : m ≤ z) : machine.round_even m ≤ z := by
  have := round_even_mono h
  rwa [round_even_int] at this

theorem le_round_even_of_int_le {m : ℚ} {z : Int} (h : (z : ℚ) ≤ m) : z ≤ machine.round_even m := by
  have := round_even_mono h
  rwa [round_even_int] at this

theorem round_even_neg (m : ℚ) : machine.round_even (-m) = -machine.round_even m := by
  by_cases hint : (⌊m⌋ : ℚ) = m
  · rw [← hint, ← Int.cast_neg, round_even_int, round_even_int]
  · have h1 := Int.floor_le m
    have h2 := Int.lt_floor_add_one m
    have hlt : (⌊m⌋ : ℚ) < m := lt_of_le_of_ne h1 hint
    have hfl : ⌊-m⌋ = -⌊m⌋ - 1 := by
      rw [Int.floor_eq_iff]
      push_cast
      constructor <;> linarith
    unfold machine.round_even
    rw [hfl]
    push_cast
    by_cases c1 : m - ⌊m⌋ < 1 / 2
    · have c2 : ¬ (-m - (-(⌊m⌋ : ℚ) - 1) < 1 / 2) := by rw [not_lt]; linarith
      have c3 : (1 : ℚ) / 2 < -m - (-(⌊m⌋ : ℚ) - 1) := by linarith
      simp only [c1, c2, c3, if_true, if_false]
      ring
    · by_cases c4 : (1 : ℚ) / 2 < m - ⌊m⌋
      · have c2 : -m - (-(⌊m⌋ : ℚ) - 1) < 1 / 2 := by linarith
        simp only [c1, c2, c4, if_true, if_false]
        ring
      · have he : m - ⌊m⌋ = 1 / 2 := le_antisymm (not_lt.mp c4) (not_lt.mp c1)
        have c2 : ¬ (-m - (-(⌊m⌋ : ℚ) - 1) < 1 / 2) := by rw [not_lt]; linarith
        have c3 : ¬ ((1 : ℚ) / 2 < -m - (-(⌊m⌋ : ℚ) - 1)) := by rw [not_lt]; linarith
        simp only [c1, c2, c3, c4, if_false]
        by_cases hp : ⌊m⌋ % 2 = 0
        · have hp' : ¬ ((-⌊m⌋ - 1) % 2 = 0) := by omega
          simp only [hp, hp', if_true, if_false]
          ring
        · have hp' : (-⌊m⌋ - 1) % 2 = 0 := by omega
          simp only [hp, hp', if_true, if_false]
          ring

theorem ilog2_neg (q : ℚ) : machine.ilog2 (-q) = machine.ilog2 q := by
  unfold machine.ilog2
  simp

theorem ulp_neg (F : machine.format) (q : ℚ) : machine.ulp F (-q) = machine.ulp F q := by
  unfold machine.ulp
  rw [ilog2_neg]

theorem ulp_pos (F : machine.format) (q : ℚ) : 0 < machine.ulp F q := pow2_pos _

theorem round_value_neg (F : machine.format) (q : ℚ) : machine.round_value F (-q) = -machine.round_value F q := by
  unfold machine.round_value
  rw [ulp_neg, neg_div, round_even_neg]
  push_cast
  ring

theorem round_value_zero (F : machine.format) : machine.round_value F 0 = 0 := by
  unfold machine.round_value
  rw [zero_div]
  have := round_even_int 0
  simp only [Int.cast_zero] at this
  rw [this]
  simp

theorem round_value_error (F : machine.format) (q : ℚ) : |machine.round_value F q - q| ≤ machine.ulp F q / 2 := by
  have hu := ulp_pos F q
  have h := round_even_error (q / machine.ulp F q)
  unfold machine.round_value
  have e : (machine.round_even (q / machine.ulp F q) : ℚ) * machine.ulp F q - q
      = ((machine.round_even (q / machine.ulp F q) : ℚ) - q / machine.ulp F q) * machine.ulp F q := by
    field_simp
  rw [e, abs_mul, abs_of_pos hu]
  calc |(machine.round_even (q / machine.ulp F q) : ℚ) - q / machine.ulp F q| * machine.ulp F q
      ≤ 1 / 2 * machine.ulp F q := mul_le_mul_of_nonneg_right h hu.le
    _ = machine.ulp F q / 2 := by ring

theorem ulp_le (F : machine.format) (q : ℚ) (hq : q ≠ 0) :
    machine.ulp F q ≤ |q| * machine.pow2 (1 - (F.prec : Int)) + machine.pow2 (F.emin - ((F.prec : Int) - 1)) := by
  unfold machine.ulp
  have hp1 := pow2_pos (F.emin - ((F.prec : Int) - 1))
  have hp2 := pow2_pos (1 - (F.prec : Int))
  rcases le_total (machine.ilog2 q) F.emin with h | h
  · rw [max_eq_right h]
    have : 0 ≤ |q| * machine.pow2 (1 - (F.prec : Int)) := mul_nonneg (abs_nonneg q) hp2.le
    linarith
  · rw [max_eq_left h]
    have e : machine.ilog2 q - ((F.prec : Int) - 1) = machine.ilog2 q + (1 - (F.prec : Int)) := by ring
    rw [e, pow2_add]
    have := mul_le_mul_of_nonneg_right (ilog2_spec q hq).1 hp2.le
    linarith

theorem round_value_rel_error (F : machine.format) (q : ℚ) :
    |machine.round_value F q - q| ≤ |q| * machine.pow2 (-(F.prec : Int)) + machine.pow2 (F.emin - (F.prec : Int)) := by
  by_cases hq : q = 0
  · subst hq
    rw [round_value_zero]
    simp only [sub_zero, abs_zero, zero_mul, zero_add]
    exact (pow2_pos _).le
  · have h1 := round_value_error F q
    have h2 := ulp_le F q hq
    have e1 : machine.pow2 (1 - (F.prec : Int)) = 2 * machine.pow2 (-(F.prec : Int)) := by
      have : (1 : Int) - (F.prec : Int) = 1 + -(F.prec : Int) := by ring
      rw [this, pow2_add]
      have : machine.pow2 1 = 2 := by decide
      rw [this]
    have e2 : machine.pow2 (F.emin - ((F.prec : Int) - 1)) = 2 * machine.pow2 (F.emin - (F.prec : Int)) := by
      have : F.emin - ((F.prec : Int) - 1) = 1 + (F.emin - (F.prec : Int)) := by ring
      rw [this, pow2_add]
      have : machine.pow2 1 = 2 := by decide
      rw [this]
    rw [e1, e2] at h2
    linarith

theorem pow2_natCast (n : Nat) : machine.pow2 (n : Int) = ((2 ^ n : Nat) : ℚ) := by
  rw [pow2_eq]
  push_cast
  exact zpow_natCast 2 n

theorem round_value_of_multiple (F : machine.format) (z k : Int) (hz : |z| < 2 ^ F.prec)
    (hk : F.emin - ((F.prec : Int) - 1) ≤ k) :
    machine.round_value F ((z : ℚ) * machine.pow2 k) = (z : ℚ) * machine.pow2 k := by
  by_cases hz0 : z = 0
  · subst hz0
    simp [round_value_zero]
  obtain ⟨q, hqdef⟩ : ∃ q : ℚ, q = (z : ℚ) * machine.pow2 k := ⟨_, rfl⟩
  rw [← hqdef]
  have hq : q ≠ 0 := by
    rw [hqdef]
    exact mul_ne_zero (by exact_mod_cast hz0) (pow2_pos k).ne'
  have habs : |q| < machine.pow2 ((F.prec : Int) + k) := by
    rw [hqdef, abs_mul, abs_of_pos (pow2_pos k), pow2_add]
    apply mul_lt_mul_of_pos_right _ (pow2_pos k)
    rw [pow2_natCast]
    have : (|z| : Int) < ((2 ^ F.prec : Nat) : Int) := by exact_mod_cast hz
    have h2 : ((|z| : Int) : ℚ) < (((2 ^ F.prec : Nat) : Int) : ℚ) := by exact_mod_cast this
    simpa using h2
  have hlog : machine.ilog2 q < (F.prec : Int) + k := ilog2_le_of_lt hq habs
  obtain ⟨U, hU⟩ : ∃ U : Int, U = max (machine.ilog2 q) F.emin - ((F.prec : Int) - 1) := ⟨_, rfl⟩
  have hue : U ≤ k := by
    rw [hU]
    rcases le_total (machine.ilog2 q) F.emin with h | h
    · rw [max_eq_right h]; exact hk
    · rw [max_eq_left h]; omega
  obtain ⟨d, hd⟩ : ∃ d : Nat, k = U + d := ⟨(k - U).toNat, by omega⟩
  have hu : machine.ulp F q = machine.pow2 U := by
    unfold machine.ulp; rw [hU]
  have hpos := pow2_pos U
  have hdiv : q / machine.ulp F q = ((z * (2 ^ d : Nat) : Int) : ℚ) := by
    rw [hu, hqdef, hd, pow2_add, pow2_natCast]
    field_simp
    ring
  unfold machine.round_value
  rw [hdiv, round_even_int, ← hdiv]
  have := (ulp_pos F q).ne'
  field_simp

theorem round_value_int (F : machine.format) (n : Int) (hn : |n| ≤ 2 ^ F.prec) (hp : 1 ≤ F.prec)
    (he : F.emin ≤ (F.prec : Int) - 1) : machine.round_value F (n : ℚ) = n := by
  rcases lt_or_eq_of_le hn with hlt | heq
  · have := round_value_of_multiple F n 0 hlt (by omega)
    have h0 : machine.pow2 0 = 1 := by decide
    rwa [h0, mul_one] at this
  · obtain ⟨p, hp'⟩ : ∃ p, F.prec = p + 1 := ⟨F.prec - 1, by omega⟩
    have hsplit : (n : ℚ) = ((n / 2 : Int) : ℚ) * machine.pow2 1 := by
      have h1 : machine.pow2 1 = 2 := by decide
      rw [h1]
      have h2 : n = n / 2 * 2 := by
        have : (2 : Int) ∣ n := by
          have : (2 : Int) ∣ |n| := by
            rw [heq, hp', pow_succ]
            exact Dvd.intro_left _ rfl
          exact (dvd_abs 2 n).mp this
        exact (Int.ediv_mul_cancel this).symm
      conv_lhs => rw [h2]
      push_cast
      ring
    rw [hsplit]
    apply round_value_of_multiple
    · have h2 : |n / 2| * 2 ≤ |n| := by
        have hh : |n / 2| * 2 = |n / 2 * 2| := by rw [abs_mul]; norm_num
        rw [hh]
        have : (2 : Int) ∣ n := by
          have : (2 : Int) ∣ |n| := by
            rw [heq, hp', pow_succ]
            exact Dvd.intro_left _ rfl
          exact (dvd_abs 2 n).mp this
        rw [Int.ediv_mul_cancel this]
      have h3 : (2 : Int) ^ F.prec = 2 ^ p * 2 := by rw [hp', pow_succ]
      have h4 : (0 : Int) < 2 ^ p := by positivity
      rw [heq, h3] at h2
      rw [h3]
      omega
    · omega

theorem round_even_nonneg {m : ℚ} (h : 0 ≤ m) : 0 ≤ machine.round_even m := by
  have : ((0 : Int) : ℚ) ≤ m := by simpa using h
  exact le_round_even_of_int_le this

theorem round_value_nonneg (F : machine.format) {q : ℚ} (h : 0 ≤ q) : 0 ≤ machine.round_value F q := by
  unfold machine.round_value
  apply mul_nonneg _ (ulp_pos F q).le
  have := round_even_nonneg (div_nonneg h (ulp_pos F q).le)
  exact_mod_cast this

theorem round_value_nonpos (F : machine.format) {q : ℚ} (h : q ≤ 0) : machine.round_value F q ≤ 0 := by
  have := round_value_nonneg F (neg_nonneg.mpr h)
  rw [round_value_neg] at this
  linarith

theorem ilog2_mono_pos {a b : ℚ} (ha : 0 < a) (hab : a ≤ b) : machine.ilog2 a ≤ machine.ilog2 b := by
  have hb : 0 < b := lt_of_lt_of_le ha hab
  have h1 := (ilog2_spec a ha.ne').1
  have h2 := (ilog2_spec b hb.ne').2
  rw [abs_of_pos ha] at h1
  rw [abs_of_pos hb] at h2
  by_contra hlt
  have : machine.pow2 (machine.ilog2 b + 1) ≤ machine.pow2 (machine.ilog2 a) := pow2_le_pow2 (by omega)
  linarith

theorem round_value_mono_pos (F : machine.format) (hp : 1 ≤ F.prec) {a b : ℚ} (ha : 0 < a)
    (hab : a ≤ b) : machine.round_value F a ≤ machine.round_value F b := by
  have hb : 0 < b := lt_of_lt_of_le ha hab
  have hlog := ilog2_mono_pos ha hab
  have hE : max (machine.ilog2 a) F.emin ≤ max (machine.ilog2 b) F.emin := max_le_max hlog le_rfl
  rcases lt_or_eq_of_le hE with hlt | heq
  · -- different binades
    have hEb : max (machine.ilog2 b) F.emin = machine.ilog2 b := by
      apply max_eq_left
      by_contra hcon
      have : max (machine.ilog2 b) F.emin = F.emin := max_eq_right (by omega)
      have h2 : F.emin ≤ max (machine.ilog2 a) F.emin := le_max_right _ _
      omega
    obtain ⟨p, hp'⟩ : ∃ p, F.prec = p + 1 := ⟨F.prec - 1, by omega⟩
    -- upper bound for a
    have hua : machine.ulp F a = machine.pow2 (max (machine.ilog2 a) F.emin - ((F.prec : Int) - 1)) := rfl
    have hub : machine.ulp F b = machine.pow2 (machine.ilog2 b - ((F.prec : Int) - 1)) := by
      unfold machine.ulp; rw [hEb]
    have h1 : machine.round_value F a ≤ machine.pow2 (max (machine.ilog2 a) F.emin + 1) := by
      have hlt1 : a < machine.pow2 (max (machine.ilog2 a) F.emin + 1) := by
        have := (ilog2_spec a ha.ne').2
        rw [abs_of_pos ha] at this
        exact lt_of_lt_of_le this (pow2_le_pow2 (by
          have := le_max_left (machine.ilog2 a) F.emin
          omega))
      have hsplit : machine.pow2 (max (machine.ilog2 a) F.emin + 1)
          = ((2 ^ F.prec : Nat) : ℚ) * machine.ulp F a := by
        rw [hua, ← pow2_natCast, ← pow2_add]
        congr 1
        ring
      have hdiv : a / machine.ulp F a ≤ (((2 ^ F.prec : Nat) : Int) : ℚ) := by
        rw [div_le_iff₀ (ulp_pos F a)]
        push_cast
        push_cast at hsplit
        rw [← hsplit]
        exact hlt1.le
      have := round_even_le_of_le_int hdiv
      unfold machine.round_value
      rw [hsplit]
      apply mul_le_mul_of_nonneg_right _ (ulp_pos F a).le
      exact_mod_cast this
    have h2 : machine.pow2 (machine.ilog2 b) ≤ machine.round_value F b := by
      have hge : machine.pow2 (machine.ilog2 b) ≤ b := by
        have := (ilog2_spec b hb.ne').1
        rwa [abs_of_pos hb] at this
      have hsplit : machine.pow2 (machine.ilog2 b) = ((2 ^ p : Nat) : ℚ) * machine.ulp F b := by
        rw [hub, ← pow2_natCast, ← pow2_add]
        congr 1
        rw [hp']
        push_cast
        ring
      have hdiv : (((2 ^ p : Nat) : Int) : ℚ) ≤ b / machine.ulp F b := by
        rw [le_div_iff₀ (ulp_pos F b)]
        push_cast
        push_cast at hsplit
        rw [← hsplit]
        exact hge
      have := le_round_even_of_int_le hdiv
      unfold machine.round_value
      rw [hsplit]
      apply mul_le_mul_of_nonneg_right _ (ulp_pos F b).le
      exact_mod_cast this
    have h3 : machine.pow2 (max (machine.ilog2 a) F.emin + 1) ≤ machine.pow2 (machine.ilog2 b) := pow2_le_pow2 (by omega)
    linarith
  · have hu : machine.ulp F a = machine.ulp F b := by
      unfold machine.ulp; rw [heq]
    unfold machine.round_value
    rw [hu]
    apply mul_le_mul_of_nonneg_right _ (ulp_pos F b).le
    have := round_even_mono (div_le_div_of_nonneg_right hab (ulp_pos F b).le)
    exact_mod_cast this

theorem round_value_mono (F : machine.format) (hp : 1 ≤ F.prec) {a b : ℚ} (hab : a ≤ b) :
    machine.round_value F a ≤ machine.round_value F b := by
  rcases lt_trichotomy 0 a with ha | ha | ha
  · exact round_value_mono_pos F hp ha hab
  · subst ha
    rw [round_value_zero]
    exact round_value_nonneg F hab
  · rcases le_or_lt 0 b with hb | hb
    · have := round_value_nonpos F ha.le
      have := round_value_nonneg F hb
      linarith
    · have := round_value_mono_pos F hp (neg_pos.mpr hb) (neg_le_neg hab)
      rw [round_value_neg, round_value_neg] at this
      linarith

theorem round_eq_fin (F : machine.format) (q : ℚ)
    (h : |machine.round_value F q| < machine.pow2 (F.emax + 1)) :
    machine.round F q = .fin (machine.round_value F q) := by
  unfold machine.round
  rw [if_neg (not_le.mpr h)]

theorem round_value_pow2 (F : machine.format) (hp : 1 ≤ F.prec) (k : Int)
    (hk : F.emin - ((F.prec : Int) - 1) ≤ k) :
    machine.round_value F (machine.pow2 k) = machine.pow2 k := by
  have h1 : |(1 : Int)| < 2 ^ F.prec := by
    have : (2 : Int) ^ 1 ≤ 2 ^ F.prec := pow_le_pow_right₀ (by norm_num) hp
    simpa using this
  have := round_value_of_multiple F 1 k h1 hk
  simpa using this

theorem round_value_abs_le (F : machine.format) (hp : 1 ≤ F.prec) (k : Int)
    (hk : F.emin - ((F.prec : Int) - 1) ≤ k) (q : ℚ) (hq : |q| ≤ machine.pow2 k) :
    |machine.round_value F q| ≤ machine.pow2 k := by
  rw [abs_le] at hq ⊢
  have h1 := round_value_mono F hp hq.1
  have h2 := round_value_mono F hp hq.2
  rw [round_value_neg, round_value_pow2 F hp k hk] at h1
  rw [round_value_pow2 F hp k hk] at h2
  exact ⟨h1, h2⟩

theorem round_fin_of_abs_le (F : machine.format) (hp : 1 ≤ F.prec)
    (he : F.emin - ((F.prec : Int) - 1) ≤ F.emax) (q : ℚ) (hq : |q| ≤ machine.pow2 F.emax) :
    machine.round F q = .fin (machine.round_value F q) := by
  apply round_eq_fin
  have := round_value_abs_le F hp F.emax he q hq
  exact lt_of_le_of_lt this (pow2_lt_pow2 (by omega))

theorem round_value_idem (F : machine.format) (hp : 1 ≤ F.prec) (q : ℚ) :
    machine.round_value F (machine.round_value F q) = machine.round_value F q := by
  by_cases hq : q = 0
  · subst hq
    rw [round_value_zero, round_value_zero]
  obtain ⟨U, hU⟩ : ∃ U : Int, U = max (machine.ilog2 q) F.emin - ((F.prec : Int) - 1) :=
    ⟨_, rfl⟩
  have hu : machine.ulp F q = machine.pow2 U := by
    unfold machine.ulp; rw [hU]
  have hUk : F.emin - ((F.prec : Int) - 1) ≤ U := by
    rw [hU]
    have := le_max_right (machine.ilog2 q) F.emin
    omega
  have hlt : |q| < machine.pow2 (U + F.prec) := by
    have h1 := (ilog2_spec q hq).2
    refine lt_of_lt_of_le h1 (pow2_le_pow2 ?_)
    rw [hU]
    have := le_max_left (machine.ilog2 q) F.emin
    omega
  have hdiv : |q / machine.ulp F q| ≤ (((2 ^ F.prec : Nat) : Int) : ℚ) := by
    rw [hu, abs_div, abs_of_pos (pow2_pos U), div_le_iff₀ (pow2_pos U)]
    have : machine.pow2 (U + F.prec) = ((2 ^ F.prec : Nat) : ℚ) * machine.pow2 U := by
      rw [pow2_add, pow2_natCast]; ring
    push_cast
    push_cast at this
    rw [← this]
    exact hlt.le
  rw [abs_le] at hdiv
  have hr1 : machine.round_even (q / machine.ulp F q) ≤ ((2 ^ F.prec : Nat) : Int) :=
    round_even_le_of_le_int hdiv.2
  have hr2 : -((2 ^ F.prec : Nat) : Int) ≤ machine.round_even (q / machine.ulp F q) := by
    apply le_round_even_of_int_le
    push_cast
    push_cast at hdiv
    exact hdiv.1
  have hval : machine.round_value F q
      = (machine.round_even (q / machine.ulp F q) : ℚ) * machine.pow2 U := by
    unfold machine.round_value
    rw [hu]
  rw [hval]
  set z := machine.round_even (q / machine.ulp F q) with hz
  have hzabs : |z| ≤ 2 ^ F.prec := by
    rw [abs_le]
    push_cast at hr1 hr2
    exact ⟨hr2, hr1⟩
  rcases lt_or_eq_of_le hzabs with hlt' | heq
  · exact round_value_of_multiple F z U hlt' hUk
  · obtain ⟨p, hp'⟩ : ∃ p, F.prec = p + 1 := ⟨F.prec - 1, by omega⟩
    have hdvd : (2 : Int) ∣ z := by
      have : (2 : Int) ∣ |z| := by
        rw [heq, hp', pow_succ]
        exact Dvd.intro_left _ rfl
      exact (dvd_abs 2 z).mp this
    have hsplit : (z : ℚ) * machine.pow2 U = ((z / 2 : Int) : ℚ) * machine.pow2 (U + 1) := by
      have h1 : machine.pow2 1 = 2 := by decide
      rw [pow2_add, h1]
      have h2 : z = z / 2 * 2 := (Int.ediv_mul_cancel hdvd).symm
      conv_lhs => rw [h2]
      push_cast
      ring
    rw [hsplit]
    apply round_value_of_multiple
    · have h2 : |z / 2| * 2 = |z| := by
        have hh : |z / 2| * 2 = |z / 2 * 2| := by rw [abs_mul]; norm_num
        rw [hh, Int.ediv_mul_cancel hdvd]
      have h3 : (2 : Int) ^ F.prec = 2 ^ p * 2 := by rw [hp', pow_succ]
      have h4 : (0 : Int) < 2 ^ p := by positivity
      rw [heq, h3] at h2
      rw [h3]
      omega
    · omega

theorem pow2_neg24 : machine.pow2 (-24) = 1 / 2 ^ 24 := by
  rw [pow2_eq]; norm_num
theorem pow2_neg53 : machine.pow2 (-53) = 1 / 2 ^ 53 := by
  rw [pow2_eq]; norm_num
theorem pow2_neg150 : machine.pow2 (-150) = 1 / 2 ^ 150 := by
  rw [pow2_eq]; norm_num
theorem pow2_neg1075 : machine.pow2 (-1075) = 1 / 2 ^ 1075 := by
  rw [pow2_eq]; norm_num
theorem pow2_127 : machine.pow2 127 = 2 ^ 127 := by
  rw [pow2_eq]; norm_num
theorem pow2_1023 : machine.pow2 1023 = 2 ^ 1023 := by
  rw [pow2_eq]; norm_num

theorem round32_error (q : ℚ) :
    |machine.round_value machine.binary32 q - q| ≤ |q| / 2 ^ 24 + 1 / 2 ^ 150 := by
  have h := round_value_rel_error machine.binary32 q
  have e1 : (-((machine.binary32.prec : Nat) : Int)) = -24 := rfl
  have e2 : machine.binary32.emin - ((machine.binary32.prec : Nat) : Int) = -150 := rfl
  rw [e1, e2, pow2_neg24, pow2_neg150] at h
  linarith [h]

theorem round64_error (q : ℚ) :
    |machine.round_value machine.binary64 q - q| ≤ |q| / 2 ^ 53 + 1 / 2 ^ 1075 := by
  have h := round_value_rel_error machine.binary64 q
  have e1 : (-((machine.binary64.prec : Nat) : Int)) = -53 := rfl
  have e2 : machine.binary64.emin - ((machine.binary64.prec : Nat) : Int) = -1075 := rfl
  rw [e1, e2, pow2_neg53, pow2_neg1075] at h
  linarith [h]

theorem round32_fin (q : ℚ) (hq : |q| ≤ 2 ^ 127) :
    machine.round machine.binary32 q = .fin (machine.round_value machine.binary32 q) := by
  apply round_fin_of_abs_le machine.binary32 (by decide) (by decide)
  have : machine.binary32.emax = 127 := rfl
  rw [this, pow2_127]
  exact hq

theorem round64_fin (q : ℚ) (hq : |q| ≤ 2 ^ 1023) :
    machine.round machine.binary64 q = .fin (machine.round_value machine.binary64 q) := by
  apply round_fin_of_abs_le machine.binary64 (by decide) (by decide)
  have : machine.binary64.emax = 1023 := rfl
  rw [this, pow2_1023]
  exact hq

theorem round32_int (n : Int) (hn : |n| ≤ 2 ^ 24) :
    machine.round machine.binary32 (n : ℚ) = .fin (n : ℚ) := by
  have hv : machine.round_value machine.binary32 (n : ℚ) = n :=
    round_value_int machine.binary32 n hn (by decide) (by decide)
  have hq : |(n : ℚ)| ≤ 2 ^ 127 := by
    have h1 : |(n : ℚ)| ≤ 2 ^ 24 := by exact_mod_cast hn
    have h2 : (2 : ℚ) ^ 24 ≤ 2 ^ 127 := by norm_num
    linarith
  rw [round32_fin _ hq, hv]

theorem round64_int (n : Int) (hn : |n| ≤ 2 ^ 53) :
    machine.round machine.binary64 (n : ℚ) = .fin (n : ℚ) := by
  have hv : machine.round_value machine.binary64 (n : ℚ) = n :=
    round_value_int machine.binary64 n hn (by decide) (by decide)
  have hq : |(n : ℚ)| ≤ 2 ^ 1023 := by
    have h1 : |(n : ℚ)| ≤ 2 ^ 53 := by exact_mod_cast hn
    have h2 : (2 : ℚ) ^ 53 ≤ 2 ^ 1023 := by norm_num
    linarith
  rw [round64_fin _ hq, hv]

/-! ## Cell mapping in double -/

theorem fp_round_zero (F : machine.format) : machine.round F 0 = .fin 0 := by
  rw [round_eq_fin]
  · rw [round_value_zero]
  · rw [round_value_zero, abs_zero]
    exact pow2_pos _

theorem fp_sub_self (F : machine.format) (m : ℚ) :
    machine.fp.sub F (.fin m) (.fin m) = .fin 0 := by
  show machine.round F (m + -m) = .fin 0
  rw [add_neg_cancel]
  exact fp_round_zero F

theorem fp_div_zero_not_finite (F : machine.format) (v : machine.fp) :
    (machine.fp.div F v (.fin 0)).finite = false := by
  cases v with
  | nan => rfl
  | ninf => simp [machine.fp.div, machine.fp.sign_inf, machine.fp.finite]
  | pinf => simp [machine.fp.div, machine.fp.sign_inf, machine.fp.finite]
  | fin a =>
    by_cases ha : a = 0
    · simp [machine.fp.div, ha, machine.fp.finite]
    · by_cases hp : 0 < a <;>
        simp [machine.fp.div, ha, hp, machine.fp.sign_inf, machine.fp.finite]

theorem cvt_int_of_not_finite (v : machine.fp) (h : v.finite = false) :
    machine.cvt_int v = -2 ^ 31 := by
  cases v with
  | fin a => simp [machine.fp.finite] at h
  | nan => rfl
  | ninf => rfl
  | pinf => rfl

theorem machine_rescale_range (x min max : machine.fp) (w : Int) (hw : 1 ≤ w) :
    0 ≤ machine.rescale_float_to_int x min max w ∧
      machine.rescale_float_to_int x min max w ≤ w - 1 := by
  unfold machine.rescale_float_to_int
  simp only
  split_ifs <;> omega

/-- C8: for a degenerate bounding box (min = max), every x and every w ≥ 1, the mapping does
divide by zero: the divisor max - min is 0, the quotient is an infinity or not-a-number, its
conversion to int is out of range (INT_MIN on x86-64, undefined in ISO C), and the clamp then
returns cell 0. -/
theorem C8_degenerate_box_divides_by_zero (x m : ℚ) (w : Int) (hw : 1 ≤ w) :
    machine.fp.sub machine.binary64 (.fin m) (.fin m) = .fin 0 ∧
    (machine.rescale_quotient (.fin x) (.fin m) (.fin m) w).finite = false ∧
    machine.cvt_int (machine.rescale_quotient (.fin x) (.fin m) (.fin m) w) = -2 ^ 31 ∧
    machine.rescale_float_to_int (.fin x) (.fin m) (.fin m) w = 0 := by
  have h0 := fp_sub_self machine.binary64 m
  have hq : (machine.rescale_quotient (.fin x) (.fin m) (.fin m) w).finite = false := by
    unfold machine.rescale_quotient
    rw [h0]
    exact fp_div_zero_not_finite _ _
  have hc := cvt_int_of_not_finite _ hq
  refine ⟨h0, hq, hc, ?_⟩
  unfold machine.rescale_float_to_int
  simp only [hc]
  norm_num
  omega

theorem C8_degenerate_box_divides_by_zero_witness :
    machine.fp.sub machine.binary64 (.fin 3) (.fin 3) = .fin 0 ∧
    (machine.rescale_quotient (.fin 5) (.fin 3) (.fin 3) 4).finite = false ∧
    machine.cvt_int (machine.rescale_quotient (.fin 5) (.fin 3) (.fin 3) 4) = -2 ^ 31 ∧
    machine.rescale_float_to_int (.fin 5) (.fin 3) (.fin 3) 4 = 0 :=
  C8_degenerate_box_divides_by_zero 5 3 4 (by decide)

/-- C8 (failing input): x = 5, min = max = 3, w = 4: the quotient w * (x - min)/(max - min) is
8/0 = +infinity. -/
theorem C8_division_by_zero_at_5_3_3 :
    machine.rescale_quotient (.fin 5) (.fin 3) (.fin 3) 4 = .pinf := by
  decide!

theorem cvt_int_fin_of_lt (q : ℚ) (hq : q < 2 ^ 31) :
    max (machine.cvt_int (.fin q)) 0 = max ⌊q⌋ 0 := by
  simp only [machine.cvt_int, c_trunc]
  by_cases h0 : 0 ≤ q
  · have hf0 : 0 ≤ ⌊q⌋ := Int.floor_nonneg.mpr h0
    have hf1 : ⌊q⌋ < 2 ^ 31 := by
      have : (⌊q⌋ : ℚ) ≤ q := Int.floor_le q
      have h2 : (⌊q⌋ : ℚ) < ((2 ^ 31 : Int) : ℚ) := by push_cast; linarith
      exact_mod_cast h2
    simp only [h0, if_true]
    rw [if_pos ⟨by omega, hf1⟩]
  · have hq0 : q < 0 := not_le.mp h0
    have hc : ⌈q⌉ ≤ 0 := Int.ceil_le.mpr (by simpa using hq0.le)
    have hf : ⌊q⌋ < 0 := by
      have : (⌊q⌋ : ℚ) ≤ q := Int.floor_le q
      have h2 : (⌊q⌋ : ℚ) < ((0 : Int) : ℚ) := by push_cast; linarith
      exact_mod_cast h2
    simp only [h0, if_false]
    split_ifs <;> omega

theorem machine_rescale_of_quotient (x min max : machine.fp) (w : Int) (q : ℚ) (hw : 1 ≤ w)
    (hq : machine.rescale_quotient x min max w = .fin q) (hlt : q < 2 ^ 31) :
    machine.rescale_float_to_int x min max w = Min.min (Max.max ⌊q⌋ 0) (w - 1) := by
  have h := cvt_int_fin_of_lt q hlt
  unfold machine.rescale_float_to_int
  simp only [hq]
  rcases le_total (machine.cvt_int (.fin q)) 0 with hc | hc
  · rw [max_eq_right hc] at h
    by_cases hneg : machine.cvt_int (.fin q) < 0
    · simp only [hneg, if_true]
      rw [← h]
      have : ¬ (0 : Int) ≥ w := by omega
      simp only [this, if_false]
      omega
    · have h0 : machine.cvt_int (.fin q) = 0 := by omega
      simp only [h0, lt_irrefl, if_false]
      rw [← h]
      have : ¬ (0 : Int) ≥ w := by omega
      simp only [this, if_false]
      omega
  · rw [max_eq_left hc] at h
    have hneg : ¬ machine.cvt_int (.fin q) < 0 := by omega
    simp only [hneg, if_false]
    rw [← h]
    split_ifs <;> omega

theorem machine_rescale_of_big_quotient (x min max : machine.fp) (w : Int) (q : ℚ)
    (hw : 1 ≤ w) (hq : machine.rescale_quotient x min max w = .fin q) (hge : 2 ^ 31 ≤ q) :
    machine.rescale_float_to_int x min max w = 0 := by
  have hc : machine.cvt_int (.fin q) = -2 ^ 31 := by
    simp only [machine.cvt_int, c_trunc]
    have h0 : (0 : ℚ) ≤ q := by linarith
    simp only [h0, if_true]
    have : ¬ (⌊q⌋ < 2 ^ 31) := by
      rw [not_lt]
      apply Int.le_floor.mpr
      push_cast
      exact hge
    rw [if_neg (fun h => this h.2)]
  unfold machine.rescale_float_to_int
  simp only [hq, hc]
  norm_num
  omega

/-- C3 (failing input): x = 2^30 with min = 0, max = 1 and w = 2 lies right of the box, so the
clamped floor is w - 1 = 1; the quotient 2^31 is not an int, its conversion gives INT_MIN and
the code returns cell 0. -/
theorem C3_far_point_maps_to_cell_zero :
    machine.rescale_quotient (.fin (2 ^ 30)) (.fin 0) (.fin 1) 2 = .fin (2 ^ 31) ∧
    machine.rescale_float_to_int (.fin (2 ^ 30)) (.fin 0) (.fin 1) 2 = 0 ∧
    spec_rescale (2 ^ 30) 0 1 2 = 1 := by
  decide!

/-- C3: for every w ≥ 1 the mapping returns a cell in [0, w-1]; it is the clamped floor of the
quotient w * (x - min)/(max - min) as computed in double whenever that quotient is below 2^31;
a quotient of 2^31 or more (a point far right of the box) is converted to INT_MIN and the
mapping returns cell 0 instead of w - 1. -/
theorem C3_rescale_is_clamped_floor_below_int_max (x min max : machine.fp) (w : Int)
    (hw : 1 ≤ w) :
    (0 ≤ machine.rescale_float_to_int x min max w ∧
      machine.rescale_float_to_int x min max w ≤ w - 1) ∧
    (∀ q : ℚ, machine.rescale_quotient x min max w = .fin q → q < 2 ^ 31 →
      machine.rescale_float_to_int x min max w = Min.min (Max.max ⌊q⌋ 0) (w - 1)) ∧
    (∀ q : ℚ, machine.rescale_quotient x min max w = .fin q → 2 ^ 31 ≤ q →
      machine.rescale_float_to_int x min max w = 0) :=
  ⟨machine_rescale_range x min max w hw,
    fun q hq hlt => machine_rescale_of_quotient x min max w q hw hq hlt,
    fun q hq hge => machine_rescale_of_big_quotient x min max w q hw hq hge⟩

theorem C3_rescale_is_clamped_floor_below_int_max_witness :
    (0 ≤ machine.rescale_float_to_int (.fin 15) (.fin 0) (.fin 30) 4 ∧
      machine.rescale_float_to_int (.fin 15) (.fin 0) (.fin 30) 4 ≤ 4 - 1) ∧
    (∀ q : ℚ, machine.rescale_quotient (.fin 15) (.fin 0) (.fin 30) 4 = .fin q → q < 2 ^ 31 →
      machine.rescale_float_to_int (.fin 15) (.fin 0) (.fin 30) 4
        = Min.min (Max.max ⌊q⌋ 0) (4 - 1)) ∧
    (∀ q : ℚ, machine.rescale_quotient (.fin 15) (.fin 0) (.fin 30) 4 = .fin q → 2 ^ 31 ≤ q →
      machine.rescale_float_to_int (.fin 15) (.fin 0) (.fin 30) 4 = 0) :=
  C3_rescale_is_clamped_floor_below_int_max (.fin 15) (.fin 0) (.fin 30) 4 (by decide)

/-! ## Raster dimension in float -/

theorem cvt_int_of_nonneg_lt (q : ℚ) (h0 : 0 ≤ q) (h1 : q < 2 ^ 31) :
    machine.cvt_int (.fin q) = ⌊q⌋ := by
  have hf0 : 0 ≤ ⌊q⌋ := Int.floor_nonneg.mpr h0
  have hf1 : ⌊q⌋ < 2 ^ 31 := by
    have : (⌊q⌋ : ℚ) ≤ q := Int.floor_le q
    have h2 : (⌊q⌋ : ℚ) < ((2 ^ 31 : Int) : ℚ) := by push_cast; linarith
    exact_mod_cast h2
  simp only [machine.cvt_int, c_trunc, h0, if_true]
  rw [if_pos ⟨by omega, hf1⟩]

theorem floor_close (a b : ℚ) (h : |a - b| < 1) : |⌊a⌋ - ⌊b⌋| ≤ 1 := by
  rw [abs_lt] at h
  have ha1 := Int.floor_le a
  have ha2 := Int.lt_floor_add_one a
  have hb1 := Int.floor_le b
  have hb2 := Int.lt_floor_add_one b
  rw [abs_le]
  constructor
  · have : (⌊b⌋ : ℚ) < (⌊a⌋ : ℚ) + 2 := by linarith
    have : ⌊b⌋ < ⌊a⌋ + 2 := by exact_mod_cast this
    omega
  · have : (⌊a⌋ : ℚ) < (⌊b⌋ : ℚ) + 2 := by linarith
    have : ⌊a⌋ < ⌊b⌋ + 2 := by exact_mod_cast this
    omega

/-- C9 (as stated, refuted): for the box 0..25 at resolution 10 the code computes width 3 (the
conversion to int truncates 3.5), while 1 + ceil((xmax - xmin)/resolution) is 4. -/
theorem C9_dimension_truncates :
    machine.main_dimension (.fin 0) (.fin 25) (.fin 10) = 3 ∧ spec_dimension 0 25 10 = 4 := by
  constructor
  · decide!
  · have h : ⌈(5 : ℚ) / 2⌉ = 3 := by
      rw [Int.ceil_eq_iff]; norm_num
    simp only [spec_dimension]
    norm_num [h]

/-- C9 (amended): the dimension computed in main is the binary32 evaluation of
1 + (hi - lo)/resolution truncated to int. When the subtraction, the division and the addition
are exact in binary32 it is 1 + floor((hi - lo)/resolution); for a resolution between 2^-100
and 2^100 and a quotient of at most 2^20 it differs from 1 + floor((hi - lo)/resolution) by at
most 1. -/
theorem C9_dimension_is_truncated_float (lo hi resolution : ℚ) (hbox : lo ≤ hi)
    (hres : 0 < resolution) :
    (machine.round machine.binary32 (hi + -lo) = .fin (hi - lo) →
      machine.round machine.binary32 ((hi - lo) / resolution) = .fin ((hi - lo) / resolution) →
      machine.round machine.binary32 (1 + (hi - lo) / resolution)
        = .fin (1 + (hi - lo) / resolution) →
      1 + (hi - lo) / resolution < 2 ^ 31 →
      machine.main_dimension (.fin lo) (.fin hi) (.fin resolution)
        = 1 + ⌊(hi - lo) / resolution⌋) ∧
    (1 / 2 ^ 100 ≤ resolution → resolution ≤ 2 ^ 100 → (hi - lo) / resolution ≤ 2 ^ 20 →
      |machine.main_dimension (.fin lo) (.fin hi) (.fin resolution)
        - (1 + ⌊(hi - lo) / resolution⌋)| ≤ 1) := by
  have hres0 : resolution ≠ 0 := hres.ne'
  have hd0 : 0 ≤ hi - lo := by linarith
  have hq0 : 0 ≤ (hi - lo) / resolution := div_nonneg hd0 hres.le
  constructor
  · intro h1 h2 h3 h4
    unfold machine.main_dimension
    simp only [machine.fp.sub, machine.fp.neg, machine.fp.add, h1, machine.fp.div, hres0,
      if_false, h2, h3]
    rw [cvt_int_of_nonneg_lt _ (by linarith) h4]
    rw [add_comm, Int.floor_add_one, add_comm]
  · intro hr1 hr2 hq
    set d := hi - lo with hd
    set q := d / resolution with hqdef
    have hdle : d ≤ 2 ^ 120 := by
      have : d = q * resolution := by rw [hqdef]; field_simp
      rw [this]
      calc q * resolution ≤ 2 ^ 20 * 2 ^ 100 := mul_le_mul hq hr2 hres.le (by norm_num)
        _ = 2 ^ 120 := by norm_num
    -- first rounding
    have hfin1 : machine.round machine.binary32 (hi + -lo)
        = .fin (machine.round_value machine.binary32 d) := by
      have : hi + -lo = d := by rw [hd]; ring
      rw [this]
      apply round32_fin
      rw [abs_of_nonneg hd0]
      have : (2 : ℚ) ^ 120 ≤ 2 ^ 127 := by norm_num
      linarith
    have he1 := round32_error d
    rw [abs_of_nonneg hd0] at he1
    have hd1 := round_value_nonneg machine.binary32 hd0
    set d1 := machine.round_value machine.binary32 d with hd1def
    -- quotient
    have hinv : 1 / resolution ≤ 2 ^ 100 := by
      rw [div_le_iff₀ hres]
      have : (1 : ℚ) / 2 ^ 100 * 2 ^ 100 = 1 := by norm_num
      calc (1 : ℚ) = 1 / 2 ^ 100 * 2 ^ 100 := this.symm
        _ ≤ resolution * 2 ^ 100 := by
          apply mul_le_mul_of_nonneg_right hr1 (by norm_num)
        _ = 2 ^ 100 * resolution := by ring
    have hinv0 : 0 < 1 / resolution := by positivity
    have hq1 : |d1 / resolution - q| ≤ q / 2 ^ 24 + 1 / 2 ^ 50 := by
      have e : d1 / resolution - q = (d1 - d) * (1 / resolution) := by
        rw [hqdef]; field_simp
      rw [e, abs_mul, abs_of_pos hinv0]
      calc |d1 - d| * (1 / resolution)
          ≤ (d / 2 ^ 24 + 1 / 2 ^ 150) * (1 / resolution) :=
            mul_le_mul_of_nonneg_right he1 hinv0.le
        _ = q / 2 ^ 24 + 1 / 2 ^ 150 * (1 / resolution) := by rw [hqdef]; field_simp; ring
        _ ≤ q / 2 ^ 24 + 1 / 2 ^ 150 * 2 ^ 100 := by
            have := mul_le_mul_of_nonneg_left hinv (by norm_num : (0 : ℚ) ≤ 1 / 2 ^ 150)
            linarith
        _ = q / 2 ^ 24 + 1 / 2 ^ 50 := by norm_num
    have hq1nn : 0 ≤ d1 / resolution := div_nonneg hd1 hres.le
    set q1 := d1 / resolution with hq1def
    rw [abs_le] at hq1
    have hq1le : q1 ≤ 2 ^ 20 + 1 / 8 := by
      have : q / 2 ^ 24 ≤ 1 / 16 := by
        rw [div_le_iff₀ (by norm_num)]
        calc q ≤ 2 ^ 20 := hq
          _ = 1 / 16 * 2 ^ 24 := by norm_num
      have : (1 : ℚ) / 2 ^ 50 ≤ 1 / 16 := by norm_num
      linarith [hq1.2]
    have hfin2 : machine.round machine.binary32 q1
        = .fin (machine.round_value machine.binary32 q1) := by
      apply round32_fin
      rw [abs_of_nonneg hq1nn]
      have : (2 : ℚ) ^ 20 + 1 / 8 ≤ 2 ^ 127 := by norm_num
      linarith
    have he2 := round32_error q1
    rw [abs_of_nonneg hq1nn] at he2
    have hq2nn := round_value_nonneg machine.binary32 hq1nn
    set q2 := machine.round_value machine.binary32 q1 with hq2def
    rw [abs_le] at he2
    have hq2le : q2 ≤ 2 ^ 20 + 1 / 4 := by
      have : q1 / 2 ^ 24 ≤ 1 / 16 + 1 / 2 ^ 27 := by
        rw [div_le_iff₀ (by norm_num)]
        calc q1 ≤ 2 ^ 20 + 1 / 8 := hq1le
          _ = (1 / 16 + 1 / 2 ^ 27) * 2 ^ 24 := by norm_num
      have : (1 : ℚ) / 2 ^ 150 ≤ 1 / 2 ^ 27 := by norm_num
      have : (1 : ℚ) / 2 ^ 27 ≤ 1 / 64 := by norm_num
      linarith [he2.2]
    have hsnn : 0 ≤ 1 + q2 := by linarith
    have hfin3 : machine.round machine.binary32 (1 + q2)
        = .fin (machine.round_value machine.binary32 (1 + q2)) := by
      apply round32_fin
      rw [abs_of_nonneg hsnn]
      have : (1 : ℚ) + (2 ^ 20 + 1 / 4) ≤ 2 ^ 127 := by norm_num
      linarith
    have he3 := round32_error (1 + q2)
    rw [abs_of_nonneg hsnn] at he3
    have hs3nn := round_value_nonneg machine.binary32 hsnn
    set s3 := machine.round_value machine.binary32 (1 + q2) with hs3def
    rw [abs_le] at he3
    have hb1 : q / 2 ^ 24 ≤ 1 / 16 := by
      rw [div_le_iff₀ (by norm_num)]
      calc q ≤ 2 ^ 20 := hq
        _ = 1 / 16 * 2 ^ 24 := by norm_num
    have hb2 : q1 / 2 ^ 24 ≤ 1 / 16 + 1 / 2 ^ 27 := by
      rw [div_le_iff₀ (by norm_num)]
      calc q1 ≤ 2 ^ 20 + 1 / 8 := hq1le
        _ = (1 / 16 + 1 / 2 ^ 27) * 2 ^ 24 := by norm_num
    have hb3 : (1 + q2) / 2 ^ 24 ≤ 1 / 16 + 1 / 2 ^ 23 := by
      rw [div_le_iff₀ (by norm_num)]
      calc 1 + q2 ≤ 1 + (2 ^ 20 + 1 / 4) := by linarith
        _ ≤ (1 / 16 + 1 / 2 ^ 23) * 2 ^ 24 := by norm_num
    have hn1 : (1 : ℚ) / 2 ^ 50 ≤ 1 / 2 ^ 23 := by norm_num
    have hn2 : (1 : ℚ) / 2 ^ 150 ≤ 1 / 2 ^ 23 := by norm_num
    have hn3 : (1 : ℚ) / 2 ^ 27 ≤ 1 / 2 ^ 23 := by norm_num
    have hn4 : (1 : ℚ) / 2 ^ 23 ≤ 1 / 256 := by norm_num
    have hclose : |s3 - (1 + q)| < 1 := by
      rw [abs_lt]
      constructor <;> linarith [hq1.1, hq1.2, he2.1, he2.2, he3.1, he3.2]
    have hs3lt : s3 < 2 ^ 31 := by
      have : (1 : ℚ) + (2 ^ 20 + 1 / 4) + 1 < 2 ^ 31 := by norm_num
      linarith [he3.2]
    unfold machine.main_dimension
    simp only [machine.fp.sub, machine.fp.neg, machine.fp.add, hfin1, machine.fp.div, hres0,
      if_false, hfin2, hfin3]
    rw [cvt_int_of_nonneg_lt _ hs3nn hs3lt]
    have := floor_close s3 (1 + q) hclose
    rw [add_comm 1 q, Int.floor_add_one] at this
    rw [add_comm 1 ⌊q⌋]
    exact this

theorem C9_dimension_is_truncated_float_witness :
    (machine.round machine.binary32 (30 + -0) = .fin (30 - 0) →
      machine.round machine.binary32 ((30 - 0) / 10) = .fin ((30 - 0) / 10) →
      machine.round machine.binary32 (1 + (30 - 0) / 10) = .fin (1 + (30 - 0) / 10) →
      1 + (30 - 0) / 10 < (2 : ℚ) ^ 31 →
      machine.main_dimension (.fin 0) (.fin 30) (.fin 10) = 1 + ⌊((30 : ℚ) - 0) / 10⌋) ∧
    (1 / 2 ^ 100 ≤ (10 : ℚ) → (10 : ℚ) ≤ 2 ^ 100 → ((30 : ℚ) - 0) / 10 ≤ 2 ^ 20 →
      |machine.main_dimension (.fin 0) (.fin 30) (.fin 10) - (1 + ⌊((30 : ℚ) - 0) / 10⌋)| ≤ 1) :=
  C9_dimension_is_truncated_float 0 30 10 (by norm_num) (by norm_num)

/-! ## Grid accumulator in float -/

theorem m_cell_index_of_in_range (x : machine.images) (i j : Int) (hw : x.w < 2 ^ 31)
    (hh : x.h < 2 ^ 31) (hi : 0 ≤ i ∧ i < x.w) (hj : 0 ≤ j ∧ j < x.h) :
    machine.cell_index x i j = (x.w * j + i).toNat ∧ x.w * j + i < x.w * x.h ∧
      0 ≤ x.w * j + i := by
  obtain ⟨h1, h2⟩ := tile_cell_in_bounds x.w x.h i j hi hj
  refine ⟨?_, h2, h1⟩
  unfold machine.cell_index
  have hwh : x.w * x.h < 2 ^ 64 := by
    have h3 : x.w * x.h ≤ 2 ^ 31 * 2 ^ 31 :=
      mul_le_mul hw.le hh.le (by omega) (by norm_num)
    have : (2 : Int) ^ 31 * 2 ^ 31 < 2 ^ 64 := by norm_num
    omega
  rw [Int.emod_eq_of_lt h1 (by omega)]

theorem m_wf_images_cell (x : machine.images) (i j : Int) (hx : machine.wf_images x)
    (hi : 0 ≤ i ∧ i < x.w) (hj : 0 ≤ j ∧ j < x.h) :
    machine.cell_index x i j = (x.w * j + i).toNat ∧
      ∃ c a, x.cnt[machine.cell_index x i j]? = some c ∧
        x.avg[machine.cell_index x i j]? = some a := by
  obtain ⟨hw0, hw, hh0, hh, hlc, hla⟩ := hx
  obtain ⟨hk, hlt, h0⟩ := m_cell_index_of_in_range x i j hw hh hi hj
  have hkc : machine.cell_index x i j < x.cnt.length := by rw [hk, hlc]; omega
  have hka : machine.cell_index x i j < x.avg.length := by rw [hk, hla]; omega
  exact ⟨hk, x.cnt[machine.cell_index x i j], x.avg[machine.cell_index x i j],
    List.getElem?_eq_getElem hkc, List.getElem?_eq_getElem hka⟩

theorem m_add_height_eq (x : machine.images) (i j : Int) (v c a : machine.fp)
    (hc : x.cnt[machine.cell_index x i j]? = some c)
    (ha : x.avg[machine.cell_index x i j]? = some a) :
    machine.add_height_to_images x i j v =
      some { x with
        avg := x.avg.set (machine.cell_index x i j)
          (machine.fp.div machine.binary32
            (machine.fp.add machine.binary32 v (machine.fp.mul machine.binary32 c a))
            (machine.fp.add machine.binary32 (.fin 1) c)),
        cnt := x.cnt.set (machine.cell_index x i j)
          (machine.fp.add machine.binary32 c (.fin 1)) } := by
  simp [machine.add_height_to_images, hc, ha]

theorem m_add_height_inv (x x' : machine.images) (i j : Int) (v : machine.fp)
    (h : machine.add_height_to_images x i j v = some x') :
    ∃ c a, x.cnt[machine.cell_index x i j]? = some c ∧
      x.avg[machine.cell_index x i j]? = some a ∧
      x' = { x with
        avg := x.avg.set (machine.cell_index x i j)
          (machine.fp.div machine.binary32
            (machine.fp.add machine.binary32 v (machine.fp.mul machine.binary32 c a))
            (machine.fp.add machine.binary32 (.fin 1) c)),
        cnt := x.cnt.set (machine.cell_index x i j)
          (machine.fp.add machine.binary32 c (.fin 1)) } := by
  cases hc : x.cnt[machine.cell_index x i j]? with
  | none => simp [machine.add_height_to_images, hc] at h
  | some c =>
    cases ha : x.avg[machine.cell_index x i j]? with
    | none => simp [machine.add_height_to_images, hc, ha] at h
    | some a =>
      rw [m_add_height_eq x i j v c a hc ha] at h
      exact ⟨c, a, rfl, rfl, (Option.some.inj h).symm⟩

theorem m_add_height_frame (x x' : machine.images) (i j : Int) (v : machine.fp)
    (h : machine.add_height_to_images x i j v = some x') :
    x'.w = x.w ∧ x'.h = x.h ∧ x'.cnt.length = x.cnt.length ∧ x'.avg.length = x.avg.length ∧
      ∀ m, m ≠ machine.cell_index x i j → x'.cnt[m]? = x.cnt[m]? ∧ x'.avg[m]? = x.avg[m]? := by
  obtain ⟨c, a, _, _, rfl⟩ := m_add_height_inv x x' i j v h
  refine ⟨rfl, rfl, by simp, by simp, ?_⟩
  intro m hm
  simp [List.getElem?_set_ne (Ne.symm hm)]

theorem m_add_height_cell (x x' : machine.images) (i j : Int) (v : machine.fp)
    (h : machine.add_height_to_images x i j v = some x') :
    ∃ c a, x.cnt[machine.cell_index x i j]? = some c ∧
      x.avg[machine.cell_index x i j]? = some a ∧
      x'.cnt[machine.cell_index x i j]? = some (machine.fp.add machine.binary32 c (.fin 1)) ∧
      x'.avg[machine.cell_index x i j]? = some
        (machine.fp.div machine.binary32
          (machine.fp.add machine.binary32 v (machine.fp.mul machine.binary32 c a))
          (machine.fp.add machine.binary32 (.fin 1) c)) := by
  obtain ⟨c, a, hc, ha, hx'⟩ := m_add_height_inv x x' i j v h
  have hkc : machine.cell_index x i j < x.cnt.length := by
    by_contra hge
    rw [List.getElem?_eq_none (by omega)] at hc
    cases hc
  have hka : machine.cell_index x i j < x.avg.length := by
    by_contra hge
    rw [List.getElem?_eq_none (by omega)] at ha
    cases ha
  refine ⟨c, a, hc, ha, ?_, ?_⟩
  · rw [hx']; simp [hkc]
  · rw [hx']; simp [hka]

theorem m_add_height_wf (x : machine.images) (i j : Int) (v : machine.fp)
    (hx : machine.wf_images x) (hi : 0 ≤ i ∧ i < x.w) (hj : 0 ≤ j ∧ j < x.h) :
    ∃ x', machine.add_height_to_images x i j v = some x' ∧ machine.wf_images x' ∧
      x'.w = x.w ∧ x'.h = x.h := by
  obtain ⟨_, c, a, hc, ha⟩ := m_wf_images_cell x i j hx hi hj
  refine ⟨_, m_add_height_eq x i j v c a hc ha, ?_, rfl, rfl⟩
  obtain ⟨hw0, hw, hh0, hh, hlc, hla⟩ := hx
  exact ⟨hw0, hw, hh0, hh, by simpa using hlc, by simpa using hla⟩

theorem fp_count_succ (k : Int) (h0 : 0 ≤ k) (h1 : k < 2 ^ 24) :
    machine.fp.add machine.binary32 (.fin (k : ℚ)) (.fin 1) = .fin ((k : ℚ) + 1) := by
  have := round32_int (k + 1) (by rw [abs_of_nonneg (by omega)]; omega)
  simp only [machine.fp.add]
  push_cast at this
  exact this

/-- C10 (as stated, refuted): a cell whose count is 2^24 keeps that count when one more value is
added: 2^24 + 1 is not a binary32 number and the sum rounds back to 2^24. -/
theorem C10_count_stops_at_2_pow_24 :
    machine.add_height_to_images
      { cnt := [.fin 16777216], avg := [.fin 1], w := 1, h := 1 } 0 0 (.fin 1)
      = some { cnt := [.fin 16777216], avg := [.fin 1], w := 1, h := 1 } := by
  decide!

/-- C10 (amended): on a grid of dimensions w x h, one call add_height_to_images(x, i, j, v) for
an in-range cell sets the mean of the cell at index w*j + i to the binary32 evaluation of
(v + count*mean) / (1 + count) and its count to the binary32 sum count + 1, which is count + 1
for an integer count below 2^24; it leaves every other cell's count and mean, and the grid
dimensions, unchanged. -/
theorem C10_add_height_updates_one_cell_in_float (x : machine.images) (i j : Int)
    (v : machine.fp) (hx : machine.wf_images x) (hi : 0 ≤ i ∧ i < x.w)
    (hj : 0 ≤ j ∧ j < x.h) :
    ∃ x' c a, machine.add_height_to_images x i j v = some x' ∧
      x.cnt[(x.w * j + i).toNat]? = some c ∧ x.avg[(x.w * j + i).toNat]? = some a ∧
      x'.avg[(x.w * j + i).toNat]? = some
        (machine.fp.div machine.binary32
          (machine.fp.add machine.binary32 v (machine.fp.mul machine.binary32 c a))
          (machine.fp.add machine.binary32 (.fin 1) c)) ∧
      x'.cnt[(x.w * j + i).toNat]? = some (machine.fp.add machine.binary32 c (.fin 1)) ∧
      (∀ k : Int, 0 ≤ k → k < 2 ^ 24 → c = .fin (k : ℚ) →
        x'.cnt[(x.w * j + i).toNat]? = some (.fin ((k : ℚ) + 1))) ∧
      (∀ m, m ≠ (x.w * j + i).toNat → x'.cnt[m]? = x.cnt[m]? ∧ x'.avg[m]? = x.avg[m]?) ∧
      x'.w = x.w ∧ x'.h = x.h ∧ machine.wf_images x' := by
  obtain ⟨hk, _⟩ := m_wf_images_cell x i j hx hi hj
  obtain ⟨x', hstep, hwf, hw', hh'⟩ := m_add_height_wf x i j v hx hi hj
  obtain ⟨c, a, hc, ha, hc', ha'⟩ := m_add_height_cell x x' i j v hstep
  obtain ⟨_, _, _, _, hfr⟩ := m_add_height_frame x x' i j v hstep
  rw [hk] at hc ha hc' ha' hfr
  refine ⟨x', c, a, hstep, hc, ha, ha', hc', ?_, hfr, hw', hh', hwf⟩
  intro k h0 h1 hck
  rw [hc', hck, fp_count_succ k h0 h1]

theorem C10_add_height_updates_one_cell_in_float_witness :
    ∃ x' c a, machine.add_height_to_images
        { cnt := [.fin 1, .fin 0], avg := [.fin 100, .fin 0], w := 2, h := 1 } 0 0 (.fin 200)
        = some x' ∧
      ([.fin 1, .fin 0] : List machine.fp)[((2 : Int) * 0 + 0).toNat]? = some c ∧
      ([.fin 100, .fin 0] : List machine.fp)[((2 : Int) * 0 + 0).toNat]? = some a ∧
      x'.avg[((2 : Int) * 0 + 0).toNat]? = some
        (machine.fp.div machine.binary32
          (machine.fp.add machine.binary32 (.fin 200) (machine.fp.mul machine.binary32 c a))
          (machine.fp.add machine.binary32 (.fin 1) c)) ∧
      x'.cnt[((2 : Int) * 0 + 0).toNat]? = some (machine.fp.add machine.binary32 c (.fin 1)) ∧
      (∀ k : Int, 0 ≤ k → k < 2 ^ 24 → c = .fin (k : ℚ) →
        x'.cnt[((2 : Int) * 0 + 0).toNat]? = some (.fin ((k : ℚ) + 1))) ∧
      (∀ m, m ≠ ((2 : Int) * 0 + 0).toNat →
        x'.cnt[m]? = ([.fin 1, .fin 0] : List machine.fp)[m]? ∧
        x'.avg[m]? = ([.fin 100, .fin 0] : List machine.fp)[m]?) ∧
      x'.w = 2 ∧ x'.h = 1 ∧ machine.wf_images x' :=
  C10_add_height_updates_one_cell_in_float
    { cnt := [.fin 1, .fin 0], avg := [.fin 100, .fin 0], w := 2, h := 1 } 0 0 (.fin 200)
    (by simp [machine.wf_images]) (by decide) (by decide)

/-! ## Grid allocation -/

theorem m_malloc_cells_of_small (p : Int) (h0 : 0 ≤ p) (h1 : p < 2 ^ 31) (w h : Int)
    (hp : w * h = p) : machine.malloc_cells w h = p.toNat := by
  unfold machine.malloc_cells machine.malloc_arg machine.wrap_int
  rw [hp]
  have e1 : (p + 2 ^ 31) % 2 ^ 32 - 2 ^ 31 = p := by omega
  rw [e1]
  have e2 : p % 2 ^ 64 * 4 % 2 ^ 64 = 4 * p := by omega
  rw [e2]
  have e3 : (4 * p).toNat < 2 ^ 63 := by omega
  rw [if_pos e3]
  omega

theorem m_malloc_cells_of_big (p : Int) (h0 : 2 ^ 31 ≤ p) (h1 : p < 2 ^ 62) (w h : Int)
    (hp : w * h = p) : machine.malloc_cells w h < p.toNat := by
  unfold machine.malloc_cells machine.malloc_arg machine.wrap_int
  rw [hp]
  have hr : -2 ^ 31 ≤ (p + 2 ^ 31) % 2 ^ 32 - 2 ^ 31 ∧ (p + 2 ^ 31) % 2 ^ 32 - 2 ^ 31 < 2 ^ 31 := by
    omega
  obtain ⟨r, hrdef⟩ : ∃ r, r = (p + 2 ^ 31) % 2 ^ 32 - 2 ^ 31 := ⟨_, rfl⟩
  rw [← hrdef] at hr ⊢
  by_cases hneg : r < 0
  · have e2 : r % 2 ^ 64 * 4 % 2 ^ 64 = 2 ^ 64 + 4 * r := by omega
    rw [e2]
    have e3 : ¬ (2 ^ 64 + 4 * r).toNat < 2 ^ 63 := by omega
    rw [if_neg e3]
    omega
  · have e2 : r % 2 ^ 64 * 4 % 2 ^ 64 = 4 * r := by omega
    rw [e2]
    have e3 : (4 * r).toNat < 2 ^ 63 := by omega
    rw [if_pos e3]
    omega

theorem m_zero_images_of_small (w h : Int) (hw : 0 ≤ w ∧ w < 2 ^ 31) (hh : 0 ≤ h ∧ h < 2 ^ 31)
    (hp : w * h < 2 ^ 31) :
    ∃ x, machine.zero_images w h = some x ∧ machine.wf_images x ∧ x.w = w ∧ x.h = h ∧
      x.cnt = List.replicate (w * h).toNat (.fin 0) ∧
      x.avg = List.replicate (w * h).toNat (.fin 0) := by
  have h0 : 0 ≤ w * h := mul_nonneg hw.1 hh.1
  have hc := m_malloc_cells_of_small (w * h) h0 hp w h rfl
  have hm : w * h % 2 ^ 64 = w * h := Int.emod_eq_of_lt h0 (by omega)
  unfold machine.zero_images
  rw [hm, hc, if_pos le_rfl]
  exact ⟨_, rfl, ⟨hw.1, hw.2, hh.1, hh.2, by simp, by simp⟩, rfl, rfl, rfl, rfl⟩

theorem m_zero_images_of_big (w h : Int) (hw : 0 ≤ w ∧ w < 2 ^ 31) (hh : 0 ≤ h ∧ h < 2 ^ 31)
    (hp : 2 ^ 31 ≤ w * h) : machine.zero_images w h = none := by
  have h62 : w * h < 2 ^ 62 := by
    have h3 : w * h ≤ 2 ^ 31 * 2 ^ 31 := mul_le_mul hw.2.le hh.2.le hh.1 (by norm_num)
    have h4 : w * h ≠ 2 ^ 31 * 2 ^ 31 := by
      intro heq
      have h5 : w * h ≤ (2 ^ 31 - 1) * (2 ^ 31 - 1) :=
        mul_le_mul (by omega) (by omega) hh.1 (by norm_num)
      norm_num at h5 heq
      omega
    norm_num at h3 h4 ⊢
    omega
  have hc := m_malloc_cells_of_big (w * h) hp h62 w h rfl
  have hm : w * h % 2 ^ 64 = w * h := Int.emod_eq_of_lt (by omega) (by omega)
  unfold machine.zero_images
  rw [hm, if_neg (by omega)]

/-- C24 (failing input): a tile of 65536 columns and 65536 rows: the int product x.w*x.h wraps
to 0, malloc is asked for 0 bytes, and the initialisation loop (and every later write) runs
outside the allocation. -/
theorem C24_allocation_overflows_at_65536 :
    machine.malloc_arg 65536 65536 = 0 ∧ machine.zero_images 65536 65536 = none := by
  decide!

/-- C24: for a tile range inf ≤ sup, h ≥ 1, w ≥ 1 and every point, the columns and rows
computed by rescale_float_to_int satisfy 0 ≤ i ≤ w-1 and 0 ≤ j ≤ h-1, and for a point that
passes the window test the index k = x.w*j + (i - inf) satisfies 0 ≤ k < x.w*x.h with
x.w = sup - inf + 1 and x.h = h. The arrays allocated by main hold x.w*x.h cells, so that the
write is inside them, exactly when x.w*x.h < 2^31: from 2^31 cells on the int product in the
argument of malloc overflows and the allocation is too small. -/
theorem C24_index_in_grid_allocation_bounded (xmin xmax ymin ymax d0 d1 : machine.fp)
    (inf sup w h : Int) (hw : 1 ≤ w) (hh : 1 ≤ h ∧ h < 2 ^ 31) (hr : inf ≤ sup)
    (hs : sup - inf + 1 < 2 ^ 31) :
    (0 ≤ machine.rescale_float_to_int d0 xmin xmax w ∧
      machine.rescale_float_to_int d0 xmin xmax w ≤ w - 1) ∧
    (0 ≤ machine.rescale_float_to_int (machine.fp.neg d1) (machine.fp.neg ymax)
        (machine.fp.neg ymin) h ∧
      machine.rescale_float_to_int (machine.fp.neg d1) (machine.fp.neg ymax)
        (machine.fp.neg ymin) h ≤ h - 1) ∧
    (inf ≤ machine.rescale_float_to_int d0 xmin xmax w ∧
        machine.rescale_float_to_int d0 xmin xmax w ≤ sup →
      0 ≤ (sup - inf + 1) * machine.rescale_float_to_int (machine.fp.neg d1)
          (machine.fp.neg ymax) (machine.fp.neg ymin) h
        + (machine.rescale_float_to_int d0 xmin xmax w - inf) ∧
      (sup - inf + 1) * machine.rescale_float_to_int (machine.fp.neg d1)
          (machine.fp.neg ymax) (machine.fp.neg ymin) h
        + (machine.rescale_float_to_int d0 xmin xmax w - inf) < (sup - inf + 1) * h) ∧
    ((sup - inf + 1) * h < 2 ^ 31 →
      ∃ x0, machine.zero_images (sup - inf + 1) h = some x0 ∧ machine.wf_images x0 ∧
        x0.cnt.length = ((sup - inf + 1) * h).toNat ∧
        ∀ x : machine.images, machine.wf_images x → x.w = sup - inf + 1 → x.h = h →
          inf ≤ machine.rescale_float_to_int d0 xmin xmax w ∧
            machine.rescale_float_to_int d0 xmin xmax w ≤ sup →
          ∀ v, ∃ x', machine.add_height_to_images x
            (machine.rescale_float_to_int d0 xmin xmax w - inf)
            (machine.rescale_float_to_int (machine.fp.neg d1) (machine.fp.neg ymax)
              (machine.fp.neg ymin) h) v = some x') ∧
    (2 ^ 31 ≤ (sup - inf + 1) * h → machine.zero_images (sup - inf + 1) h = none) := by
  have hi := machine_rescale_range d0 xmin xmax w hw
  have hj := machine_rescale_range (machine.fp.neg d1) (machine.fp.neg ymax)
    (machine.fp.neg ymin) h hh.1
  obtain ⟨i, hidef⟩ : ∃ i, i = machine.rescale_float_to_int d0 xmin xmax w := ⟨_, rfl⟩
  obtain ⟨j, hjdef⟩ : ∃ j, j = machine.rescale_float_to_int (machine.fp.neg d1)
    (machine.fp.neg ymax) (machine.fp.neg ymin) h := ⟨_, rfl⟩
  rw [← hidef] at hi ⊢
  rw [← hjdef] at hj ⊢
  refine ⟨hi, hj, ?_, ?_, ?_⟩
  · intro hin
    exact tile_cell_in_bounds (sup - inf + 1) h (i - inf) j ⟨by omega, by omega⟩
      ⟨hj.1, by omega⟩
  · intro hp
    obtain ⟨x0, hx0, hwf, hx0w, hx0h, hcnt, _⟩ :=
      m_zero_images_of_small (sup - inf + 1) h ⟨by omega, hs⟩ ⟨by omega, hh.2⟩ hp
    refine ⟨x0, hx0, hwf, by rw [hcnt]; simp, ?_⟩
    intro x hx hxw hxh hin v
    obtain ⟨x', hx', _⟩ := m_add_height_wf x (i - inf) j v hx
      ⟨by omega, by rw [hxw]; omega⟩ ⟨hj.1, by rw [hxh]; omega⟩
    exact ⟨x', hx'⟩
  · intro hp
    exact m_zero_images_of_big (sup - inf + 1) h ⟨by omega, hs⟩ ⟨by omega, hh.2⟩ hp

theorem C24_index_in_grid_allocation_bounded_witness :
    (0 ≤ machine.rescale_float_to_int (.fin 20) (.fin 0) (.fin 30) 4 ∧
      machine.rescale_float_to_int (.fin 20) (.fin 0) (.fin 30) 4 ≤ 4 - 1) ∧
    (0 ≤ machine.rescale_float_to_int (machine.fp.neg (.fin 20)) (machine.fp.neg (.fin 30))
        (machine.fp.neg (.fin 0)) 4 ∧
      machine.rescale_float_to_int (machine.fp.neg (.fin 20)) (machine.fp.neg (.fin 30))
        (machine.fp.neg (.fin 0)) 4 ≤ 4 - 1) ∧
    (2 ≤ machine.rescale_float_to_int (.fin 20) (.fin 0) (.fin 30) 4 ∧
        machine.rescale_float_to_int (.fin 20) (.fin 0) (.fin 30) 4 ≤ 3 →
      0 ≤ (3 - 2 + 1) * machine.rescale_float_to_int (machine.fp.neg (.fin 20))
          (machine.fp.neg (.fin 30)) (machine.fp.neg (.fin 0)) 4
        + (machine.rescale_float_to_int (.fin 20) (.fin 0) (.fin 30) 4 - 2) ∧
      (3 - 2 + 1) * machine.rescale_float_to_int (machine.fp.neg (.fin 20))
          (machine.fp.neg (.fin 30)) (machine.fp.neg (.fin 0)) 4
        + (machine.rescale_float_to_int (.fin 20) (.fin 0) (.fin 30) 4 - 2) < (3 - 2 + 1) * 4) ∧
    (((3 : Int) - 2 + 1) * 4 < 2 ^ 31 →
      ∃ x0, machine.zero_images (3 - 2 + 1) 4 = some x0 ∧ machine.wf_images x0 ∧
        x0.cnt.length = (((3 : Int) - 2 + 1) * 4).toNat ∧
        ∀ x : machine.images, machine.wf_images x → x.w = 3 - 2 + 1 → x.h = 4 →
          2 ≤ machine.rescale_float_to_int (.fin 20) (.fin 0) (.fin 30) 4 ∧
            machine.rescale_float_to_int (.fin 20) (.fin 0) (.fin 30) 4 ≤ 3 →
          ∀ v, ∃ x', machine.add_height_to_images x
            (machine.rescale_float_to_int (.fin 20) (.fin 0) (.fin 30) 4 - 2)
            (machine.rescale_float_to_int (machine.fp.neg (.fin 20)) (machine.fp.neg (.fin 30))
              (machine.fp.neg (.fin 0)) 4) v = some x') ∧
    ((2 : Int) ^ 31 ≤ (3 - 2 + 1) * 4 → machine.zero_images (3 - 2 + 1) 4 = none) :=
  C24_index_in_grid_allocation_bounded (.fin 0) (.fin 30) (.fin 0) (.fin 30) (.fin 20) (.fin 20)
    2 3 4 4 (by decide) (by decide) (by decide) (by decide)

/-! ## Record decoder with a library scanner -/

theorem m_record_inv_step (r : Int × List (Option machine.fp) × c_stream) (k : Nat)
    (rec ret : Int) (data : List (Option machine.fp)) (slot : Option machine.fp)
    (decoded1 decoded : Bool)
    (hinv : machine.record_inv r k (rec + ret) (data ++ [slot]) decoded1)
    (hret : ret ≤ 1) (hslot : ret = 1 → slot ≠ none)
    (hdec : decoded = true ↔ ret = 1 ∧ decoded1 = true) :
    machine.record_inv r (k + 1) rec data decoded := by
  obtain ⟨h1, h3, slots, h4, h5, h6⟩ := hinv
  refine ⟨by push_cast; omega, ?_, slot :: slots, by rw [h4]; simp, by simp [h5], ?_⟩
  · rw [hdec, ← h3]
    push_cast
    constructor
    · intro h; constructor <;> omega
    · intro h; omega
  · intro hall s hs
    push_cast at hall
    rcases List.mem_cons.mp hs with rfl | hs'
    · exact hslot (by omega)
    · exact h6 (by omega) s hs'

theorem m_get_record_bin_spec (dec : machine.float_codec) (ps : List ply_property) :
    ∀ (f : c_stream) (rec : Int) (data : List (Option machine.fp)),
      machine.record_inv (machine.get_record_bin dec ps f rec data) ps.length rec data
        (bin_fields_decoded ps f) := by
  induction ps with
  | nil =>
    intro f rec data
    simp [machine.record_inv, machine.get_record_bin, bin_fields_decoded]
  | cons p ps ih =>
    intro f rec data
    have known : ∀ (size : Nat) (val : List Char → machine.fp), 1 ≤ size →
        field_size p.type = some size →
        machine.get_record_bin dec (p :: ps) f rec data =
          machine.get_record_bin dec ps (fread_one size f).2.2 (rec + (fread_one size f).1)
            (data ++ [if (fread_one size f).1 = 1 then some (val (fread_one size f).2.1)
              else none]) →
        machine.record_inv (machine.get_record_bin dec (p :: ps) f rec data) (ps.length + 1)
          rec data (bin_fields_decoded (p :: ps) f) := by
      intro size val hsize hfs heq
      rw [heq]
      refine m_record_inv_step _ _ rec _ data _ _ _ (ih _ _ _) ?_ ?_ ?_
      · rcases fread_one_spec size f with ⟨hr, _, _⟩ | ⟨hr, _⟩ <;> omega
      · intro h1; simp [h1]
      · simp only [bin_fields_decoded, hfs, Bool.and_eq_true, decide_eq_true_eq]
        rcases fread_one_spec size f with ⟨hr, hle, hst⟩ | ⟨hr, hle⟩
        · rw [hst]; simp [hr, hle]
        · simp [hr, hle]
    cases hty : p.type with
    | UCHAR =>
      exact known 1 (fun bs => .fin ((bs.headD (Char.ofNat 0)).toNat : ℚ)) le_rfl
        (by rw [hty]; rfl) (by simp [machine.get_record_bin, hty])
    | FLOAT =>
      exact known 4 dec.f32 (by omega) (by rw [hty]; rfl) (by simp [machine.get_record_bin, hty])
    | DOUBLE =>
      exact known 8 dec.f64 (by omega) (by rw [hty]; rfl) (by simp [machine.get_record_bin, hty])
    | UNKNOWN =>
      have heq : machine.get_record_bin dec (p :: ps) f rec data
          = machine.get_record_bin dec ps f (rec + 0) (data ++ [none]) := by
        simp [machine.get_record_bin, hty]
      rw [heq]
      refine m_record_inv_step _ _ rec 0 data none _ _ (ih _ _ _) (by omega)
        (by intro h; omega) ?_
      simp [bin_fields_decoded, hty, field_size]

theorem m_get_record_ascii_spec (scan : c_stream → machine.scan_result)
    (hscan : machine.fscanf_contract scan) (k : Nat) :
    ∀ (f : c_stream) (rec : Int) (data : List (Option machine.fp)),
      machine.record_inv (machine.get_record_ascii scan k f rec data) k rec data
        (machine.ascii_fields_decoded scan k f) := by
  induction k with
  | zero =>
    intro f rec data
    simp [machine.record_inv, machine.get_record_ascii, machine.ascii_fields_decoded]
  | succ k ih =>
    intro f rec data
    by_cases he : f.eof = true
    · simp only [machine.get_record_ascii, he, if_true, machine.ascii_fields_decoded]
      refine ⟨by push_cast; omega, ?_, List.replicate (k + 1) none, rfl, by simp, ?_⟩
      · push_cast
        constructor
        · intro h; omega
        · intro h; simp at h
      · intro h
        push_cast at h
        omega
    · have heq : machine.get_record_ascii scan (k + 1) f rec data
          = machine.get_record_ascii scan k (scan f).stream (rec + (scan f).ret)
              (data ++ [(scan f).value]) := by
        simp [machine.get_record_ascii, he]
      rw [heq]
      obtain ⟨h1, h3, _⟩ := hscan f
      refine m_record_inv_step _ _ rec _ data _ _ _ (ih _ _ _) h1 h3 ?_
      simp [machine.ascii_fields_decoded, he]

theorem m_get_record_spec (dec : machine.float_codec) (scan : c_stream → machine.scan_result)
    (hscan : machine.fscanf_contract scan) (f : c_stream) (isbin : Bool)
    (t : List ply_property) (n : Int) (hn : 0 ≤ n) :
    (machine.get_record dec scan f isbin t n).1 ≤ n ∧
    ((machine.get_record dec scan f isbin t n).1 = n ↔
      machine.fields_decoded scan f isbin t n = true) ∧
    ((machine.get_record dec scan f isbin t n).1 = n →
      (machine.get_record dec scan f isbin t n).2.1.length = n.toNat ∧
      ∀ s ∈ (machine.get_record dec scan f isbin t n).2.1, s ≠ none) := by
  cases isbin with
  | true =>
    obtain ⟨h1, h3, slots, h4, h5, h6⟩ :=
      m_get_record_bin_spec dec (t.take n.toNat) f 0 []
    have hlen : ((t.take n.toNat).length : Int) ≤ n := by
      have := List.length_take_le n.toNat t
      omega
    simp only [machine.get_record, if_true, machine.fields_decoded, Bool.and_eq_true,
      decide_eq_true_eq]
    simp only [sub_zero, List.nil_append] at h1 h3 h4 h6
    refine ⟨by omega, ?_, ?_⟩
    · constructor
      · intro h
        have hl : ((t.take n.toNat).length : Int) = n := by omega
        exact ⟨hl, h3.mp (by omega)⟩
      · rintro ⟨hl, hd⟩
        have := h3.mpr hd
        omega
    · intro h
      have hl : ((t.take n.toNat).length : Int) = n := by omega
      rw [h4]
      exact ⟨by omega, h6 (by omega)⟩
  | false =>
    obtain ⟨h1, h3, slots, h4, h5, h6⟩ := m_get_record_ascii_spec scan hscan n.toNat f 0 []
    have hcast : ((n.toNat : Nat) : Int) = n := Int.toNat_of_nonneg hn
    simp only [machine.get_record, Bool.false_eq_true, if_false, machine.fields_decoded]
    simp only [sub_zero, List.nil_append, hcast] at h1 h3 h4 h6
    refine ⟨h1, h3, ?_⟩
    intro h
    rw [h4]
    exact ⟨h5, h6 h⟩

theorem decimal_scanner_contract : machine.fscanf_contract machine.decimal_scanner := by
  intro f
  obtain ⟨h1, _, h3, h4⟩ := fscanf_lf_spec f
  refine ⟨h1, ?_, h4⟩
  intro h
  have := h3 h
  simp only [machine.decimal_scanner]
  cases hv : (fscanf_lf f).value with
  | none => exact absurd hv this
  | some v => simp

/-- C14 (as stated, refuted): in ascii mode a field of unknown kind does not make get_record
return a value different from n: with one declared field of unknown kind and the stream "5" it
returns 1 = n. -/
theorem C14_ascii_mode_ignores_the_kind :
    (machine.get_record machine.example_codec machine.decimal_scanner
      { data := ['5'], eof := false } false
      [{ type := .UNKNOWN, name := ['x'], len := 0 }] 1).1 = 1 := by
  decide!

/-- C14 (amended): for n ≥ 1 declared fields, every stream state and every library scanner
that honours the contract of fscanf (it returns 1 with a stored value, 0 or EOF, and not 1 on
an exhausted input), in binary and in ascii mode, get_record returns at most n, and exactly n
if and only if all n fields of the next record are decoded, in which case data holds n values;
it returns a value different from n at the end of the stream and, in binary mode, when one of
the n fields has an unknown kind (in ascii mode the kind of a field is not consulted). -/
theorem C14_get_record_returns_n_iff_all_decoded (dec : machine.float_codec)
    (scan : c_stream → machine.scan_result) (hscan : machine.fscanf_contract scan)
    (f : c_stream) (isbin : Bool) (t : List ply_property) (n : Int) (hn : 1 ≤ n) :
    (machine.get_record dec scan f isbin t n).1 ≤ n ∧
    ((machine.get_record dec scan f isbin t n).1 = n ↔
      machine.fields_decoded scan f isbin t n = true) ∧
    ((machine.get_record dec scan f isbin t n).1 = n →
      (machine.get_record dec scan f isbin t n).2.1.length = n.toNat ∧
      ∀ s ∈ (machine.get_record dec scan f isbin t n).2.1, s ≠ none) ∧
    (f.data = [] → (machine.get_record dec scan f isbin t n).1 ≠ n) ∧
    (isbin = false → f.eof = true → (machine.get_record dec scan f isbin t n).1 ≠ n) ∧
    (isbin = true → (∃ p ∈ t.take n.toNat, p.type = .UNKNOWN) →
      (machine.get_record dec scan f isbin t n).1 ≠ n) := by
  obtain ⟨h1, h3, h4⟩ := m_get_record_spec dec scan hscan f isbin t n (by omega)
  obtain ⟨k, hk⟩ : ∃ k, n.toNat = k + 1 := ⟨n.toNat - 1, by omega⟩
  refine ⟨h1, h3, h4, ?_, ?_, ?_⟩
  · intro he hr
    have hd := h3.mp hr
    cases isbin with
    | true =>
      simp only [machine.fields_decoded, if_true, Bool.and_eq_true, decide_eq_true_eq] at hd
      obtain ⟨hl, hb⟩ := hd
      cases hps : t.take n.toNat with
      | nil =>
        rw [hps] at hl
        simp at hl
        omega
      | cons p ps =>
        rw [hps] at hb
        cases hfs : field_size p.type with
        | none => simp [bin_fields_decoded, hfs] at hb
        | some size =>
          have hsz : 1 ≤ size := by
            cases hty : p.type <;> rw [hty] at hfs <;> simp [field_size] at hfs <;> omega
          simp [bin_fields_decoded, hfs, he] at hb
          omega
    | false =>
      simp only [machine.fields_decoded, Bool.false_eq_true, if_false, hk,
        machine.ascii_fields_decoded, Bool.and_eq_true, decide_eq_true_eq] at hd
      exact (hscan f).2.2 he hd.1.2
  · intro hb he hr
    subst hb
    have hd := h3.mp hr
    simp [machine.fields_decoded, hk, machine.ascii_fields_decoded, he] at hd
  · intro hb hex hr
    subst hb
    have hd := h3.mp hr
    simp only [machine.fields_decoded, if_true, Bool.and_eq_true, decide_eq_true_eq] at hd
    obtain ⟨p, hp, hty⟩ := hex
    have : ∀ (ps : List ply_property) (g : c_stream), p ∈ ps →
        bin_fields_decoded ps g = false := by
      intro ps
      induction ps with
      | nil => intro g hmem; simp at hmem
      | cons q qs ih =>
        intro g hmem
        rcases List.mem_cons.mp hmem with rfl | hmem'
        · simp [bin_fields_decoded, hty, field_size]
        · cases hq : field_size q.type with
          | none => simp [bin_fields_decoded, hq]
          | some size => simp [bin_fields_decoded, hq, ih _ hmem']
    rw [this _ f hp] at hd
    exact absurd hd.2 (by simp)

theorem C14_get_record_returns_n_iff_all_decoded_witness :
    (machine.get_record machine.example_codec machine.decimal_scanner
      { data := "1 2.5 x".toList, eof := false } false [] 2).1 ≤ 2 ∧
    ((machine.get_record machine.example_codec machine.decimal_scanner
      { data := "1 2.5 x".toList, eof := false } false [] 2).1 = 2 ↔
      machine.fields_decoded machine.decimal_scanner
        { data := "1 2.5 x".toList, eof := false } false [] 2 = true) ∧
    ((machine.get_record machine.example_codec machine.decimal_scanner
      { data := "1 2.5 x".toList, eof := false } false [] 2).1 = 2 →
      (machine.get_record machine.example_codec machine.decimal_scanner
        { data := "1 2.5 x".toList, eof := false } false [] 2).2.1.length = (2 : Int).toNat ∧
      ∀ s ∈ (machine.get_record machine.example_codec machine.decimal_scanner
        { data := "1 2.5 x".toList, eof := false } false [] 2).2.1, s ≠ none) ∧
    (("1 2.5 x".toList : List Char) = [] →
      (machine.get_record machine.example_codec machine.decimal_scanner
        { data := "1 2.5 x".toList, eof := false } false [] 2).1 ≠ 2) ∧
    (false = false → false = true →
      (machine.get_record machine.example_codec machine.decimal_scanner
        { data := "1 2.5 x".toList, eof := false } false [] 2).1 ≠ 2) ∧
    (false = true → (∃ p ∈ ([] : List ply_property).take (2 : Int).toNat, p.type = .UNKNOWN) →
      (machine.get_record machine.example_codec machine.decimal_scanner
        { data := "1 2.5 x".toList, eof := false } false [] 2).1 ≠ 2) :=
  C14_get_record_returns_n_iff_all_decoded machine.example_codec machine.decimal_scanner
    decimal_scanner_contract { data := "1 2.5 x".toList, eof := false } false [] 2 (by decide)

/-! ## Header parser with its buffers -/

theorem m_parse_property_line_eq (s : List Char) (r : Bool × ply_property)
    (h : machine.parse_property_line s = some r) : r = parse_property_line s := by
  unfold machine.parse_property_line at h
  unfold parse_property_line
  cases h1 : scan_literal "property".toList s with
  | none =>
    rw [h1] at h
    simp only [Option.some.injEq] at h
    exact h.symm
  | some s1 =>
    rw [h1] at h
    simp only at h ⊢
    cases h2 : scan_word s1 with
    | none =>
      rw [h2] at h
      simp only [Option.some.injEq] at h
      exact h.symm
    | some p =>
      obtain ⟨typename, s2⟩ := p
      rw [h2] at h
      simp only at h ⊢
      split_ifs at h with hlen
      cases h3 : scan_word s2 with
      | none =>
        rw [h3] at h
        simp only [Option.some.injEq] at h
        exact h.symm
      | some p2 =>
        obtain ⟨name, s3⟩ := p2
        rw [h3] at h
        simp only at h ⊢
        split_ifs at h with hlen2
        simp only [Option.some.injEq] at h
        exact h.symm

theorem header_lines_cons_mem (s : List Char) (L : List (List Char)) :
    s ∈ header_lines (s :: L) := by
  unfold header_lines
  split_ifs <;> simp

theorem m_header_loop_spec (lines : List (List Char)) :
    ∀ (n : Nat) (isbin : Bool) (utm : Option (List Char)) (t : List ply_property),
      n + ((header_lines (lines.map machine.c_string)).filter
        (fun b => (parse_property_line b).1)).length < 100 →
      (∀ b ∈ header_lines (lines.map machine.c_string), machine.parse_property_line b ≠ none) →
      (∀ b ∈ header_lines (lines.map machine.c_string), ∀ tag, scan_utm b = some tag →
        tag.length < 3) →
      ∃ hd, machine.header_loop lines n isbin utm t = some hd ∧
        hd.n = (header_loop (lines.map machine.c_string) n isbin utm t).n ∧
        hd.isbin = (header_loop (lines.map machine.c_string) n isbin utm t).isbin ∧
        hd.utm = (header_loop (lines.map machine.c_string) n isbin utm t).utm ∧
        hd.t = (header_loop (lines.map machine.c_string) n isbin utm t).t ∧
        hd.rest = lines.drop (header_lines (lines.map machine.c_string)).length := by
  induction lines with
  | nil =>
    intro n isbin utm t _ _ _
    exact ⟨_, rfl, rfl, rfl, rfl, rfl, rfl⟩
  | cons buf rest ih =>
    intro n isbin utm t hcount hwords htag
    obtain ⟨s, hs⟩ : ∃ s, s = machine.c_string buf := ⟨_, rfl⟩
    simp only [List.map_cons, ← hs] at hcount hwords htag ⊢
    have hmem := header_lines_cons_mem s (rest.map machine.c_string)
    have hfb : (parse_property_line "format binary_little_endian 1.0\n".toList).1 = false := by
      decide
    have hfa : (parse_property_line "format ascii 1.0\n".toList).1 = false := by decide
    have heh : (parse_property_line "end_header\n".toList).1 = false := by decide
    by_cases hend : s = "end_header\n".toList
    · have h1 : ¬ ("end_header\n".toList = "format binary_little_endian 1.0\n".toList) := by
        decide
      have h2 : ¬ ("end_header\n".toList = "format ascii 1.0\n".toList) := by decide
      have h3 : ¬ (("end_header\n".toList).take 19 = "comment projection:".toList) := by decide
      have hn100 : ¬ 100 ≤ n := by omega
      have hpp : machine.parse_property_line "end_header\n".toList
          = some (false, { type := .UNKNOWN, name := [], len := 0 }) := by decide
      have hl : header_lines (s :: rest.map machine.c_string) = [s] := by
        rw [header_lines]; exact if_pos hend
      refine ⟨{ n := n, isbin := isbin, utm := utm, t := t, rest := rest }, ?_, ?_, ?_, ?_, ?_, ?_⟩
      · simp only [machine.header_loop, ← hs, hend, h1, h2, hn100, hpp, h3, if_false, if_true]
      · simp only [header_loop, hend, h1, h2, heh, h3, if_false, if_true, Bool.false_eq_true]
      · simp only [header_loop, hend, h1, h2, heh, h3, if_false, if_true, Bool.false_eq_true]
      · simp only [header_loop, hend, h1, h2, heh, h3, if_false, if_true, Bool.false_eq_true]
      · simp only [header_loop, hend, h1, h2, heh, h3, if_false, if_true, Bool.false_eq_true]
      · rw [hl]; simp
    · have hl : header_lines (s :: rest.map machine.c_string)
          = s :: header_lines (rest.map machine.c_string) := by
        rw [header_lines]; exact if_neg hend
      have c2 : ∀ b ∈ header_lines (rest.map machine.c_string),
          machine.parse_property_line b ≠ none :=
        fun b hb => hwords b (by rw [hl]; exact List.mem_cons_of_mem _ hb)
      have c3 : ∀ b ∈ header_lines (rest.map machine.c_string), ∀ tag,
          scan_utm b = some tag → tag.length < 3 :=
        fun b hb => htag b (by rw [hl]; exact List.mem_cons_of_mem _ hb)
      have hcf : (parse_property_line s).1 = false →
          n + ((header_lines (rest.map machine.c_string)).filter
            (fun b => (parse_property_line b).1)).length < 100 := by
        intro hpf
        rw [hl, List.filter_cons] at hcount
        simp only [hpf, Bool.false_eq_true, if_false] at hcount
        exact hcount
      have hct : (parse_property_line s).1 = true →
          n + 1 + ((header_lines (rest.map machine.c_string)).filter
            (fun b => (parse_property_line b).1)).length < 100 := by
        intro hpt
        rw [hl, List.filter_cons] at hcount
        simp only [hpt, if_true, List.length_cons] at hcount
        omega
      have hdrop : (buf :: rest).drop (header_lines (s :: rest.map machine.c_string)).length
          = rest.drop (header_lines (rest.map machine.c_string)).length := by
        rw [hl]; simp
      rw [hdrop]
      by_cases hb : s = "format binary_little_endian 1.0\n".toList
      · have hpf : (parse_property_line s).1 = false := by rw [hb]; exact hfb
        have c1 := hcf hpf
        obtain ⟨hd, e0, e1, e2, e3, e4, e5⟩ := ih n true utm t c1 c2 c3
        refine ⟨hd, ?_, ?_, ?_, ?_, ?_, e5⟩
        · simp only [machine.header_loop, ← hs, hb, if_true]
          rw [hb] at hend
          simp only [hend, if_false]
          exact e0
        all_goals
          simp only [header_loop, hb, if_true]
          rw [hb] at hend
          simp only [hend, if_false]
          assumption
      · by_cases ha : s = "format ascii 1.0\n".toList
        · have hpf : (parse_property_line s).1 = false := by rw [ha]; exact hfa
          have c1 := hcf hpf
          obtain ⟨hd, e0, e1, e2, e3, e4, e5⟩ := ih n false utm t c1 c2 c3
          have hab : ¬ ("format ascii 1.0\n".toList = "format binary_little_endian 1.0\n".toList) := by
            decide
          refine ⟨hd, ?_, ?_, ?_, ?_, ?_, e5⟩
          · simp only [machine.header_loop, ← hs, ha, hab, if_true, if_false]
            rw [ha] at hend
            simp only [hend, if_false]
            exact e0
          all_goals
            simp only [header_loop, ha, hab, if_true, if_false]
            rw [ha] at hend
            simp only [hend, if_false]
            assumption
        · have hn100 : ¬ 100 ≤ n := by omega
          have hw := hwords s hmem
          cases hpp : machine.parse_property_line s with
          | none => exact absurd hpp hw
          | some r =>
            have hr := m_parse_property_line_eq s r hpp
            obtain ⟨rb, rp⟩ := r
            have hr1 : (parse_property_line s).1 = rb := by rw [← hr]
            have hr2 : (parse_property_line s).2 = rp := by rw [← hr]
            cases rb with
            | true =>
              have c1' := hct hr1
              obtain ⟨hd, e0, e1, e2, e3, e4, e5⟩ := ih (n + 1) isbin utm (t ++ [rp]) c1' c2 c3
              refine ⟨hd, ?_, ?_, ?_, ?_, ?_, e5⟩
              · simp only [machine.header_loop, ← hs, hb, ha, hn100, hpp, hend, if_false]
                exact e0
              all_goals
                simp only [header_loop, hb, ha, hr1, hr2, hend, if_false, if_true]
                assumption
            | false =>
              have c1 := hcf hr1
              by_cases hc : s.take 19 = "comment projection:".toList
              · cases hu : scan_utm s with
                | none =>
                  obtain ⟨hd, e0, e1, e2, e3, e4, e5⟩ := ih n isbin utm t c1 c2 c3
                  refine ⟨hd, ?_, ?_, ?_, ?_, ?_, e5⟩
                  · simp only [machine.header_loop, ← hs, hb, ha, hn100, hpp, hc, hu, hend,
                      if_false, if_true]
                    exact e0
                  all_goals
                    simp only [header_loop, hb, ha, hr1, hc, hu, hend, if_false, if_true,
                      Bool.false_eq_true, Option.orElse]
                    assumption
                | some tag =>
                  have htl : ¬ 3 ≤ tag.length := by
                    have := htag s hmem tag hu
                    omega
                  obtain ⟨hd, e0, e1, e2, e3, e4, e5⟩ := ih n isbin (some tag) t c1 c2 c3
                  refine ⟨hd, ?_, ?_, ?_, ?_, ?_, e5⟩
                  · simp only [machine.header_loop, ← hs, hb, ha, hn100, hpp, hc, hu, htl, hend,
                      if_false, if_true]
                    exact e0
                  all_goals
                    simp only [header_loop, hb, ha, hr1, hc, hu, hend, if_false, if_true,
                      Bool.false_eq_true, Option.orElse]
                    assumption
              · obtain ⟨hd, e0, e1, e2, e3, e4, e5⟩ := ih n isbin utm t c1 c2 c3
                refine ⟨hd, ?_, ?_, ?_, ?_, ?_, e5⟩
                · simp only [machine.header_loop, ← hs, hb, ha, hn100, hpp, hc, hend,
                    if_false]
                  exact e0
                all_goals
                  simp only [header_loop, hb, ha, hr1, hc, hend, if_false,
                    Bool.false_eq_true]
                  assumption

/-- C18 (failing input): a header with 100 property lines and the terminator: the call
parse_property_line(t+100, buf) made for the terminator line writes entry 100 of the 100-entry
table, outside the array. -/
theorem C18_hundred_properties_overflow_the_table :
    machine.header_get_record_length_and_utm_zone
      (List.replicate 100 "property float x\n".toList ++ ["end_header\n".toList]) = none := by
  decide!

/-- C18: for every sequence of header lines (as C strings) whose header holds fewer than 100
property lines, no word of 256 characters or more on a property line and no zone word of 3
characters or more, header_get_record_length_and_utm_zone returns exactly the number of lines
of the form "property type name" up to the first end_header line, with as many table entries;
it stops consuming at that terminator, and the other lines do not change the count. -/
theorem C18_header_counts_property_lines_within_capacity (lines : List (List Char))
    (hcount : ((header_lines (lines.map machine.c_string)).filter
      (fun b => (parse_property_line b).1)).length < 100)
    (hwords : ∀ b ∈ header_lines (lines.map machine.c_string),
      machine.parse_property_line b ≠ none)
    (htag : ∀ b ∈ header_lines (lines.map machine.c_string), ∀ tag,
      scan_utm b = some tag → tag.length < 3) :
    ∃ hd, machine.header_get_record_length_and_utm_zone lines = some hd ∧
      hd.n = ((header_lines (lines.map machine.c_string)).filter
        (fun b => (parse_property_line b).1)).length ∧
      (∀ buf, (parse_property_line buf).1 = true ↔ property_line_form buf) ∧
      hd.t.length = hd.n ∧
      hd.rest = lines.drop (header_lines (lines.map machine.c_string)).length ∧
      header_lines (lines.map machine.c_string) ++ body_lines (lines.map machine.c_string)
        = lines.map machine.c_string ∧
      (∀ b ∈ (header_lines (lines.map machine.c_string)).dropLast,
        b ≠ "end_header\n".toList) := by
  obtain ⟨hd, e0, e1, _, _, e4, e5⟩ :=
    m_header_loop_spec lines 0 false none [] (by simpa using hcount) hwords htag
  obtain ⟨hn, ht, _⟩ := header_loop_spec (lines.map machine.c_string) 0 false none []
  obtain ⟨happ, hlast⟩ := header_lines_append_body_lines (lines.map machine.c_string)
  refine ⟨hd, e0, ?_, parse_property_line_iff_form, ?_, e5, happ, hlast⟩
  · rw [e1, hn]; simp
  · rw [e4, e1, hn, ht]; simp

theorem C18_header_counts_property_lines_within_capacity_witness :
    ∃ hd, machine.header_get_record_length_and_utm_zone machine.example_header = some hd ∧
      hd.n = ((header_lines (machine.example_header.map machine.c_string)).filter
        (fun b => (parse_property_line b).1)).length ∧
      (∀ buf, (parse_property_line buf).1 = true ↔ property_line_form buf) ∧
      hd.t.length = hd.n ∧
      hd.rest = machine.example_header.drop
        (header_lines (machine.example_header.map machine.c_string)).length ∧
      header_lines (machine.example_header.map machine.c_string)
          ++ body_lines (machine.example_header.map machine.c_string)
        = machine.example_header.map machine.c_string ∧
      (∀ b ∈ (header_lines (machine.example_header.map machine.c_string)).dropLast,
        b ≠ "end_header\n".toList) :=
  C18_header_counts_property_lines_within_capacity machine.example_header (by decide)
    (by decide) (by decide)

/-! ## Zone words -/

theorem m_add_ply_points_zone (x : machine.images) (xmin xmax ymin ymax : machine.fp)
    (inf sup : Int) (newxmin : machine.fp) (w h : Int) (f f' : Option machine.ply_file)
    (col_idx : Int) (hsame : machine.same_records f f') :
    machine.add_ply_points_to_images x xmin xmax ymin ymax inf sup newxmin w h f col_idx
      = machine.add_ply_points_to_images x xmin xmax ymin ymax inf sup newxmin w h f' col_idx := by
  cases f with
  | none =>
    cases f' with
    | none => rfl
    | some b => exact absurd hsame (by simp [machine.same_records])
  | some a =>
    cases f' with
    | none => exact absurd hsame (by simp [machine.same_records])
    | some b =>
      obtain ⟨⟨ha, hb, e1, e2, e3⟩, e4⟩ := hsame
      simp only [machine.add_ply_points_to_images, e1, e2, e3, e4]

theorem m_add_ply_points_no_exit (x : machine.images) (xmin xmax ymin ymax : machine.fp)
    (inf sup : Int) (newxmin : machine.fp) (w h : Int) (f : Option machine.ply_file)
    (col_idx : Int) (hcol : 2 ≤ col_idx ∧ col_idx ≤ 5) (s : Nat)
    (hrec : ∀ (x : machine.images) (nx : machine.fp) (records : List (List machine.fp)),
      machine.add_ply_records xmin xmax ymin ymax inf sup w h col_idx x nx records
        ≠ .error (.exit s)) :
    machine.add_ply_points_to_images x xmin xmax ymin ymax inf sup newxmin w h f col_idx
      ≠ .error (.exit s) := by
  cases f with
  | none => simp [machine.add_ply_points_to_images]
  | some a =>
    cases hh : a.header with
    | none => simp [machine.add_ply_points_to_images, hh]
    | some hd =>
      have hc : ¬ (col_idx < 2 ∨ col_idx > 5) := by omega
      by_cases hn : hd.n = 0
      · simp [machine.add_ply_points_to_images, hh, hc, hn]
      · simp only [machine.add_ply_points_to_images, hh, hc, hn, if_false]
        exact hrec _ _ _

theorem m_add_ply_point_out (x : machine.images) (xmin xmax ymin ymax : machine.fp)
    (inf sup : Int) (newxmin : machine.fp) (w h col_idx : Int) (data : List machine.fp)
    (d0 d1 : machine.fp) (h0 : data[0]? = some d0) (h1 : data[1]? = some d1)
    (hout : ¬ (inf ≤ machine.rescale_float_to_int d0 xmin xmax w ∧
      machine.rescale_float_to_int d0 xmin xmax w ≤ sup)) :
    machine.add_ply_point x xmin xmax ymin ymax inf sup newxmin w h col_idx data
      = .ok (x, newxmin) := by
  simp only [machine.add_ply_point, h0, h1, hout, if_false]

theorem m_add_ply_point_in (x x' : machine.images) (xmin xmax ymin ymax : machine.fp)
    (inf sup : Int) (newxmin : machine.fp) (w h col_idx : Int) (data : List machine.fp)
    (d0 d1 v : machine.fp) (h0 : data[0]? = some d0) (h1 : data[1]? = some d1)
    (hin : inf ≤ machine.rescale_float_to_int d0 xmin xmax w ∧
      machine.rescale_float_to_int d0 xmin xmax w ≤ sup)
    (hv : machine.selected_value col_idx data = some v)
    (hadd : machine.add_height_to_images x (machine.rescale_float_to_int d0 xmin xmax w - inf)
      (machine.rescale_float_to_int (machine.fp.neg d1) (machine.fp.neg ymax)
        (machine.fp.neg ymin) h) v = some x') :
    machine.add_ply_point x xmin xmax ymin ymax inf sup newxmin w h col_idx data
      = if machine.assert_finite col_idx data
        then .ok (x', machine.update_newxmin newxmin d0) else .error .abort := by
  simp only [machine.add_ply_point, h0, h1, hin, and_self, if_true, hv, hadd]

theorem m_add_ply_point_inv (x x' : machine.images) (xmin xmax ymin ymax : machine.fp)
    (inf sup : Int) (newxmin newxmin' : machine.fp) (w h col_idx : Int)
    (data : List machine.fp)
    (hstep : machine.add_ply_point x xmin xmax ymin ymax inf sup newxmin w h col_idx data
      = .ok (x', newxmin')) :
    ∃ d0 d1, data[0]? = some d0 ∧ data[1]? = some d1 ∧
      (((inf ≤ machine.rescale_float_to_int d0 xmin xmax w ∧
          machine.rescale_float_to_int d0 xmin xmax w ≤ sup) ∧
          newxmin' = machine.update_newxmin newxmin d0 ∧
          machine.assert_finite col_idx data = true ∧
          ∃ v, machine.selected_value col_idx data = some v ∧
            machine.add_height_to_images x (machine.rescale_float_to_int d0 xmin xmax w - inf)
              (machine.rescale_float_to_int (machine.fp.neg d1) (machine.fp.neg ymax)
                (machine.fp.neg ymin) h) v = some x')
        ∨ ¬ (inf ≤ machine.rescale_float_to_int d0 xmin xmax w ∧
            machine.rescale_float_to_int d0 xmin xmax w ≤ sup) ∧ x' = x ∧ newxmin' = newxmin) := by
  cases h0 : data[0]? with
  | none => simp [machine.add_ply_point, h0] at hstep
  | some d0 =>
    cases h1 : data[1]? with
    | none => simp [machine.add_ply_point, h0, h1] at hstep
    | some d1 =>
      refine ⟨d0, d1, rfl, rfl, ?_⟩
      by_cases hin : inf ≤ machine.rescale_float_to_int d0 xmin xmax w ∧
          machine.rescale_float_to_int d0 xmin xmax w ≤ sup
      · left
        cases hv : machine.selected_value col_idx data with
        | none => simp [machine.add_ply_point, h0, h1, hin, hv] at hstep
        | some v =>
          cases hadd : machine.add_height_to_images x
              (machine.rescale_float_to_int d0 xmin xmax w - inf)
              (machine.rescale_float_to_int (machine.fp.neg d1) (machine.fp.neg ymax)
                (machine.fp.neg ymin) h) v with
          | none => simp [machine.add_ply_point, h0, h1, hin, hv, hadd] at hstep
          | some x1 =>
            rw [m_add_ply_point_in x x1 xmin xmax ymin ymax inf sup newxmin w h col_idx data
              d0 d1 v h0 h1 hin hv hadd] at hstep
            by_cases hass : machine.assert_finite col_idx data = true
            · simp only [hass, if_true, Except.ok.injEq, Prod.mk.injEq] at hstep
              obtain ⟨e1, e2⟩ := hstep
              subst e1
              exact ⟨hin, e2.symm, hass, v, rfl, hadd⟩
            · simp [hass] at hstep
      · right
        rw [m_add_ply_point_out x xmin xmax ymin ymax inf sup newxmin w h col_idx data d0 d1
          h0 h1 hin] at hstep
        simp only [Except.ok.injEq, Prod.mk.injEq] at hstep
        exact ⟨hin, hstep.1.symm, hstep.2.symm⟩

theorem m_add_ply_point_no_exit (x : machine.images) (xmin xmax ymin ymax : machine.fp)
    (inf sup : Int) (newxmin : machine.fp) (w h col_idx : Int) (data : List machine.fp)
    (s : Nat) :
    machine.add_ply_point x xmin xmax ymin ymax inf sup newxmin w h col_idx data
      ≠ .error (.exit s) := by
  cases h0 : data[0]? with
  | none => simp [machine.add_ply_point, h0]
  | some d0 =>
    cases h1 : data[1]? with
    | none => simp [machine.add_ply_point, h0, h1]
    | some d1 =>
      by_cases hin : inf ≤ machine.rescale_float_to_int d0 xmin xmax w ∧
          machine.rescale_float_to_int d0 xmin xmax w ≤ sup
      · cases hv : machine.selected_value col_idx data with
        | none => simp [machine.add_ply_point, h0, h1, hin, hv]
        | some v =>
          cases hadd : machine.add_height_to_images x
              (machine.rescale_float_to_int d0 xmin xmax w - inf)
              (machine.rescale_float_to_int (machine.fp.neg d1) (machine.fp.neg ymax)
                (machine.fp.neg ymin) h) v with
          | none => simp [machine.add_ply_point, h0, h1, hin, hv, hadd]
          | some x1 =>
            rw [m_add_ply_point_in x x1 xmin xmax ymin ymax inf sup newxmin w h col_idx data
              d0 d1 v h0 h1 hin hv hadd]
            split_ifs <;> simp
      · rw [m_add_ply_point_out x xmin xmax ymin ymax inf sup newxmin w h col_idx data d0 d1
          h0 h1 hin]
        simp

theorem m_add_ply_records_no_exit (xmin xmax ymin ymax : machine.fp) (inf sup : Int)
    (w h col_idx : Int) (s : Nat) (records : List (List machine.fp)) :
    ∀ (x : machine.images) (nx : machine.fp),
      machine.add_ply_records xmin xmax ymin ymax inf sup w h col_idx x nx records
        ≠ .error (.exit s) := by
  induction records with
  | nil => intro x nx; simp [machine.add_ply_records]
  | cons data rest ih =>
    intro x nx
    simp only [machine.add_ply_records]
    cases hp : machine.add_ply_point x xmin xmax ymin ymax inf sup nx w h col_idx data with
    | error e =>
      simp only
      intro heq
      have := m_add_ply_point_no_exit x xmin xmax ymin ymax inf sup nx w h col_idx data s
      rw [hp] at this
      exact this heq
    | ok p =>
      obtain ⟨x', nx'⟩ := p
      exact ih x' nx'

theorem m_add_files_zone (xmin xmax ymin ymax : machine.fp) (inf sup : Int) (w h : Int)
    (col_idx : Int) (files files' : List (Option machine.ply_file))
    (hsame : List.Forall₂ machine.same_records files files') :
    ∀ (x : machine.images) (newxmin : machine.fp),
      machine.add_files xmin xmax ymin ymax inf sup w h col_idx x newxmin files
        = machine.add_files xmin xmax ymin ymax inf sup w h col_idx x newxmin files' := by
  induction hsame with
  | nil => intro x newxmin; rfl
  | cons hfg _ ih =>
    intro x newxmin
    simp only [machine.add_files]
    rw [m_add_ply_points_zone x xmin xmax ymin ymax inf sup newxmin w h _ _ col_idx hfg]
    split
    · rfl
    · exact ih _ _

theorem m_add_files_no_exit (xmin xmax ymin ymax : machine.fp) (inf sup : Int) (w h : Int)
    (col_idx : Int) (hcol : 2 ≤ col_idx ∧ col_idx ≤ 5) (s : Nat)
    (files : List (Option machine.ply_file)) :
    ∀ (x : machine.images) (newxmin : machine.fp),
      machine.add_files xmin xmax ymin ymax inf sup w h col_idx x newxmin files
        ≠ .error (.exit s) := by
  induction files with
  | nil => intro x newxmin; simp [machine.add_files]
  | cons f rest ih =>
    intro x newxmin
    simp only [machine.add_files]
    cases hp : machine.add_ply_points_to_images x xmin xmax ymin ymax inf sup newxmin w h f
        col_idx with
    | error e =>
      simp only
      intro heq
      have := m_add_ply_points_no_exit x xmin xmax ymin ymax inf sup newxmin w h f col_idx
        hcol s (fun x nx records =>
          m_add_ply_records_no_exit xmin xmax ymin ymax inf sup w h col_idx s records x nx)
      rw [hp] at this
      exact this heq
    | ok p =>
      obtain ⟨x', nx'⟩ := p
      exact ih x' nx'

/-- C22 (failing input): a file whose header carries the zone line of the source comment,
"comment projection: UTM 28N": sscanf writes the three characters and the terminating NUL into
the 3-byte buffer utm, one byte past its end, so the header pass and with it every run over the
file are undefined, whatever the records. -/
theorem C22_three_character_zone_overflows_utm :
    machine.header_get_record_length_and_utm_zone machine.header_28N = none ∧
    ∀ (x : machine.images) (xmin xmax ymin ymax : machine.fp) (inf sup : Int)
      (newxmin : machine.fp) (w h col_idx : Int) (records : List (List machine.fp)),
      machine.add_ply_points_to_images x xmin xmax ymin ymax inf sup newxmin w h
        (some { header := machine.header_get_record_length_and_utm_zone machine.header_28N,
                records := records }) col_idx = .error .undefined := by
  have hnone : machine.header_get_record_length_and_utm_zone machine.header_28N = none := by
    decide!
  refine ⟨hnone, ?_⟩
  intro x xmin xmax ymin ymax inf sup newxmin w h col_idx records
  simp only [machine.add_ply_points_to_images, hnone]

/-- C22: for zone words that fit the buffer (at most two characters), the zone tags do not
influence accumulation: over two file lists that carry the same records with any such tags,
every add_ply_points_to_images call, the loop over the files and the tile written by main give
the same result (the same grid counts, means and tile-local minimum X, or the same fault), and
with a permitted attribute index no run stops in exit. -/
theorem C22_fitting_zone_tags_do_not_influence (xmin xmax ymin ymax : machine.fp)
    (inf sup w h col_idx : Int) (out_dir : List Char) (k : Nat)
    (files files' : List (Option machine.ply_file)) (x : machine.images)
    (newxmin : machine.fp)
    (hsame : List.Forall₂ machine.same_records files files')
    (hcol : 2 ≤ col_idx ∧ col_idx ≤ 5) :
    (∀ f f', machine.same_records f f' →
      machine.add_ply_points_to_images x xmin xmax ymin ymax inf sup newxmin w h f col_idx
        = machine.add_ply_points_to_images x xmin xmax ymin ymax inf sup newxmin w h f'
            col_idx) ∧
    machine.add_files xmin xmax ymin ymax inf sup w h col_idx x newxmin files
      = machine.add_files xmin xmax ymin ymax inf sup w h col_idx x newxmin files' ∧
    (∀ s, machine.add_files xmin xmax ymin ymax inf sup w h col_idx x newxmin files
      ≠ .error (.exit s)) ∧
    machine.main_tile xmin xmax ymin ymax w h files col_idx out_dir k { inf := inf, sup := sup }
      = machine.main_tile xmin xmax ymin ymax w h files' col_idx out_dir k
          { inf := inf, sup := sup } := by
  refine ⟨fun f f' hff => m_add_ply_points_zone x xmin xmax ymin ymax inf sup newxmin w h f f'
      col_idx hff,
    m_add_files_zone xmin xmax ymin ymax inf sup w h col_idx files files' hsame x newxmin,
    fun s => m_add_files_no_exit xmin xmax ymin ymax inf sup w h col_idx hcol s files x newxmin,
    ?_⟩
  simp only [machine.main_tile]
  cases hz : machine.zero_images (sup - inf + 1) h with
  | none => rfl
  | some x0 =>
    simp only
    rw [m_add_files_zone xmin xmax ymin ymax inf sup w h col_idx files files' hsame x0 .pinf]

theorem C22_fitting_zone_tags_do_not_influence_witness :
    (∀ f f', machine.same_records f f' →
      machine.add_ply_points_to_images { cnt := [], avg := [], w := 0, h := 0 }
          (.fin 0) (.fin 30) (.fin 0) (.fin 30) 0 3 .pinf 4 4 f 2
        = machine.add_ply_points_to_images { cnt := [], avg := [], w := 0, h := 0 }
          (.fin 0) (.fin 30) (.fin 0) (.fin 30) 0 3 .pinf 4 4 f' 2) ∧
    machine.add_files (.fin 0) (.fin 30) (.fin 0) (.fin 30) 0 3 4 4 2
        { cnt := [], avg := [], w := 0, h := 0 } .pinf
        [some { header := some (machine.header_of_zone ['3', '1']),
                records := machine.scenario_records }]
      = machine.add_files (.fin 0) (.fin 30) (.fin 0) (.fin 30) 0 3 4 4 2
        { cnt := [], avg := [], w := 0, h := 0 } .pinf
        [some { header := some (machine.header_of_zone ['S']),
                records := machine.scenario_records }] ∧
    (∀ s, machine.add_files (.fin 0) (.fin 30) (.fin 0) (.fin 30) 0 3 4 4 2
        { cnt := [], avg := [], w := 0, h := 0 } .pinf
        [some { header := some (machine.header_of_zone ['3', '1']),
                records := machine.scenario_records }] ≠ .error (.exit s)) ∧
    machine.main_tile (.fin 0) (.fin 30) (.fin 0) (.fin 30) 4 4
        [some { header := some (machine.header_of_zone ['3', '1']),
                records := machine.scenario_records }] 2 ['o'] 0 { inf := 0, sup := 3 }
      = machine.main_tile (.fin 0) (.fin 30) (.fin 0) (.fin 30) 4 4
        [some { header := some (machine.header_of_zone ['S']),
                records := machine.scenario_records }] 2 ['o'] 0 { inf := 0, sup := 3 } :=
  C22_fitting_zone_tags_do_not_influence (.fin 0) (.fin 30) (.fin 0) (.fin 30) 0 3 4 4 2 ['o'] 0
    [some { header := some (machine.header_of_zone ['3', '1']),
            records := machine.scenario_records }]
    [some { header := some (machine.header_of_zone ['S']),
            records := machine.scenario_records }]
    { cnt := [], avg := [], w := 0, h := 0 } .pinf
    (List.Forall₂.cons ⟨⟨_, _, rfl, rfl, rfl⟩, rfl⟩ List.Forall₂.nil) (by decide)

/-! ## Extent scan in float -/

theorem m_update_min_max_fin (a b x : ℚ) :
    machine.update_min_max (.fin a) (.fin b) (.fin x)
      = (.fin (if x < a then x else a), .fin (if b < x then x else b)) := by
  unfold machine.update_min_max
  by_cases h1 : x < a <;> by_cases h2 : b < x <;> simp [machine.fp.lt, h1, h2]

theorem m_update_min_max_init (x : ℚ) :
    machine.update_min_max .pinf .ninf (.fin x) = (.fin x, .fin x) := by
  simp [machine.update_min_max, machine.fp.lt]

theorem m_to_float_fin (x : ℚ) (hx : |x| ≤ 2 ^ 127) :
    machine.to_float (.fin x) = .fin (machine.round_value machine.binary32 x) := by
  simp only [machine.to_float]
  exact round32_fin x hx

theorem m_parse_ply_records_for_extrema_fin (records : List (List machine.fp)) :
    ∀ (a b c d : ℚ),
      (∀ r ∈ records, ∃ x y, r[0]? = some (.fin x) ∧ r[1]? = some (.fin y) ∧
        |x| ≤ 2 ^ 127 ∧ |y| ≤ 2 ^ 127) →
      ∃ a' b' c' d', machine.parse_ply_records_for_extrema
          { xmin := .fin a, xmax := .fin b, ymin := .fin c, ymax := .fin d } records
          = some { xmin := .fin a', xmax := .fin b', ymin := .fin c', ymax := .fin d' } ∧
        a' ≤ a ∧ b ≤ b' ∧ c' ≤ c ∧ d ≤ d' ∧
        (∀ r ∈ records, ∀ x y, r[0]? = some (.fin x) → r[1]? = some (.fin y) →
          a' ≤ machine.round_value machine.binary32 x ∧
          machine.round_value machine.binary32 x ≤ b' ∧
          c' ≤ machine.round_value machine.binary32 y ∧
          machine.round_value machine.binary32 y ≤ d') ∧
        (a' = a ∨ ∃ r ∈ records, ∃ x, r[0]? = some (.fin x) ∧
          a' = machine.round_value machine.binary32 x) ∧
        (b' = b ∨ ∃ r ∈ records, ∃ x, r[0]? = some (.fin x) ∧
          b' = machine.round_value machine.binary32 x) ∧
        (c' = c ∨ ∃ r ∈ records, ∃ y, r[1]? = some (.fin y) ∧
          c' = machine.round_value machine.binary32 y) ∧
        (d' = d ∨ ∃ r ∈ records, ∃ y, r[1]? = some (.fin y) ∧
          d' = machine.round_value machine.binary32 y) := by
  induction records with
  | nil =>
    intro a b c d _
    exact ⟨a, b, c, d, rfl, le_rfl, le_rfl, le_rfl, le_rfl, by simp, Or.inl rfl, Or.inl rfl,
      Or.inl rfl, Or.inl rfl⟩
  | cons data rest ih =>
    intro a b c d hfin
    obtain ⟨x0, y0, h0, h1, hx0, hy0⟩ := hfin data (List.mem_cons_self _ _)
    obtain ⟨u, hu⟩ : ∃ u, u = machine.round_value machine.binary32 x0 := ⟨_, rfl⟩
    obtain ⟨v, hv⟩ : ∃ v, v = machine.round_value machine.binary32 y0 := ⟨_, rfl⟩
    obtain ⟨a', b', c', d', hrun, ha, hb, hc, hd, hall, ea, eb, ec, ed⟩ :=
      ih (if u < a then u else a) (if b < u then u else b)
        (if v < c then v else c) (if d < v then v else d)
        (fun r hr => hfin r (List.mem_cons_of_mem _ hr))
    have hmin0 : (if u < a then u else a) ≤ a ∧ (if u < a then u else a) ≤ u := by
      split_ifs with h <;> constructor <;> linarith
    have hmax0 : b ≤ (if b < u then u else b) ∧ u ≤ (if b < u then u else b) := by
      split_ifs with h <;> constructor <;> linarith
    have hmin1 : (if v < c then v else c) ≤ c ∧ (if v < c then v else c) ≤ v := by
      split_ifs with h <;> constructor <;> linarith
    have hmax1 : d ≤ (if d < v then v else d) ∧ v ≤ (if d < v then v else d) := by
      split_ifs with h <;> constructor <;> linarith
    refine ⟨a', b', c', d', ?_, by linarith, by linarith, by linarith, by linarith, ?_, ?_, ?_,
      ?_, ?_⟩
    · simp only [machine.parse_ply_records_for_extrema, h0, h1, m_to_float_fin x0 hx0,
        m_to_float_fin y0 hy0, m_update_min_max_fin, ← hu, ← hv]
      exact hrun
    · intro r hr x y hx hy
      rcases List.mem_cons.mp hr with rfl | hr'
      · rw [h0] at hx
        rw [h1] at hy
        cases hx
        cases hy
        rw [← hu, ← hv]
        refine ⟨by linarith, by linarith, by linarith, by linarith⟩
      · exact hall r hr' x y hx hy
    · rcases ea with e | ⟨r, hr, e⟩
      · by_cases h : u < a
        · right
          exact ⟨data, List.mem_cons_self _ _, x0, h0, by rw [e, if_pos h, hu]⟩
        · left
          rw [e, if_neg h]
      · exact Or.inr ⟨r, List.mem_cons_of_mem _ hr, e⟩
    · rcases eb with e | ⟨r, hr, e⟩
      · by_cases h : b < u
        · right
          exact ⟨data, List.mem_cons_self _ _, x0, h0, by rw [e, if_pos h, hu]⟩
        · left
          rw [e, if_neg h]
      · exact Or.inr ⟨r, List.mem_cons_of_mem _ hr, e⟩
    · rcases ec with e | ⟨r, hr, e⟩
      · by_cases h : v < c
        · right
          exact ⟨data, List.mem_cons_self _ _, y0, h1, by rw [e, if_pos h, hv]⟩
        · left
          rw [e, if_neg h]
      · exact Or.inr ⟨r, List.mem_cons_of_mem _ hr, e⟩
    · rcases ed with e | ⟨r, hr, e⟩
      · by_cases h : d < v
        · right
          exact ⟨data, List.mem_cons_self _ _, y0, h1, by rw [e, if_pos h, hv]⟩
        · left
          rw [e, if_neg h]
      · exact Or.inr ⟨r, List.mem_cons_of_mem _ hr, e⟩

/-- C20 (as stated, refuted): the extrema are C floats and update_min_max takes a float, so the
decoded double 16777217 is folded as 16777216: after the scan of the single record
(16777217, 0, 0) xmax is 16777216, which is not the field-0 value, and the scanned point lies
outside the box. -/
theorem C20_extrema_are_rounded_to_float :
    machine.parse_ply_records_for_extrema machine.extrema.init
        [[.fin 16777217, .fin 0, .fin 0]]
      = some { xmin := .fin 16777216, xmax := .fin 16777216, ymin := .fin 0, ymax := .fin 0 } ∧
    ([machine.fp.fin 16777217, .fin 0, .fin 0])[0]? = some (.fin 16777217) ∧
    ¬ ((16777217 : ℚ) ≤ 16777216) := by
  decide!

/-- C20 (amended): folding update_min_max over a non-empty sequence of decoded records whose
fields 0 and 1 are finite doubles of magnitude at most 2^127, from xmin = ymin = +infinity and
xmax = ymax = -infinity, gives finite extrema with xmin the least and xmax the greatest of the
field-0 values rounded to float, ymin and ymax likewise for field 1; hence xmin ≤ xmax,
ymin ≤ ymax, every scanned point rounded to float lies inside the box, the point itself lies
within |x| / 2^24 + 2^-150 of it, and inside it when its two fields are floats. -/
theorem C20_extrema_are_min_max_of_float_fields (records : List (List machine.fp))
    (hne : records ≠ [])
    (hfin : ∀ r ∈ records, ∃ x y, r[0]? = some (.fin x) ∧ r[1]? = some (.fin y) ∧
      |x| ≤ 2 ^ 127 ∧ |y| ≤ 2 ^ 127) :
    ∃ a b c d, machine.parse_ply_records_for_extrema machine.extrema.init records
        = some { xmin := .fin a, xmax := .fin b, ymin := .fin c, ymax := .fin d } ∧
      (∃ r ∈ records, ∃ x, r[0]? = some (.fin x) ∧ a = machine.round_value machine.binary32 x) ∧
      (∃ r ∈ records, ∃ x, r[0]? = some (.fin x) ∧ b = machine.round_value machine.binary32 x) ∧
      (∃ r ∈ records, ∃ y, r[1]? = some (.fin y) ∧ c = machine.round_value machine.binary32 y) ∧
      (∃ r ∈ records, ∃ y, r[1]? = some (.fin y) ∧ d = machine.round_value machine.binary32 y) ∧
      (∀ r ∈ records, ∀ x y, r[0]? = some (.fin x) → r[1]? = some (.fin y) →
        (a ≤ machine.round_value machine.binary32 x ∧
          machine.round_value machine.binary32 x ≤ b ∧
          c ≤ machine.round_value machine.binary32 y ∧
          machine.round_value machine.binary32 y ≤ d) ∧
        (a - (|x| / 2 ^ 24 + 1 / 2 ^ 150) ≤ x ∧ x ≤ b + (|x| / 2 ^ 24 + 1 / 2 ^ 150) ∧
          c - (|y| / 2 ^ 24 + 1 / 2 ^ 150) ≤ y ∧ y ≤ d + (|y| / 2 ^ 24 + 1 / 2 ^ 150)) ∧
        (machine.round_value machine.binary32 x = x →
          machine.round_value machine.binary32 y = y → a ≤ x ∧ x ≤ b ∧ c ≤ y ∧ y ≤ d)) ∧
      a ≤ b ∧ c ≤ d := by
  cases records with
  | nil => exact absurd rfl hne
  | cons data rest =>
    obtain ⟨x0, y0, h0, h1, hx0, hy0⟩ := hfin data (List.mem_cons_self _ _)
    obtain ⟨a, b, c, d, hrun, ha, hb, hc, hd, hall, ea, eb, ec, ed⟩ :=
      m_parse_ply_records_for_extrema_fin rest
        (machine.round_value machine.binary32 x0) (machine.round_value machine.binary32 x0)
        (machine.round_value machine.binary32 y0) (machine.round_value machine.binary32 y0)
        (fun r hr => hfin r (List.mem_cons_of_mem _ hr))
    have hin : ∀ r ∈ data :: rest, ∀ x y, r[0]? = some (.fin x) → r[1]? = some (.fin y) →
        a ≤ machine.round_value machine.binary32 x ∧
          machine.round_value machine.binary32 x ≤ b ∧
          c ≤ machine.round_value machine.binary32 y ∧
          machine.round_value machine.binary32 y ≤ d := by
      intro r hr x y hx hy
      rcases List.mem_cons.mp hr with rfl | hr'
      · rw [h0] at hx
        rw [h1] at hy
        cases hx
        cases hy
        exact ⟨ha, hb, hc, hd⟩
      · exact hall r hr' x y hx hy
    refine ⟨a, b, c, d, ?_, ?_, ?_, ?_, ?_, ?_, by linarith, by linarith⟩
    · simp only [machine.parse_ply_records_for_extrema, machine.extrema.init, h0, h1,
        m_to_float_fin x0 hx0, m_to_float_fin y0 hy0, m_update_min_max_init]
      exact hrun
    · rcases ea with e | ⟨r, hr, e⟩
      · exact ⟨data, List.mem_cons_self _ _, x0, h0, e⟩
      · exact ⟨r, List.mem_cons_of_mem _ hr, e⟩
    · rcases eb with e | ⟨r, hr, e⟩
      · exact ⟨data, List.mem_cons_self _ _, x0, h0, e⟩
      · exact ⟨r, List.mem_cons_of_mem _ hr, e⟩
    · rcases ec with e | ⟨r, hr, e⟩
      · exact ⟨data, List.mem_cons_self _ _, y0, h1, e⟩
      · exact ⟨r, List.mem_cons_of_mem _ hr, e⟩
    · rcases ed with e | ⟨r, hr, e⟩
      · exact ⟨data, List.mem_cons_self _ _, y0, h1, e⟩
      · exact ⟨r, List.mem_cons_of_mem _ hr, e⟩
    · intro r hr x y hx hy
      obtain ⟨i1, i2, i3, i4⟩ := hin r hr x y hx hy
      have ex := abs_le.mp (round32_error x)
      have ey := abs_le.mp (round32_error y)
      refine ⟨⟨i1, i2, i3, i4⟩, ⟨by linarith [ex.1, ex.2], by linarith [ex.1, ex.2],
        by linarith [ey.1, ey.2], by linarith [ey.1, ey.2]⟩, ?_⟩
      intro rx ry
      rw [rx] at i1 i2
      rw [ry] at i3 i4
      exact ⟨i1, i2, i3, i4⟩

theorem C20_extrema_are_min_max_of_float_fields_witness :
    ∃ a b c d, machine.parse_ply_records_for_extrema machine.extrema.init
        machine.scenario_records
        = some { xmin := .fin a, xmax := .fin b, ymin := .fin c, ymax := .fin d } ∧
      (∃ r ∈ machine.scenario_records, ∃ x, r[0]? = some (.fin x) ∧
        a = machine.round_value machine.binary32 x) ∧
      (∃ r ∈ machine.scenario_records, ∃ x, r[0]? = some (.fin x) ∧
        b = machine.round_value machine.binary32 x) ∧
      (∃ r ∈ machine.scenario_records, ∃ y, r[1]? = some (.fin y) ∧
        c = machine.round_value machine.binary32 y) ∧
      (∃ r ∈ machine.scenario_records, ∃ y, r[1]? = some (.fin y) ∧
        d = machine.round_value machine.binary32 y) ∧
      (∀ r ∈ machine.scenario_records, ∀ x y, r[0]? = some (.fin x) → r[1]? = some (.fin y) →
        (a ≤ machine.round_value machine.binary32 x ∧
          machine.round_value machine.binary32 x ≤ b ∧
          c ≤ machine.round_value machine.binary32 y ∧
          machine.round_value machine.binary32 y ≤ d) ∧
        (a - (|x| / 2 ^ 24 + 1 / 2 ^ 150) ≤ x ∧ x ≤ b + (|x| / 2 ^ 24 + 1 / 2 ^ 150) ∧
          c - (|y| / 2 ^ 24 + 1 / 2 ^ 150) ≤ y ∧ y ≤ d + (|y| / 2 ^ 24 + 1 / 2 ^ 150)) ∧
        (machine.round_value machine.binary32 x = x →
          machine.round_value machine.binary32 y = y → a ≤ x ∧ x ≤ b ∧ c ≤ y ∧ y ≤ d)) ∧
      a ≤ b ∧ c ≤ d :=
  C20_extrema_are_min_max_of_float_fields machine.scenario_records (by decide) (by
    intro r hr
    simp only [machine.scenario_records, List.mem_cons, List.mem_singleton, List.not_mem_nil,
      or_false] at hr
    rcases hr with rfl | rfl | rfl
    · exact ⟨10, 10, rfl, rfl, by norm_num [abs_le], by norm_num [abs_le]⟩
    · exact ⟨10, 10, rfl, rfl, by norm_num [abs_le], by norm_num [abs_le]⟩
    · exact ⟨20, 20, rfl, rfl, by norm_num [abs_le], by norm_num [abs_le]⟩)

/-! ## Tile-local minimum X in float -/

theorem m_add_ply_point_newxmin (x x' : machine.images) (xmin xmax ymin ymax : machine.fp)
    (inf sup : Int) (newxmin newxmin' : machine.fp) (w h col_idx : Int)
    (data : List machine.fp)
    (hstep : machine.add_ply_point x xmin xmax ymin ymax inf sup newxmin w h col_idx data
      = .ok (x', newxmin')) :
    newxmin' = ((machine.window_x xmin xmax inf sup w data).toList).foldl
      machine.update_newxmin newxmin := by
  obtain ⟨d0, d1, h0, h1, hcase⟩ :=
    m_add_ply_point_inv x x' xmin xmax ymin ymax inf sup newxmin newxmin' w h col_idx data hstep
  rcases hcase with ⟨hwin, hnx, _, _⟩ | ⟨hwin, _, hnx⟩
  · simp [machine.window_x, h0, hwin, hnx]
  · simp [machine.window_x, h0, hwin, hnx]

theorem m_add_ply_records_newxmin (xmin xmax ymin ymax : machine.fp) (inf sup : Int)
    (w h col_idx : Int) (records : List (List machine.fp)) :
    ∀ (x x' : machine.images) (newxmin newxmin' : machine.fp),
      machine.add_ply_records xmin xmax ymin ymax inf sup w h col_idx x newxmin records
        = .ok (x', newxmin') →
      newxmin' = (records.filterMap (machine.window_x xmin xmax inf sup w)).foldl
        machine.update_newxmin newxmin := by
  induction records with
  | nil =>
    intro x x' nx nx' hrun
    simp only [machine.add_ply_records, Except.ok.injEq, Prod.mk.injEq] at hrun
    simp [hrun.2]
  | cons data rest ih =>
    intro x x' nx nx' hrun
    unfold machine.add_ply_records at hrun
    cases hstep : machine.add_ply_point x xmin xmax ymin ymax inf sup nx w h col_idx data with
    | error e => simp [hstep] at hrun
    | ok p =>
      obtain ⟨x1, nx1⟩ := p
      simp only [hstep] at hrun
      have h1 := m_add_ply_point_newxmin x x1 xmin xmax ymin ymax inf sup nx nx1 w h col_idx
        data hstep
      rw [ih x1 x' nx1 nx' hrun, h1]
      cases hw : machine.window_x xmin xmax inf sup w data <;> simp [List.filterMap_cons, hw]

theorem m_add_files_newxmin (xmin xmax ymin ymax : machine.fp) (inf sup : Int) (w h : Int)
    (col_idx : Int) (files : List (Option machine.ply_file)) :
    ∀ (x x' : machine.images) (newxmin newxmin' : machine.fp),
      machine.add_files xmin xmax ymin ymax inf sup w h col_idx x newxmin files
        = .ok (x', newxmin') →
      newxmin' = ((machine.file_records files).filterMap
        (machine.window_x xmin xmax inf sup w)).foldl machine.update_newxmin newxmin := by
  induction files with
  | nil =>
    intro x x' nx nx' hrun
    simp only [machine.add_files, Except.ok.injEq, Prod.mk.injEq] at hrun
    simp [machine.file_records, hrun.2]
  | cons f rest ih =>
    intro x x' nx nx' hrun
    unfold machine.add_files at hrun
    cases hf : machine.add_ply_points_to_images x xmin xmax ymin ymax inf sup nx w h f
        col_idx with
    | error e => simp [hf] at hrun
    | ok p =>
      obtain ⟨x1, nx1⟩ := p
      simp only [hf] at hrun
      rw [ih x1 x' nx1 nx' hrun]
      unfold machine.add_ply_points_to_images at hf
      cases f with
      | none =>
        simp only [Except.ok.injEq, Prod.mk.injEq] at hf
        simp [machine.file_records, hf.2]
      | some file =>
        simp only at hf
        cases hhd : file.header with
        | none => simp [hhd] at hf
        | some hd =>
          simp only [hhd] at hf
          by_cases hcol : col_idx < 2 ∨ col_idx > 5
          · simp [hcol] at hf
          · simp only [hcol, if_false] at hf
            by_cases hn : hd.n = 0
            · simp [hn] at hf
            · simp only [hn, if_false] at hf
              rw [m_add_ply_records_newxmin xmin xmax ymin ymax inf sup w h col_idx
                file.records x x1 nx nx1 hf]
              simp [machine.file_records, List.filterMap_append, List.foldl_append]

theorem m_update_newxmin_fin (m y : ℚ) (hy : |y| ≤ 2 ^ 127) :
    machine.update_newxmin (.fin (machine.round_value machine.binary32 m)) (.fin y)
      = .fin (machine.round_value machine.binary32 (min m y)) := by
  have hmono := @round_value_mono machine.binary32 (by decide)
  have hidem := round_value_idem machine.binary32 (by decide) m
  by_cases hlt : y < machine.round_value machine.binary32 m
  · have e : machine.update_newxmin (.fin (machine.round_value machine.binary32 m)) (.fin y)
        = .fin (machine.round_value machine.binary32 y) := by
      simp [machine.update_newxmin, machine.fp.lt, hlt, m_to_float_fin y hy]
    rw [e]
    rcases le_total m y with hmy | hym
    · rw [min_eq_left hmy]
      have h1 := hmono hmy
      have h2 := hmono (le_of_lt hlt)
      rw [hidem] at h2
      rw [le_antisymm h2 h1]
    · rw [min_eq_right hym]
  · have e : machine.update_newxmin (.fin (machine.round_value machine.binary32 m)) (.fin y)
        = .fin (machine.round_value machine.binary32 m) := by
      simp [machine.update_newxmin, machine.fp.lt, hlt]
    rw [e]
    rcases le_total m y with hmy | hym
    · rw [min_eq_left hmy]
    · rw [min_eq_right hym]
      have h1 := hmono hym
      have h2 := hmono (not_lt.mp hlt)
      rw [hidem] at h2
      rw [le_antisymm h2 h1]

theorem m_foldl_update_newxmin_fin (xs : List machine.fp)
    (hfin : ∀ d ∈ xs, ∃ y, d = .fin y ∧ |y| ≤ 2 ^ 127) :
    ∀ m : ℚ, ∃ m', xs.foldl machine.update_newxmin
        (.fin (machine.round_value machine.binary32 m))
        = .fin (machine.round_value machine.binary32 m') ∧
      m' ≤ m ∧ (∀ y, machine.fp.fin y ∈ xs → m' ≤ y) ∧ (m' = m ∨ machine.fp.fin m' ∈ xs) := by
  induction xs with
  | nil => intro m; exact ⟨m, rfl, le_rfl, by simp, Or.inl rfl⟩
  | cons d xs ih =>
    intro m
    obtain ⟨y, rfl, hy⟩ := hfin _ (List.mem_cons_self _ _)
    obtain ⟨m', hm', hle, hall, hmem⟩ :=
      ih (fun d hd => hfin d (List.mem_cons_of_mem _ hd)) (min m y)
    refine ⟨m', ?_, le_trans hle (min_le_left _ _), ?_, ?_⟩
    · rw [List.foldl_cons, m_update_newxmin_fin m y hy]
      exact hm'
    · intro z hz
      rcases List.mem_cons.mp hz with e | hz'
      · cases e
        exact le_trans hle (min_le_right _ _)
      · exact hall z hz'
    · rcases hmem with e | e
      · rcases le_total m y with hmy | hym
        · left
          rw [e, min_eq_left hmy]
        · right
          rw [e, min_eq_right hym]
          exact List.mem_cons_self _ _
      · exact Or.inr (List.mem_cons_of_mem _ e)

theorem m_foldl_update_newxmin_pinf (xs : List machine.fp)
    (hfin : ∀ d ∈ xs, ∃ y, d = .fin y ∧ |y| ≤ 2 ^ 127) :
    (xs.foldl machine.update_newxmin .pinf = .pinf ↔ xs = []) ∧
      (xs ≠ [] → ∃ m, machine.fp.fin m ∈ xs ∧ (∀ y, machine.fp.fin y ∈ xs → m ≤ y) ∧
        xs.foldl machine.update_newxmin .pinf
          = .fin (machine.round_value machine.binary32 m)) := by
  cases xs with
  | nil => simp
  | cons d xs =>
    obtain ⟨y, rfl, hy⟩ := hfin _ (List.mem_cons_self _ _)
    obtain ⟨m, hm, hle, hall, hmem⟩ :=
      m_foldl_update_newxmin_fin xs (fun d hd => hfin d (List.mem_cons_of_mem _ hd)) y
    have hrun : (machine.fp.fin y :: xs).foldl machine.update_newxmin .pinf
        = .fin (machine.round_value machine.binary32 m) := by
      rw [List.foldl_cons]
      have e : machine.update_newxmin .pinf (.fin y)
          = .fin (machine.round_value machine.binary32 y) := by
        simp [machine.update_newxmin, machine.fp.lt, m_to_float_fin y hy]
      rw [e]
      exact hm
    refine ⟨by simp [hrun], ?_⟩
    intro _
    refine ⟨m, ?_, ?_, hrun⟩
    · rcases hmem with e | e
      · rw [e]; exact List.mem_cons_self _ _
      · exact List.mem_cons_of_mem _ e
    · intro z hz
      rcases List.mem_cons.mp hz with e | hz'
      · cases e
        exact hle
      · exact hall z hz'

/-- C17 (as stated, refuted): newxmin is a C float, so the store of data[0] rounds it: with the
single record (16777217, 10, 100) in the window of the only tile, the origin handed to
set_geotif_header is (16777216, ymax), and 16777216 is not the raw X of any point. -/
theorem C17_newxmin_is_rounded_to_float :
    machine.main_tile (.fin 0) (.fin 33554432) (.fin 0) (.fin 30) 4 4
        [some machine.big_x_file] 2 "out".toList 0
        { inf := 0, sup := 3 }
      = .ok { raster := [.nan, .nan, .nan, .nan, .nan, .nan, .nan, .nan, .nan, .nan,
                .fin 100, .nan, .nan, .nan, .nan, .nan],
              w := 4, h := 4, xoff := .fin 16777216, yoff := .fin 30 } ∧
    machine.window_x (.fin 0) (.fin 33554432) 0 3 4 [.fin 16777217, .fin 10, .fin 100]
      = some (.fin 16777217) ∧
    (16777216 : ℚ) ≠ 16777217 := by
  decide!

/-- C17 (amended): for a tile whose accumulation completes, the newxmin obtained by streaming
all records from newxmin = +infinity is the fold of update_newxmin over exactly the records
whose column lies in [inf, sup]; when the X of these records are finite doubles of magnitude at
most 2^127 it is +infinity if there is no such record and otherwise the minimum raw X of these
records rounded to float (the raw minimum itself when that is a float); main hands
(newxmin, ymax) to set_geotif_header as the origin. -/
theorem C17_newxmin_is_float_of_window_minimum (xmin xmax ymin ymax : machine.fp) (w h : Int)
    (files : List (Option machine.ply_file)) (col_idx : Int) (out_dir : List Char) (k : Nat)
    (r : range) (t : machine.tile_output)
    (hrun : machine.main_tile xmin xmax ymin ymax w h files col_idx out_dir k r = .ok t)
    (hfin : ∀ d ∈ (machine.file_records files).filterMap
        (machine.window_x xmin xmax r.inf r.sup w), ∃ y, d = .fin y ∧ |y| ≤ 2 ^ 127) :
    t.yoff = ymax ∧
    t.xoff = ((machine.file_records files).filterMap
      (machine.window_x xmin xmax r.inf r.sup w)).foldl machine.update_newxmin .pinf ∧
    (t.xoff = .pinf ↔
      (machine.file_records files).filterMap (machine.window_x xmin xmax r.inf r.sup w) = []) ∧
    ((machine.file_records files).filterMap (machine.window_x xmin xmax r.inf r.sup w) ≠ [] →
      ∃ m, machine.fp.fin m ∈ (machine.file_records files).filterMap
          (machine.window_x xmin xmax r.inf r.sup w) ∧
        (∀ y, machine.fp.fin y ∈ (machine.file_records files).filterMap
          (machine.window_x xmin xmax r.inf r.sup w) → m ≤ y) ∧
        t.xoff = .fin (machine.round_value machine.binary32 m) ∧
        (machine.round_value machine.binary32 m = m → t.xoff = .fin m)) := by
  unfold machine.main_tile at hrun
  cases hz : machine.zero_images (r.sup - r.inf + 1) h with
  | none => simp [hz] at hrun
  | some x0 =>
    simp only [hz] at hrun
    cases hadd : machine.add_files xmin xmax ymin ymax r.inf r.sup w h col_idx x0 .pinf
        files with
    | error e => simp [hadd] at hrun
    | ok p =>
      obtain ⟨x, nx⟩ := p
      simp only [hadd] at hrun
      by_cases hp : machine.out_path_fits out_dir k = true
      · simp only [hp, if_true, Except.ok.injEq] at hrun
        have hnx := m_add_files_newxmin xmin xmax ymin ymax r.inf r.sup w h col_idx files
          x0 x .pinf nx hadd
        have hx : t.xoff = nx := by rw [← hrun]
        have hy : t.yoff = ymax := by rw [← hrun]
        obtain ⟨f1, f2⟩ := m_foldl_update_newxmin_pinf _ hfin
        refine ⟨hy, by rw [hx, hnx], by rw [hx, hnx]; exact f1, ?_⟩
        intro hne
        obtain ⟨m, hm, hall, hval⟩ := f2 hne
        refine ⟨m, hm, hall, by rw [hx, hnx]; exact hval, ?_⟩
        intro hrep
        rw [hx, hnx, hval, hrep]
      · simp [hp] at hrun

theorem C17_newxmin_is_float_of_window_minimum_witness :
    (machine.tile_output.mk [.nan, .nan, .nan, .nan, .nan, .nan, .nan, .nan, .nan, .nan,
        .fin 100, .nan, .nan, .nan, .nan, .nan] 4 4 (.fin 16777216) (.fin 30)).yoff = .fin 30 ∧
    (machine.tile_output.mk [.nan, .nan, .nan, .nan, .nan, .nan, .nan, .nan, .nan, .nan,
        .fin 100, .nan, .nan, .nan, .nan, .nan] 4 4 (.fin 16777216) (.fin 30)).xoff
      = ((machine.file_records [some machine.big_x_file]).filterMap
      (machine.window_x (.fin 0) (.fin 33554432) 0 3 4)).foldl machine.update_newxmin .pinf ∧
    ((machine.tile_output.mk [.nan, .nan, .nan, .nan, .nan, .nan, .nan, .nan, .nan, .nan,
        .fin 100, .nan, .nan, .nan, .nan, .nan] 4 4 (.fin 16777216) (.fin 30)).xoff = .pinf ↔
      (machine.file_records [some machine.big_x_file]).filterMap
        (machine.window_x (.fin 0) (.fin 33554432) 0 3 4) = []) ∧
    ((machine.file_records [some machine.big_x_file]).filterMap
        (machine.window_x (.fin 0) (.fin 33554432) 0 3 4) ≠ [] →
      ∃ m, machine.fp.fin m ∈ (machine.file_records
          [some machine.big_x_file]).filterMap
          (machine.window_x (.fin 0) (.fin 33554432) 0 3 4) ∧
        (∀ y, machine.fp.fin y ∈ (machine.file_records
          [some machine.big_x_file]).filterMap
          (machine.window_x (.fin 0) (.fin 33554432) 0 3 4) → m ≤ y) ∧
        (machine.tile_output.mk [.nan, .nan, .nan, .nan, .nan, .nan, .nan, .nan, .nan, .nan,
          .fin 100, .nan, .nan, .nan, .nan, .nan] 4 4 (.fin 16777216) (.fin 30)).xoff
          = .fin (machine.round_value machine.binary32 m) ∧
        (machine.round_value machine.binary32 m = m →
          (machine.tile_output.mk [.nan, .nan, .nan, .nan, .nan, .nan, .nan, .nan, .nan, .nan,
            .fin 100, .nan, .nan, .nan, .nan, .nan] 4 4 (.fin 16777216) (.fin 30)).xoff
            = .fin m)) :=
  C17_newxmin_is_float_of_window_minimum (.fin 0) (.fin 33554432) (.fin 0) (.fin 30) 4 4
    [some machine.big_x_file] 2 "out".toList 0
    { inf := 0, sup := 3 } _ (by decide!) (by
      have e : (machine.file_records [some machine.big_x_file]).filterMap
          (machine.window_x (.fin 0) (.fin 33554432) 0 3 4) = [.fin 16777217] := by decide!
      rw [e]
      intro d hd
      rw [List.mem_singleton] at hd
      exact ⟨16777217, hd, by norm_num [abs_le]⟩)

/-! ## Selected attribute in float -/

theorem m_target_cell_in (xmin xmax ymin ymax : machine.fp) (inf sup w h tw : Int)
    (data : List machine.fp) (d0 d1 : machine.fp) (h0 : data[0]? = some d0)
    (h1 : data[1]? = some d1)
    (hin : inf ≤ machine.rescale_float_to_int d0 xmin xmax w ∧
      machine.rescale_float_to_int d0 xmin xmax w ≤ sup) :
    machine.target_cell xmin xmax ymin ymax inf sup w h tw data
      = some (((tw * machine.rescale_float_to_int (machine.fp.neg d1) (machine.fp.neg ymax)
          (machine.fp.neg ymin) h
        + (machine.rescale_float_to_int d0 xmin xmax w - inf)) % 2 ^ 64).toNat) := by
  simp only [machine.target_cell, h0, h1]
  rw [if_pos hin]

theorem m_target_cell_out (xmin xmax ymin ymax : machine.fp) (inf sup w h tw : Int)
    (data : List machine.fp) (d0 d1 : machine.fp) (h0 : data[0]? = some d0)
    (h1 : data[1]? = some d1)
    (hout : ¬ (inf ≤ machine.rescale_float_to_int d0 xmin xmax w ∧
      machine.rescale_float_to_int d0 xmin xmax w ≤ sup)) :
    machine.target_cell xmin xmax ymin ymax inf sup w h tw data = none := by
  simp only [machine.target_cell, h0, h1]
  rw [if_neg hout]

theorem m_add_ply_point_frame (x x' : machine.images) (xmin xmax ymin ymax : machine.fp)
    (inf sup : Int) (newxmin newxmin' : machine.fp) (w h col_idx : Int)
    (data : List machine.fp)
    (hstep : machine.add_ply_point x xmin xmax ymin ymax inf sup newxmin w h col_idx data
      = .ok (x', newxmin')) :
    x'.w = x.w ∧ x'.h = x.h ∧ x'.cnt.length = x.cnt.length ∧ x'.avg.length = x.avg.length ∧
      ∀ m, machine.target_cell xmin xmax ymin ymax inf sup w h x.w data ≠ some m →
        x'.cnt[m]? = x.cnt[m]? ∧ x'.avg[m]? = x.avg[m]? := by
  obtain ⟨d0, d1, h0, h1, hcase⟩ :=
    m_add_ply_point_inv x x' xmin xmax ymin ymax inf sup newxmin newxmin' w h col_idx data hstep
  rcases hcase with ⟨hin, _, _, v, _, hadd⟩ | ⟨_, hx, _⟩
  · obtain ⟨hw', hh', hlc, hla, hfr⟩ := m_add_height_frame x x' _ _ v hadd
    refine ⟨hw', hh', hlc, hla, ?_⟩
    intro m hm
    rw [m_target_cell_in xmin xmax ymin ymax inf sup w h x.w data d0 d1 h0 h1 hin] at hm
    exact hfr m (fun e => hm (by rw [e]; rfl))
  · subst hx
    exact ⟨rfl, rfl, rfl, rfl, fun _ _ => ⟨rfl, rfl⟩⟩

theorem m_add_ply_records_frame (xmin xmax ymin ymax : machine.fp) (inf sup : Int)
    (w h col_idx : Int) (records : List (List machine.fp)) :
    ∀ (x x' : machine.images) (newxmin newxmin' : machine.fp),
      machine.add_ply_records xmin xmax ymin ymax inf sup w h col_idx x newxmin records
        = .ok (x', newxmin') →
      x'.w = x.w ∧ x'.h = x.h ∧ x'.cnt.length = x.cnt.length ∧ x'.avg.length = x.avg.length ∧
      ∀ m, (∀ data ∈ records,
          machine.target_cell xmin xmax ymin ymax inf sup w h x.w data ≠ some m) →
        x'.cnt[m]? = x.cnt[m]? ∧ x'.avg[m]? = x.avg[m]? := by
  induction records with
  | nil =>
    intro x x' nx nx' hrun
    simp only [machine.add_ply_records, Except.ok.injEq, Prod.mk.injEq] at hrun
    rw [← hrun.1]
    exact ⟨rfl, rfl, rfl, rfl, fun _ _ => ⟨rfl, rfl⟩⟩
  | cons data rest ih =>
    intro x x' nx nx' hrun
    unfold machine.add_ply_records at hrun
    cases hstep : machine.add_ply_point x xmin xmax ymin ymax inf sup nx w h col_idx data with
    | error e => simp [hstep] at hrun
    | ok p =>
      obtain ⟨x1, nx1⟩ := p
      simp only [hstep] at hrun
      obtain ⟨hw1, hh1, hlc1, hla1, hfr1⟩ :=
        m_add_ply_point_frame x x1 xmin xmax ymin ymax inf sup nx nx1 w h col_idx data hstep
      obtain ⟨hw2, hh2, hlc2, hla2, hfr2⟩ := ih x1 x' nx1 nx' hrun
      refine ⟨hw2.trans hw1, hh2.trans hh1, hlc2.trans hlc1, hla2.trans hla1, ?_⟩
      intro m hm
      have h1 := hfr1 m (hm data (List.mem_cons_self _ _))
      have h2 := hfr2 m (fun d hd => by
        rw [hw1]; exact hm d (List.mem_cons_of_mem _ hd))
      exact ⟨h2.1.trans h1.1, h2.2.trans h1.2⟩

theorem m_add_ply_records_append (xmin xmax ymin ymax : machine.fp) (inf sup : Int)
    (w h col_idx : Int) (pre post : List (List machine.fp)) :
    ∀ (x : machine.images) (newxmin : machine.fp),
      machine.add_ply_records xmin xmax ymin ymax inf sup w h col_idx x newxmin (pre ++ post) =
        match machine.add_ply_records xmin xmax ymin ymax inf sup w h col_idx x newxmin pre with
        | .error e => .error e
        | .ok p => machine.add_ply_records xmin xmax ymin ymax inf sup w h col_idx p.1 p.2
            post := by
  induction pre with
  | nil => intro x nx; simp [machine.add_ply_records]
  | cons data rest ih =>
    intro x nx
    simp only [List.cons_append, machine.add_ply_records]
    cases machine.add_ply_point x xmin xmax ymin ymax inf sup nx w h col_idx data with
    | error e => rfl
    | ok p => exact ih p.1 p.2

theorem m_set_unknown_to_nan_getElem? (x : machine.images) (m : Nat) (c a : machine.fp)
    (hc : x.cnt[m]? = some c) (ha : x.avg[m]? = some a) :
    (machine.set_unknown_to_nan x)[m]? = some (if c = .fin 0 then .nan else a) := by
  unfold machine.set_unknown_to_nan
  rw [List.getElem?_zipWith, hc, ha]

theorem m_to_float_round (q : ℚ) :
    machine.to_float (machine.round machine.binary32 q) = machine.round machine.binary32 q := by
  unfold machine.round
  split_ifs with h1 h2
  · rfl
  · rfl
  · simp only [machine.to_float]
    have hidem := round_value_idem machine.binary32 (by decide) q
    unfold machine.round
    rw [hidem, if_neg h1]

theorem m_to_float_idem (d : machine.fp) :
    machine.to_float (machine.to_float d) = machine.to_float d := by
  cases d with
  | fin q => exact m_to_float_round q
  | nan => rfl
  | ninf => rfl
  | pinf => rfl

theorem m_selected_value_float (col_idx : Int) (data : List machine.fp) (v : machine.fp)
    (hv : machine.selected_value col_idx data = some v) : machine.to_float v = v := by
  unfold machine.selected_value at hv
  split_ifs at hv with h2
  · cases hd : data[2]? with
    | none => simp [hd] at hv
    | some d =>
      simp only [hd, Option.map_some', Option.some.injEq] at hv
      rw [← hv]
      exact m_to_float_idem d
  · cases hd : data[col_idx.toNat]? with
    | none => simp [hd] at hv
    | some d =>
      simp only [hd, Option.map_some', Option.some.injEq] at hv
      rw [← hv]
      exact m_to_float_round _

theorem pow2_emax32 : machine.pow2 (machine.binary32.emax + 1) = 2 ^ 128 := by
  have e : machine.binary32.emax + 1 = ((128 : Nat) : Int) := by decide
  rw [e, pow2_eq, zpow_natCast]

theorem m_round32_one : machine.round machine.binary32 1 = .fin 1 := by
  have := round32_int 1 (by norm_num)
  simpa using this

theorem m_first_update (v : machine.fp) (hv : machine.to_float v = v) :
    machine.fp.div machine.binary32
      (machine.fp.add machine.binary32 v (machine.fp.mul machine.binary32 (.fin 0) (.fin 0)))
      (machine.fp.add machine.binary32 (.fin 1) (.fin 0)) = v := by
  have hm : machine.fp.mul machine.binary32 (.fin 0) (.fin 0) = .fin 0 := by
    simp only [machine.fp.mul, mul_zero]
    exact fp_round_zero _
  have ha : machine.fp.add machine.binary32 (.fin 1) (.fin 0) = .fin 1 := by
    simp only [machine.fp.add, add_zero]
    exact m_round32_one
  rw [hm, ha]
  cases v with
  | nan => rfl
  | pinf => simp [machine.fp.add, machine.fp.div, machine.fp.sign_inf]
  | ninf => simp [machine.fp.add, machine.fp.div, machine.fp.sign_inf]
  | fin q =>
    simp only [machine.to_float] at hv
    simp only [machine.fp.add, add_zero, hv, machine.fp.div, one_ne_zero, if_false, div_one]

theorem m_count_first : machine.fp.add machine.binary32 (.fin 0) (.fin 1) = .fin 1 := by
  simp only [machine.fp.add, zero_add]
  exact m_round32_one

/-- C15 (as stated, refuted): with attribute index 3 the field is converted to unsigned int
and then to float: for the single record (10, 10, 100, 1/2) the cell holds 0, not 1/2, and for
the single record (10, 10, 100, 16777217) it holds 16777216. -/
theorem C15_channel_value_is_converted :
    machine.add_ply_points_to_images
        (machine.images.mk (List.replicate 16 (.fin 0)) (List.replicate 16 (.fin 0)) 4 4)
        (.fin 0) (.fin 30) (.fin 0) (.fin 30) 0 3 .pinf 4 4
        (some { header := some (machine.header_of_zone "31".toList),
                records := [[.fin 10, .fin 10, .fin 100, .fin (1 / 2)]] }) 3
      = .ok (machine.images.mk
          [.fin 0, .fin 0, .fin 0, .fin 0, .fin 0, .fin 0, .fin 0, .fin 0, .fin 0, .fin 1,
            .fin 0, .fin 0, .fin 0, .fin 0, .fin 0, .fin 0]
          (List.replicate 16 (.fin 0)) 4 4, .fin 10) ∧
    (machine.set_unknown_to_nan (machine.images.mk
          [.fin 0, .fin 0, .fin 0, .fin 0, .fin 0, .fin 0, .fin 0, .fin 0, .fin 0, .fin 1,
            .fin 0, .fin 0, .fin 0, .fin 0, .fin 0, .fin 0]
          (List.replicate 16 (.fin 0)) 4 4))[9]? = some (.fin 0) ∧
    (0 : ℚ) ≠ 1 / 2 ∧
    machine.selected_value 3 [.fin 10, .fin 10, .fin 100, .fin 16777217]
      = some (.fin 16777216) ∧
    (16777216 : ℚ) ≠ 16777217 := by
  decide!

/-- C15 (amended): when a file is accumulated into a zero-initialised tile grid and exactly one
of its records is mapped to a cell, that cell has count 1 and holds, after finalisation, the
value handed to add_height_to_images: for the attribute index 2 the finite double data[2]
rounded to float (data[2] itself when it is a float), and for an attribute index c in 3..5 the
field c converted to unsigned int (truncated toward zero, modulo 2^32) and then to float, which
is field c itself when that is a natural number up to 2^24. -/
theorem C15_single_point_cell_holds_float_of_field (xmin xmax ymin ymax : machine.fp)
    (inf sup w h col_idx : Int) (file : machine.ply_file) (pre post : List (List machine.fp))
    (d : List machine.fp) (m : Nat) (x0 x' : machine.images) (newxmin' : machine.fp)
    (hrec : file.records = pre ++ d :: post)
    (hzero : machine.zero_images (sup - inf + 1) h = some x0)
    (hrun : machine.add_ply_points_to_images x0 xmin xmax ymin ymax inf sup .pinf w h
      (some file) col_idx = .ok (x', newxmin'))
    (hd : machine.target_cell xmin xmax ymin ymax inf sup w h (sup - inf + 1) d = some m)
    (hpre : ∀ r ∈ pre,
      machine.target_cell xmin xmax ymin ymax inf sup w h (sup - inf + 1) r ≠ some m)
    (hpost : ∀ r ∈ post,
      machine.target_cell xmin xmax ymin ymax inf sup w h (sup - inf + 1) r ≠ some m) :
    (2 ≤ col_idx ∧ col_idx ≤ 5) ∧
    ∃ v, machine.selected_value col_idx d = some v ∧ x'.cnt[m]? = some (.fin 1) ∧
      (machine.set_unknown_to_nan x')[m]? = some v ∧
      (col_idx = 2 → ∃ f, d[2]? = some (.fin f) ∧ v = machine.round machine.binary32 f ∧
        (machine.round_value machine.binary32 f = f → |f| < 2 ^ 128 → v = .fin f)) ∧
      (col_idx ≠ 2 → ∃ g, d[col_idx.toNat]? = some g ∧
        v = machine.of_int machine.binary32 (machine.cvt_uint g) ∧
        ∀ k : Nat, k ≤ 2 ^ 24 → g = .fin (k : ℚ) → v = .fin (k : ℚ)) := by
  have hx0 : x0.w = sup - inf + 1 ∧
      (∀ (k : Nat) (c : machine.fp), x0.cnt[k]? = some c → c = .fin 0) ∧
      (∀ (k : Nat) (a : machine.fp), x0.avg[k]? = some a → a = .fin 0) := by
    unfold machine.zero_images at hzero
    split_ifs at hzero with hfit
    simp only [Option.some.injEq] at hzero
    rw [← hzero]
    refine ⟨rfl, ?_, ?_⟩
    · intro k c hk
      simp only [List.getElem?_replicate] at hk
      split_ifs at hk
      exact (Option.some.inj hk).symm
    · intro k a hk
      simp only [List.getElem?_replicate] at hk
      split_ifs at hk
      exact (Option.some.inj hk).symm
  obtain ⟨hx0w, hx0c, hx0a⟩ := hx0
  unfold machine.add_ply_points_to_images at hrun
  simp only at hrun
  cases hhd : file.header with
  | none => simp [hhd] at hrun
  | some hd' =>
  simp only [hhd] at hrun
  by_cases hcol : col_idx < 2 ∨ col_idx > 5
  · simp [hcol] at hrun
  simp only [hcol, if_false] at hrun
  by_cases hn0 : hd'.n = 0
  · simp [hn0] at hrun
  simp only [hn0, if_false] at hrun
  refine ⟨by omega, ?_⟩
  rw [hrec, m_add_ply_records_append] at hrun
  cases hp : machine.add_ply_records xmin xmax ymin ymax inf sup w h col_idx x0 .pinf pre with
  | error e => simp [hp] at hrun
  | ok p1 =>
    obtain ⟨x1, nx1⟩ := p1
    simp only [hp, machine.add_ply_records] at hrun
    cases hstep : machine.add_ply_point x1 xmin xmax ymin ymax inf sup nx1 w h col_idx d with
    | error e => simp [hstep] at hrun
    | ok p2 =>
      obtain ⟨x2, nx2⟩ := p2
      simp only [hstep] at hrun
      obtain ⟨hw1, _, _, _, hfr1⟩ := m_add_ply_records_frame xmin xmax ymin ymax inf sup w h
        col_idx pre x0 x1 .pinf nx1 hp
      rw [hx0w] at hw1 hfr1
      obtain ⟨hc1, ha1⟩ := hfr1 m hpre
      obtain ⟨d0, d1, h0, h1, hcase⟩ :=
        m_add_ply_point_inv x1 x2 xmin xmax ymin ymax inf sup nx1 nx2 w h col_idx d hstep
      rcases hcase with ⟨hin, _, hassert, v, hv, hadd⟩ | ⟨hout, _, _⟩
      swap
      · rw [m_target_cell_out xmin xmax ymin ymax inf sup w h _ d d0 d1 h0 h1 hout] at hd
        cases hd
      rw [m_target_cell_in xmin xmax ymin ymax inf sup w h _ d d0 d1 h0 h1 hin] at hd
      have hm : machine.cell_index x1 (machine.rescale_float_to_int d0 xmin xmax w - inf)
          (machine.rescale_float_to_int (machine.fp.neg d1) (machine.fp.neg ymax)
            (machine.fp.neg ymin) h) = m := by
        unfold machine.cell_index
        rw [hw1]
        exact Option.some.inj hd
      obtain ⟨c, a, hc, ha, hc2, ha2⟩ := m_add_height_cell x1 x2 _ _ v hadd
      rw [hm] at hc ha hc2 ha2
      have hc0 : c = .fin 0 := hx0c m c (hc1.symm.trans hc)
      have ha0 : a = .fin 0 := hx0a m a (ha1.symm.trans ha)
      subst hc0 ha0
      have hvf := m_selected_value_float col_idx d v hv
      rw [m_first_update v hvf] at ha2
      rw [m_count_first] at hc2
      obtain ⟨hw2, _, _, _, _⟩ := m_add_height_frame x1 x2 _ _ v hadd
      obtain ⟨_, _, _, _, hfr3⟩ := m_add_ply_records_frame xmin xmax ymin ymax inf sup w h
        col_idx post x2 x' nx2 newxmin' hrun
      rw [hw2, hw1] at hfr3
      obtain ⟨hc3, ha3⟩ := hfr3 m hpost
      have hcnt : x'.cnt[m]? = some (.fin 1) := by rw [hc3, hc2]
      have havg : x'.avg[m]? = some v := by rw [ha3, ha2]
      refine ⟨v, hv, hcnt, ?_, ?_, ?_⟩
      · rw [m_set_unknown_to_nan_getElem? x' m (.fin 1) v hcnt havg]
        simp
      · intro h2
        simp only [machine.selected_value, h2, if_true] at hv
        simp only [machine.assert_finite, h2, if_true] at hassert
        cases hf : d[2]? with
        | none => simp [hf] at hv
        | some g =>
          simp only [hf, Option.map_some', Option.some.injEq] at hv
          simp only [hf] at hassert
          cases g with
          | nan => simp [machine.fp.finite] at hassert
          | pinf => simp [machine.fp.finite] at hassert
          | ninf => simp [machine.fp.finite] at hassert
          | fin f =>
            refine ⟨f, rfl, by rw [← hv]; rfl, ?_⟩
            intro hrep hlt
            rw [← hv]
            simp only [machine.to_float]
            have := round_eq_fin machine.binary32 f (by
              rw [hrep, pow2_emax32]
              exact hlt)
            rw [this, hrep]
      · intro h2
        simp only [machine.selected_value, h2, if_false] at hv
        cases hf : d[col_idx.toNat]? with
        | none => simp [hf] at hv
        | some g =>
          simp only [hf, Option.map_some', Option.some.injEq] at hv
          refine ⟨g, rfl, hv.symm, ?_⟩
          intro k hk hg
          rw [← hv, hg]
          have hck : machine.cvt_uint (.fin (k : ℚ)) = (k : Int) := by
            have hcast : c_trunc (k : ℚ) = (k : Int) := by
              rw [c_trunc_of_nonneg (by positivity)]
              exact Int.floor_natCast k
            simp only [machine.cvt_uint, hcast]
            have hk' : (k : Int) ≤ 2 ^ 24 := by exact_mod_cast hk
            rw [if_pos ⟨by omega, by omega⟩]
            omega
          rw [hck]
          unfold machine.of_int
          have := round32_int (k : Int) (by
            rw [abs_of_nonneg (by positivity)]
            exact_mod_cast hk)
          simpa using this

theorem C15_single_point_cell_holds_float_of_field_witness :
    (2 ≤ (3 : Int) ∧ (3 : Int) ≤ 5) ∧
    ∃ v, machine.selected_value 3 [.fin 20, .fin 20, .fin 50, .fin 9] = some v ∧
      (machine.images.mk
        [.fin 0, .fin 0, .fin 0, .fin 0, .fin 0, .fin 0, .fin 1, .fin 0, .fin 0, .fin 1,
          .fin 0, .fin 0, .fin 0, .fin 0, .fin 0, .fin 0]
        [.fin 0, .fin 0, .fin 0, .fin 0, .fin 0, .fin 0, .fin 9, .fin 0, .fin 0, .fin 7,
          .fin 0, .fin 0, .fin 0, .fin 0, .fin 0, .fin 0] 4 4).cnt[6]? = some (.fin 1) ∧
      (machine.set_unknown_to_nan (machine.images.mk
        [.fin 0, .fin 0, .fin 0, .fin 0, .fin 0, .fin 0, .fin 1, .fin 0, .fin 0, .fin 1,
          .fin 0, .fin 0, .fin 0, .fin 0, .fin 0, .fin 0]
        [.fin 0, .fin 0, .fin 0, .fin 0, .fin 0, .fin 0, .fin 9, .fin 0, .fin 0, .fin 7,
          .fin 0, .fin 0, .fin 0, .fin 0, .fin 0, .fin 0] 4 4))[6]? = some v ∧
      ((3 : Int) = 2 → ∃ f, ([.fin 20, .fin 20, .fin 50, .fin 9] : List machine.fp)[2]?
          = some (.fin f) ∧ v = machine.round machine.binary32 f ∧
        (machine.round_value machine.binary32 f = f → |f| < 2 ^ 128 → v = .fin f)) ∧
      ((3 : Int) ≠ 2 → ∃ g,
        ([.fin 20, .fin 20, .fin 50, .fin 9] : List machine.fp)[(3 : Int).toNat]? = some g ∧
        v = machine.of_int machine.binary32 (machine.cvt_uint g) ∧
        ∀ k : Nat, k ≤ 2 ^ 24 → g = .fin (k : ℚ) → v = .fin (k : ℚ)) :=
  C15_single_point_cell_holds_float_of_field (.fin 0) (.fin 30) (.fin 0) (.fin 30) 0 3 4 4 3
    { header := some (machine.header_of_zone "31".toList),
      records := [[.fin 10, .fin 10, .fin 100, .fin 7], [.fin 20, .fin 20, .fin 50, .fin 9]] }
    [[.fin 10, .fin 10, .fin 100, .fin 7]] [] [.fin 20, .fin 20, .fin 50, .fin 9] 6
    (machine.images.mk (List.replicate 16 (.fin 0)) (List.replicate 16 (.fin 0)) 4 4)
    (machine.images.mk
      [.fin 0, .fin 0, .fin 0, .fin 0, .fin 0, .fin 0, .fin 1, .fin 0, .fin 0, .fin 1,
        .fin 0, .fin 0, .fin 0, .fin 0, .fin 0, .fin 0]
      [.fin 0, .fin 0, .fin 0, .fin 0, .fin 0, .fin 0, .fin 9, .fin 0, .fin 0, .fin 7,
        .fin 0, .fin 0, .fin 0, .fin 0, .fin 0, .fin 0] 4 4) (.fin 10)
    rfl (by decide!) (by decide!) (by decide!) (by decide!) (by simp)

/-! ## Attribute index check after the extent scan -/

theorem m_parse_extrema_no_exit (e : machine.extrema) (f : Option machine.ply_file) (s : Nat) :
    machine.parse_ply_points_for_extrema e f ≠ .error (.exit s) := by
  unfold machine.parse_ply_points_for_extrema
  cases f with
  | none => simp
  | some file =>
    simp only
    cases file.header with
    | none => simp
    | some hd =>
      simp only
      split_ifs
      · simp
      · cases machine.parse_ply_records_for_extrema e file.records <;> simp

theorem m_parse_extrema_file_ok (e e' : machine.extrema) (f : Option machine.ply_file)
    (h : machine.parse_ply_points_for_extrema e f = .ok e') : machine.file_ok f := by
  unfold machine.parse_ply_points_for_extrema at h
  cases f with
  | none => exact True.intro
  | some file =>
    simp only at h
    cases hhd : file.header with
    | none => simp [hhd] at h
    | some hd =>
      simp only [hhd] at h
      by_cases hn : hd.n = 0
      · simp [hn] at h
      · exact ⟨hd, hhd, hn⟩

theorem m_scan_files_no_exit (s : Nat) (files : List (Option machine.ply_file)) :
    ∀ e : machine.extrema, machine.scan_files e files ≠ .error (.exit s) := by
  induction files with
  | nil => intro e; simp [machine.scan_files]
  | cons f rest ih =>
    intro e
    unfold machine.scan_files
    cases hf : machine.parse_ply_points_for_extrema e f with
    | error err =>
      simp only
      intro hc
      cases hc
      exact m_parse_extrema_no_exit e f s hf
    | ok e' => exact ih e'

theorem m_scan_files_file_ok (files : List (Option machine.ply_file)) :
    ∀ e e' : machine.extrema, machine.scan_files e files = .ok e' →
      ∀ f ∈ files, machine.file_ok f := by
  induction files with
  | nil => intro e e' _ f hf; cases hf
  | cons f0 rest ih =>
    intro e e' hrun f hf
    unfold machine.scan_files at hrun
    cases hf0 : machine.parse_ply_points_for_extrema e f0 with
    | error err => simp [hf0] at hrun
    | ok e1 =>
      simp only [hf0] at hrun
      rcases List.mem_cons.mp hf with rfl | hf'
      · exact m_parse_extrema_file_ok e e1 _ hf0
      · exact ih e1 e' hrun f hf'

theorem m_add_files_exit (xmin xmax ymin ymax : machine.fp) (inf sup : Int) (w h : Int)
    (col_idx : Int) (hcol : col_idx < 2 ∨ col_idx > 5) (files : List (Option machine.ply_file))
    (hok : ∀ f ∈ files, machine.file_ok f) (hex : ∃ file, some file ∈ files) :
    ∀ (x : machine.images) (newxmin : machine.fp),
      machine.add_files xmin xmax ymin ymax inf sup w h col_idx x newxmin files
        = .error (.exit (bad_col_idx_status col_idx)) := by
  induction files with
  | nil =>
    obtain ⟨file, hf⟩ := hex
    cases hf
  | cons f rest ih =>
    intro x nx
    unfold machine.add_files
    cases f with
    | none =>
      obtain ⟨file, hf⟩ := hex
      have hrest : ∃ file, some file ∈ rest := by
        rcases List.mem_cons.mp hf with e | hf'
        · cases e
        · exact ⟨file, hf'⟩
      simp only [machine.add_ply_points_to_images]
      exact ih (fun f hf => hok f (List.mem_cons_of_mem _ hf)) hrest x nx
    | some file =>
      obtain ⟨hd, hhd, _⟩ := hok (some file) (List.mem_cons_self _ _)
      simp only [machine.add_ply_points_to_images, hhd, hcol, if_true]

theorem m_add_files_unopened (xmin xmax ymin ymax : machine.fp) (inf sup : Int) (w h : Int)
    (col_idx : Int) (files : List (Option machine.ply_file)) (hnone : ∀ f ∈ files, f = none) :
    ∀ (x : machine.images) (newxmin : machine.fp),
      machine.add_files xmin xmax ymin ymax inf sup w h col_idx x newxmin files
        = .ok (x, newxmin) := by
  induction files with
  | nil => intro x nx; rfl
  | cons f rest ih =>
    intro x nx
    have hf : f = none := hnone f (List.mem_cons_self _ _)
    subst hf
    simp only [machine.add_files, machine.add_ply_points_to_images]
    exact ih (fun f hf => hnone f (List.mem_cons_of_mem _ hf)) x nx

theorem m_main_tile_unopened_no_exit (xmin xmax ymin ymax : machine.fp) (w h : Int)
    (files : List (Option machine.ply_file)) (hnone : ∀ f ∈ files, f = none) (col_idx : Int)
    (out_dir : List Char) (k : Nat) (r : range) (s : Nat) :
    machine.main_tile xmin xmax ymin ymax w h files col_idx out_dir k r ≠ .error (.exit s) := by
  unfold machine.main_tile
  cases machine.zero_images (r.sup - r.inf + 1) h with
  | none => simp
  | some x0 =>
    simp only [m_add_files_unopened xmin xmax ymin ymax r.inf r.sup w h col_idx files hnone]
    split_ifs <;> simp

theorem m_main_tiles_unopened_no_exit (xmin xmax ymin ymax : machine.fp) (w h : Int)
    (files : List (Option machine.ply_file)) (hnone : ∀ f ∈ files, f = none) (col_idx : Int)
    (out_dir : List Char) (s : Nat) (rs : List range) :
    ∀ k : Nat,
      (machine.main_tiles xmin xmax ymin ymax w h files col_idx out_dir k rs).2
        ≠ some (.exit s) := by
  induction rs with
  | nil => intro k; simp [machine.main_tiles]
  | cons r rest ih =>
    intro k
    unfold machine.main_tiles
    cases ht : machine.main_tile xmin xmax ymin ymax w h files col_idx out_dir k r with
    | error e =>
      simp only
      intro hc
      cases hc
      exact m_main_tile_unopened_no_exit xmin xmax ymin ymax w h files hnone col_idx out_dir
        k r s ht
    | ok t => exact ih (k + 1)

/-- C19 (as stated, refuted): with attribute index 7 and an empty file list, or a list whose
only file cannot be opened, the run does not abort: it completes and writes one raster; and
with a listed file whose header declares no property the extent scan, which comes before the
check of the attribute index, never ends. -/
theorem C19_no_exit_without_open_file :
    machine.main 7 (some (.fin 0, .fin 30, .fin 0, .fin 30)) (.fin 10) 1 "out".toList [] =
      ([machine.tile_output.mk (List.replicate 16 .nan) 4 4 .pinf (.fin 30)], none) ∧
    machine.main 7 (some (.fin 0, .fin 30, .fin 0, .fin 30)) (.fin 10) 1 "out".toList [none] =
      ([machine.tile_output.mk (List.replicate 16 .nan) 4 4 .pinf (.fin 30)], none) ∧
    machine.main 7 (some (.fin 0, .fin 30, .fin 0, .fin 30)) (.fin 10) 1 "out".toList
        [some { header := some { n := 0, isbin := false, utm := none, t := [], rest := [] },
                records := [] }] = ([], some .hang) := by
  decide!

/-- C19 (amended): for an attribute index outside 2..5, main first scans every listed file for
the extent; a fault of the scan (undefined behaviour, or a loop that never ends) stops the run
and is not an exit. When the scan completes, the ranges are computed and the first tile is
allocated, and at least one listed file can be opened, the run exits with the status 21 to 31
returned by fprintf, before any raster is written. When no listed file can be opened (in
particular for an empty list) the run never exits with a status. -/
theorem C19_bad_col_idx_exits_at_first_open_file_after_scan (col_idx : Int)
    (bb : Option (machine.fp × machine.fp × machine.fp × machine.fp)) (resolution : machine.fp)
    (n : Int) (out_dir : List Char) (files : List (Option machine.ply_file))
    (hcol : col_idx < 2 ∨ col_idx > 5) (hlo : -2 ^ 31 ≤ col_idx) (hhi : col_idx < 2 ^ 31) :
    (∀ e, machine.scan_files machine.extrema.init files = .error e →
      machine.main col_idx bb resolution n out_dir files = ([], some e) ∧ ∀ s, e ≠ .exit s) ∧
    (∀ scanned r rs x0, machine.scan_files machine.extrema.init files = .ok scanned →
      computeRanges (machine.subdiv 0
        (machine.wrap_int (machine.main_dimension (machine.main_extrema bb scanned).xmin
          (machine.main_extrema bb scanned).xmax resolution - 1))
        (machine.wrap_int (n + 1))) n = some (r :: rs) →
      machine.zero_images (r.sup - r.inf + 1)
        (machine.main_dimension (machine.main_extrema bb scanned).ymin
          (machine.main_extrema bb scanned).ymax resolution) = some x0 →
      (∃ file, some file ∈ files) →
      machine.main col_idx bb resolution n out_dir files
        = ([], some (.exit (bad_col_idx_status col_idx))) ∧
      21 ≤ bad_col_idx_status col_idx ∧ bad_col_idx_status col_idx ≤ 31) ∧
    ((∀ f ∈ files, f = none) →
      ∀ s, (machine.main col_idx bb resolution n out_dir files).2 ≠ some (.exit s)) := by
  refine ⟨?_, ?_, ?_⟩
  · intro e he
    refine ⟨by simp only [machine.main, he], ?_⟩
    intro s hs
    rw [hs] at he
    exact m_scan_files_no_exit s files _ he
  · intro scanned r rs x0 hscan hranges hzero hex
    have hok := m_scan_files_file_ok files _ _ hscan
    obtain ⟨b1, b2, _⟩ := bad_col_idx_status_bounds col_idx hlo hhi
    refine ⟨?_, b1, b2⟩
    simp only [machine.main, hscan, hranges, machine.main_tiles, machine.main_tile, hzero,
      m_add_files_exit _ _ _ _ r.inf r.sup _ _ col_idx hcol files hok hex]
  · intro hnone s
    simp only [machine.main]
    cases hscan : machine.scan_files machine.extrema.init files with
    | error e =>
      simp only
      intro hc
      cases hc
      exact m_scan_files_no_exit s files _ hscan
    | ok scanned =>
      simp only
      cases hr : computeRanges (machine.subdiv 0
          (machine.wrap_int (machine.main_dimension (machine.main_extrema bb scanned).xmin
            (machine.main_extrema bb scanned).xmax resolution - 1))
          (machine.wrap_int (n + 1))) n with
      | none => simp
      | some rs =>
        exact m_main_tiles_unopened_no_exit _ _ _ _ _ _ files hnone col_idx out_dir s rs 0

theorem C19_bad_col_idx_exits_at_first_open_file_after_scan_witness :
    ((7 : Int) < 2 ∨ (7 : Int) > 5) ∧
    machine.main 7 (some (.fin 0, .fin 30, .fin 0, .fin 30)) (.fin 10) 1 "out".toList
      machine.scenario_files = ([], some (.exit (bad_col_idx_status 7))) ∧
    (21 ≤ bad_col_idx_status 7 ∧ bad_col_idx_status 7 ≤ 31) :=
  ⟨by decide,
    ((C19_bad_col_idx_exits_at_first_open_file_after_scan 7
      (some (.fin 0, .fin 30, .fin 0, .fin 30)) (.fin 10) 1 "out".toList
      machine.scenario_files (by decide) (by decide) (by decide)).2.1
      { xmin := .fin 10, xmax := .fin 20, ymin := .fin 10, ymax := .fin 20 }
      { inf := 0, sup := 3 } []
      (machine.images.mk (List.replicate 16 (.fin 0)) (List.replicate 16 (.fin 0)) 4 4)
      (by decide!) (by decide!) (by decide!) ⟨_, List.mem_cons_self _ _⟩).1,
    ((C19_bad_col_idx_exits_at_first_open_file_after_scan 7
      (some (.fin 0, .fin 30, .fin 0, .fin 30)) (.fin 10) 1 "out".toList
      machine.scenario_files (by decide) (by decide) (by decide)).2.1
      { xmin := .fin 10, xmax := .fin 20, ymin := .fin 10, ymax := .fin 20 }
      { inf := 0, sup := 3 } []
      (machine.images.mk (List.replicate 16 (.fin 0)) (List.replicate 16 (.fin 0)) 4 4)
      (by decide!) (by decide!) (by decide!) ⟨_, List.mem_cons_self _ _⟩).2⟩

/-! ## Tile boundaries in float -/

theorem subdiv_error (a n e c p1 p2 f : ℚ) (hn : 1 ≤ n) (hn' : n ≤ 2 ^ 24) (ha0 : 0 ≤ a)
    (ha : a ≤ n) (he0 : 0 ≤ e) (he : e ≤ 2 ^ 20)
    (hc : |c - 1 / n| ≤ |1 / n| / 2 ^ 24 + 1 / 2 ^ 150)
    (hp1 : |p1 - a * c| ≤ |a * c| / 2 ^ 24 + 1 / 2 ^ 150)
    (hp2 : |p2 - p1 * e| ≤ |p1 * e| / 2 ^ 24 + 1 / 2 ^ 150)
    (hf : |f - (p2 + 1 / 2)| ≤ |p2 + 1 / 2| / 2 ^ 53 + 1 / 2 ^ 1075) :
    |f - (a * e / n + 1 / 2)| ≤ e * (3 / 2 ^ 24 + 1 / 2 ^ 44) + 1 / 2 ^ 29 ∧ |a * c| ≤ 2 ∧ |p1 * e| ≤ 2 ^ 21 ∧ |p2| ≤ 2 ^ 21 ∧
      |p2 + 1 / 2| ≤ 2 ^ 22 := by
  revert hp1 hp2 hf
  have hnpos : (0 : ℚ) < n := by linarith
  obtain ⟨u, hu⟩ : ∃ u : ℚ, u = 1 / n := ⟨_, rfl⟩
  have hupos : 0 < u := by rw [hu]; positivity
  have hun : u * n = 1 := by rw [hu]; field_simp
  have hu1 : u ≤ 1 := by nlinarith
  have hau0 : 0 ≤ a * u := by positivity
  have hau1 : a * u ≤ 1 := by nlinarith
  have haT : a * e / n = a * u * e := by rw [hu]; field_simp
  rw [← hu, abs_of_pos hupos] at hc
  obtain ⟨c1, c2⟩ := abs_le.mp hc
  -- a * c
  have hac1 : a * c - a * u ≤ 1 / 2 ^ 24 + 1 / 2 ^ 126 := by
    have : a * (c - u) ≤ a * (u / 2 ^ 24 + 1 / 2 ^ 150) := mul_le_mul_of_nonneg_left c2 ha0
    have h2 : a * (1 / 2 ^ 150 : ℚ) ≤ 2 ^ 24 * (1 / 2 ^ 150 : ℚ) :=
      mul_le_mul_of_nonneg_right (le_trans ha hn') (by norm_num)
    have h3 : a * (u / 2 ^ 24) = (a * u) / 2 ^ 24 := by ring
    have h4 : (a * u) / 2 ^ 24 ≤ 1 / 2 ^ 24 := by
      apply div_le_div_of_nonneg_right hau1 (by norm_num)
    have e1 : (2 : ℚ) ^ 24 * (1 / 2 ^ 150) = 1 / 2 ^ 126 := by norm_num
    nlinarith
  have hac2 : -(1 / 2 ^ 24 + 1 / 2 ^ 126) ≤ a * c - a * u := by
    have : a * (-(u / 2 ^ 24 + 1 / 2 ^ 150)) ≤ a * (c - u) := mul_le_mul_of_nonneg_left c1 ha0
    have h2 : a * (1 / 2 ^ 150 : ℚ) ≤ 2 ^ 24 * (1 / 2 ^ 150 : ℚ) :=
      mul_le_mul_of_nonneg_right (le_trans ha hn') (by norm_num)
    have h3 : a * (u / 2 ^ 24) = (a * u) / 2 ^ 24 := by ring
    have h4 : (a * u) / 2 ^ 24 ≤ 1 / 2 ^ 24 := by
      apply div_le_div_of_nonneg_right hau1 (by norm_num)
    have e1 : (2 : ℚ) ^ 24 * (1 / 2 ^ 150) = 1 / 2 ^ 126 := by norm_num
    nlinarith
  have hacabs : |a * c| ≤ 1 + 1 / 2 ^ 23 := by
    rw [abs_le]
    constructor
    · have : (1 : ℚ) / 2 ^ 126 ≤ 1 / 2 ^ 24 := by norm_num
      have : (1 : ℚ) / 2 ^ 23 = 2 * (1 / 2 ^ 24) := by norm_num
      linarith
    · have : (1 : ℚ) / 2 ^ 126 ≤ 1 / 2 ^ 24 := by norm_num
      have : (1 : ℚ) / 2 ^ 23 = 2 * (1 / 2 ^ 24) := by norm_num
      linarith
  clear hc c1 c2
  -- p1
  intro hp1
  have hp1' : |p1 - a * c| ≤ 1 / 2 ^ 24 + 1 / 2 ^ 46 := by
    refine le_trans hp1 ?_
    have : |a * c| / 2 ^ 24 ≤ (1 + 1 / 2 ^ 23) / 2 ^ 24 :=
      div_le_div_of_nonneg_right hacabs (by norm_num)
    have e2 : ((1 : ℚ) + 1 / 2 ^ 23) / 2 ^ 24 + 1 / 2 ^ 150 ≤ 1 / 2 ^ 24 + 1 / 2 ^ 46 := by
      norm_num
    linarith
  obtain ⟨q1, q2⟩ := abs_le.mp hp1'
  clear hp1 hp1'
  have hp1u : |p1 - a * u| ≤ 2 / 2 ^ 24 + 1 / 2 ^ 45 := by
    rw [abs_le]
    have e3 : (1 : ℚ) / 2 ^ 126 + 1 / 2 ^ 46 ≤ 1 / 2 ^ 45 := by norm_num
    constructor <;> linarith
  obtain ⟨r1, r2⟩ := abs_le.mp hp1u
  have hp1abs : |p1| ≤ 1 + 1 / 2 ^ 22 := by
    rw [abs_le]
    have e4 : (2 : ℚ) / 2 ^ 24 + 1 / 2 ^ 45 ≤ 1 / 2 ^ 22 := by norm_num
    constructor <;> linarith
  clear q1 q2 hac1 hac2
  -- p1 * e
  intro hp2
  have hp1e : |p1 * e - a * u * e| ≤ (2 / 2 ^ 24 + 1 / 2 ^ 45) * e := by
    have : p1 * e - a * u * e = (p1 - a * u) * e := by ring
    rw [this, abs_mul, abs_of_nonneg he0]
    exact mul_le_mul_of_nonneg_right hp1u he0
  have hp1eabs : |p1 * e| ≤ (1 + 1 / 2 ^ 22) * e := by
    rw [abs_mul, abs_of_nonneg he0]
    exact mul_le_mul_of_nonneg_right hp1abs he0
  have hp2' : |p2 - p1 * e| ≤ (1 + 1 / 2 ^ 22) * e / 2 ^ 24 + 1 / 2 ^ 150 := by
    refine le_trans hp2 ?_
    have : |p1 * e| / 2 ^ 24 ≤ (1 + 1 / 2 ^ 22) * e / 2 ^ 24 :=
      div_le_div_of_nonneg_right hp1eabs (by norm_num)
    linarith
  obtain ⟨s1, s2⟩ := abs_le.mp hp1e
  obtain ⟨t1, t2⟩ := abs_le.mp hp2'
  clear hp2 hp2' hp1e r1 r2 hp1u
  have hTe : a * u * e ≤ e := by
    have := mul_le_mul_of_nonneg_right hau1 he0
    rwa [one_mul] at this
  have hT0 : 0 ≤ a * u * e := by positivity
  have hp2T : |p2 - a * u * e| ≤ 3 / 16 + 1 / 2 ^ 20 := by
    rw [abs_le]
    have k1 : (2 / 2 ^ 24 + 1 / 2 ^ 45 : ℚ) * e ≤ (2 / 2 ^ 24 + 1 / 2 ^ 45) * 2 ^ 20 :=
      mul_le_mul_of_nonneg_left he (by norm_num)
    have k2a : ((1 : ℚ) + 1 / 2 ^ 22) * e ≤ (1 + 1 / 2 ^ 22) * 2 ^ 20 :=
      mul_le_mul_of_nonneg_left he (by norm_num)
    have k2 : ((1 : ℚ) + 1 / 2 ^ 22) * e / 2 ^ 24 ≤ (1 + 1 / 2 ^ 22) * 2 ^ 20 / 2 ^ 24 :=
      div_le_div_of_nonneg_right k2a (by norm_num)
    have k3 : (2 / 2 ^ 24 + 1 / 2 ^ 45 : ℚ) * 2 ^ 20 + (1 + 1 / 2 ^ 22) * 2 ^ 20 / 2 ^ 24
        + 1 / 2 ^ 150 ≤ 3 / 16 + 1 / 2 ^ 20 := by norm_num
    constructor <;> linarith
  obtain ⟨v1, v2⟩ := abs_le.mp hp2T
  have hp2abs : |p2| ≤ 2 ^ 21 := by
    rw [abs_le]
    have : (3 : ℚ) / 16 + 1 / 2 ^ 20 ≤ 1 := by norm_num
    have : (2 : ℚ) ^ 20 + 1 ≤ 2 ^ 21 := by norm_num
    constructor <;> linarith
  have hp2h : |p2 + 1 / 2| ≤ 2 ^ 20 + 2 := by
    rw [abs_le]
    have : (3 : ℚ) / 16 + 1 / 2 ^ 20 ≤ 1 := by norm_num
    constructor <;> linarith
  have hp2Tp : |p2 - a * u * e| ≤ e * (3 / 2 ^ 24 + 1 / 2 ^ 44) + 1 / 2 ^ 150 := by
    rw [abs_le]
    have k4 : (2 / 2 ^ 24 + 1 / 2 ^ 45 : ℚ) * e + (1 + 1 / 2 ^ 22) * e / 2 ^ 24
        ≤ e * (3 / 2 ^ 24 + 1 / 2 ^ 44) := by
      have k5 : (2 / 2 ^ 24 + 1 / 2 ^ 45 : ℚ) * e + (1 + 1 / 2 ^ 22) * e / 2 ^ 24
          = e * (3 / 2 ^ 24 + 1 / 2 ^ 45 + 1 / 2 ^ 46) := by ring
      rw [k5]
      exact mul_le_mul_of_nonneg_left (by norm_num) he0
    constructor <;> linarith
  obtain ⟨x1, x2⟩ := abs_le.mp hp2Tp
  clear s1 s2 t1 t2 hp2Tp
  intro hf
  have hf' : |f - (p2 + 1 / 2)| ≤ 1 / 2 ^ 30 := by
    refine le_trans hf ?_
    have : |p2 + 1 / 2| / 2 ^ 53 ≤ (2 ^ 20 + 2) / 2 ^ 53 :=
      div_le_div_of_nonneg_right hp2h (by norm_num)
    have : ((2 : ℚ) ^ 20 + 2) / 2 ^ 53 + 1 / 2 ^ 1075 ≤ 1 / 2 ^ 30 := by norm_num
    linarith
  obtain ⟨w1, w2⟩ := abs_le.mp hf'
  clear hf hf'
  refine ⟨?_, ?_, ?_, hp2abs, ?_⟩
  · rw [haT, abs_le]
    have : (1 : ℚ) / 2 ^ 150 + 1 / 2 ^ 30 ≤ 1 / 2 ^ 29 := by norm_num
    constructor <;> linarith
  · refine le_trans hacabs ?_
    norm_num
  · refine le_trans hp1eabs ?_
    have : ((1 : ℚ) + 1 / 2 ^ 22) * e ≤ (1 + 1 / 2 ^ 22) * 2 ^ 20 :=
      mul_le_mul_of_nonneg_left he (by norm_num)
    have : ((1 : ℚ) + 1 / 2 ^ 22) * 2 ^ 20 ≤ 2 ^ 21 := by norm_num
    linarith
  · refine le_trans hp2h ?_
    norm_num

theorem m_of_int32 (z : Int) (hz : |z| ≤ 2 ^ 24) :
    machine.of_int machine.binary32 z = .fin (z : ℚ) := round32_int z hz

theorem m_subdiv_at_chain (e n : Int) (i : Nat) (he0 : 0 ≤ e) (he : e ≤ 2 ^ 20) (hn1 : 1 ≤ n)
    (hn : n ≤ 2 ^ 24) (hi : (i : Int) ≤ n) :
    machine.subdiv_at 0 e
        (machine.fp.div machine.binary32 (.fin 1) (machine.of_int machine.binary32 n)) i
      = ⌊machine.round_value machine.binary64
          (machine.round_value machine.binary32
            (machine.round_value machine.binary32
              ((i : ℚ) * machine.round_value machine.binary32 (1 / (n : ℚ))) * (e : ℚ))
            + 1 / 2)⌋ ∧
    |machine.round_value machine.binary64
          (machine.round_value machine.binary32
            (machine.round_value machine.binary32
              ((i : ℚ) * machine.round_value machine.binary32 (1 / (n : ℚ))) * (e : ℚ))
            + 1 / 2) - ((i : ℚ) * (e : ℚ) / (n : ℚ) + 1 / 2)|
      ≤ (e : ℚ) * (3 / 2 ^ 24 + 1 / 2 ^ 44) + 1 / 2 ^ 29 := by
  have hnq1 : (1 : ℚ) ≤ (n : ℚ) := by exact_mod_cast hn1
  have hnq : (n : ℚ) ≤ 2 ^ 24 := by exact_mod_cast hn
  have hiq0 : (0 : ℚ) ≤ (i : ℚ) := by positivity
  have hiq : (i : ℚ) ≤ (n : ℚ) := by exact_mod_cast hi
  have heq0 : (0 : ℚ) ≤ (e : ℚ) := by exact_mod_cast he0
  have heq : (e : ℚ) ≤ 2 ^ 20 := by exact_mod_cast he
  obtain ⟨c, hc⟩ : ∃ c, c = machine.round_value machine.binary32 (1 / (n : ℚ)) := ⟨_, rfl⟩
  obtain ⟨p1, hp1⟩ : ∃ p1, p1 = machine.round_value machine.binary32 ((i : ℚ) * c) := ⟨_, rfl⟩
  obtain ⟨p2, hp2⟩ : ∃ p2, p2 = machine.round_value machine.binary32 (p1 * (e : ℚ)) :=
    ⟨_, rfl⟩
  obtain ⟨f, hf⟩ : ∃ f, f = machine.round_value machine.binary64 (p2 + 1 / 2) := ⟨_, rfl⟩
  have ec : |c - 1 / (n : ℚ)| ≤ |1 / (n : ℚ)| / 2 ^ 24 + 1 / 2 ^ 150 := by
    rw [hc]; exact round32_error _
  have ep1 : |p1 - (i : ℚ) * c| ≤ |(i : ℚ) * c| / 2 ^ 24 + 1 / 2 ^ 150 := by
    rw [hp1]; exact round32_error _
  have ep2 : |p2 - p1 * (e : ℚ)| ≤ |p1 * (e : ℚ)| / 2 ^ 24 + 1 / 2 ^ 150 := by
    rw [hp2]; exact round32_error _
  have ef : |f - (p2 + 1 / 2)| ≤ |p2 + 1 / 2| / 2 ^ 53 + 1 / 2 ^ 1075 := by
    rw [hf]; exact round64_error _
  obtain ⟨b1, b2, b3, b4, b5⟩ :=
    subdiv_error (i : ℚ) (n : ℚ) (e : ℚ) c p1 p2 f hnq1 hnq hiq0 hiq heq0 heq ec ep1 ep2 ef
  rw [← hc, ← hp1, ← hp2, ← hf]
  refine ⟨?_, b1⟩
  have hin : |(i : Int)| ≤ 2 ^ 24 := by
    rw [abs_of_nonneg (by positivity)]
    omega
  have hnn : |n| ≤ 2 ^ 24 := by
    rw [abs_of_nonneg (by omega)]
    exact hn
  have hee : |e| ≤ 2 ^ 24 := by
    rw [abs_of_nonneg he0]
    omega
  have hn0 : (n : ℚ) ≠ 0 := by linarith
  have big : (2 : ℚ) ^ 22 ≤ 2 ^ 127 := by norm_num
  have big64 : (2 : ℚ) ^ 22 ≤ 2 ^ 1023 := by norm_num
  have s1 : machine.fp.div machine.binary32 (.fin 1) (machine.of_int machine.binary32 n)
      = .fin c := by
    rw [m_of_int32 n hnn]
    simp only [machine.fp.div, hn0, if_false]
    rw [round32_fin _ (by
      rw [abs_of_nonneg (by positivity)]
      have : 1 / (n : ℚ) ≤ 1 := by
        rw [div_le_one (by linarith)]
        exact hnq1
      have : (1 : ℚ) ≤ 2 ^ 127 := by norm_num
      linarith), hc]
  have s2 : machine.fp.mul machine.binary32 (machine.of_int machine.binary32 (i : Int)) (.fin c)
      = .fin p1 := by
    rw [m_of_int32 _ hin]
    simp only [machine.fp.mul, Int.cast_natCast]
    rw [round32_fin _ (by
      have : (2 : ℚ) ≤ 2 ^ 127 := by norm_num
      linarith), hp1]
  have s3 : machine.fp.mul machine.binary32 (.fin p1) (machine.of_int machine.binary32 e)
      = .fin p2 := by
    rw [m_of_int32 e hee]
    simp only [machine.fp.mul]
    rw [round32_fin _ (by
      have : (2 : ℚ) ^ 21 ≤ 2 ^ 127 := by norm_num
      linarith), hp2]
  have s4 : machine.fp.add machine.binary32 (.fin p2) (machine.of_int machine.binary32 0)
      = .fin p2 := by
    rw [m_of_int32 0 (by norm_num)]
    simp only [machine.fp.add, Int.cast_zero, add_zero]
    rw [round32_fin _ (by
      have : (2 : ℚ) ^ 21 ≤ 2 ^ 127 := by norm_num
      linarith)]
    rw [hp2, round_value_idem machine.binary32 (by decide)]
  have s5 : machine.fp.add machine.binary64 (.fin p2) (.fin (1 / 2)) = .fin f := by
    simp only [machine.fp.add]
    rw [round64_fin _ (by linarith), hf]
  unfold machine.subdiv_at
  rw [s1, s2, s3, s4, s5]
  have hquarter : (e : ℚ) * (3 / 2 ^ 24 + 1 / 2 ^ 44) + 1 / 2 ^ 29 ≤ 1 / 4 := by
    have := mul_le_mul_of_nonneg_right heq (by norm_num : (0 : ℚ) ≤ 3 / 2 ^ 24 + 1 / 2 ^ 44)
    have : (2 : ℚ) ^ 20 * (3 / 2 ^ 24 + 1 / 2 ^ 44) + 1 / 2 ^ 29 ≤ 1 / 4 := by norm_num
    linarith
  obtain ⟨g1, g2⟩ := abs_le.mp (le_trans b1 hquarter)
  have hT0 : (0 : ℚ) ≤ (i : ℚ) * (e : ℚ) / (n : ℚ) :=
    div_nonneg (mul_nonneg hiq0 heq0) (by linarith)
  have hT1 : (i : ℚ) * (e : ℚ) / (n : ℚ) ≤ 2 ^ 20 := by
    rw [div_le_iff₀ (by linarith)]
    have := mul_le_mul hiq heq heq0 (by linarith : (0 : ℚ) ≤ (n : ℚ))
    linarith
  exact cvt_int_of_nonneg_lt f (by linarith) (by
    have : (2 : ℚ) ^ 20 + 1 < 2 ^ 31 := by norm_num
    linarith)

theorem m_subdiv_at_mono (e n : Int) (i j : Nat) (he0 : 0 ≤ e) (he : e ≤ 2 ^ 20) (hn1 : 1 ≤ n)
    (hn : n ≤ 2 ^ 24) (hij : i ≤ j) (hj : (j : Int) ≤ n) :
    machine.subdiv_at 0 e
        (machine.fp.div machine.binary32 (.fin 1) (machine.of_int machine.binary32 n)) i
      ≤ machine.subdiv_at 0 e
        (machine.fp.div machine.binary32 (.fin 1) (machine.of_int machine.binary32 n)) j := by
  rw [(m_subdiv_at_chain e n i he0 he hn1 hn (by omega)).1,
    (m_subdiv_at_chain e n j he0 he hn1 hn hj).1]
  apply Int.floor_le_floor
  have m32 := @round_value_mono machine.binary32 (by decide)
  have m64 := @round_value_mono machine.binary64 (by decide)
  have hc0 : 0 ≤ machine.round_value machine.binary32 (1 / (n : ℚ)) :=
    round_value_nonneg _ (by
      have : (0 : ℚ) < (n : ℚ) := by exact_mod_cast (by omega : (0 : Int) < n)
      positivity)
  have heq0 : (0 : ℚ) ≤ (e : ℚ) := by exact_mod_cast he0
  have hijq : (i : ℚ) ≤ (j : ℚ) := by exact_mod_cast hij
  apply m64
  have := m32 (mul_le_mul_of_nonneg_right (m32 (mul_le_mul_of_nonneg_right hijq hc0)) heq0)
  linarith

theorem m_subdiv_at_bounds (e n : Int) (i : Nat) (he0 : 0 ≤ e) (he : e ≤ 2 ^ 20) (hn1 : 1 ≤ n)
    (hn : n ≤ 2 ^ 24) (hi : (i : Int) ≤ n) :
    ⌊(i : ℚ) * (e : ℚ) / (n : ℚ) + 1 / 4⌋ ≤ machine.subdiv_at 0 e
        (machine.fp.div machine.binary32 (.fin 1) (machine.of_int machine.binary32 n)) i ∧
    machine.subdiv_at 0 e
        (machine.fp.div machine.binary32 (.fin 1) (machine.of_int machine.binary32 n)) i
      ≤ ⌊(i : ℚ) * (e : ℚ) / (n : ℚ) + 3 / 4⌋ := by
  obtain ⟨h1, h2⟩ := m_subdiv_at_chain e n i he0 he hn1 hn hi
  rw [h1]
  have heq : (e : ℚ) ≤ 2 ^ 20 := by exact_mod_cast he
  have hquarter : (e : ℚ) * (3 / 2 ^ 24 + 1 / 2 ^ 44) + 1 / 2 ^ 29 ≤ 1 / 4 := by
    have := mul_le_mul_of_nonneg_right heq (by norm_num : (0 : ℚ) ≤ 3 / 2 ^ 24 + 1 / 2 ^ 44)
    have : (2 : ℚ) ^ 20 * (3 / 2 ^ 24 + 1 / 2 ^ 44) + 1 / 2 ^ 29 ≤ 1 / 4 := by norm_num
    linarith
  obtain ⟨g1, g2⟩ := abs_le.mp (le_trans h2 hquarter)
  constructor
  · apply Int.floor_le_floor
    linarith
  · apply Int.floor_le_floor
    linarith

theorem m_subdiv_at_bounds_eighth (e n : Int) (i : Nat) (he0 : 0 ≤ e) (he : e ≤ 2 ^ 19)
    (hn1 : 1 ≤ n) (hn : n ≤ 2 ^ 24) (hi : (i : Int) ≤ n) :
    ⌊(i : ℚ) * (e : ℚ) / (n : ℚ) + 3 / 8⌋ ≤ machine.subdiv_at 0 e
        (machine.fp.div machine.binary32 (.fin 1) (machine.of_int machine.binary32 n)) i ∧
    machine.subdiv_at 0 e
        (machine.fp.div machine.binary32 (.fin 1) (machine.of_int machine.binary32 n)) i
      ≤ ⌊(i : ℚ) * (e : ℚ) / (n : ℚ) + 5 / 8⌋ := by
  obtain ⟨h1, h2⟩ := m_subdiv_at_chain e n i he0 (by omega) hn1 hn hi
  rw [h1]
  have heq : (e : ℚ) ≤ 2 ^ 19 := by exact_mod_cast he
  have heighth : (e : ℚ) * (3 / 2 ^ 24 + 1 / 2 ^ 44) + 1 / 2 ^ 29 ≤ 1 / 8 := by
    have := mul_le_mul_of_nonneg_right heq (by norm_num : (0 : ℚ) ≤ 3 / 2 ^ 24 + 1 / 2 ^ 44)
    have : (2 : ℚ) ^ 19 * (3 / 2 ^ 24 + 1 / 2 ^ 44) + 1 / 2 ^ 29 ≤ 1 / 8 := by norm_num
    linarith
  obtain ⟨g1, g2⟩ := abs_le.mp (le_trans h2 heighth)
  constructor
  · apply Int.floor_le_floor
    linarith
  · apply Int.floor_le_floor
    linarith

theorem m_subdiv_at_first (e n : Int) (he0 : 0 ≤ e) (he : e ≤ 2 ^ 20) (hn1 : 1 ≤ n)
    (hn : n ≤ 2 ^ 24) :
    machine.subdiv_at 0 e
        (machine.fp.div machine.binary32 (.fin 1) (machine.of_int machine.binary32 n)) 0 = 0 := by
  obtain ⟨h1, h2⟩ := m_subdiv_at_bounds e n 0 he0 he hn1 hn (by simpa using (by omega : 0 ≤ n))
  have e1 : ⌊((0 : Nat) : ℚ) * (e : ℚ) / (n : ℚ) + 1 / 4⌋ = 0 := by
    rw [Int.floor_eq_iff]; norm_num
  have e2 : ⌊((0 : Nat) : ℚ) * (e : ℚ) / (n : ℚ) + 3 / 4⌋ = 0 := by
    rw [Int.floor_eq_iff]; norm_num
  rw [e1] at h1
  rw [e2] at h2
  omega

theorem m_subdiv_at_last (e n : Int) (he0 : 0 ≤ e) (he : e ≤ 2 ^ 20) (hn1 : 1 ≤ n)
    (hn : n ≤ 2 ^ 24) :
    machine.subdiv_at 0 e
        (machine.fp.div machine.binary32 (.fin 1) (machine.of_int machine.binary32 n)) n.toNat
      = e := by
  obtain ⟨h1, h2⟩ := m_subdiv_at_bounds e n n.toNat he0 he hn1 hn (by omega)
  have hn0 : (n : ℚ) ≠ 0 := by
    have : (0 : ℚ) < (n : ℚ) := by exact_mod_cast (by omega : (0 : Int) < n)
    linarith
  have hcast : ((n.toNat : Nat) : ℚ) = (n : ℚ) := by
    have : ((n.toNat : Nat) : Int) = n := Int.toNat_of_nonneg (by omega)
    exact_mod_cast this
  have hT : ((n.toNat : Nat) : ℚ) * (e : ℚ) / (n : ℚ) = (e : ℚ) := by
    rw [hcast]; field_simp
  rw [hT] at h1 h2
  have e1 : ⌊(e : ℚ) + 1 / 4⌋ = e := by
    rw [Int.floor_eq_iff]; constructor <;> norm_num
  have e2 : ⌊(e : ℚ) + 3 / 4⌋ = e := by
    rw [Int.floor_eq_iff]; constructor <;> norm_num
  rw [e1] at h1
  rw [e2] at h2
  omega

theorem m_subdiv_getElem? (s e n : Int) (i : Nat) (hi : (i : Int) < n) :
    (machine.subdiv s e n)[i]? = some (machine.subdiv_at s e
      (machine.fp.div machine.binary32 (.fin 1) (machine.of_int machine.binary32 (n - 1))) i) := by
  unfold machine.subdiv
  rw [List.getElem?_map, List.getElem?_range (by omega)]
  rfl

theorem m_subdiv_length (s e n : Int) : (machine.subdiv s e n).length = n.toNat := by
  simp [machine.subdiv]

theorem computeRanges_of_boundaries (sd : List Int) (b : Nat → Int) (m : Nat) (hm : 1 ≤ m)
    (hb : ∀ i, i ≤ m → sd[i]? = some (b i)) :
    ∃ rs, computeRanges sd (m : Int) = some rs ∧ rs.length = m ∧
      ∀ j, j < m → rs[j]? = some
        { inf := if j = 0 then b 0 else b j + 1, sup := b (j + 1) } := by
  have hlen : m < sd.length := by
    by_contra hge
    have := hb m le_rfl
    rw [List.getElem?_eq_none (by omega)] at this
    cases this
  have hgetD : ∀ i, i ≤ m → sd.getD i 0 = b i := by
    intro i hi
    rw [List.getD_eq_getElem?_getD, hb i hi]
    rfl
  obtain ⟨rest, hrest, hrlen, hrget⟩ :=
    computeRanges_loop_spec sd (m - 1) 1 (b 1) (by omega)
  refine ⟨{ inf := b 0, sup := b 1 } :: rest, ?_, by simp [hrlen]; omega, ?_⟩
  · have hlt : ¬ ((m : Int) < 1) := by omega
    have hcast : ((m : Int)).toNat - 1 = m - 1 := by simp
    simp only [computeRanges, hlt, if_false, hb 0 (by omega), hb 1 hm, hcast, hrest,
      Option.bind_eq_bind, Option.some_bind, Option.pure_def]
  · intro j hj
    cases j with
    | zero => simp
    | succ j =>
      have := hrget j (by omega)
      simp only [List.getElem?_cons_succ, this]
      have e1 : 1 + j = j + 1 := by omega
      have e2 : 1 + j + 1 = j + 1 + 1 := by omega
      rw [e2, hgetD (j + 1 + 1) (by omega)]
      by_cases hj0 : j = 0
      · subst hj0
        simp
      · simp only [hj0, if_false, e1, hgetD (j + 1) (by omega)]
        simp

theorem m_ranges_spec (e n : Int) (hn : 1 ≤ n) :
    ∃ rs, computeRanges (machine.subdiv 0 e (n + 1)) n = some rs ∧ rs.length = n.toNat ∧
      (∀ i, i ≤ n.toNat → (machine.subdiv 0 e (n + 1))[i]? = some (machine.subdiv_at 0 e
        (machine.fp.div machine.binary32 (.fin 1) (machine.of_int machine.binary32 n)) i)) ∧
      ∀ j, j < n.toNat → rs[j]? = some
        { inf := if j = 0 then machine.subdiv_at 0 e
              (machine.fp.div machine.binary32 (.fin 1) (machine.of_int machine.binary32 n)) 0
            else machine.subdiv_at 0 e
              (machine.fp.div machine.binary32 (.fin 1) (machine.of_int machine.binary32 n)) j
              + 1,
          sup := machine.subdiv_at 0 e
            (machine.fp.div machine.binary32 (.fin 1) (machine.of_int machine.binary32 n))
            (j + 1) } := by
  have hb : ∀ i, i ≤ n.toNat → (machine.subdiv 0 e (n + 1))[i]? = some (machine.subdiv_at 0 e
      (machine.fp.div machine.binary32 (.fin 1) (machine.of_int machine.binary32 n)) i) := by
    intro i hi
    have := m_subdiv_getElem? 0 e (n + 1) i (by omega)
    rwa [add_sub_cancel_right] at this
  obtain ⟨rs, hrs, hlen, hget⟩ := computeRanges_of_boundaries (machine.subdiv 0 e (n + 1))
    (machine.subdiv_at 0 e
      (machine.fp.div machine.binary32 (.fin 1) (machine.of_int machine.binary32 n)))
    n.toNat (by omega) hb
  have hcast : ((n.toNat : Nat) : Int) = n := Int.toNat_of_nonneg (by omega)
  rw [hcast] at hrs
  exact ⟨rs, hrs, hlen, hb, hget⟩

theorem m_ranges_cover (width n : Int) (hw : 1 ≤ width) (hw' : width ≤ 2 ^ 20) (hn : 1 ≤ n)
    (hn' : n ≤ 2 ^ 24) :
    ∃ rs, computeRanges (machine.subdiv 0 (width - 1) (n + 1)) n = some rs ∧
      rs.length = n.toNat ∧
      (∀ (k : Nat) (rk : range), rs[k]? = some rk →
        0 ≤ rk.inf ∧ rk.inf ≤ rk.sup + 1 ∧ rk.sup ≤ width - 1) ∧
      (∃ r0, rs[0]? = some r0 ∧ r0.inf = 0) ∧
      (∃ rl, rs[n.toNat - 1]? = some rl ∧ rl.sup = width - 1) ∧
      (∀ c : Int, 0 ≤ c → c < width →
        ∃! i, i < n.toNat ∧ ∃ r, rs[i]? = some r ∧ r.inf ≤ c ∧ c ≤ r.sup) := by
  obtain ⟨rs, hrs, hlen, _, hget⟩ := m_ranges_spec (width - 1) n hn
  have hm : 1 ≤ n.toNat := by omega
  have he0 : (0 : Int) ≤ width - 1 := by omega
  have he : width - 1 ≤ 2 ^ 20 := by omega
  have hzero := m_subdiv_at_first (width - 1) n he0 he hn hn'
  have hlast := m_subdiv_at_last (width - 1) n he0 he hn hn'
  have hmono : ∀ i j : Nat, i ≤ j → j ≤ n.toNat →
      machine.subdiv_at 0 (width - 1)
        (machine.fp.div machine.binary32 (.fin 1) (machine.of_int machine.binary32 n)) i
      ≤ machine.subdiv_at 0 (width - 1)
        (machine.fp.div machine.binary32 (.fin 1) (machine.of_int machine.binary32 n)) j :=
    fun i j h hj => m_subdiv_at_mono (width - 1) n i j he0 he hn hn' h (by omega)
  obtain ⟨B, hB⟩ : ∃ B : Nat → Int, B = machine.subdiv_at 0 (width - 1)
      (machine.fp.div machine.binary32 (.fin 1) (machine.of_int machine.binary32 n)) :=
    ⟨_, rfl⟩
  rw [← hB] at hget hzero hlast hmono
  refine ⟨rs, hrs, hlen, ?_, ?_, ?_, ?_⟩
  · intro k rk hk
    have hkn : k < n.toNat := by
      rw [← hlen]
      by_contra hge
      rw [List.getElem?_eq_none (by omega)] at hk
      cases hk
    rw [hget k hkn] at hk
    cases hk
    have h1 := hmono 0 k (by omega) (by omega)
    have h2 := hmono k (k + 1) (by omega) (by omega)
    have h3 := hmono (k + 1) n.toNat (by omega) le_rfl
    by_cases hk0 : k = 0
    · subst hk0
      simp only [if_true]
      refine ⟨by omega, by omega, by omega⟩
    · simp only [hk0, if_false]
      refine ⟨by omega, by omega, by omega⟩
  · exact ⟨_, hget 0 (by omega), by simp [hzero]⟩
  · refine ⟨_, hget (n.toNat - 1) (by omega), ?_⟩
    have e : n.toNat - 1 + 1 = n.toNat := by omega
    simp only [e]
    exact hlast
  · intro c hc0 hcw
    have hex : ∃ i, c ≤ B (i + 1) := ⟨n.toNat - 1, by
      have e : n.toNat - 1 + 1 = n.toNat := by omega
      rw [e, hlast]; omega⟩
    classical
    have hfs := Nat.find_spec hex
    have hfm : ∀ k, k < Nat.find hex → ¬ c ≤ B (k + 1) := fun k hk => Nat.find_min hex hk
    have hfl : Nat.find hex < n.toNat := by
      have : Nat.find hex ≤ n.toNat - 1 := Nat.find_min' hex (by
        have e : n.toNat - 1 + 1 = n.toNat := by omega
        rw [e, hlast]; omega)
      omega
    refine ⟨Nat.find hex, ⟨hfl, _, hget _ hfl, ?_, hfs⟩, ?_⟩
    · by_cases h0 : Nat.find hex = 0
      · simp [h0, hc0, hzero]
      · simp only [h0, if_false]
        have := hfm (Nat.find hex - 1) (by omega)
        have e : Nat.find hex - 1 + 1 = Nat.find hex := by omega
        rw [e] at this
        omega
    · rintro i ⟨hi, r, hr, hlo, hhi⟩
      rw [hget i hi] at hr
      cases hr
      simp only at hlo hhi
      have h1 : Nat.find hex ≤ i := Nat.find_min' hex hhi
      by_contra hne
      have hlt : Nat.find hex < i := by omega
      have hi0 : i ≠ 0 := by omega
      simp only [hi0, if_false] at hlo
      have := hmono (Nat.find hex + 1) i (by omega) (by omega)
      omega

/-- C21 (as stated, refuted): with width 3 and 2 tiles the boundaries are 0, 1, 2, while
floor(i / (n - 1) * (width - 1) + 0.5) is 2 at i = 1; and with the divisor n the float
evaluation still differs from the exact formula: with width 55 and 36 tiles boundary 21 is 31
while floor(21 / 36 * 54 + 0.5) is 32. -/
theorem C21_boundary_is_not_the_exact_formula :
    machine.subdiv 0 (3 - 1) (2 + 1) = [0, 1, 2] ∧ spec_boundary 3 2 1 = 2 ∧
      ([0, 1, 2] : List Int)[1]? ≠ some (spec_boundary 3 2 1) ∧
    (machine.subdiv 0 (55 - 1) (36 + 1))[21]? = some 31 ∧
      ⌊(21 : ℚ) / 36 * (55 - 1) + 1 / 2⌋ = 32 := by
  decide!

/-- C21 (amended): for width ≥ 1 and n ≥ 1 tiles, subdiv(0, width-1, n+1) has n + 1 elements,
computeRanges returns n ranges and the upper bound of range i is boundary i+1. Boundary i is
the float evaluation of (int)(i * coef * (width-1) + 0 + 0.5) with coef = 1/(float) n (the
divisor is (n+1) - 1 = n, not n - 1); for width ≤ 2^20 and n ≤ 2^24 it lies between
floor(i/n * (width-1) + 1/4) and floor(i/n * (width-1) + 3/4), hence within 1 of
floor(i/n * (width-1) + 0.5) and equal to it when these two floors agree. -/
theorem C21_boundary_is_float_interpolation (width n : Int) (hw : 1 ≤ width) (hn : 1 ≤ n) :
    ∃ rs, computeRanges (machine.subdiv 0 (width - 1) (n + 1)) n = some rs ∧
      (machine.subdiv 0 (width - 1) (n + 1)).length = n.toNat + 1 ∧ rs.length = n.toNat ∧
      (∀ i, i ≤ n.toNat → (machine.subdiv 0 (width - 1) (n + 1))[i]? =
        some (machine.subdiv_at 0 (width - 1)
          (machine.fp.div machine.binary32 (.fin 1) (machine.of_int machine.binary32 n)) i)) ∧
      (∀ i, i < n.toNat →
        ∃ r, rs[i]? = some r ∧ (machine.subdiv 0 (width - 1) (n + 1))[i + 1]? = some r.sup) ∧
      (width ≤ 2 ^ 20 → n ≤ 2 ^ 24 → ∀ i, i ≤ n.toNat →
        ∃ b, (machine.subdiv 0 (width - 1) (n + 1))[i]? = some b ∧
          ⌊(i : ℚ) / (n : ℚ) * ((width : ℚ) - 1) + 1 / 4⌋ ≤ b ∧
          b ≤ ⌊(i : ℚ) / (n : ℚ) * ((width : ℚ) - 1) + 3 / 4⌋ ∧
          |b - ⌊(i : ℚ) / (n : ℚ) * ((width : ℚ) - 1) + 1 / 2⌋| ≤ 1 ∧
          (⌊(i : ℚ) / (n : ℚ) * ((width : ℚ) - 1) + 1 / 4⌋
              = ⌊(i : ℚ) / (n : ℚ) * ((width : ℚ) - 1) + 3 / 4⌋ →
            b = ⌊(i : ℚ) / (n : ℚ) * ((width : ℚ) - 1) + 1 / 2⌋)) := by
  obtain ⟨rs, hrs, hlen, hb, hget⟩ := m_ranges_spec (width - 1) n hn
  refine ⟨rs, hrs, ?_, hlen, hb, ?_, ?_⟩
  · rw [m_subdiv_length]
    omega
  · intro i hi
    exact ⟨_, hget i hi, hb (i + 1) (by omega)⟩
  · intro hw' hn' i hi
    refine ⟨_, hb i hi, ?_⟩
    obtain ⟨h1, h2⟩ := m_subdiv_at_bounds (width - 1) n i (by omega) (by omega) hn hn'
      (by omega)
    have hT : (i : ℚ) * ((width - 1 : Int) : ℚ) / (n : ℚ)
        = (i : ℚ) / (n : ℚ) * ((width : ℚ) - 1) := by
      push_cast
      ring
    rw [hT] at h1 h2
    have f1 : ⌊(i : ℚ) / (n : ℚ) * ((width : ℚ) - 1) + 1 / 4⌋
        ≤ ⌊(i : ℚ) / (n : ℚ) * ((width : ℚ) - 1) + 1 / 2⌋ :=
      Int.floor_le_floor (by linarith)
    have f2 : ⌊(i : ℚ) / (n : ℚ) * ((width : ℚ) - 1) + 1 / 2⌋
        ≤ ⌊(i : ℚ) / (n : ℚ) * ((width : ℚ) - 1) + 3 / 4⌋ :=
      Int.floor_le_floor (by linarith)
    have f3 : ⌊(i : ℚ) / (n : ℚ) * ((width : ℚ) - 1) + 3 / 4⌋
        ≤ ⌊(i : ℚ) / (n : ℚ) * ((width : ℚ) - 1) + 1 / 4⌋ + 1 := by
      have e : (i : ℚ) / (n : ℚ) * ((width : ℚ) - 1) + 1 / 4 + ((1 : Int) : ℚ)
          = (i : ℚ) / (n : ℚ) * ((width : ℚ) - 1) + 5 / 4 := by
        push_cast; ring
      rw [← Int.floor_add_int, e]
      exact Int.floor_le_floor (by linarith)
    refine ⟨h1, h2, ?_, ?_⟩
    · rw [abs_le]
      constructor <;> omega
    · intro heq
      omega

theorem C21_boundary_is_float_interpolation_witness :
    ∃ rs, computeRanges (machine.subdiv 0 (11 - 1) (4 + 1)) 4 = some rs ∧
      (machine.subdiv 0 (11 - 1) (4 + 1)).length = (4 : Int).toNat + 1 ∧
      rs.length = (4 : Int).toNat ∧
      (∀ i, i ≤ (4 : Int).toNat → (machine.subdiv 0 (11 - 1) (4 + 1))[i]? =
        some (machine.subdiv_at 0 (11 - 1)
          (machine.fp.div machine.binary32 (.fin 1) (machine.of_int machine.binary32 4)) i)) ∧
      (∀ i, i < (4 : Int).toNat →
        ∃ r, rs[i]? = some r ∧ (machine.subdiv 0 (11 - 1) (4 + 1))[i + 1]? = some r.sup) ∧
      ((11 : Int) ≤ 2 ^ 20 → (4 : Int) ≤ 2 ^ 24 → ∀ i, i ≤ (4 : Int).toNat →
        ∃ b, (machine.subdiv 0 (11 - 1) (4 + 1))[i]? = some b ∧
          ⌊(i : ℚ) / ((4 : Int) : ℚ) * (((11 : Int) : ℚ) - 1) + 1 / 4⌋ ≤ b ∧
          b ≤ ⌊(i : ℚ) / ((4 : Int) : ℚ) * (((11 : Int) : ℚ) - 1) + 3 / 4⌋ ∧
          |b - ⌊(i : ℚ) / ((4 : Int) : ℚ) * (((11 : Int) : ℚ) - 1) + 1 / 2⌋| ≤ 1 ∧
          (⌊(i : ℚ) / ((4 : Int) : ℚ) * (((11 : Int) : ℚ) - 1) + 1 / 4⌋
              = ⌊(i : ℚ) / ((4 : Int) : ℚ) * (((11 : Int) : ℚ) - 1) + 3 / 4⌋ →
            b = ⌊(i : ℚ) / ((4 : Int) : ℚ) * (((11 : Int) : ℚ) - 1) + 1 / 2⌋)) :=
  C21_boundary_is_float_interpolation 11 4 (by decide) (by decide)

theorem m_range_size_bounds (width n : Int) (hw : 1 ≤ width) (hw' : width ≤ 2 ^ 19)
    (hn : 1 ≤ n) (hn' : n ≤ 2 ^ 24) :
    ∃ rs, computeRanges (machine.subdiv 0 (width - 1) (n + 1)) n = some rs ∧
      rs.length = n.toNat ∧
      ∀ (j : Nat) (r : range), rs[j]? = some r →
        ((width : ℚ) - 1) / (n : ℚ) - 5 / 4 < (r.size : ℚ) ∧
        (r.size : ℚ) ≤ ((width : ℚ) - 1) / (n : ℚ) + 13 / 8 := by
  obtain ⟨rs, hrs, hlen, _, hget⟩ := m_ranges_spec (width - 1) n hn
  refine ⟨rs, hrs, hlen, ?_⟩
  intro j r hr
  have hj : j < n.toNat := by
    rw [← hlen]
    by_contra hge
    rw [List.getElem?_eq_none (by omega)] at hr
    cases hr
  rw [hget j hj] at hr
  have he0 : (0 : Int) ≤ width - 1 := by omega
  have he : width - 1 ≤ 2 ^ 19 := by omega
  have hzero := m_subdiv_at_first (width - 1) n he0 (by omega) hn hn'
  obtain ⟨a1, a2⟩ := m_subdiv_at_bounds_eighth (width - 1) n j he0 he hn hn' (by omega)
  obtain ⟨b1, b2⟩ := m_subdiv_at_bounds_eighth (width - 1) n (j + 1) he0 he hn hn' (by omega)
  have hnq : (0 : ℚ) < (n : ℚ) := by exact_mod_cast (by omega : (0 : Int) < n)
  have hstep : ((j + 1 : Nat) : ℚ) * ((width - 1 : Int) : ℚ) / (n : ℚ)
      = (j : ℚ) * ((width - 1 : Int) : ℚ) / (n : ℚ) + ((width : ℚ) - 1) / (n : ℚ) := by
    push_cast
    ring
  rw [hstep] at b1 b2
  obtain ⟨T, hT⟩ : ∃ T : ℚ, T = (j : ℚ) * ((width - 1 : Int) : ℚ) / (n : ℚ) := ⟨_, rfl⟩
  obtain ⟨s, hs⟩ : ∃ s : ℚ, s = ((width : ℚ) - 1) / (n : ℚ) := ⟨_, rfl⟩
  rw [← hT] at a1 a2 b1 b2
  rw [← hs] at b1 b2 ⊢
  obtain ⟨Bj, hBj⟩ : ∃ Bj : Int, Bj = machine.subdiv_at 0 (width - 1)
      (machine.fp.div machine.binary32 (.fin 1) (machine.of_int machine.binary32 n)) j :=
    ⟨_, rfl⟩
  obtain ⟨Bk, hBk⟩ : ∃ Bk : Int, Bk = machine.subdiv_at 0 (width - 1)
      (machine.fp.div machine.binary32 (.fin 1) (machine.of_int machine.binary32 n)) (j + 1) :=
    ⟨_, rfl⟩
  rw [← hBj] at a1 a2 hr
  rw [← hBk] at b1 b2 hr
  have qa1 : T + 3 / 8 - 1 < (Bj : ℚ) := by
    have h1 := Int.lt_floor_add_one (T + 3 / 8)
    have h2 : ((⌊T + 3 / 8⌋ : Int) : ℚ) ≤ (Bj : ℚ) := by exact_mod_cast a1
    linarith
  have qa2 : (Bj : ℚ) ≤ T + 5 / 8 := by
    have h1 := Int.floor_le (T + 5 / 8)
    have h2 : (Bj : ℚ) ≤ ((⌊T + 5 / 8⌋ : Int) : ℚ) := by exact_mod_cast a2
    linarith
  have qb1 : T + s + 3 / 8 - 1 < (Bk : ℚ) := by
    have h1 := Int.lt_floor_add_one (T + s + 3 / 8)
    have h2 : ((⌊T + s + 3 / 8⌋ : Int) : ℚ) ≤ (Bk : ℚ) := by exact_mod_cast b1
    linarith
  have qb2 : (Bk : ℚ) ≤ T + s + 5 / 8 := by
    have h1 := Int.floor_le (T + s + 5 / 8)
    have h2 : (Bk : ℚ) ≤ ((⌊T + s + 5 / 8⌋ : Int) : ℚ) := by exact_mod_cast b2
    linarith
  by_cases hj0 : j = 0
  · have hB0 : (Bj : ℚ) = 0 := by
      rw [hBj, hj0, hzero]
      simp
    have hT0 : T = 0 := by rw [hT, hj0]; simp
    rw [if_pos hj0, hzero, Option.some.injEq] at hr
    rw [← hr]
    simp only [range.size]
    push_cast
    rw [hT0] at qb1 qb2
    constructor <;> linarith
  · rw [if_neg hj0, Option.some.injEq] at hr
    rw [← hr]
    simp only [range.size]
    push_cast
    constructor <;> linarith

/-- C4 (as stated, refuted): with width 11 and 4 tiles the ranges are [0,3], [4,5], [6,8],
[9,10]; the first has size 4 and the second size 2, so two sizes differ by 2. -/
theorem C4_sizes_differ_by_two :
    machine.subdiv 0 (11 - 1) (4 + 1) = [0, 3, 5, 8, 10] ∧
    computeRanges [0, 3, 5, 8, 10] 4 =
      some [{ inf := 0, sup := 3 }, { inf := 4, sup := 5 }, { inf := 6, sup := 8 },
        { inf := 9, sup := 10 }] ∧
    ¬ (range.size { inf := 0, sup := 3 } - range.size { inf := 4, sup := 5 } ≤ 1) := by
  decide!

/-- C4 (amended): for a width from 1 to 2^19 and from 1 to 2^24 tiles, the sizes sup - inf + 1
of any two ranges returned by computeRanges(subdiv(0, width-1, n+1), n), the boundaries being
computed in float, differ by at most 2; each size s satisfies
(width-1)/n - 5/4 < s ≤ (width-1)/n + 13/8. -/
theorem C4_sizes_differ_by_at_most_two (width n : Int) (hw : 1 ≤ width) (hw' : width ≤ 2 ^ 19)
    (hn : 1 ≤ n) (hn' : n ≤ 2 ^ 24) :
    ∃ rs, computeRanges (machine.subdiv 0 (width - 1) (n + 1)) n = some rs ∧
      rs.length = n.toNat ∧
      (∀ a ∈ rs, ∀ b ∈ rs, a.size - b.size ≤ 2) ∧
      (∀ a ∈ rs, ((width : ℚ) - 1) / (n : ℚ) - 5 / 4 < (a.size : ℚ) ∧
        (a.size : ℚ) ≤ ((width : ℚ) - 1) / (n : ℚ) + 13 / 8) := by
  obtain ⟨rs, hrs, hlen, hb⟩ := m_range_size_bounds width n hw hw' hn hn'
  refine ⟨rs, hrs, hlen, ?_, ?_⟩
  · intro a ha b hb'
    obtain ⟨i, hi⟩ := List.getElem?_of_mem ha
    obtain ⟨j, hj⟩ := List.getElem?_of_mem hb'
    have h1 := hb i a hi
    have h2 := hb j b hj
    have h3 : ((a.size - b.size : Int) : ℚ) < 3 := by
      push_cast
      linarith [h1.2, h2.1]
    have h4 : a.size - b.size < 3 := by exact_mod_cast h3
    omega
  · intro a ha
    obtain ⟨i, hi⟩ := List.getElem?_of_mem ha
    exact hb i a hi

theorem C4_sizes_differ_by_at_most_two_witness :
    ∃ rs, computeRanges (machine.subdiv 0 (11 - 1) (4 + 1)) 4 = some rs ∧
      rs.length = (4 : Int).toNat ∧
      (∀ a ∈ rs, ∀ b ∈ rs, a.size - b.size ≤ 2) ∧
      (∀ a ∈ rs, (((11 : Int) : ℚ) - 1) / ((4 : Int) : ℚ) - 5 / 4 < (a.size : ℚ) ∧
        (a.size : ℚ) ≤ (((11 : Int) : ℚ) - 1) / ((4 : Int) : ℚ) + 13 / 8) :=
  C4_sizes_differ_by_at_most_two 11 4 (by decide) (by decide) (by decide) (by decide)

/-- C1 (failing input): the boundaries are computed in float. With width 16777218 and one
tile subdiv(0, 16777217, 2) is [0, 16777216], so the single range is [0, 16777216] and column
16777217 = width - 1 is in no range; with width 8388610 and 41 tiles the last boundary is
8388608, not 8388609. -/
theorem C1_last_range_ends_before_width_minus_one :
    machine.subdiv 0 (16777218 - 1) (1 + 1) = [0, 16777216] ∧
    computeRanges (machine.subdiv 0 (16777218 - 1) (1 + 1)) 1
      = some [{ inf := 0, sup := 16777216 }] ∧
    (16777216 : Int) ≠ 16777218 - 1 ∧
    (machine.subdiv 0 (8388610 - 1) (41 + 1))[41]? = some 8388608 ∧
    (8388608 : Int) ≠ 8388610 - 1 := by
  decide!

/-- C1 (what holds): for width ≥ 1 and n ≥ 1 tiles computeRanges returns n ranges and each
range after the first starts one past the end of its predecessor; for width ≤ 2^20 and
n ≤ 2^24 range 0 starts at column 0, the last range ends at width - 1, every column of
[0, width - 1] lies in exactly one range, and for n = 1 the single range is
[0, width - 1]. -/
theorem C1_ranges_cover_exactly_up_to_2_pow_20 (width n : Int) (hw : 1 ≤ width) (hn : 1 ≤ n) :
    ∃ rs, computeRanges (machine.subdiv 0 (width - 1) (n + 1)) n = some rs ∧
      rs.length = n.toNat ∧
      (∀ i, 1 ≤ i → i < n.toNat →
        ∃ a b, rs[i - 1]? = some a ∧ rs[i]? = some b ∧ b.inf = a.sup + 1) ∧
      (width ≤ 2 ^ 20 → n ≤ 2 ^ 24 →
        (∃ r0, rs[0]? = some r0 ∧ r0.inf = 0) ∧
        (∃ rl, rs[n.toNat - 1]? = some rl ∧ rl.sup = width - 1) ∧
        (∀ c : Int, 0 ≤ c → c < width →
          ∃! i, i < n.toNat ∧ ∃ r, rs[i]? = some r ∧ r.inf ≤ c ∧ c ≤ r.sup) ∧
        (n = 1 → rs = [{ inf := 0, sup := width - 1 }])) := by
  obtain ⟨rs, hrs, hlen, _, hget⟩ := m_ranges_spec (width - 1) n hn
  refine ⟨rs, hrs, hlen, ?_, ?_⟩
  · intro i h1 h2
    refine ⟨_, _, hget (i - 1) (by omega), hget i h2, ?_⟩
    have : i ≠ 0 := by omega
    have e : i - 1 + 1 = i := by omega
    simp [this, e]
  · intro hw' hn'
    obtain ⟨rs', hrs', _, _, h0, hl, hcov⟩ := m_ranges_cover width n hw hw' hn hn'
    rw [hrs] at hrs'
    cases hrs'
    refine ⟨h0, hl, hcov, ?_⟩
    intro h1
    have hn1 : n.toNat = 1 := by omega
    rw [hn1] at hlen hl
    obtain ⟨r0, hr0, hinf⟩ := h0
    obtain ⟨rl, hrl, hsup⟩ := hl
    match rs, hlen, hr0, hrl with
    | [r], _, hr0, hrl =>
      simp only [List.getElem?_cons_zero, Option.some.injEq, Nat.sub_self] at hr0 hrl
      subst hr0
      subst hrl
      cases r
      simp only at hinf hsup
      rw [hinf, hsup]

theorem C1_ranges_cover_exactly_up_to_2_pow_20_witness :
    ∃ rs, computeRanges (machine.subdiv 0 (10 - 1) (3 + 1)) 3 = some rs ∧
      rs.length = (3 : Int).toNat ∧
      (∀ i, 1 ≤ i → i < (3 : Int).toNat →
        ∃ a b, rs[i - 1]? = some a ∧ rs[i]? = some b ∧ b.inf = a.sup + 1) ∧
      ((10 : Int) ≤ 2 ^ 20 → (3 : Int) ≤ 2 ^ 24 →
        (∃ r0, rs[0]? = some r0 ∧ r0.inf = 0) ∧
        (∃ rl, rs[(3 : Int).toNat - 1]? = some rl ∧ rl.sup = 10 - 1) ∧
        (∀ c : Int, 0 ≤ c → c < 10 →
          ∃! i, i < (3 : Int).toNat ∧ ∃ r, rs[i]? = some r ∧ r.inf ≤ c ∧ c ≤ r.sup) ∧
        ((3 : Int) = 1 → rs = [{ inf := 0, sup := 10 - 1 }])) :=
  C1_ranges_cover_exactly_up_to_2_pow_20 10 3 (by decide) (by decide)

/-! ## Row mapping in double -/

theorem pow2_nat (k : Nat) : machine.pow2 (k : Int) = 2 ^ k := by
  rw [pow2_eq, zpow_natCast]

theorem rv64_abs_le (k : Nat) (q : ℚ) (hq : |q| ≤ 2 ^ k) :
    |machine.round_value machine.binary64 q| ≤ 2 ^ k := by
  have := round_value_abs_le machine.binary64 (by decide) (k : Int) (by
    have : (0 : Int) ≤ (k : Int) := Int.natCast_nonneg k
    have e : machine.binary64.emin - ((machine.binary64.prec : Int) - 1) = -1074 := by decide
    rw [e]
    omega) q (by rw [pow2_nat]; exact hq)
  rwa [pow2_nat] at this

theorem m_row_quotient (h : Int) (ymin ymax y : ℚ) (hh0 : 0 ≤ h) (hh' : h < 2 ^ 31)
    (hmin : |ymin| ≤ 2 ^ 100) (hmax : |ymax| ≤ 2 ^ 100) (hy : |y| ≤ 2 ^ 100)
    (hbox : 1 / 2 ^ 100 ≤ ymax - ymin) :
    machine.rescale_quotient (.fin (-y)) (.fin (-ymax)) (.fin (-ymin)) h
      = .fin (machine.round_value machine.binary64
          (machine.round_value machine.binary64
            ((h : ℚ) * machine.round_value machine.binary64 (ymax - y))
            / machine.round_value machine.binary64 (ymax - ymin))) ∧
    1 / 2 ^ 100 ≤ machine.round_value machine.binary64 (ymax - ymin) := by
  have m64 := @round_value_mono machine.binary64 (by decide)
  obtain ⟨l1, l2⟩ := abs_le.mp hmin
  obtain ⟨u1, u2⟩ := abs_le.mp hmax
  obtain ⟨y1, y2⟩ := abs_le.mp hy
  obtain ⟨A, hA⟩ : ∃ A, A = machine.round_value machine.binary64 (ymax - y) := ⟨_, rfl⟩
  obtain ⟨d, hd⟩ : ∃ d, d = machine.round_value machine.binary64 (ymax - ymin) := ⟨_, rfl⟩
  obtain ⟨N, hN⟩ : ∃ N, N = machine.round_value machine.binary64 ((h : ℚ) * A) := ⟨_, rfl⟩
  have hhq0 : (0 : ℚ) ≤ (h : ℚ) := by exact_mod_cast hh0
  have hhq : (h : ℚ) ≤ 2 ^ 31 := by
    have : h ≤ 2 ^ 31 := by omega
    exact_mod_cast this
  have e101 : (2 : ℚ) ^ 101 = 2 * 2 ^ 100 := by norm_num
  have hdlo : 1 / 2 ^ 100 ≤ d := by
    have h1 := m64 hbox
    have h2 := round_value_pow2 machine.binary64 (by decide) (-100) (by decide)
    have h3 : machine.pow2 (-100) = 1 / 2 ^ 100 := by rw [pow2_eq]; norm_num
    rw [h3] at h2
    rw [h2] at h1
    rw [hd]
    exact h1
  have hdpos : 0 < d := lt_of_lt_of_le (by norm_num) hdlo
  have hAabs : |A| ≤ 2 ^ 101 := by
    rw [hA]
    apply rv64_abs_le
    rw [abs_le]
    constructor <;> linarith
  have hNabs : |N| ≤ 2 ^ 132 := by
    rw [hN]
    apply rv64_abs_le
    rw [abs_mul, abs_of_nonneg hhq0]
    have := mul_le_mul hhq hAabs (abs_nonneg A) (by norm_num : (0 : ℚ) ≤ 2 ^ 31)
    have e : (2 : ℚ) ^ 31 * 2 ^ 101 = 2 ^ 132 := by norm_num
    linarith
  have hQabs : |N / d| ≤ 2 ^ 232 := by
    rw [abs_div, abs_of_pos hdpos, div_le_iff₀ hdpos]
    have : (2 : ℚ) ^ 232 * (1 / 2 ^ 100) ≤ 2 ^ 232 * d :=
      mul_le_mul_of_nonneg_left hdlo (by norm_num)
    have e : (2 : ℚ) ^ 232 * (1 / 2 ^ 100) = 2 ^ 132 := by norm_num
    linarith
  have s1 : machine.fp.sub machine.binary64 (.fin (-y)) (.fin (-ymax)) = .fin A := by
    simp only [machine.fp.sub, machine.fp.neg, machine.fp.add]
    have e : -y + - -ymax = ymax - y := by ring
    rw [e, round64_fin _ (by
      rw [abs_le]
      have : (2 : ℚ) ^ 101 ≤ 2 ^ 1023 := by norm_num
      constructor <;> linarith), hA]
  have s2 : machine.fp.sub machine.binary64 (.fin (-ymin)) (.fin (-ymax)) = .fin d := by
    simp only [machine.fp.sub, machine.fp.neg, machine.fp.add]
    have e : -ymin + - -ymax = ymax - ymin := by ring
    rw [e, round64_fin _ (by
      rw [abs_le]
      have : (2 : ℚ) ^ 101 ≤ 2 ^ 1023 := by norm_num
      constructor <;> linarith), hd]
  have s3 : machine.of_int machine.binary64 h = .fin (h : ℚ) :=
    round64_int h (by
      rw [abs_of_nonneg hh0]
      omega)
  have s4 : machine.fp.mul machine.binary64 (.fin (h : ℚ)) (.fin A) = .fin N := by
    simp only [machine.fp.mul]
    rw [round64_fin _ (by
      rw [abs_mul, abs_of_nonneg hhq0]
      have := mul_le_mul hhq hAabs (abs_nonneg A) (by norm_num : (0 : ℚ) ≤ 2 ^ 31)
      have e : (2 : ℚ) ^ 31 * 2 ^ 101 ≤ 2 ^ 1023 := by norm_num
      linarith), hN]
  have s5 : machine.fp.div machine.binary64 (.fin N) (.fin d)
      = .fin (machine.round_value machine.binary64 (N / d)) := by
    simp only [machine.fp.div, ne_of_gt hdpos, if_false]
    rw [round64_fin _ (by
      have : (2 : ℚ) ^ 232 ≤ 2 ^ 1023 := by norm_num
      linarith)]
  rw [← hA, ← hd, ← hN]
  refine ⟨?_, hdlo⟩
  unfold machine.rescale_quotient
  rw [s1, s2, s3, s4, s5]

/-- C12 (failing input): with ymin = 0, ymax = 30 and h = 4 the point y = -16106127360 lies far
below the box; its quotient 4 * (30 - y) / 30 is 2147483652, which is not an int, the
conversion gives INT_MIN and the clamp row 0, while the larger y = 10 gets row 2: the row
mapping is not non-increasing. -/
theorem C12_far_point_breaks_monotonicity :
    machine.rescale_quotient (.fin 16106127360) (.fin (-30)) (.fin 0) 4 = .fin 2147483652 ∧
    machine.rescale_float_to_int (machine.fp.neg (.fin (-16106127360)))
        (machine.fp.neg (.fin 30)) (machine.fp.neg (.fin 0)) 4 = 0 ∧
    machine.rescale_float_to_int (machine.fp.neg (.fin 10))
        (machine.fp.neg (.fin 30)) (machine.fp.neg (.fin 0)) 4 = 2 ∧
    (-16106127360 : ℚ) ≤ 10 ∧ ¬ ((0 : Int) ≥ 2) := by
  decide!

/-- C12 (what holds): for 1 ≤ h < 2^31 and a box with |ymin|, |ymax| ≤ 2^100 and
ymax - ymin ≥ 2^-100, the row mapping row(y) = rescale_float_to_int(-y, -ymax, -ymin, h) maps
ymax to row 0 and ymin to row h-1, every row lies in [0, h-1], and for y1 ≤ y2 of magnitude at
most 2^100 the quotient of y1 is a finite double q1 and row(y1) ≥ row(y2) whenever
q1 < 2^31, that is whenever the quotient of the lower point is in the range of int. -/
theorem C12_row_mapping_decreasing_within_int_range (h : Int) (ymin ymax y1 y2 : ℚ)
    (hh : 1 ≤ h) (hh' : h < 2 ^ 31) (hmin : |ymin| ≤ 2 ^ 100) (hmax : |ymax| ≤ 2 ^ 100)
    (hbox : 1 / 2 ^ 100 ≤ ymax - ymin) (h1 : |y1| ≤ 2 ^ 100) (h2 : |y2| ≤ 2 ^ 100)
    (h12 : y1 ≤ y2) :
    machine.rescale_float_to_int (.fin (-ymax)) (.fin (-ymax)) (.fin (-ymin)) h = 0 ∧
    machine.rescale_float_to_int (.fin (-ymin)) (.fin (-ymax)) (.fin (-ymin)) h = h - 1 ∧
    (0 ≤ machine.rescale_float_to_int (.fin (-y1)) (.fin (-ymax)) (.fin (-ymin)) h ∧
      machine.rescale_float_to_int (.fin (-y1)) (.fin (-ymax)) (.fin (-ymin)) h ≤ h - 1) ∧
    ∃ q1, machine.rescale_quotient (.fin (-y1)) (.fin (-ymax)) (.fin (-ymin)) h = .fin q1 ∧
      (q1 < 2 ^ 31 →
        machine.rescale_float_to_int (.fin (-y1)) (.fin (-ymax)) (.fin (-ymin)) h
          ≥ machine.rescale_float_to_int (.fin (-y2)) (.fin (-ymax)) (.fin (-ymin)) h) := by
  have m64 := @round_value_mono machine.binary64 (by decide)
  have hh0 : 0 ≤ h := by omega
  have hhq0 : (0 : ℚ) ≤ (h : ℚ) := by exact_mod_cast hh0
  have hhq1 : (1 : ℚ) ≤ (h : ℚ) := by exact_mod_cast hh
  have hhq : (h : ℚ) ≤ 2 ^ 31 - 1 := by
    have : h ≤ 2 ^ 31 - 1 := by omega
    exact_mod_cast this
  obtain ⟨qmax, dlo⟩ := m_row_quotient h ymin ymax ymax hh0 hh' hmin hmax hmax hbox
  obtain ⟨qmin, _⟩ := m_row_quotient h ymin ymax ymin hh0 hh' hmin hmax hmin hbox
  obtain ⟨q1, _⟩ := m_row_quotient h ymin ymax y1 hh0 hh' hmin hmax h1 hbox
  obtain ⟨q2, _⟩ := m_row_quotient h ymin ymax y2 hh0 hh' hmin hmax h2 hbox
  obtain ⟨d, hd⟩ : ∃ d, d = machine.round_value machine.binary64 (ymax - ymin) := ⟨_, rfl⟩
  rw [← hd] at qmax qmin q1 q2 dlo
  have hdpos : 0 < d := lt_of_lt_of_le (by norm_num) dlo
  refine ⟨?_, ?_, machine_rescale_range _ _ _ h hh, _, q1, ?_⟩
  · -- y = ymax
    rw [sub_self, round_value_zero, mul_zero, round_value_zero, zero_div,
      round_value_zero] at qmax
    rw [machine_rescale_of_quotient _ _ _ h 0 hh qmax (by norm_num)]
    simp only [Int.floor_zero, max_self]
    omega
  · -- y = ymin
    obtain ⟨N, hN⟩ : ∃ N, N = machine.round_value machine.binary64 ((h : ℚ) * d) := ⟨_, rfl⟩
    rw [← hN] at qmin
    have eN := abs_le.mp (round64_error ((h : ℚ) * d))
    rw [← hN, abs_of_nonneg (mul_nonneg hhq0 (le_of_lt hdpos))] at eN
    obtain ⟨n1, n2⟩ := eN
    have hNd1 : (h : ℚ) - (h : ℚ) / 2 ^ 53 - 1 / 2 ^ 975 ≤ N / d := by
      rw [le_div_iff₀ hdpos]
      have t1 : (1 : ℚ) / 2 ^ 975 * d ≥ 1 / 2 ^ 975 * (1 / 2 ^ 100) :=
        mul_le_mul_of_nonneg_left dlo (by norm_num)
      have t2 : (1 : ℚ) / 2 ^ 975 * (1 / 2 ^ 100) = 1 / 2 ^ 1075 := by norm_num
      have t3 : ((h : ℚ) - (h : ℚ) / 2 ^ 53 - 1 / 2 ^ 975) * d
          = (h : ℚ) * d - (h : ℚ) * d / 2 ^ 53 - 1 / 2 ^ 975 * d := by ring
      linarith
    have hNd2 : N / d ≤ (h : ℚ) + (h : ℚ) / 2 ^ 53 + 1 / 2 ^ 975 := by
      rw [div_le_iff₀ hdpos]
      have t1 : (1 : ℚ) / 2 ^ 975 * d ≥ 1 / 2 ^ 975 * (1 / 2 ^ 100) :=
        mul_le_mul_of_nonneg_left dlo (by norm_num)
      have t2 : (1 : ℚ) / 2 ^ 975 * (1 / 2 ^ 100) = 1 / 2 ^ 1075 := by norm_num
      have t3 : ((h : ℚ) + (h : ℚ) / 2 ^ 53 + 1 / 2 ^ 975) * d
          = (h : ℚ) * d + (h : ℚ) * d / 2 ^ 53 + 1 / 2 ^ 975 * d := by ring
      linarith
    have hsmall : (h : ℚ) / 2 ^ 53 ≤ 1 / 2 ^ 22 := by
      have : (h : ℚ) / 2 ^ 53 ≤ (2 ^ 31 - 1) / 2 ^ 53 :=
        div_le_div_of_nonneg_right hhq (by norm_num)
      have : ((2 : ℚ) ^ 31 - 1) / 2 ^ 53 ≤ 1 / 2 ^ 22 := by norm_num
      linarith
    have hNd0 : 0 ≤ N / d := by
      have : (1 : ℚ) / 2 ^ 975 ≤ 1 / 2 ^ 22 := by norm_num
      have : (1 : ℚ) / 2 ^ 22 ≤ 1 / 4 := by norm_num
      linarith
    have eq := abs_le.mp (round64_error (N / d))
    rw [abs_of_nonneg hNd0] at eq
    obtain ⟨e1, e2⟩ := eq
    have hq3 : N / d / 2 ^ 53 ≤ 1 / 2 ^ 21 := by
      have : N / d ≤ 2 ^ 32 := by
        have : (1 : ℚ) / 2 ^ 975 ≤ 1 := by norm_num
        have : (1 : ℚ) / 2 ^ 22 ≤ 1 := by norm_num
        have : (2 : ℚ) ^ 31 - 1 + 1 + 1 ≤ 2 ^ 32 := by norm_num
        linarith
      have : N / d / 2 ^ 53 ≤ 2 ^ 32 / 2 ^ 53 := div_le_div_of_nonneg_right this (by norm_num)
      have : (2 : ℚ) ^ 32 / 2 ^ 53 = 1 / 2 ^ 21 := by norm_num
      linarith
    have c1 : (1 : ℚ) / 2 ^ 975 ≤ 1 / 2 ^ 22 := by norm_num
    have c2 : (1 : ℚ) / 2 ^ 1075 ≤ 1 / 2 ^ 22 := by norm_num
    have c3 : (1 : ℚ) / 2 ^ 22 + 1 / 2 ^ 22 + 1 / 2 ^ 21 + 1 / 2 ^ 22 ≤ 1 / 2 := by norm_num
    have hlo : (h : ℚ) - 1 / 2 ≤ machine.round_value machine.binary64 (N / d) := by linarith
    have hhi : machine.round_value machine.binary64 (N / d) ≤ (h : ℚ) + 1 / 2 := by linarith
    rw [machine_rescale_of_quotient _ _ _ h _ hh qmin (by linarith)]
    have hfl : h - 1 ≤ ⌊machine.round_value machine.binary64 (N / d)⌋ := by
      rw [Int.le_floor]
      push_cast
      linarith
    rw [max_eq_left (by omega), min_eq_right hfl]
  · intro hlt
    have hmono : machine.round_value machine.binary64
          (machine.round_value machine.binary64
            ((h : ℚ) * machine.round_value machine.binary64 (ymax - y2)) / d)
        ≤ machine.round_value machine.binary64
          (machine.round_value machine.binary64
            ((h : ℚ) * machine.round_value machine.binary64 (ymax - y1)) / d) := by
      apply m64
      apply div_le_div_of_nonneg_right _ (le_of_lt hdpos)
      apply m64
      apply mul_le_mul_of_nonneg_left _ hhq0
      apply m64
      linarith
    rw [machine_rescale_of_quotient _ _ _ h _ hh q1 hlt,
      machine_rescale_of_quotient _ _ _ h _ hh q2 (lt_of_le_of_lt hmono hlt)]
    have := Int.floor_le_floor hmono
    exact min_le_min (max_le_max this le_rfl) le_rfl

theorem C12_row_mapping_decreasing_within_int_range_witness :
    machine.rescale_float_to_int (.fin (-(30 : ℚ))) (.fin (-(30 : ℚ))) (.fin (-(0 : ℚ))) 4
      = 0 ∧
    machine.rescale_float_to_int (.fin (-(0 : ℚ))) (.fin (-(30 : ℚ))) (.fin (-(0 : ℚ))) 4
      = 4 - 1 ∧
    (0 ≤ machine.rescale_float_to_int (.fin (-(10 : ℚ))) (.fin (-(30 : ℚ)))
        (.fin (-(0 : ℚ))) 4 ∧
      machine.rescale_float_to_int (.fin (-(10 : ℚ))) (.fin (-(30 : ℚ))) (.fin (-(0 : ℚ))) 4
        ≤ 4 - 1) ∧
    ∃ q1, machine.rescale_quotient (.fin (-(10 : ℚ))) (.fin (-(30 : ℚ))) (.fin (-(0 : ℚ))) 4
        = .fin q1 ∧
      (q1 < 2 ^ 31 →
        machine.rescale_float_to_int (.fin (-(10 : ℚ))) (.fin (-(30 : ℚ)))
            (.fin (-(0 : ℚ))) 4
          ≥ machine.rescale_float_to_int (.fin (-(20 : ℚ))) (.fin (-(30 : ℚ)))
            (.fin (-(0 : ℚ))) 4) :=
  C12_row_mapping_decreasing_within_int_range 4 0 30 10 20 (by decide) (by decide)
    (by norm_num) (by norm_num [abs_le]) (by norm_num) (by norm_num [abs_le])
    (by norm_num [abs_le]) (by norm_num)

/-! ## Tiles against the single range, in float -/

theorem m_cell_index_inj (x : machine.images) (hw : x.w < 2 ^ 31) (hh : x.h < 2 ^ 31)
    (i j i' j' : Int) (hi : 0 ≤ i ∧ i < x.w) (hj : 0 ≤ j ∧ j < x.h) (hi' : 0 ≤ i' ∧ i' < x.w)
    (hj' : 0 ≤ j' ∧ j' < x.h) (h : machine.cell_index x i j = machine.cell_index x i' j') :
    i = i' ∧ j = j' := by
  obtain ⟨h1, _, h1p⟩ := m_cell_index_of_in_range x i j hw hh hi hj
  obtain ⟨h2, _, h2p⟩ := m_cell_index_of_in_range x i' j' hw hh hi' hj'
  rw [h1, h2] at h
  have he : x.w * j + i = x.w * j' + i' := by omega
  have hjj : j = j' := by
    rcases lt_trichotomy j j' with hlt | heq | hgt
    · have hm : x.w * (j + 1) ≤ x.w * j' :=
        Int.mul_le_mul_of_nonneg_left (by omega) (by omega)
      rw [mul_add, mul_one] at hm
      omega
    · exact heq
    · have hm : x.w * (j' + 1) ≤ x.w * j :=
        Int.mul_le_mul_of_nonneg_left (by omega) (by omega)
      rw [mul_add, mul_one] at hm
      omega
  subst hjj
  exact ⟨by omega, rfl⟩

theorem m_zero_images_cell (x : machine.images) (hw : x.w < 2 ^ 31) (hh : x.h < 2 ^ 31)
    (hc : x.cnt = List.replicate (x.w * x.h).toNat (.fin 0))
    (ha : x.avg = List.replicate (x.w * x.h).toNat (.fin 0)) (i j : Int)
    (hi : 0 ≤ i ∧ i < x.w) (hj : 0 ≤ j ∧ j < x.h) :
    x.cnt[machine.cell_index x i j]? = some (.fin 0) ∧
      x.avg[machine.cell_index x i j]? = some (.fin 0) := by
  obtain ⟨hk, hlt, h0⟩ := m_cell_index_of_in_range x i j hw hh hi hj
  rw [hk]
  have hlt' : (x.w * j + i).toNat < (x.w * x.h).toNat := by omega
  rw [hc, ha]
  simp only [List.getElem?_replicate, hlt', if_true, and_self]

theorem m_add_ply_point_tile (X T X' : machine.images) (xmin xmax ymin ymax : machine.fp)
    (inf sup w h col_idx : Int) (nX nX' nT : machine.fp) (data : List machine.fp)
    (hw : 1 ≤ w) (hh : 1 ≤ h) (hinf : 0 ≤ inf) (hsup : sup ≤ w - 1)
    (hX : machine.wf_images X) (hXw : X.w = w) (hXh : X.h = h)
    (hT : machine.wf_images T) (hTw : T.w = sup - inf + 1) (hTh : T.h = h)
    (hag : machine.tile_agrees X T inf)
    (hstep : machine.add_ply_point X xmin xmax ymin ymax 0 (w - 1) nX w h col_idx data
      = .ok (X', nX')) :
    (machine.wf_images X' ∧ X'.w = w ∧ X'.h = h) ∧
    ∃ T' nT', machine.add_ply_point T xmin xmax ymin ymax inf sup nT w h col_idx data
        = .ok (T', nT') ∧
      machine.wf_images T' ∧ T'.w = sup - inf + 1 ∧ T'.h = h ∧
      machine.tile_agrees X' T' inf := by
  obtain ⟨d0, d1, h0, h1, hcase⟩ :=
    m_add_ply_point_inv X X' xmin xmax ymin ymax 0 (w - 1) nX nX' w h col_idx data hstep
  have hir := machine_rescale_range d0 xmin xmax w hw
  have hjr := machine_rescale_range (machine.fp.neg d1) (machine.fp.neg ymax)
    (machine.fp.neg ymin) h hh
  obtain ⟨i, hi⟩ : ∃ i, i = machine.rescale_float_to_int d0 xmin xmax w := ⟨_, rfl⟩
  obtain ⟨j, hj⟩ : ∃ j, j = machine.rescale_float_to_int (machine.fp.neg d1)
      (machine.fp.neg ymax) (machine.fp.neg ymin) h := ⟨_, rfl⟩
  rw [← hi] at hir hcase
  rw [← hj] at hjr hcase
  rcases hcase with ⟨_, _, hassert, v, hsel, haddX⟩ | ⟨hout, _⟩
  swap
  · exact absurd ⟨hir.1, hir.2⟩ hout
  rw [sub_zero] at haddX
  obtain ⟨X'', hX'', hwfX', hX'w, hX'h⟩ :=
    m_add_height_wf X i j v hX ⟨hir.1, by omega⟩ ⟨hjr.1, by omega⟩
  rw [haddX] at hX''
  cases hX''
  obtain ⟨_, _, _, _, hframeX⟩ := m_add_height_frame X X' i j v haddX
  have hXw31 : X.w < 2 ^ 31 := hX.2.1
  have hXh31 : X.h < 2 ^ 31 := hX.2.2.2.1
  have hTw31 : T.w < 2 ^ 31 := hT.2.1
  have hTh31 : T.h < 2 ^ 31 := hT.2.2.2.1
  refine ⟨⟨hwfX', by omega, by omega⟩, ?_⟩
  by_cases hin : inf ≤ i ∧ i ≤ sup
  · obtain ⟨T', hT', hwfT', hT'w, hT'h⟩ :=
      m_add_height_wf T (i - inf) j v hT ⟨by omega, by omega⟩ ⟨hjr.1, by omega⟩
    have hrun : machine.add_ply_point T xmin xmax ymin ymax inf sup nT w h col_idx data
        = .ok (T', machine.update_newxmin nT d0) := by
      rw [m_add_ply_point_in T T' xmin xmax ymin ymax inf sup nT w h col_idx data d0 d1 v
        h0 h1 (by rw [← hi]; exact hin) hsel (by rw [← hi, ← hj]; exact hT'), hassert]
      rfl
    refine ⟨T', machine.update_newxmin nT d0, hrun, hwfT', by omega, by omega, ?_⟩
    intro r c hr hc
    rw [hT'h] at hr
    rw [hT'w] at hc
    obtain ⟨cv, av, e1, e2, e3, e4⟩ := hag r c hr hc
    have ciT : machine.cell_index T' c r = machine.cell_index T c r := by
      simp [machine.cell_index, hT'w]
    have ciX : machine.cell_index X' (inf + c) r = machine.cell_index X (inf + c) r := by
      simp [machine.cell_index, hX'w]
    rw [ciT, ciX]
    obtain ⟨_, _, _, _, hframeT⟩ := m_add_height_frame T T' (i - inf) j v hT'
    by_cases hsame : c = i - inf ∧ r = j
    · obtain ⟨rfl, rfl⟩ := hsame
      have e : inf + (i - inf) = i := by ring
      rw [e] at e2 e4 ⊢
      obtain ⟨cT, aT, hcT, haT, hcT', haT'⟩ := m_add_height_cell T T' (i - inf) r v hT'
      obtain ⟨cX, aX, hcX, haX, hcX', haX'⟩ := m_add_height_cell X X' i r v haddX
      rw [hcT] at e1
      rw [haT] at e3
      rw [hcX] at e2
      rw [haX] at e4
      cases e1
      cases e2
      cases e3
      cases e4
      exact ⟨_, _, hcT', hcX', haT', haX'⟩
    · have hneT : machine.cell_index T c r ≠ machine.cell_index T (i - inf) j := by
        intro heq
        have := m_cell_index_inj T hTw31 hTh31 c r (i - inf) j hc hr
          ⟨by omega, by omega⟩ ⟨hjr.1, by omega⟩ heq
        exact hsame this
      have hneX : machine.cell_index X (inf + c) r ≠ machine.cell_index X i j := by
        intro heq
        have := m_cell_index_inj X hXw31 hXh31 (inf + c) r i j ⟨by omega, by omega⟩
          ⟨by omega, by omega⟩ ⟨hir.1, by omega⟩ ⟨hjr.1, by omega⟩ heq
        exact hsame ⟨by omega, this.2⟩
      obtain ⟨f1, f2⟩ := hframeT _ hneT
      obtain ⟨f3, f4⟩ := hframeX _ hneX
      rw [f1, f2, f3, f4]
      exact ⟨cv, av, e1, e2, e3, e4⟩
  · refine ⟨T, nT, m_add_ply_point_out T xmin xmax ymin ymax inf sup nT w h col_idx data d0 d1
      h0 h1 (by rw [← hi]; exact hin), hT, hTw, hTh, ?_⟩
    intro r c hr hc
    obtain ⟨cv, av, e1, e2, e3, e4⟩ := hag r c hr hc
    have ciX : machine.cell_index X' (inf + c) r = machine.cell_index X (inf + c) r := by
      simp [machine.cell_index, hX'w]
    rw [ciX]
    have hneX : machine.cell_index X (inf + c) r ≠ machine.cell_index X i j := by
      intro heq
      have := m_cell_index_inj X hXw31 hXh31 (inf + c) r i j ⟨by omega, by omega⟩
        ⟨by omega, by omega⟩ ⟨hir.1, by omega⟩ ⟨hjr.1, by omega⟩ heq
      omega
    obtain ⟨f3, f4⟩ := hframeX _ hneX
    rw [f3, f4]
    exact ⟨cv, av, e1, e2, e3, e4⟩

theorem m_add_ply_records_tile (xmin xmax ymin ymax : machine.fp) (inf sup w h col_idx : Int)
    (hw : 1 ≤ w) (hh : 1 ≤ h) (hinf : 0 ≤ inf) (hsup : sup ≤ w - 1)
    (records : List (List machine.fp)) :
    ∀ (X T X' : machine.images) (nX nX' nT : machine.fp),
      machine.wf_images X → X.w = w → X.h = h → machine.wf_images T →
      T.w = sup - inf + 1 → T.h = h → machine.tile_agrees X T inf →
      machine.add_ply_records xmin xmax ymin ymax 0 (w - 1) w h col_idx X nX records
        = .ok (X', nX') →
      (machine.wf_images X' ∧ X'.w = w ∧ X'.h = h) ∧
      ∃ T' nT', machine.add_ply_records xmin xmax ymin ymax inf sup w h col_idx T nT records
          = .ok (T', nT') ∧
        machine.wf_images T' ∧ T'.w = sup - inf + 1 ∧ T'.h = h ∧
        machine.tile_agrees X' T' inf := by
  induction records with
  | nil =>
    intro X T X' nX nX' nT hX hXw hXh hT hTw hTh hag hrun
    simp only [machine.add_ply_records, Except.ok.injEq, Prod.mk.injEq] at hrun
    obtain ⟨rfl, rfl⟩ := hrun
    exact ⟨⟨hX, hXw, hXh⟩, T, nT, rfl, hT, hTw, hTh, hag⟩
  | cons data rest ih =>
    intro X T X' nX nX' nT hX hXw hXh hT hTw hTh hag hrun
    simp only [machine.add_ply_records] at hrun
    cases hstep : machine.add_ply_point X xmin xmax ymin ymax 0 (w - 1) nX w h col_idx
        data with
    | error e => simp [hstep] at hrun
    | ok p =>
      obtain ⟨X1, nX1⟩ := p
      simp only [hstep] at hrun
      obtain ⟨⟨hX1, hX1w, hX1h⟩, T1, nT1, hT1, hwT1, hT1w, hT1h, hag1⟩ :=
        m_add_ply_point_tile X T X1 xmin xmax ymin ymax inf sup w h col_idx nX nX1 nT data
          hw hh hinf hsup hX hXw hXh hT hTw hTh hag hstep
      obtain ⟨hres, T', nT', hT', hrest⟩ :=
        ih X1 T1 X' nX1 nX' nT1 hX1 hX1w hX1h hwT1 hT1w hT1h hag1 hrun
      refine ⟨hres, T', nT', ?_, hrest⟩
      simp only [machine.add_ply_records, hT1]
      exact hT'

theorem m_add_files_tile (xmin xmax ymin ymax : machine.fp) (inf sup w h : Int)
    (col_idx : Int) (hw : 1 ≤ w) (hh : 1 ≤ h) (hinf : 0 ≤ inf) (hsup : sup ≤ w - 1)
    (files : List (Option machine.ply_file)) :
    ∀ (X T X' : machine.images) (nX nX' nT : machine.fp),
      machine.wf_images X → X.w = w → X.h = h → machine.wf_images T →
      T.w = sup - inf + 1 → T.h = h → machine.tile_agrees X T inf →
      machine.add_files xmin xmax ymin ymax 0 (w - 1) w h col_idx X nX files
        = .ok (X', nX') →
      (machine.wf_images X' ∧ X'.w = w ∧ X'.h = h) ∧
      ∃ T' nT', machine.add_files xmin xmax ymin ymax inf sup w h col_idx T nT files
          = .ok (T', nT') ∧
        machine.wf_images T' ∧ T'.w = sup - inf + 1 ∧ T'.h = h ∧
        machine.tile_agrees X' T' inf := by
  induction files with
  | nil =>
    intro X T X' nX nX' nT hX hXw hXh hT hTw hTh hag hrun
    simp only [machine.add_files, Except.ok.injEq, Prod.mk.injEq] at hrun
    obtain ⟨rfl, rfl⟩ := hrun
    exact ⟨⟨hX, hXw, hXh⟩, T, nT, rfl, hT, hTw, hTh, hag⟩
  | cons f rest ih =>
    intro X T X' nX nX' nT hX hXw hXh hT hTw hTh hag hrun
    simp only [machine.add_files] at hrun
    cases f with
    | none =>
      simp only [machine.add_ply_points_to_images] at hrun
      obtain ⟨hres, T', nT', hT', hrest⟩ :=
        ih X T X' nX nX' nT hX hXw hXh hT hTw hTh hag hrun
      refine ⟨hres, T', nT', ?_, hrest⟩
      simp only [machine.add_files, machine.add_ply_points_to_images]
      exact hT'
    | some file =>
      cases hhd : file.header with
      | none => simp [machine.add_ply_points_to_images, hhd] at hrun
      | some hd =>
        by_cases hcol : col_idx < 2 ∨ col_idx > 5
        · simp [machine.add_ply_points_to_images, hhd, hcol] at hrun
        · by_cases hn0 : hd.n = 0
          · simp [machine.add_ply_points_to_images, hhd, hcol, hn0] at hrun
          · simp only [machine.add_ply_points_to_images, hhd, hcol, hn0, if_false] at hrun
            cases hrec : machine.add_ply_records xmin xmax ymin ymax 0 (w - 1) w h col_idx
                X nX file.records with
            | error e => simp [hrec] at hrun
            | ok p =>
              obtain ⟨X1, nX1⟩ := p
              simp only [hrec] at hrun
              obtain ⟨⟨hX1, hX1w, hX1h⟩, T1, nT1, hT1, hwT1, hT1w, hT1h, hag1⟩ :=
                m_add_ply_records_tile xmin xmax ymin ymax inf sup w h col_idx hw hh hinf
                  hsup file.records X T X1 nX nX1 nT hX hXw hXh hT hTw hTh hag hrec
              obtain ⟨hres, T', nT', hT', hrest⟩ :=
                ih X1 T1 X' nX1 nX' nT1 hX1 hX1w hX1h hwT1 hT1w hT1h hag1 hrun
              refine ⟨hres, T', nT', ?_, hrest⟩
              simp only [machine.add_files, machine.add_ply_points_to_images, hhd, hcol, hn0,
                if_false, hT1]
              exact hT'

theorem m_add_ply_point_defined (x : machine.images) (xmin xmax ymin ymax : machine.fp)
    (inf sup w h col_idx : Int) (newxmin : machine.fp) (data : List machine.fp)
    (hh : 1 ≤ h) (hwf : machine.wf_images x) (hxw : x.w = sup - inf + 1) (hxh : x.h = h)
    (hok : machine.record_ok col_idx data = true) :
    ∃ x' newxmin', machine.add_ply_point x xmin xmax ymin ymax inf sup newxmin w h col_idx data
        = .ok (x', newxmin') ∧ machine.wf_images x' ∧ x'.w = sup - inf + 1 ∧ x'.h = h := by
  simp only [machine.record_ok, Bool.and_eq_true, Option.isSome_iff_exists] at hok
  obtain ⟨⟨⟨⟨d0, h0⟩, d1, h1⟩, v, hsel⟩, hassert⟩ := hok
  have hjr := machine_rescale_range (machine.fp.neg d1) (machine.fp.neg ymax)
    (machine.fp.neg ymin) h hh
  by_cases hin : inf ≤ machine.rescale_float_to_int d0 xmin xmax w ∧
      machine.rescale_float_to_int d0 xmin xmax w ≤ sup
  · obtain ⟨x', hx', hwf', hx'w, hx'h⟩ :=
      m_add_height_wf x (machine.rescale_float_to_int d0 xmin xmax w - inf)
        (machine.rescale_float_to_int (machine.fp.neg d1) (machine.fp.neg ymax)
          (machine.fp.neg ymin) h) v hwf ⟨by omega, by omega⟩ ⟨hjr.1, by omega⟩
    refine ⟨x', machine.update_newxmin newxmin d0, ?_, hwf', by omega, by omega⟩
    rw [m_add_ply_point_in x x' xmin xmax ymin ymax inf sup newxmin w h col_idx data d0 d1 v
      h0 h1 hin hsel hx', hassert]
    rfl
  · exact ⟨x, newxmin, m_add_ply_point_out x xmin xmax ymin ymax inf sup newxmin w h col_idx
      data d0 d1 h0 h1 hin, hwf, hxw, hxh⟩

theorem m_add_ply_records_defined (xmin xmax ymin ymax : machine.fp)
    (inf sup w h col_idx : Int) (hh : 1 ≤ h) (records : List (List machine.fp)) :
    ∀ (x : machine.images) (newxmin : machine.fp),
      machine.wf_images x → x.w = sup - inf + 1 → x.h = h →
      (∀ data ∈ records, machine.record_ok col_idx data = true) →
      ∃ x' newxmin', machine.add_ply_records xmin xmax ymin ymax inf sup w h col_idx x newxmin
          records = .ok (x', newxmin') ∧ machine.wf_images x' ∧ x'.w = sup - inf + 1 ∧
        x'.h = h := by
  induction records with
  | nil =>
    intro x newxmin hwf hxw hxh _
    exact ⟨x, newxmin, rfl, hwf, hxw, hxh⟩
  | cons data rest ih =>
    intro x newxmin hwf hxw hxh hok
    obtain ⟨x1, n1, h1, hwf1, hx1w, hx1h⟩ :=
      m_add_ply_point_defined x xmin xmax ymin ymax inf sup w h col_idx newxmin data hh
        hwf hxw hxh (hok data (List.mem_cons_self _ _))
    obtain ⟨x', n', hrun, hres⟩ :=
      ih x1 n1 hwf1 hx1w hx1h (fun d hd => hok d (List.mem_cons_of_mem _ hd))
    refine ⟨x', n', ?_, hres⟩
    simp only [machine.add_ply_records, h1]
    exact hrun

theorem m_add_files_defined (xmin xmax ymin ymax : machine.fp) (inf sup w h : Int)
    (col_idx : Int) (hh : 1 ≤ h) (hcol : 2 ≤ col_idx ∧ col_idx ≤ 5)
    (files : List (Option machine.ply_file)) :
    ∀ (x : machine.images) (newxmin : machine.fp),
      machine.wf_images x → x.w = sup - inf + 1 → x.h = h →
      (∀ f ∈ files, machine.file_ok f) →
      (∀ data ∈ machine.file_records files, machine.record_ok col_idx data = true) →
      ∃ x' newxmin', machine.add_files xmin xmax ymin ymax inf sup w h col_idx x newxmin files
          = .ok (x', newxmin') ∧ machine.wf_images x' ∧ x'.w = sup - inf + 1 ∧ x'.h = h := by
  induction files with
  | nil =>
    intro x newxmin hwf hxw hxh _ _
    exact ⟨x, newxmin, rfl, hwf, hxw, hxh⟩
  | cons f rest ih =>
    intro x newxmin hwf hxw hxh hfok hok
    have hfrest : ∀ f ∈ rest, machine.file_ok f := fun f hf => hfok f (List.mem_cons_of_mem _ hf)
    cases f with
    | none =>
      obtain ⟨x', n', hrun, hres⟩ := ih x newxmin hwf hxw hxh hfrest
        (by simpa [machine.file_records] using hok)
      refine ⟨x', n', ?_, hres⟩
      simp only [machine.add_files, machine.add_ply_points_to_images]
      exact hrun
    | some file =>
      obtain ⟨hd, hhd, hn0⟩ := hfok (some file) (List.mem_cons_self _ _)
      have hok1 : ∀ data ∈ file.records, machine.record_ok col_idx data = true :=
        fun d hd => hok d (by simp [machine.file_records, hd])
      have hok2 : ∀ data ∈ machine.file_records rest, machine.record_ok col_idx data = true :=
        fun d hd => hok d (by simp [machine.file_records, hd])
      obtain ⟨x1, n1, h1, hwf1, hx1w, hx1h⟩ :=
        m_add_ply_records_defined xmin xmax ymin ymax inf sup w h col_idx hh file.records
          x newxmin hwf hxw hxh hok1
      obtain ⟨x', n', hrun, hres⟩ := ih x1 n1 hwf1 hx1w hx1h hfrest hok2
      refine ⟨x', n', ?_, hres⟩
      have hcol' : ¬ (col_idx < 2 ∨ col_idx > 5) := by omega
      simp only [machine.add_files, machine.add_ply_points_to_images, hhd, hcol', hn0,
        if_false, h1]
      exact hrun

/-- C23 (failing input): with a raster of width 16777218 and one tile the boundaries computed
in float are [0, 16777216], so the only tile is [0, 16777216]; a point with x = xmax is mapped
to column 16777217, which the single range [0, width-1] accumulates and no tile does. -/
theorem C23_point_at_xmax_is_in_no_tile :
    computeRanges (machine.subdiv 0 (16777218 - 1) (1 + 1)) 1
      = some [{ inf := 0, sup := 16777216 }] ∧
    machine.rescale_float_to_int (.fin 30) (.fin 0) (.fin 30) 16777218 = 16777217 ∧
    machine.target_cell (.fin 0) (.fin 30) (.fin 0) (.fin 30) 0 16777216 16777218 1 16777217
      [.fin 30, .fin 0, .fin 100] = none ∧
    machine.target_cell (.fin 0) (.fin 30) (.fin 0) (.fin 30) 0 (16777218 - 1) 16777218 1
      16777218 [.fin 30, .fin 0, .fin 100] = some 16777217 := by
  decide!

/-- C23 (what holds): for a raster of width 1 ≤ w ≤ 2^20 and height h ≥ 1 with w * h < 2^31
cells, 1 ≤ n ≤ 2^24 tiles, an attribute index in 2..5, files whose header is parsed and whose
records carry the fields read (data[2] finite when it is the attribute), the run with the
single range [0, w-1] and the run of every tile k complete, and the grid of tile k at (row r,
local column c) holds the same count and the same mean as the single-range grid at (row r,
column inf_k + c), hence the same written raster value; every column lies in exactly one tile
and every record is accumulated in exactly one tile. -/
theorem C23_tiling_preserves_grid_up_to_2_pow_20 (xmin xmax ymin ymax : machine.fp)
    (w h n col_idx : Int) (files : List (Option machine.ply_file))
    (hw : 1 ≤ w ∧ w ≤ 2 ^ 20) (hh : 1 ≤ h) (hwh : w * h < 2 ^ 31)
    (hn : 1 ≤ n ∧ n ≤ 2 ^ 24) (hcol : 2 ≤ col_idx ∧ col_idx ≤ 5)
    (hfiles : ∀ f ∈ files, machine.file_ok f)
    (hrec : ∀ data ∈ machine.file_records files, machine.record_ok col_idx data = true) :
    ∃ rs x0 xf nxf, computeRanges (machine.subdiv 0 (w - 1) (n + 1)) n = some rs ∧
      rs.length = n.toNat ∧ machine.zero_images w h = some x0 ∧
      machine.add_files xmin xmax ymin ymax 0 (w - 1) w h col_idx x0 .pinf files
        = .ok (xf, nxf) ∧ xf.w = w ∧ xf.h = h ∧
      (∀ (k : Nat) (rk : range), rs[k]? = some rk →
        ∃ t0 xk nxk, machine.zero_images rk.size h = some t0 ∧
          machine.add_files xmin xmax ymin ymax rk.inf rk.sup w h col_idx t0 .pinf files
            = .ok (xk, nxk) ∧
          xk.w = rk.size ∧ xk.h = h ∧
          ∀ r c : Int, 0 ≤ r ∧ r < h → 0 ≤ c ∧ c < rk.size →
            ∃ cv av, xk.cnt[(rk.size * r + c).toNat]? = some cv ∧
              xf.cnt[(w * r + (rk.inf + c)).toNat]? = some cv ∧
              xk.avg[(rk.size * r + c).toNat]? = some av ∧
              xf.avg[(w * r + (rk.inf + c)).toNat]? = some av ∧
              (machine.set_unknown_to_nan xk)[(rk.size * r + c).toNat]?
                = (machine.set_unknown_to_nan xf)[(w * r + (rk.inf + c)).toNat]?) ∧
      (∀ cc : Int, 0 ≤ cc → cc < w →
        ∃! k, k < n.toNat ∧ ∃ rk, rs[k]? = some rk ∧ rk.inf ≤ cc ∧ cc ≤ rk.sup) ∧
      (∀ data ∈ machine.file_records files,
        ∃! k, k < n.toNat ∧ ∃ rk, rs[k]? = some rk ∧
          (machine.target_cell xmin xmax ymin ymax rk.inf rk.sup w h rk.size data).isSome) := by
  obtain ⟨rs, hrs, hlen, hbounds, _, _, hcover⟩ := m_ranges_cover w n hw.1 hw.2 hn.1 hn.2
  have hw31 : w < 2 ^ 31 := by omega
  have hh31 : h < 2 ^ 31 := by nlinarith
  obtain ⟨x0, hz, hwfz, hx0w, hx0h, hx0c, hx0a⟩ :=
    m_zero_images_of_small w h ⟨by omega, hw31⟩ ⟨by omega, hh31⟩ hwh
  obtain ⟨xf, nxf, hfull, hwff, hxfw, hxfh⟩ :=
    m_add_files_defined xmin xmax ymin ymax 0 (w - 1) w h col_idx hh hcol files
      x0 .pinf hwfz (by omega) hx0h hfiles hrec
  have hxfw' : xf.w = w := by omega
  refine ⟨rs, x0, xf, nxf, hrs, hlen, hz, hfull, hxfw', hxfh, ?_, hcover, ?_⟩
  · intro k rk hk
    obtain ⟨hinf, hsz, hsup⟩ := hbounds k rk hk
    have hsize : rk.size = rk.sup - rk.inf + 1 := rfl
    have hs0 : 0 ≤ rk.size := by omega
    have hsw : rk.size ≤ w := by omega
    have hs31 : rk.size < 2 ^ 31 := by omega
    have hsh : rk.size * h < 2 ^ 31 := by nlinarith
    obtain ⟨t0, htz, hwft, ht0w, ht0h, ht0c, ht0a⟩ :=
      m_zero_images_of_small rk.size h ⟨hs0, hs31⟩ ⟨by omega, hh31⟩ hsh
    have hag0 : machine.tile_agrees x0 t0 rk.inf := by
      intro r c hr hc
      rw [ht0h] at hr
      rw [ht0w] at hc
      obtain ⟨a1, a2⟩ := m_zero_images_cell t0 (by omega) (by omega)
        (by rw [ht0w, ht0h]; exact ht0c) (by rw [ht0w, ht0h]; exact ht0a) c r
        (by rw [ht0w]; exact hc) (by rw [ht0h]; exact hr)
      obtain ⟨a3, a4⟩ := m_zero_images_cell x0 (by omega) (by omega)
        (by rw [hx0w, hx0h]; exact hx0c) (by rw [hx0w, hx0h]; exact hx0a) (rk.inf + c) r
        (by rw [hx0w]; exact ⟨by omega, by omega⟩) (by rw [hx0h]; exact hr)
      exact ⟨.fin 0, .fin 0, a1, a3, a2, a4⟩
    obtain ⟨_, xk, nxk, htile, hwfk, hxkw, hxkh, hag⟩ :=
      m_add_files_tile xmin xmax ymin ymax rk.inf rk.sup w h col_idx hw.1 hh
        hinf hsup files x0 t0 xf .pinf nxf .pinf
        hwfz hx0w hx0h hwft ht0w ht0h hag0 hfull
    have hxks : xk.w = rk.size := hxkw
    refine ⟨t0, xk, nxk, htz, htile, hxks, hxkh, ?_⟩
    intro r c hr hc
    obtain ⟨cv, av, e1, e2, e3, e4⟩ := hag r c (by rw [hxkh]; exact hr)
      (by rw [hxks]; exact hc)
    obtain ⟨i1, _, _⟩ := m_cell_index_of_in_range xk c r hwfk.2.1 hwfk.2.2.2.1
      (by rw [hxks]; exact hc) (by rw [hxkh]; exact hr)
    obtain ⟨i2, _, _⟩ := m_cell_index_of_in_range xf (rk.inf + c) r hwff.2.1 hwff.2.2.2.1
      ⟨by omega, by omega⟩ (by rw [hxfh]; exact hr)
    rw [i1] at e1 e3
    rw [i2] at e2 e4
    rw [hxks] at e1 e3
    rw [hxfw'] at e2 e4
    refine ⟨cv, av, e1, e2, e3, e4, ?_⟩
    rw [m_set_unknown_to_nan_getElem? xk _ cv av e1 e3,
      m_set_unknown_to_nan_getElem? xf _ cv av e2 e4]
  · intro data hdata
    have hok := hrec data hdata
    simp only [machine.record_ok, Bool.and_eq_true, Option.isSome_iff_exists] at hok
    obtain ⟨⟨⟨⟨d0, h0⟩, d1, h1⟩, _⟩, _⟩ := hok
    have hir := machine_rescale_range d0 xmin xmax w hw.1
    obtain ⟨k, ⟨hk, rk, hrk, hlo, hhi⟩, huniq⟩ :=
      hcover (machine.rescale_float_to_int d0 xmin xmax w) hir.1 (by omega)
    refine ⟨k, ⟨hk, rk, hrk, ?_⟩, ?_⟩
    · rw [m_target_cell_in xmin xmax ymin ymax rk.inf rk.sup w h rk.size data d0 d1 h0 h1
        ⟨hlo, hhi⟩]
      rfl
    · rintro k' ⟨hk', rk', hrk', hsome⟩
      apply huniq
      refine ⟨hk', rk', hrk', ?_⟩
      by_contra hout
      rw [m_target_cell_out xmin xmax ymin ymax rk'.inf rk'.sup w h rk'.size data d0 d1 h0 h1
        hout] at hsome
      cases hsome

theorem C23_tiling_preserves_grid_up_to_2_pow_20_witness :
    ∃ rs x0 xf nxf, computeRanges (machine.subdiv 0 (4 - 1) (2 + 1)) 2 = some rs ∧
      rs.length = (2 : Int).toNat ∧ machine.zero_images 4 4 = some x0 ∧
      machine.add_files (.fin 0) (.fin 30) (.fin 0) (.fin 30) 0 (4 - 1) 4 4 2 x0 .pinf
        machine.scenario_files = .ok (xf, nxf) ∧ xf.w = 4 ∧ xf.h = 4 ∧
      (∀ (k : Nat) (rk : range), rs[k]? = some rk →
        ∃ t0 xk nxk, machine.zero_images rk.size 4 = some t0 ∧
          machine.add_files (.fin 0) (.fin 30) (.fin 0) (.fin 30) rk.inf rk.sup 4 4 2 t0 .pinf
            machine.scenario_files = .ok (xk, nxk) ∧
          xk.w = rk.size ∧ xk.h = 4 ∧
          ∀ r c : Int, 0 ≤ r ∧ r < 4 → 0 ≤ c ∧ c < rk.size →
            ∃ cv av, xk.cnt[(rk.size * r + c).toNat]? = some cv ∧
              xf.cnt[(4 * r + (rk.inf + c)).toNat]? = some cv ∧
              xk.avg[(rk.size * r + c).toNat]? = some av ∧
              xf.avg[(4 * r + (rk.inf + c)).toNat]? = some av ∧
              (machine.set_unknown_to_nan xk)[(rk.size * r + c).toNat]?
                = (machine.set_unknown_to_nan xf)[(4 * r + (rk.inf + c)).toNat]?) ∧
      (∀ cc : Int, 0 ≤ cc → cc < 4 →
        ∃! k, k < (2 : Int).toNat ∧ ∃ rk, rs[k]? = some rk ∧ rk.inf ≤ cc ∧ cc ≤ rk.sup) ∧
      (∀ data ∈ machine.file_records machine.scenario_files,
        ∃! k, k < (2 : Int).toNat ∧ ∃ rk, rs[k]? = some rk ∧
          (machine.target_cell (.fin 0) (.fin 30) (.fin 0) (.fin 30) rk.inf rk.sup 4 4 rk.size
            data).isSome) :=
  C23_tiling_preserves_grid_up_to_2_pow_20 (.fin 0) (.fin 30) (.fin 0) (.fin 30) 4 4 2 2
    machine.scenario_files (by norm_num) (by norm_num) (by norm_num) (by norm_num)
    (by norm_num) (by
      intro f hf
      simp only [machine.scenario_files, List.mem_singleton] at hf
      subst hf
      exact ⟨_, rfl, by decide⟩) (by decide)
